import Mathlib

/-!
Verification of the pathfinding-visualizer core.

This file gives a shallow embedding of the repository's pathfinding engine
(`src/algorithms/pathfinding.ts`, `src/utils/gridHelpers.ts`) and of the
animation scheduler in the `Grid` component, and proves properties of the
embedded definitions.

Modelling conventions:
* JS numbers used as distances/heuristics take values in `ℕ ∪ {Infinity}`,
  modelled as `Option Nat` with `none` standing for `Infinity`.
* Grid cells are mutable shared objects in the source; here the grid is the
  single store and every alias (queue entries, `previousNode` links, result
  lists) is a coordinate pair into the grid.
* Loops are implemented with an explicit fuel parameter; `none` is the
  out-of-fuel sentinel.  The termination theorems show the chosen fuel is
  never exhausted, so the sentinel is unreachable on well-formed grids.
* `Array.prototype.sort` with a key comparator is modelled as a stable
  insertion sort (`sortBy`), matching the stable ascending order that the
  JS runtime produces for a consistent comparator.
-/

/-- Cell kinds, from `grid.types.ts` (`CellType`).  The source's `'end'` tag is
spelled `endCell` because `end` is a Lean keyword. -/
inductive CellType
  | empty
  | wall
  | start
  | endCell
  | visited
  | path
  | frontier
deriving DecidableEq, Repr

/-- Extended distance `ℕ ∪ {Infinity}`: `none` is `Infinity`. -/
abbrev JDist := Option Nat

/-- Strict comparison on extended distances (`a < b` with `none = ∞`). -/
def dlt : JDist → JDist → Bool
  | none, _ => false
  | some _, none => true
  | some a, some b => decide (a < b)

/-- Non-strict comparison on extended distances. -/
def dle : JDist → JDist → Bool
  | _, none => true
  | none, some _ => false
  | some a, some b => decide (a ≤ b)

/-- Addition on extended distances (`∞ + x = x + ∞ = ∞`). -/
def dadd : JDist → JDist → JDist
  | some a, some b => some (a + b)
  | _, _ => none

/-- A grid cell, from `grid.types.ts` (`Node`).  `previousNode` is a
coordinate reference rather than an object reference. -/
structure Node where
  row : Nat
  col : Nat
  type : CellType
  isVisited : Bool
  distance : JDist
  heuristic : JDist
  previousNode : Option (Nat × Nat)
deriving DecidableEq, Repr

/-- A coordinate `(row, col)` identifying a grid cell. -/
abbrev Pos := Nat × Nat

/-- The grid is a row-major matrix of cells (`Node[][]`). -/
abbrev Grid := List (List Node)

/-- `grid.length` in the source. -/
def numRows (g : Grid) : Nat := g.length

/-- `grid[0].length` in the source. -/
def numCols (g : Grid) : Nat := (g.headD []).length

/-- Placeholder cell used to totalize out-of-bounds reads (the source never
performs them on well-formed grids). -/
def defaultNode : Node :=
  { row := 0, col := 0, type := CellType.empty, isVisited := false,
    distance := none, heuristic := none, previousNode := none }

/-- Read `grid[p.1][p.2]`. -/
def getNode (g : Grid) (p : Pos) : Node :=
  (g.getD p.1 []).getD p.2 defaultNode

/-- Apply `f` to the element at index `n`, if present. -/
def modifyAt {α : Type} (f : α → α) : Nat → List α → List α
  | _, [] => []
  | 0, a :: as => f a :: as
  | n + 1, a :: as => a :: modifyAt f n as

/-- In-place update `grid[p.1][p.2] = f (grid[p.1][p.2])` of the store. -/
def gridModify (g : Grid) (p : Pos) (f : Node → Node) : Grid :=
  modifyAt (modifyAt f p.2) p.1 g

/-- `getNeighbors` from `pathfinding.ts`: the in-bounds orthogonal neighbors
in the fixed order up, right, down, left, as coordinates. -/
def getNeighbors (node : Node) (g : Grid) : List Pos :=
  (if 0 < node.row then [(node.row - 1, node.col)] else []) ++
  (if node.col < numCols g - 1 then [(node.row, node.col + 1)] else []) ++
  (if node.row < numRows g - 1 then [(node.row + 1, node.col)] else []) ++
  (if 0 < node.col then [(node.row, node.col - 1)] else [])

/-- `manhattanDistance` from `pathfinding.ts`. -/
def manhattanDistance (a b : Node) : Nat :=
  Nat.dist a.row b.row + Nat.dist a.col b.col

/-- `PathfindingResult` from `pathfinding.ts`, with cells as coordinates. -/
structure PathfindingResult where
  visitedNodesInOrder : List Pos
  shortestPath : List Pos
  success : Bool
deriving DecidableEq, Repr

/-- Loop body of `reconstructPath`: repeatedly `unshift` the current cell and
follow its `previousNode` link. -/
def reconstructPathAux (g : Grid) : Nat → Option Pos → List Pos → List Pos
  | _, none, acc => acc
  | 0, some _, acc => acc
  | fuel + 1, some p, acc =>
      reconstructPathAux g fuel (getNode g p).previousNode (p :: acc)

/-- `reconstructPath` from `pathfinding.ts`.  The fuel exceeds the cell count,
and every reachable `previousNode` chain is acyclic with length at most the
cell count, so the fuel bound is never hit in a real run. -/
def reconstructPath (g : Grid) (endPos : Pos) : List Pos :=
  reconstructPathAux g (numRows g * numCols g + 1) (some endPos) []

/-- Neighbor expansion of `bfs`: for each unvisited non-wall neighbor, mark it
visited, link its predecessor, set its distance, and enqueue it. -/
def bfsExpand (g : Grid) (p : Pos) (queue : List Pos) : List Pos → Grid × List Pos
  | [] => (g, queue)
  | q :: rest =>
    let nq := getNode g q
    if nq.isVisited = false ∧ nq.type ≠ CellType.wall then
      let g2 := gridModify g q fun n =>
        { n with isVisited := true, previousNode := some p,
                 distance := dadd (getNode g p).distance (some 1) }
      bfsExpand g2 p (queue ++ [q]) rest
    else bfsExpand g p queue rest

/-- Main loop of `bfs`: FIFO queue, walls skipped, stop on reaching the end. -/
def bfsLoop (endPos : Pos) : Nat → Grid → List Pos → List Pos →
    Option (Grid × PathfindingResult)
  | 0, _, _, _ => none
  | fuel + 1, g, queue, vis =>
    match queue with
    | [] => some (g, ⟨vis, [], false⟩)
    | p :: rest =>
      if (getNode g p).type = CellType.wall then bfsLoop endPos fuel g rest vis
      else
        let vis2 := vis ++ [p]
        if p = endPos then some (g, ⟨vis2, reconstructPath g endPos, true⟩)
        else
          let gq := bfsExpand g p rest (getNeighbors (getNode g p) g)
          bfsLoop endPos fuel gq.1 gq.2 vis2

/-- Fuel for the `bfs`/`dfs` loops: each iteration strictly decreases
`queue.length + 2 * (number of unvisited cells)`, which is at most this. -/
def bfsFuel (g : Grid) : Nat := 2 * (numRows g * numCols g) + 2

/-- `bfs` from `pathfinding.ts`. -/
def bfs (g : Grid) (startPos endPos : Pos) : Option (Grid × PathfindingResult) :=
  let g1 := gridModify g startPos fun n =>
    { n with isVisited := true, distance := some 0 }
  bfsLoop endPos (bfsFuel g) g1 [startPos] []

/-- `createNode` from `gridHelpers.ts`: note `distance: Infinity` but
`heuristic: 0`. -/
def createNode (row col : Nat) : Node :=
  { row := row, col := col, type := CellType.empty, isVisited := false,
    distance := none, heuristic := some 0, previousNode := none }

/-- `createGrid` from `gridHelpers.ts`. -/
def createGrid (rows cols : Nat) : Grid :=
  (List.range rows).map fun row => (List.range cols).map fun col => createNode row col

/-- Build a clean test grid from a matrix of cell kinds, with the scratch
fields as the `visualizeAlgorithm` reset leaves them (`isVisited: false`,
`distance: Infinity`, `heuristic: Infinity`, `previousNode: null`). -/
def mkNode (r c : Nat) (t : CellType) : Node :=
  { row := r, col := c, type := t, isVisited := false,
    distance := none, heuristic := none, previousNode := none }

/-- Helper building a grid from a matrix of cell kinds. -/
def mkGrid (rows : List (List CellType)) : Grid :=
  rows.enum.map fun rc => rc.2.enum.map fun cn => mkNode rc.1 cn.1 cn.2

/-- Neighbor expansion of `dfs`: the source iterates the reversed neighbor
list, pushing each unvisited non-wall neighbor onto the stack top (the stack
is modelled with its top at the head). -/
def dfsExpand (g : Grid) (p : Pos) (stack : List Pos) : List Pos → Grid × List Pos
  | [] => (g, stack)
  | q :: rest =>
    let nq := getNode g q
    if nq.isVisited = false ∧ nq.type ≠ CellType.wall then
      let g2 := gridModify g q fun n =>
        { n with isVisited := true, previousNode := some p }
      dfsExpand g2 p (q :: stack) rest
    else dfsExpand g p stack rest

/-- Main loop of `dfs`: LIFO stack, walls skipped, stop on reaching the end. -/
def dfsLoop (endPos : Pos) : Nat → Grid → List Pos → List Pos →
    Option (Grid × PathfindingResult)
  | 0, _, _, _ => none
  | fuel + 1, g, stack, vis =>
    match stack with
    | [] => some (g, ⟨vis, [], false⟩)
    | p :: rest =>
      if (getNode g p).type = CellType.wall then dfsLoop endPos fuel g rest vis
      else
        let vis2 := vis ++ [p]
        if p = endPos then some (g, ⟨vis2, reconstructPath g endPos, true⟩)
        else
          let gq := dfsExpand g p rest (getNeighbors (getNode g p) g).reverse
          dfsLoop endPos fuel gq.1 gq.2 vis2

/-- `dfs` from `pathfinding.ts`. -/
def dfs (g : Grid) (startPos endPos : Pos) : Option (Grid × PathfindingResult) :=
  let g1 := gridModify g startPos fun n => { n with isVisited := true }
  dfsLoop endPos (bfsFuel g) g1 [startPos] []

/-- Stable insertion into a sorted list: the new element goes after every
element strictly below it, so equal keys keep their original order. -/
def insertSorted {α : Type} (lt : α → α → Bool) (x : α) : List α → List α
  | [] => [x]
  | y :: ys => if lt y x then y :: insertSorted lt x ys else x :: y :: ys

/-- Stable ascending sort, modelling `Array.prototype.sort` with a numeric
key comparator. -/
def sortBy {α : Type} (lt : α → α → Bool) : List α → List α
  | [] => []
  | x :: xs => insertSorted lt x (sortBy lt xs)

/-- Sort key comparison of `astar`: `f(n) = distance + heuristic`. -/
def astarLt (g : Grid) (p q : Pos) : Bool :=
  dlt (dadd (getNode g p).distance (getNode g p).heuristic)
      (dadd (getNode g q).distance (getNode g q).heuristic)

/-- Neighbor expansion of `astar`: relax each unvisited non-wall neighbor and
admit it into the open set if not already present. -/
def astarExpand (g : Grid) (p ePos : Pos) (openSet : List Pos) :
    List Pos → Grid × List Pos
  | [] => (g, openSet)
  | q :: rest =>
    let nq := getNode g q
    if nq.isVisited = true ∨ nq.type = CellType.wall then
      astarExpand g p ePos openSet rest
    else
      let tentativeDistance := dadd (getNode g p).distance (some 1)
      if dlt tentativeDistance nq.distance then
        let g2 := gridModify g q fun n =>
          { n with distance := tentativeDistance,
                   heuristic := some (manhattanDistance nq (getNode g ePos)),
                   previousNode := some p }
        if q ∈ openSet then astarExpand g2 p ePos openSet rest
        else astarExpand g2 p ePos (openSet ++ [q]) rest
      else astarExpand g p ePos openSet rest

/-- Fuel for the sorted-frontier loops (`astar`, `uniformCostSearch`,
`greedyBFS`): generous bound on the iteration count. -/
def astarFuel (g : Grid) : Nat :=
  (numRows g * numCols g + 2) * (numRows g * numCols g + 2)

/-- Main loop of `astar`: re-sort by `f`, pop the best, skip walls and
already-visited cells, then relax the neighbors. -/
def astarLoop (ePos : Pos) : Nat → Grid → List Pos → List Pos →
    Option (Grid × PathfindingResult)
  | 0, _, _, _ => none
  | fuel + 1, g, openSet, vis =>
    match sortBy (astarLt g) openSet with
    | [] => some (g, ⟨vis, [], false⟩)
    | p :: rest =>
      let np := getNode g p
      if np.type = CellType.wall then astarLoop ePos fuel g rest vis
      else if np.isVisited then astarLoop ePos fuel g rest vis
      else
        let g2 := gridModify g p fun n => { n with isVisited := true }
        let vis2 := vis ++ [p]
        if p = ePos then some (g2, ⟨vis2, reconstructPath g2 ePos, true⟩)
        else
          let gq := astarExpand g2 p ePos rest (getNeighbors (getNode g2 p) g2)
          astarLoop ePos fuel gq.1 gq.2 vis2

/-- `astar` from `pathfinding.ts`. -/
def astar (g : Grid) (startPos ePos : Pos) : Option (Grid × PathfindingResult) :=
  let g1 := gridModify g startPos fun n =>
    { n with distance := some 0,
             heuristic := some (manhattanDistance (getNode g startPos) (getNode g ePos)) }
  astarLoop ePos (astarFuel g) g1 [startPos] []

/-- Sort key comparison of `uniformCostSearch`: cost (`distance`) only. -/
def ucsLt (g : Grid) (p q : Pos) : Bool :=
  dlt (getNode g p).distance (getNode g q).distance

/-- Neighbor expansion of `uniformCostSearch`: relax each unvisited non-wall
neighbor (cost 1 per step) and admit it if not already present. -/
def ucsExpand (g : Grid) (p : Pos) (openSet : List Pos) :
    List Pos → Grid × List Pos
  | [] => (g, openSet)
  | q :: rest =>
    let nq := getNode g q
    if nq.isVisited = true ∨ nq.type = CellType.wall then
      ucsExpand g p openSet rest
    else
      let tentativeDistance := dadd (getNode g p).distance (some 1)
      if dlt tentativeDistance nq.distance then
        let g2 := gridModify g q fun n =>
          { n with distance := tentativeDistance, previousNode := some p }
        if q ∈ openSet then ucsExpand g2 p openSet rest
        else ucsExpand g2 p (openSet ++ [q]) rest
      else ucsExpand g p openSet rest

/-- Main loop of `uniformCostSearch`. -/
def ucsLoop (ePos : Pos) : Nat → Grid → List Pos → List Pos →
    Option (Grid × PathfindingResult)
  | 0, _, _, _ => none
  | fuel + 1, g, openSet, vis =>
    match sortBy (ucsLt g) openSet with
    | [] => some (g, ⟨vis, [], false⟩)
    | p :: rest =>
      let np := getNode g p
      if np.type = CellType.wall then ucsLoop ePos fuel g rest vis
      else if np.isVisited then ucsLoop ePos fuel g rest vis
      else
        let g2 := gridModify g p fun n => { n with isVisited := true }
        let vis2 := vis ++ [p]
        if p = ePos then some (g2, ⟨vis2, reconstructPath g2 ePos, true⟩)
        else
          let gq := ucsExpand g2 p rest (getNeighbors (getNode g2 p) g2)
          ucsLoop ePos fuel gq.1 gq.2 vis2

/-- `uniformCostSearch` from `pathfinding.ts`. -/
def uniformCostSearch (g : Grid) (startPos ePos : Pos) :
    Option (Grid × PathfindingResult) :=
  let g1 := gridModify g startPos fun n => { n with distance := some 0 }
  ucsLoop ePos (astarFuel g) g1 [startPos] []

/-- Sort key comparison of `greedyBFS`: heuristic only. -/
def greedyLt (g : Grid) (p q : Pos) : Bool :=
  dlt (getNode g p).heuristic (getNode g q).heuristic

/-- Neighbor expansion of `greedyBFS`: a neighbor is admitted only when its
`heuristic` field still holds the `Infinity` sentinel. -/
def greedyExpand (g : Grid) (p ePos : Pos) (openSet : List Pos) :
    List Pos → Grid × List Pos
  | [] => (g, openSet)
  | q :: rest =>
    let nq := getNode g q
    if nq.isVisited = true ∨ nq.type = CellType.wall then
      greedyExpand g p ePos openSet rest
    else
      if nq.heuristic = none then
        let g2 := gridModify g q fun n =>
          { n with heuristic := some (manhattanDistance nq (getNode g ePos)),
                   previousNode := some p }
        greedyExpand g2 p ePos (openSet ++ [q]) rest
      else greedyExpand g p ePos openSet rest

/-- Main loop of `greedyBFS`. -/
def greedyLoop (ePos : Pos) : Nat → Grid → List Pos → List Pos →
    Option (Grid × PathfindingResult)
  | 0, _, _, _ => none
  | fuel + 1, g, openSet, vis =>
    match sortBy (greedyLt g) openSet with
    | [] => some (g, ⟨vis, [], false⟩)
    | p :: rest =>
      let np := getNode g p
      if np.type = CellType.wall then greedyLoop ePos fuel g rest vis
      else if np.isVisited then greedyLoop ePos fuel g rest vis
      else
        let g2 := gridModify g p fun n => { n with isVisited := true }
        let vis2 := vis ++ [p]
        if p = ePos then some (g2, ⟨vis2, reconstructPath g2 ePos, true⟩)
        else
          let gq := greedyExpand g2 p ePos rest (getNeighbors (getNode g2 p) g2)
          greedyLoop ePos fuel gq.1 gq.2 vis2

/-- `greedyBFS` from `pathfinding.ts`. -/
def greedyBFS (g : Grid) (startPos ePos : Pos) :
    Option (Grid × PathfindingResult) :=
  let g1 := gridModify g startPos fun n =>
    { n with heuristic := some (manhattanDistance (getNode g startPos) (getNode g ePos)) }
  greedyLoop ePos (bfsFuel g) g1 [startPos] []

/-- Work items of `depthLimitedSearch`: either enter a cell, or iterate the
remaining neighbor list of a parent cell. -/
inductive DlsWork
  | enter (p : Pos)
  | children (parent : Pos) (ns : List Pos)

/-- `depthLimitedSearch` from `pathfinding.ts`, as a fueled worker.  Entering
a wall fails; otherwise the cell is marked visited and recorded; reaching the
end succeeds; at the depth limit the call fails; otherwise each unvisited
non-wall neighbor is predecessor-linked and recursed into, with the sibling
iteration resuming on failure. -/
def dlsGo (ePos : Pos) (maxDepth : Nat) : Nat → Grid → DlsWork → Nat →
    List Pos → Option (Grid × List Pos × Bool)
  | 0, _, _, _, _ => none
  | fuel + 1, g, DlsWork.enter p, depth, vis =>
    let np := getNode g p
    if np.type = CellType.wall then some (g, vis, false)
    else
      let g2 := gridModify g p fun n => { n with isVisited := true }
      let vis2 := vis ++ [p]
      if p = ePos then some (g2, vis2, true)
      else if maxDepth ≤ depth then some (g2, vis2, false)
      else
        dlsGo ePos maxDepth fuel g2
          (DlsWork.children p (getNeighbors (getNode g2 p) g2)) depth vis2
  | fuel + 1, g, DlsWork.children parent ns, depth, vis =>
    match ns with
    | [] => some (g, vis, false)
    | q :: rest =>
      let nq := getNode g q
      if nq.isVisited = false ∧ nq.type ≠ CellType.wall then
        let g2 := gridModify g q fun n => { n with previousNode := some parent }
        match dlsGo ePos maxDepth fuel g2 (DlsWork.enter q) (depth + 1) vis with
        | none => none
        | some (g3, vis3, true) => some (g3, vis3, true)
        | some (g3, vis3, false) =>
            dlsGo ePos maxDepth fuel g3 (DlsWork.children parent rest) depth vis3
      else dlsGo ePos maxDepth fuel g (DlsWork.children parent rest) depth vis

/-- Fuel for one `depthLimitedSearch` run: bounds the nesting depth of the
worker, which is at most five steps per recursion level and at most one
level per cell. -/
def dlsFuel (g : Grid) : Nat := 6 * (numRows g * numCols g) + 7

/-- `depthLimitedSearch` entry point (the source's default `depth = 0`). -/
def depthLimitedSearch (g : Grid) (p ePos : Pos) (maxDepth : Nat)
    (vis : List Pos) : Option (Grid × List Pos × Bool) :=
  dlsGo ePos maxDepth (dlsFuel g) g (DlsWork.enter p) 0 vis

/-- Per-iteration reset of `iterativeDeepening`: clear `isVisited` and
`previousNode` on every cell (distances and heuristics are left alone). -/
def resetForIteration (g : Grid) : Grid :=
  g.map fun row => row.map fun n => { n with isVisited := false, previousNode := none }

/-- Outer loop of `iterativeDeepening` over the increasing depth limits. -/
def idLoop (sPos ePos : Pos) : List Nat → Grid → List Pos →
    Option (Grid × PathfindingResult)
  | [], g, acc => some (g, ⟨acc, [], false⟩)
  | maxDepth :: rest, g, acc =>
    let g1 := resetForIteration g
    match depthLimitedSearch g1 sPos ePos maxDepth acc with
    | none => none
    | some (g2, acc2, true) => some (g2, ⟨acc2, reconstructPath g2 ePos, true⟩)
    | some (g2, acc2, false) => idLoop sPos ePos rest g2 acc2

/-- `iterativeDeepening` from `pathfinding.ts`: depth limits `0` to
`R*C - 1`, visited order accumulated across iterations. -/
def iterativeDeepening (g : Grid) (sPos ePos : Pos) :
    Option (Grid × PathfindingResult) :=
  idLoop sPos ePos (List.range (numRows g * numCols g)) g []

/-- `placeStartAndEnd` from `gridHelpers.ts` (the copy-then-assign is a
functional update here). -/
def placeStartAndEnd (g : Grid) (sPos ePos : Pos) : Grid :=
  let g1 := gridModify g sPos fun n => { n with type := CellType.start }
  gridModify g1 ePos fun n => { n with type := CellType.endCell }

/-- `resetGrid` from `gridHelpers.ts`. -/
def resetGrid (rows cols : Nat) : Grid :=
  placeStartAndEnd (createGrid rows cols)
    (rows / 2, cols / 4) (rows / 2, cols * 3 / 4)

/-- A coordinate that actually indexes into the store (row exists and is long
enough). -/
def inStore (g : Grid) (p : Pos) : Prop :=
  p.1 < g.length ∧ p.2 < (g.getD p.1 []).length

instance (g : Grid) (p : Pos) : Decidable (inStore g p) :=
  inferInstanceAs (Decidable (p.1 < g.length ∧ p.2 < (g.getD p.1 []).length))

/-- A coordinate within the nominal `R × C` bounds. -/
def inBounds (g : Grid) (p : Pos) : Prop :=
  p.1 < numRows g ∧ p.2 < numCols g

instance (g : Grid) (p : Pos) : Decidable (inBounds g p) :=
  inferInstanceAs (Decidable (p.1 < numRows g ∧ p.2 < numCols g))

/-- Well-formed grid: rectangular with every cell's `row`/`col` fields
agreeing with its position. -/
def WFGrid (g : Grid) : Prop :=
  (∀ row ∈ g, row.length = numCols g) ∧
  (∀ i, i < numRows g → ∀ j, j < numCols g →
    (getNode g (i, j)).row = i ∧ (getNode g (i, j)).col = j)

instance (g : Grid) : Decidable (WFGrid g) :=
  inferInstanceAs (Decidable ((∀ row ∈ g, row.length = numCols g) ∧
    (∀ i, i < numRows g → ∀ j, j < numCols g →
      (getNode g (i, j)).row = i ∧ (getNode g (i, j)).col = j)))

/-- Clean per-run scratch state, as the `visualizeAlgorithm` reset produces
on every cell: unvisited, infinite distance and heuristic, no predecessor. -/
def CleanGrid (g : Grid) : Prop :=
  ∀ row ∈ g, ∀ n ∈ row, n.isVisited = false ∧ n.distance = none ∧
    n.heuristic = none ∧ n.previousNode = none

instance (g : Grid) : Decidable (CleanGrid g) :=
  inferInstanceAs (Decidable (∀ row ∈ g, ∀ n ∈ row, n.isVisited = false ∧
    n.distance = none ∧ n.heuristic = none ∧ n.previousNode = none))

/-- 4-connectedness of two coordinates. -/
def adjacent (p q : Pos) : Prop :=
  Nat.dist p.1 q.1 + Nat.dist p.2 q.2 = 1

instance (p q : Pos) : Decidable (adjacent p q) :=
  inferInstanceAs (Decidable (Nat.dist p.1 q.1 + Nat.dist p.2 q.2 = 1))

/-- A traversable cell: in bounds and not a wall. -/
def okCell (g : Grid) (p : Pos) : Prop :=
  inBounds g p ∧ (getNode g p).type ≠ CellType.wall

instance (g : Grid) (p : Pos) : Decidable (okCell g p) :=
  inferInstanceAs (Decidable (inBounds g p ∧ (getNode g p).type ≠ CellType.wall))

/-- Boolean chain test: consecutive list elements are 4-connected. -/
def chainAdjb : List Pos → Bool
  | [] => true
  | [_] => true
  | p :: q :: rest => decide (adjacent p q) && chainAdjb (q :: rest)

theorem chainAdjb_iff : ∀ l : List Pos, chainAdjb l = true ↔ l.Chain' adjacent
  | [] => by simp [chainAdjb]
  | [p] => by simp [chainAdjb]
  | p :: q :: rest => by
    rw [List.chain'_cons, ← chainAdjb_iff (q :: rest)]
    simp [chainAdjb]

/-- A 4-connected path of traversable cells from `s` to `e` in `g`: the
"true" paths that the specification's shortest-distance talk refers to. -/
def IsPathFrom (g : Grid) (s e : Pos) (l : List Pos) : Prop :=
  l.head? = some s ∧ l.getLast? = some e ∧ chainAdjb l = true ∧
    ∀ p ∈ l, okCell g p

instance (g : Grid) (s e : Pos) (l : List Pos) : Decidable (IsPathFrom g s e l) :=
  inferInstanceAs (Decidable (l.head? = some s ∧ l.getLast? = some e ∧
    chainAdjb l = true ∧ ∀ p ∈ l, okCell g p))

theorem modifyAt_nil {α : Type} (f : α → α) (n : Nat) : modifyAt f n [] = [] := by
  cases n <;> rfl

theorem modifyAt_length {α : Type} (f : α → α) (n : Nat) (l : List α) :
    (modifyAt f n l).length = l.length := by
  induction l generalizing n with
  | nil => rw [modifyAt_nil]
  | cons a as ih =>
    cases n with
    | zero => rfl
    | succ m => simpa [modifyAt] using ih m

theorem getD_modifyAt_self {α : Type} (f : α → α) (n : Nat) (l : List α)
    (d : α) (h : n < l.length) :
    (modifyAt f n l).getD n d = f (l.getD n d) := by
  induction l generalizing n with
  | nil => simp at h
  | cons a as ih =>
    cases n with
    | zero => rfl
    | succ m =>
      simp only [modifyAt, List.getD_cons_succ]
      exact ih m (by simpa using h)

theorem getD_modifyAt_of_ne {α : Type} (f : α → α) {m n : Nat} (l : List α)
    (d : α) (h : m ≠ n) :
    (modifyAt f n l).getD m d = l.getD m d := by
  induction l generalizing m n with
  | nil => rw [modifyAt_nil]
  | cons a as ih =>
    cases n with
    | zero => cases m with
      | zero => exact absurd rfl h
      | succ k => rfl
    | succ j =>
      cases m with
      | zero => rfl
      | succ k =>
        simp only [modifyAt, List.getD_cons_succ]
        exact ih (fun hk => h (by simp [hk]))

theorem modifyAt_of_le {α : Type} (f : α → α) {n : Nat} (l : List α)
    (h : l.length ≤ n) : modifyAt f n l = l := by
  induction l generalizing n with
  | nil => rw [modifyAt_nil]
  | cons a as ih =>
    cases n with
    | zero => simp at h
    | succ m => simp only [modifyAt]; rw [ih (by simpa using h)]

/-- Master read-over-write lemma for the grid store. -/
theorem getNode_gridModify (g : Grid) (p q : Pos) (f : Node → Node) :
    getNode (gridModify g p f) q =
      if q = p ∧ inStore g p then f (getNode g p) else getNode g q := by
  by_cases hq : q = p
  · subst hq
    by_cases hs : inStore g q
    · simp only [hs, and_true, if_pos rfl]
      unfold getNode gridModify
      rw [show (modifyAt (modifyAt f q.2) q.1 g).getD q.1 [] =
            modifyAt f q.2 (g.getD q.1 []) from
          getD_modifyAt_self _ _ _ _ hs.1]
      exact getD_modifyAt_self _ _ _ _ hs.2
    · simp only [hs, and_false, if_false]
      unfold getNode gridModify
      rcases Nat.lt_or_ge q.1 g.length with h1 | h1
      · have h2 : (g.getD q.1 []).length ≤ q.2 := by
          rcases Nat.lt_or_ge q.2 (g.getD q.1 []).length with h2 | h2
          · exact absurd ⟨h1, h2⟩ hs
          · exact h2
        rw [show (modifyAt (modifyAt f q.2) q.1 g).getD q.1 [] =
              modifyAt f q.2 (g.getD q.1 []) from
            getD_modifyAt_self _ _ _ _ h1]
        rw [modifyAt_of_le _ _ h2]
      · rw [show (modifyAt (modifyAt f q.2) q.1 g).getD q.1 [] = g.getD q.1 [] by
          rw [List.getD_eq_getElem?_getD, List.getD_eq_getElem?_getD,
            List.getElem?_eq_none (by rw [modifyAt_length]; exact h1),
            List.getElem?_eq_none h1]]
  · simp only [hq, false_and, if_false]
    unfold getNode gridModify
    by_cases h1 : q.1 = p.1
    · rw [h1]
      rcases Nat.lt_or_ge p.1 g.length with hl | hl
      · rw [show (modifyAt (modifyAt f p.2) p.1 g).getD p.1 [] =
              modifyAt f p.2 (g.getD p.1 []) from
            getD_modifyAt_self _ _ _ _ hl]
        have h2 : q.2 ≠ p.2 := by
          intro h2; exact hq (Prod.ext h1 h2)
        exact getD_modifyAt_of_ne _ _ _ h2
      · rw [show (modifyAt (modifyAt f p.2) p.1 g).getD p.1 [] = g.getD p.1 [] by
          rw [List.getD_eq_getElem?_getD, List.getD_eq_getElem?_getD,
            List.getElem?_eq_none (by rw [modifyAt_length]; exact hl),
            List.getElem?_eq_none hl]]
    · rw [show (modifyAt (modifyAt f p.2) p.1 g).getD q.1 [] = g.getD q.1 [] from
        getD_modifyAt_of_ne _ _ _ h1]

theorem numRows_gridModify (g : Grid) (p : Pos) (f : Node → Node) :
    numRows (gridModify g p f) = numRows g := by
  unfold numRows gridModify
  exact modifyAt_length _ _ _

theorem numCols_gridModify (g : Grid) (p : Pos) (f : Node → Node) :
    numCols (gridModify g p f) = numCols g := by
  unfold numCols gridModify
  cases g with
  | nil => rw [modifyAt_nil]
  | cons r rs =>
    cases hp : p.1 with
    | zero => simp only [modifyAt, List.headD_cons, modifyAt_length]
    | succ m => simp only [modifyAt, List.headD_cons]

/-- Manhattan distance on coordinates. -/
def mdist (p q : Pos) : Nat := Nat.dist p.1 q.1 + Nat.dist p.2 q.2

theorem mdist_self (p : Pos) : mdist p p = 0 := by
  unfold mdist Nat.dist; omega

theorem mdist_triangle (p q r : Pos) : mdist p r ≤ mdist p q + mdist q r := by
  unfold mdist Nat.dist; omega

theorem adjacent_mdist {p q : Pos} (h : adjacent p q) : mdist p q = 1 := h

theorem natDist_cases {a b : Nat} (h : Nat.dist a b = 1) : b = a + 1 ∨ a = b + 1 := by
  unfold Nat.dist at h; omega

theorem natDist_zero {a b : Nat} (h : Nat.dist a b = 0) : a = b := by
  unfold Nat.dist at h; omega

/-- The four possible relative positions of an adjacent coordinate. -/
theorem adjacent_cases {p q : Pos} (h : adjacent p q) :
    (0 < p.1 ∧ q = (p.1 - 1, p.2)) ∨ q = (p.1, p.2 + 1) ∨
    q = (p.1 + 1, p.2) ∨ (0 < p.2 ∧ q = (p.1, p.2 - 1)) := by
  obtain ⟨p1, p2⟩ := p
  obtain ⟨q1, q2⟩ := q
  unfold adjacent Nat.dist at h
  simp only [Prod.mk.injEq]
  omega

theorem adjacent_of_left (p : Pos) (h : 0 < p.1) : adjacent p (p.1 - 1, p.2) := by
  obtain ⟨p1, p2⟩ := p
  unfold adjacent Nat.dist
  simp only at h ⊢
  omega

theorem adjacent_of_right (p : Pos) : adjacent p (p.1, p.2 + 1) := by
  obtain ⟨p1, p2⟩ := p
  unfold adjacent Nat.dist
  omega

theorem adjacent_of_down (p : Pos) : adjacent p (p.1 + 1, p.2) := by
  obtain ⟨p1, p2⟩ := p
  unfold adjacent Nat.dist
  omega

theorem adjacent_of_up (p : Pos) (h : 0 < p.2) : adjacent p (p.1, p.2 - 1) := by
  obtain ⟨p1, p2⟩ := p
  unfold adjacent Nat.dist
  simp only at h ⊢
  omega

theorem wf_coords {g : Grid} (h : WFGrid g) {p : Pos} (hp : inBounds g p) :
    (getNode g p).row = p.1 ∧ (getNode g p).col = p.2 := by
  obtain ⟨p1, p2⟩ := p
  exact h.2 p1 hp.1 p2 hp.2

theorem mem_getNeighbors {g : Grid} (hw : WFGrid g) {p q : Pos} (hp : inBounds g p)
    (hq : q ∈ getNeighbors (getNode g p) g) : inBounds g q ∧ adjacent p q := by
  obtain ⟨hrow, hcol⟩ := wf_coords hw hp
  unfold getNeighbors at hq
  rw [hrow, hcol] at hq
  simp only [List.mem_append] at hq
  rcases hq with ((hq | hq) | hq) | hq
  · by_cases h1 : 0 < p.1
    · rw [if_pos h1] at hq
      simp only [List.mem_singleton] at hq
      subst hq
      refine ⟨⟨?_, hp.2⟩, adjacent_of_left p h1⟩
      have hb := hp.1
      omega
    · rw [if_neg h1] at hq; simp at hq
  · by_cases h1 : p.2 < numCols g - 1
    · rw [if_pos h1] at hq
      simp only [List.mem_singleton] at hq
      subst hq
      exact ⟨⟨hp.1, by omega⟩, adjacent_of_right p⟩
    · rw [if_neg h1] at hq; simp at hq
  · by_cases h1 : p.1 < numRows g - 1
    · rw [if_pos h1] at hq
      simp only [List.mem_singleton] at hq
      subst hq
      exact ⟨⟨by omega, hp.2⟩, adjacent_of_down p⟩
    · rw [if_neg h1] at hq; simp at hq
  · by_cases h1 : 0 < p.2
    · rw [if_pos h1] at hq
      simp only [List.mem_singleton] at hq
      subst hq
      refine ⟨⟨hp.1, ?_⟩, adjacent_of_up p h1⟩
      have hb := hp.2
      omega
    · rw [if_neg h1] at hq; simp at hq

theorem getNeighbors_complete {g : Grid} (hw : WFGrid g) {p q : Pos}
    (hp : inBounds g p) (hq : inBounds g q) (hadj : adjacent p q) :
    q ∈ getNeighbors (getNode g p) g := by
  obtain ⟨hrow, hcol⟩ := wf_coords hw hp
  unfold getNeighbors
  rw [hrow, hcol]
  simp only [List.mem_append]
  rcases adjacent_cases hadj with ⟨h1, hq'⟩ | hq' | hq' | ⟨h1, hq'⟩
  · subst hq'
    left; left; left
    rw [if_pos h1]; simp
  · subst hq'
    left; left; right
    have : p.2 < numCols g - 1 := by
      have := hq.2; simp only at this; omega
    rw [if_pos this]; simp
  · subst hq'
    left; right
    have : p.1 < numRows g - 1 := by
      have := hq.1; simp only at this; omega
    rw [if_pos this]; simp
  · subst hq'
    right
    rw [if_pos h1]; simp

theorem getNeighbors_length_le (n : Node) (g : Grid) :
    (getNeighbors n g).length ≤ 4 := by
  unfold getNeighbors
  split_ifs <;> simp

theorem dle_refl (a : JDist) : dle a a = true := by
  cases a <;> simp [dle]

theorem dle_trans {a b c : JDist} (h1 : dle a b = true) (h2 : dle b c = true) :
    dle a c = true := by
  cases a <;> cases b <;> cases c <;> simp_all [dle] <;> omega

theorem dle_of_dlt {a b : JDist} (h : dlt a b = true) : dle a b = true := by
  cases a <;> cases b <;> simp_all [dlt, dle] <;> omega

theorem dle_of_not_dlt {a b : JDist} (h : dlt a b = false) : dle b a = true := by
  cases a <;> cases b <;> simp_all [dlt, dle]

theorem not_dlt_of_dle {a b : JDist} (h : dle a b = true) : dlt b a = false := by
  cases a <;> cases b <;> simp_all [dlt, dle]

theorem dle_some {a b : Nat} : dle (some a) (some b) = true ↔ a ≤ b := by
  simp [dle]

theorem dlt_some {a b : Nat} : dlt (some a) (some b) = true ↔ a < b := by
  simp [dlt]

theorem dadd_some (a b : Nat) : dadd (some a) (some b) = some (a + b) := rfl

theorem dle_dadd_mono {a b c d : JDist} (h1 : dle a b = true) (h2 : dle c d = true) :
    dle (dadd a c) (dadd b d) = true := by
  cases a <;> cases b <;> cases c <;> cases d <;> simp_all [dle, dadd] <;> omega

theorem dle_none (a : JDist) : dle a none = true := by
  cases a <;> rfl

theorem dlt_none_of_some (a : Nat) : dlt (some a) none = true := rfl

theorem dle_some_of_dle_dadd {a : JDist} {k : Nat} (h : dle a (some k) = true) :
    ∃ m, a = some m ∧ m ≤ k := by
  cases a with
  | none => simp [dle] at h
  | some m => exact ⟨m, rfl, by simpa [dle] using h⟩

theorem insertSorted_perm {α : Type} (lt : α → α → Bool) (x : α) (l : List α) :
    (insertSorted lt x l).Perm (x :: l) := by
  induction l with
  | nil => exact List.Perm.refl _
  | cons y ys ih =>
    simp only [insertSorted]
    by_cases h : lt y x = true
    · rw [if_pos h]
      exact ((ih.cons y).trans (List.Perm.swap x y ys))
    · rw [if_neg h]

theorem sortBy_perm {α : Type} (lt : α → α → Bool) (l : List α) :
    (sortBy lt l).Perm l := by
  induction l with
  | nil => exact List.Perm.refl _
  | cons x xs ih =>
    simp only [sortBy]
    exact (insertSorted_perm lt x (sortBy lt xs)).trans (ih.cons x)

theorem sortBy_eq_nil {α : Type} {lt : α → α → Bool} {l : List α}
    (h : sortBy lt l = []) : l = [] := by
  have := sortBy_perm lt l
  rw [h] at this
  exact (List.Perm.nil_eq this).symm

theorem insertSorted_pairwise {α : Type} (key : α → JDist) (x : α) :
    ∀ l : List α, l.Pairwise (fun a b => dle (key a) (key b) = true) →
    (insertSorted (fun a b => dlt (key a) (key b)) x l).Pairwise
      (fun a b => dle (key a) (key b) = true) := by
  intro l
  induction l with
  | nil =>
    intro hl
    simp [insertSorted]
  | cons y ys ih =>
    intro h
    rw [List.pairwise_cons] at h
    simp only [insertSorted]
    by_cases hxy : dlt (key y) (key x) = true
    · rw [if_pos hxy]
      rw [List.pairwise_cons]
      refine ⟨?_, ih h.2⟩
      intro z hz
      have hz2 : z ∈ x :: ys := (insertSorted_perm _ x ys).subset hz
      rcases List.mem_cons.mp hz2 with hz3 | hz3
      · subst hz3; exact dle_of_dlt hxy
      · exact h.1 z hz3
    · rw [if_neg hxy]
      rw [List.pairwise_cons]
      constructor
      · intro z hz
        rcases List.mem_cons.mp hz with hz3 | hz3
        · subst hz3
          exact dle_of_not_dlt (by simpa using hxy)
        · exact dle_trans (dle_of_not_dlt (by simpa using hxy)) (h.1 z hz3)
      · rw [List.pairwise_cons]; exact h

theorem sortBy_pairwise {α : Type} (key : α → JDist) (l : List α) :
    (sortBy (fun a b => dlt (key a) (key b)) l).Pairwise
      (fun a b => dle (key a) (key b) = true) := by
  induction l with
  | nil => simp [sortBy]
  | cons x xs ih => exact insertSorted_pairwise key x _ ih

/-- After sorting, the popped head has minimal key among all entries. -/
theorem sortBy_head_min {α : Type} (key : α → JDist) {l rest : List α} {p : α}
    (h : sortBy (fun a b => dlt (key a) (key b)) l = p :: rest) :
    ∀ x ∈ l, dle (key p) (key x) = true := by
  intro x hx
  have hperm := sortBy_perm (fun a b => dlt (key a) (key b)) l
  have hx' : x ∈ p :: rest := by
    rw [← h]
    exact hperm.symm.subset hx
  rcases List.mem_cons.mp hx' with hx' | hx'
  · subst hx'; exact dle_refl _
  · have hp := sortBy_pairwise key l
    rw [h, List.pairwise_cons] at hp
    exact hp.1 x hx'

/-- Length of stored row `i`. -/
def rowLen (g : Grid) (i : Nat) : Nat := (g.getD i []).length

/-- The store evolution that every search step performs: dimensions, row
lengths, and each cell's `type`/`row`/`col` are untouched; only the scratch
fields may change. -/
def Preserves (g0 g : Grid) : Prop :=
  numRows g = numRows g0 ∧ numCols g = numCols g0 ∧
  (∀ i, rowLen g i = rowLen g0 i) ∧
  (∀ p : Pos, (getNode g p).type = (getNode g0 p).type ∧
    (getNode g p).row = (getNode g0 p).row ∧
    (getNode g p).col = (getNode g0 p).col)

theorem Preserves.self (g : Grid) : Preserves g g :=
  ⟨Eq.refl _, Eq.refl _, fun _ => Eq.refl _, fun _ => ⟨Eq.refl _, Eq.refl _, Eq.refl _⟩⟩

theorem Preserves.trans {g0 g1 g2 : Grid} (h1 : Preserves g0 g1)
    (h2 : Preserves g1 g2) : Preserves g0 g2 := by
  obtain ⟨a1, b1, c1, d1⟩ := h1
  obtain ⟨a2, b2, c2, d2⟩ := h2
  refine ⟨a2.trans a1, b2.trans b1, fun i => (c2 i).trans (c1 i), fun p => ?_⟩
  obtain ⟨t2, r2, l2⟩ := d2 p
  obtain ⟨t1, r1, l1⟩ := d1 p
  exact ⟨t2.trans t1, r2.trans r1, l2.trans l1⟩

theorem rowLen_gridModify (g : Grid) (p : Pos) (f : Node → Node) (i : Nat) :
    rowLen (gridModify g p f) i = rowLen g i := by
  unfold rowLen gridModify
  by_cases h : i = p.1
  · subst h
    rcases Nat.lt_or_ge p.1 g.length with hl | hl
    · rw [getD_modifyAt_self _ _ _ _ hl, modifyAt_length]
    · rw [modifyAt_of_le _ _ hl]
  · rw [getD_modifyAt_of_ne _ _ _ h]

/-- A `gridModify` with a scratch-field-only update is a `Preserves` step. -/
theorem Preserves.gridModify (g : Grid) (p : Pos) (f : Node → Node)
    (hf : ∀ n, (f n).type = n.type ∧ (f n).row = n.row ∧ (f n).col = n.col) :
    Preserves g (gridModify g p f) := by
  refine ⟨numRows_gridModify g p f, numCols_gridModify g p f,
    rowLen_gridModify g p f, fun q => ?_⟩
  rw [getNode_gridModify]
  split_ifs with h
  · obtain ⟨h1, h2⟩ := h
    subst h1
    exact hf (getNode g q)
  · exact ⟨rfl, rfl, rfl⟩

theorem inStore_of_preserves {g0 g : Grid} (h : Preserves g0 g) (p : Pos) :
    inStore g p ↔ inStore g0 p := by
  unfold inStore
  have h1 : g.length = g0.length := h.1
  have h2 := h.2.2.1 p.1
  unfold rowLen at h2
  rw [h1, h2]

theorem inBounds_of_preserves {g0 g : Grid} (h : Preserves g0 g) (p : Pos) :
    inBounds g p ↔ inBounds g0 p := by
  unfold inBounds
  rw [h.1, h.2.1]

theorem wf_of_preserves {g0 g : Grid} (hw : WFGrid g0) (h : Preserves g0 g) :
    WFGrid g := by
  constructor
  · intro row hrow
    obtain ⟨i, hi, hrow⟩ := List.getElem_of_mem hrow
    have hlen : row.length = rowLen g i := by
      unfold rowLen
      rw [List.getD_eq_getElem _ _ hi, hrow]
    rw [hlen, h.2.2.1 i]
    have hi0 : i < numRows g0 := by
      have : numRows g = g.length := rfl
      rw [← h.1]; exact hi
    have : rowLen g0 i = numCols g0 := by
      unfold rowLen
      have hr : g0.getD i [] ∈ g0 := by
        rw [List.getD_eq_getElem _ _ hi0]
        exact List.getElem_mem _
      exact hw.1 _ hr
    rw [this, h.2.1]
  · intro i hi j hj
    have hb : inBounds g0 (i, j) := by
      constructor
      · rw [← h.1]; exact hi
      · rw [← h.2.1]; exact hj
    obtain ⟨ht, hr, hc⟩ := h.2.2.2 (i, j)
    rw [hr, hc]
    exact wf_coords hw hb

theorem getNode_of_not_inStore {g : Grid} {p : Pos} (h : ¬ inStore g p) :
    getNode g p = defaultNode := by
  unfold getNode
  unfold inStore at h
  rcases Nat.lt_or_ge p.1 g.length with h1 | h1
  · have h2 : (g.getD p.1 []).length ≤ p.2 := by
      rcases Nat.lt_or_ge p.2 (g.getD p.1 []).length with h2 | h2
      · exact absurd ⟨h1, h2⟩ h
      · exact h2
    exact List.getD_eq_default _ _ h2
  · rw [List.getD_eq_default _ _ h1]
    rfl

theorem getNode_mem {g : Grid} {p : Pos} (hp : inStore g p) :
    ∃ row ∈ g, getNode g p ∈ row := by
  refine ⟨g.getD p.1 [], ?_, ?_⟩
  · rw [List.getD_eq_getElem _ _ hp.1]
    exact List.getElem_mem _
  · unfold getNode
    rw [List.getD_eq_getElem _ _ hp.2]
    exact List.getElem_mem _

theorem cleanGrid_getNode {g : Grid} (hc : CleanGrid g) {p : Pos} :
    (getNode g p).isVisited = false ∧ (getNode g p).distance = none ∧
    (getNode g p).heuristic = none ∧ (getNode g p).previousNode = none := by
  by_cases hp : inStore g p
  · obtain ⟨row, hrow, hmem⟩ := getNode_mem hp
    exact hc row hrow _ hmem
  · rw [getNode_of_not_inStore hp]
    exact ⟨rfl, rfl, rfl, rfl⟩

theorem inStore_of_inBounds {g : Grid} (hw : WFGrid g) {p : Pos}
    (hp : inBounds g p) : inStore g p := by
  refine ⟨hp.1, ?_⟩
  have hr : g.getD p.1 [] ∈ g := by
    rw [List.getD_eq_getElem _ _ hp.1]
    exact List.getElem_mem _
  rw [hw.1 _ hr]
  exact hp.2

/-- The `previousNode` chain ending at `p`, listed from the chain root. -/
inductive PrevListOK (g : Grid) : Pos → List Pos → Prop
  | single (p : Pos) : (getNode g p).previousNode = none → PrevListOK g p [p]
  | step (p q : Pos) (l : List Pos) : (getNode g p).previousNode = some q →
      PrevListOK g q l → PrevListOK g p (l ++ [p])

theorem PrevListOK.length_pos {g : Grid} {p : Pos} {l : List Pos}
    (h : PrevListOK g p l) : 0 < l.length := by
  cases h with
  | single _ _ => simp
  | step _ q l _ _ => simp

theorem PrevListOK.getLast_eq {g : Grid} {p : Pos} {l : List Pos}
    (h : PrevListOK g p l) : l.getLast? = some p := by
  cases h with
  | single _ _ => rfl
  | step _ q l hprev hl => simp [List.getLast?_append]

theorem PrevListOK.reconstructAux {g : Grid} {p : Pos} {l : List Pos}
    (h : PrevListOK g p l) :
    ∀ fuel acc, l.length ≤ fuel →
      reconstructPathAux g fuel (some p) acc = l ++ acc := by
  induction h with
  | single p hprev =>
    intro fuel acc hf
    cases fuel with
    | zero => simp at hf
    | succ f =>
      simp only [reconstructPathAux, hprev]
      rfl
  | step p q l hprev hq ih =>
    intro fuel acc hf
    cases fuel with
    | zero => simp at hf
    | succ f =>
      simp only [reconstructPathAux, hprev]
      rw [ih f (p :: acc) (by simp at hf; omega)]
      simp

theorem PrevListOK.transport {g g2 : Grid} {p : Pos} {l : List Pos}
    (h : PrevListOK g p l)
    (heq : ∀ x ∈ l, (getNode g2 x).previousNode = (getNode g x).previousNode) :
    PrevListOK g2 p l := by
  induction h with
  | single p hprev =>
    exact PrevListOK.single p ((heq p (by simp)).trans hprev)
  | step p q l hprev hq ih =>
    refine PrevListOK.step p q l ((heq p (by simp)).trans hprev) (ih ?_)
    intro x hx
    exact heq x (by simp [hx])

theorem length_le_area_of_nodup {g : Grid} {l : List Pos}
    (hd : l.Nodup) (hb : ∀ p ∈ l, inBounds g p) :
    l.length ≤ numRows g * numCols g := by
  classical
  have h1 : l.toFinset ⊆ Finset.range (numRows g) ×ˢ Finset.range (numCols g) := by
    intro p hp
    rw [List.mem_toFinset] at hp
    have hb2 := hb p hp
    rw [Finset.mem_product, Finset.mem_range, Finset.mem_range]
    exact ⟨hb2.1, hb2.2⟩
  have h2 := Finset.card_le_card h1
  rw [List.toFinset_card_of_nodup hd] at h2
  simpa [Finset.card_product, Finset.card_range] using h2

theorem preserves_bfsExpand (p : Pos) :
    ∀ (ns : List Pos) (g : Grid) (queue : List Pos),
      Preserves g (bfsExpand g p queue ns).1 := by
  intro ns
  induction ns with
  | nil => intro g queue; exact Preserves.self g
  | cons q rest ih =>
    intro g queue
    simp only [bfsExpand]
    split_ifs with h
    · refine Preserves.trans ?_ (ih _ _)
      exact Preserves.gridModify _ _ _ (fun n => ⟨rfl, rfl, rfl⟩)
    · exact ih _ _

theorem preserves_bfsLoop (e : Pos) :
    ∀ (fuel : Nat) (g : Grid) (queue vis : List Pos) (gr : Grid)
      (res : PathfindingResult),
      bfsLoop e fuel g queue vis = some (gr, res) → Preserves g gr := by
  intro fuel
  induction fuel with
  | zero => intro g queue vis gr res h; exact absurd h (by simp [bfsLoop])
  | succ f ih =>
    intro g queue vis gr res h
    cases queue with
    | nil =>
      simp only [bfsLoop] at h
      obtain ⟨h1, _⟩ := Prod.mk.injEq .. ▸ (Option.some.injEq .. ▸ h)
      rw [← h1]; exact Preserves.self g
    | cons p rest =>
      simp only [bfsLoop] at h
      split_ifs at h with hwall hend
      · exact ih _ _ _ _ _ h
      · obtain ⟨h1, _⟩ := Prod.mk.injEq .. ▸ (Option.some.injEq .. ▸ h)
        rw [← h1]; exact Preserves.self g
      · exact (preserves_bfsExpand p _ g rest).trans (ih _ _ _ _ _ h)

theorem preserves_bfs {g : Grid} {s e : Pos} {gr : Grid} {res : PathfindingResult}
    (h : bfs g s e = some (gr, res)) : Preserves g gr := by
  simp only [bfs] at h
  refine Preserves.trans ?_ (preserves_bfsLoop e _ _ _ _ _ _ h)
  exact Preserves.gridModify _ _ _ (fun n => ⟨rfl, rfl, rfl⟩)

theorem preserves_dfsExpand (p : Pos) :
    ∀ (ns : List Pos) (g : Grid) (stack : List Pos),
      Preserves g (dfsExpand g p stack ns).1 := by
  intro ns
  induction ns with
  | nil => intro g stack; exact Preserves.self g
  | cons q rest ih =>
    intro g stack
    simp only [dfsExpand]
    split_ifs with h
    · refine Preserves.trans ?_ (ih _ _)
      exact Preserves.gridModify _ _ _ (fun n => ⟨rfl, rfl, rfl⟩)
    · exact ih _ _

theorem preserves_dfsLoop (e : Pos) :
    ∀ (fuel : Nat) (g : Grid) (stack vis : List Pos) (gr : Grid)
      (res : PathfindingResult),
      dfsLoop e fuel g stack vis = some (gr, res) → Preserves g gr := by
  intro fuel
  induction fuel with
  | zero => intro g stack vis gr res h; exact absurd h (by simp [dfsLoop])
  | succ f ih =>
    intro g stack vis gr res h
    cases stack with
    | nil =>
      simp only [dfsLoop] at h
      obtain ⟨h1, _⟩ := Prod.mk.injEq .. ▸ (Option.some.injEq .. ▸ h)
      rw [← h1]; exact Preserves.self g
    | cons p rest =>
      simp only [dfsLoop] at h
      split_ifs at h with hwall hend
      · exact ih _ _ _ _ _ h
      · obtain ⟨h1, _⟩ := Prod.mk.injEq .. ▸ (Option.some.injEq .. ▸ h)
        rw [← h1]; exact Preserves.self g
      · exact (preserves_dfsExpand p _ g rest).trans (ih _ _ _ _ _ h)

theorem preserves_dfs {g : Grid} {s e : Pos} {gr : Grid} {res : PathfindingResult}
    (h : dfs g s e = some (gr, res)) : Preserves g gr := by
  simp only [dfs] at h
  refine Preserves.trans ?_ (preserves_dfsLoop e _ _ _ _ _ _ h)
  exact Preserves.gridModify _ _ _ (fun n => ⟨rfl, rfl, rfl⟩)

theorem preserves_astarExpand (p e : Pos) :
    ∀ (ns : List Pos) (g : Grid) (openSet : List Pos),
      Preserves g (astarExpand g p e openSet ns).1 := by
  intro ns
  induction ns with
  | nil => intro g openSet; exact Preserves.self g
  | cons q rest ih =>
    intro g openSet
    simp only [astarExpand]
    split_ifs with h1 h2 h3
    · exact ih _ _
    · refine Preserves.trans ?_ (ih _ _)
      exact Preserves.gridModify _ _ _ (fun n => ⟨rfl, rfl, rfl⟩)
    · refine Preserves.trans ?_ (ih _ _)
      exact Preserves.gridModify _ _ _ (fun n => ⟨rfl, rfl, rfl⟩)
    · exact ih _ _

theorem preserves_astarLoop (e : Pos) :
    ∀ (fuel : Nat) (g : Grid) (openSet vis : List Pos) (gr : Grid)
      (res : PathfindingResult),
      astarLoop e fuel g openSet vis = some (gr, res) → Preserves g gr := by
  intro fuel
  induction fuel with
  | zero => intro g openSet vis gr res h; exact absurd h (by simp [astarLoop])
  | succ f ih =>
    intro g openSet vis gr res h
    simp only [astarLoop] at h
    cases hs : sortBy (astarLt g) openSet with
    | nil =>
      rw [hs] at h
      dsimp only at h
      obtain ⟨h1, _⟩ := Prod.mk.injEq .. ▸ (Option.some.injEq .. ▸ h)
      rw [← h1]; exact Preserves.self g
    | cons p rest =>
      rw [hs] at h
      dsimp only at h
      split_ifs at h with hwall hvis hend
      · exact ih _ _ _ _ _ h
      · exact ih _ _ _ _ _ h
      · obtain ⟨h1, _⟩ := Prod.mk.injEq .. ▸ (Option.some.injEq .. ▸ h)
        rw [← h1]
        exact Preserves.gridModify _ _ _ (fun n => ⟨rfl, rfl, rfl⟩)
      · have h1 : Preserves g (gridModify g p fun n => { n with isVisited := true }) :=
          Preserves.gridModify _ _ _ (fun n => ⟨rfl, rfl, rfl⟩)
        refine h1.trans (Preserves.trans ?_ (ih _ _ _ _ _ h))
        exact preserves_astarExpand p e _ _ rest

theorem preserves_astar {g : Grid} {s e : Pos} {gr : Grid} {res : PathfindingResult}
    (h : astar g s e = some (gr, res)) : Preserves g gr := by
  simp only [astar] at h
  refine Preserves.trans ?_ (preserves_astarLoop e _ _ _ _ _ _ h)
  exact Preserves.gridModify _ _ _ (fun n => ⟨rfl, rfl, rfl⟩)

theorem preserves_ucsExpand (p : Pos) :
    ∀ (ns : List Pos) (g : Grid) (openSet : List Pos),
      Preserves g (ucsExpand g p openSet ns).1 := by
  intro ns
  induction ns with
  | nil => intro g openSet; exact Preserves.self g
  | cons q rest ih =>
    intro g openSet
    simp only [ucsExpand]
    split_ifs with h1 h2 h3
    · exact ih _ _
    · refine Preserves.trans ?_ (ih _ _)
      exact Preserves.gridModify _ _ _ (fun n => ⟨rfl, rfl, rfl⟩)
    · refine Preserves.trans ?_ (ih _ _)
      exact Preserves.gridModify _ _ _ (fun n => ⟨rfl, rfl, rfl⟩)
    · exact ih _ _

theorem preserves_ucsLoop (e : Pos) :
    ∀ (fuel : Nat) (g : Grid) (openSet vis : List Pos) (gr : Grid)
      (res : PathfindingResult),
      ucsLoop e fuel g openSet vis = some (gr, res) → Preserves g gr := by
  intro fuel
  induction fuel with
  | zero => intro g openSet vis gr res h; exact absurd h (by simp [ucsLoop])
  | succ f ih =>
    intro g openSet vis gr res h
    simp only [ucsLoop] at h
    cases hs : sortBy (ucsLt g) openSet with
    | nil =>
      rw [hs] at h
      dsimp only at h
      obtain ⟨h1, _⟩ := Prod.mk.injEq .. ▸ (Option.some.injEq .. ▸ h)
      rw [← h1]; exact Preserves.self g
    | cons p rest =>
      rw [hs] at h
      dsimp only at h
      split_ifs at h with hwall hvis hend
      · exact ih _ _ _ _ _ h
      · exact ih _ _ _ _ _ h
      · obtain ⟨h1, _⟩ := Prod.mk.injEq .. ▸ (Option.some.injEq .. ▸ h)
        rw [← h1]
        exact Preserves.gridModify _ _ _ (fun n => ⟨rfl, rfl, rfl⟩)
      · have h1 : Preserves g (gridModify g p fun n => { n with isVisited := true }) :=
          Preserves.gridModify _ _ _ (fun n => ⟨rfl, rfl, rfl⟩)
        refine h1.trans (Preserves.trans ?_ (ih _ _ _ _ _ h))
        exact preserves_ucsExpand p _ _ rest

theorem preserves_ucs {g : Grid} {s e : Pos} {gr : Grid} {res : PathfindingResult}
    (h : uniformCostSearch g s e = some (gr, res)) : Preserves g gr := by
  simp only [uniformCostSearch] at h
  refine Preserves.trans ?_ (preserves_ucsLoop e _ _ _ _ _ _ h)
  exact Preserves.gridModify _ _ _ (fun n => ⟨rfl, rfl, rfl⟩)

theorem preserves_greedyExpand (p e : Pos) :
    ∀ (ns : List Pos) (g : Grid) (openSet : List Pos),
      Preserves g (greedyExpand g p e openSet ns).1 := by
  intro ns
  induction ns with
  | nil => intro g openSet; exact Preserves.self g
  | cons q rest ih =>
    intro g openSet
    simp only [greedyExpand]
    split_ifs with h1 h2
    · exact ih _ _
    · refine Preserves.trans ?_ (ih _ _)
      exact Preserves.gridModify _ _ _ (fun n => ⟨rfl, rfl, rfl⟩)
    · exact ih _ _

theorem preserves_greedyLoop (e : Pos) :
    ∀ (fuel : Nat) (g : Grid) (openSet vis : List Pos) (gr : Grid)
      (res : PathfindingResult),
      greedyLoop e fuel g openSet vis = some (gr, res) → Preserves g gr := by
  intro fuel
  induction fuel with
  | zero => intro g openSet vis gr res h; exact absurd h (by simp [greedyLoop])
  | succ f ih =>
    intro g openSet vis gr res h
    simp only [greedyLoop] at h
    cases hs : sortBy (greedyLt g) openSet with
    | nil =>
      rw [hs] at h
      dsimp only at h
      obtain ⟨h1, _⟩ := Prod.mk.injEq .. ▸ (Option.some.injEq .. ▸ h)
      rw [← h1]; exact Preserves.self g
    | cons p rest =>
      rw [hs] at h
      dsimp only at h
      split_ifs at h with hwall hvis hend
      · exact ih _ _ _ _ _ h
      · exact ih _ _ _ _ _ h
      · obtain ⟨h1, _⟩ := Prod.mk.injEq .. ▸ (Option.some.injEq .. ▸ h)
        rw [← h1]
        exact Preserves.gridModify _ _ _ (fun n => ⟨rfl, rfl, rfl⟩)
      · have h1 : Preserves g (gridModify g p fun n => { n with isVisited := true }) :=
          Preserves.gridModify _ _ _ (fun n => ⟨rfl, rfl, rfl⟩)
        refine h1.trans (Preserves.trans ?_ (ih _ _ _ _ _ h))
        exact preserves_greedyExpand p e _ _ rest

theorem preserves_greedy {g : Grid} {s e : Pos} {gr : Grid} {res : PathfindingResult}
    (h : greedyBFS g s e = some (gr, res)) : Preserves g gr := by
  simp only [greedyBFS] at h
  refine Preserves.trans ?_ (preserves_greedyLoop e _ _ _ _ _ _ h)
  exact Preserves.gridModify _ _ _ (fun n => ⟨rfl, rfl, rfl⟩)

theorem getD_map_outer (f : Node → Node) (g : Grid) (i : Nat) :
    (g.map (List.map f)).getD i [] = (g.getD i []).map f := by
  rcases Nat.lt_or_ge i g.length with h | h
  · rw [List.getD_eq_getElem _ _ (by simpa using h), List.getElem_map,
      List.getD_eq_getElem _ _ h]
  · rw [List.getD_eq_default _ _ (by simpa using h), List.getD_eq_default _ _ h]
    rfl

theorem getNode_gridMap (f : Node → Node) (g : Grid) (p : Pos) :
    getNode (g.map (List.map f)) p =
      if inStore g p then f (getNode g p) else defaultNode := by
  unfold getNode
  rw [getD_map_outer]
  split_ifs with h
  · rw [List.getD_eq_getElem _ _ (by simpa using h.2), List.getElem_map,
      List.getD_eq_getElem _ _ h.2]
  · unfold inStore at h
    rcases Nat.lt_or_ge p.2 (g.getD p.1 []).length with h2 | h2
    · rcases Nat.lt_or_ge p.1 g.length with h1 | h1
      · exact absurd ⟨h1, h2⟩ h
      · rw [List.getD_eq_default _ _ h1] at h2
        simp at h2
    · rw [List.getD_eq_default _ _ (by simpa using h2)]

theorem preserves_resetForIteration (g : Grid) :
    Preserves g (resetForIteration g) := by
  refine ⟨by simp [resetForIteration, numRows], ?_, fun i => ?_, fun p => ?_⟩
  · unfold resetForIteration numCols
    cases g with
    | nil => rfl
    | cons r rs => simp
  · unfold resetForIteration rowLen
    rcases Nat.lt_or_ge i g.length with h1 | h1
    · rw [List.getD_eq_getElem _ _ (by simpa using h1), List.getElem_map,
        List.getD_eq_getElem _ _ h1]
      simp
    · rw [List.getD_eq_default _ _ (by simpa using h1),
        List.getD_eq_default _ _ h1]
  · rw [show (resetForIteration g) = g.map (List.map
      (fun n => { n with isVisited := false, previousNode := none })) from rfl]
    rw [getNode_gridMap]
    split_ifs with h
    · exact ⟨rfl, rfl, rfl⟩
    · rw [getNode_of_not_inStore h]
      exact ⟨rfl, rfl, rfl⟩

theorem preserves_dlsGo (e : Pos) (maxDepth : Nat) :
    ∀ (fuel : Nat) (g : Grid) (w : DlsWork) (depth : Nat) (vis : List Pos)
      (gr : Grid) (vis2 : List Pos) (b : Bool),
      dlsGo e maxDepth fuel g w depth vis = some (gr, vis2, b) →
      Preserves g gr := by
  intro fuel
  induction fuel with
  | zero => intro g w depth vis gr vis2 b h; exact absurd h (by simp [dlsGo])
  | succ f ih =>
    intro g w depth vis gr vis2 b h
    cases w with
    | enter p =>
      simp only [dlsGo] at h
      split_ifs at h with hwall hend hdep
      · obtain ⟨h1, _⟩ := Prod.mk.injEq .. ▸ (Option.some.injEq .. ▸ h)
        rw [← h1]; exact Preserves.self g
      · obtain ⟨h1, _⟩ := Prod.mk.injEq .. ▸ (Option.some.injEq .. ▸ h)
        rw [← h1]
        exact Preserves.gridModify _ _ _ (fun n => ⟨rfl, rfl, rfl⟩)
      · obtain ⟨h1, _⟩ := Prod.mk.injEq .. ▸ (Option.some.injEq .. ▸ h)
        rw [← h1]
        exact Preserves.gridModify _ _ _ (fun n => ⟨rfl, rfl, rfl⟩)
      · refine Preserves.trans ?_ (ih _ _ _ _ _ _ _ h)
        exact Preserves.gridModify _ _ _ (fun n => ⟨rfl, rfl, rfl⟩)
    | children parent ns =>
      cases ns with
      | nil =>
        simp only [dlsGo] at h
        obtain ⟨h1, _⟩ := Prod.mk.injEq .. ▸ (Option.some.injEq .. ▸ h)
        rw [← h1]; exact Preserves.self g
      | cons q rest =>
        simp only [dlsGo] at h
        split_ifs at h with hcond
        · cases hrec : dlsGo e maxDepth f
            (gridModify g q fun n => { n with previousNode := some parent })
            (DlsWork.enter q) (depth + 1) vis with
          | none => rw [hrec] at h; exact absurd h (by simp)
          | some out =>
            obtain ⟨g3, vis3, b3⟩ := out
            rw [hrec] at h
            cases b3 with
            | true =>
              simp only at h
              obtain ⟨h1, _⟩ := Prod.mk.injEq .. ▸ (Option.some.injEq .. ▸ h)
              rw [← h1]
              refine Preserves.trans ?_ (ih _ _ _ _ _ _ _ hrec)
              exact Preserves.gridModify _ _ _ (fun n => ⟨rfl, rfl, rfl⟩)
            | false =>
              simp only at h
              refine Preserves.trans ?_ (Preserves.trans
                (ih _ _ _ _ _ _ _ hrec) (ih _ _ _ _ _ _ _ h))
              exact Preserves.gridModify _ _ _ (fun n => ⟨rfl, rfl, rfl⟩)
        · exact ih _ _ _ _ _ _ _ h

theorem preserves_idLoop (s e : Pos) :
    ∀ (ds : List Nat) (g : Grid) (acc : List Pos) (gr : Grid)
      (res : PathfindingResult),
      idLoop s e ds g acc = some (gr, res) → Preserves g gr := by
  intro ds
  induction ds with
  | nil =>
    intro g acc gr res h
    simp only [idLoop] at h
    obtain ⟨h1, _⟩ := Prod.mk.injEq .. ▸ (Option.some.injEq .. ▸ h)
    rw [← h1]; exact Preserves.self g
  | cons d rest ih =>
    intro g acc gr res h
    simp only [idLoop] at h
    cases hrec : depthLimitedSearch (resetForIteration g) s e d acc with
    | none => rw [hrec] at h; exact absurd h (by simp)
    | some out =>
      obtain ⟨g2, acc2, b2⟩ := out
      rw [hrec] at h
      cases b2 with
      | true =>
        simp only at h
        obtain ⟨h1, _⟩ := Prod.mk.injEq .. ▸ (Option.some.injEq .. ▸ h)
        rw [← h1]
        exact (preserves_resetForIteration g).trans
          (preserves_dlsGo e d _ _ _ _ _ _ _ _ hrec)
      | false =>
        simp only at h
        exact ((preserves_resetForIteration g).trans
          (preserves_dlsGo e d _ _ _ _ _ _ _ _ hrec)).trans (ih _ _ _ _ h)

theorem preserves_id {g : Grid} {s e : Pos} {gr : Grid} {res : PathfindingResult}
    (h : iterativeDeepening g s e = some (gr, res)) : Preserves g gr := by
  unfold iterativeDeepening at h
  exact preserves_idLoop s e _ _ _ _ _ h

theorem greedyExpand_admit (p ePos : Pos) :
    ∀ (ns : List Pos) (g : Grid) (os : List Pos) (q : Pos),
      q ∈ (greedyExpand g p ePos os ns).2 →
      q ∈ os ∨ (getNode g q).heuristic = none := by
  intro ns
  induction ns with
  | nil =>
    intro g os q h
    exact Or.inl h
  | cons r rest ih =>
    intro g os q h
    simp only [greedyExpand] at h
    split_ifs at h with h1 h2
    · exact ih g os q h
    · rcases ih _ _ q h with h3 | h3
      · rcases List.mem_append.mp h3 with h4 | h4
        · exact Or.inl h4
        · simp only [List.mem_singleton] at h4
          subst h4
          exact Or.inr h2
      · right
        rw [getNode_gridModify] at h3
        split_ifs at h3 with h4
        exact h3
    · exact ih g os q h

/-- C9: `greedyBFS` admits a neighbor into its frontier only when the
neighbor's `heuristic` field still holds the `Infinity` sentinel at the
moment it is examined; consequently on a grid whose cells were initialized
by `createNode` (heuristic `0`, as `resetGrid`/`clearPath` produce),
`greedyBFS` fails even though a 4-connected non-wall path from start to end
exists. -/
theorem C9_greedy_sentinel_admission :
    (∀ (g : Grid) (p ePos : Pos) (os ns : List Pos) (q : Pos),
        q ∈ (greedyExpand g p ePos os ns).2 →
        q ∈ os ∨ (getNode g q).heuristic = none) ∧
    IsPathFrom (resetGrid 3 3) (1, 0) (1, 2) [(1, 0), (1, 1), (1, 2)] ∧
    (greedyBFS (resetGrid 3 3) (1, 0) (1, 2)).map
      (fun r => (r.2.success, r.2.shortestPath)) = some (false, []) := by
  refine ⟨?_, by decide, by decide⟩
  intro g p ePos os ns q h
  exact greedyExpand_admit p ePos ns g os q h

/-- Witness for C9: a concrete admission instance of the universal part. -/
theorem C9_greedy_sentinel_admission_witness :
    ((0, 1) : Pos) ∈ ([] : List Pos) ∨
      (getNode (mkGrid [[CellType.empty, CellType.empty]]) (0, 1)).heuristic = none :=
  C9_greedy_sentinel_admission.1 (mkGrid [[CellType.empty, CellType.empty]])
    (0, 0) (0, 1) [] [(0, 1)] (0, 1) (by decide)

/-- C10: every one of the six search functions mutates only per-run scratch
fields of grid cells; the `type` (kind) of every cell is the same after the
search as before it. -/
theorem C10_kind_unchanged :
    (∀ (g : Grid) (s e : Pos) (gr : Grid) (res : PathfindingResult),
      bfs g s e = some (gr, res) →
      ∀ p : Pos, (getNode gr p).type = (getNode g p).type) ∧
    (∀ (g : Grid) (s e : Pos) (gr : Grid) (res : PathfindingResult),
      dfs g s e = some (gr, res) →
      ∀ p : Pos, (getNode gr p).type = (getNode g p).type) ∧
    (∀ (g : Grid) (s e : Pos) (gr : Grid) (res : PathfindingResult),
      astar g s e = some (gr, res) →
      ∀ p : Pos, (getNode gr p).type = (getNode g p).type) ∧
    (∀ (g : Grid) (s e : Pos) (gr : Grid) (res : PathfindingResult),
      greedyBFS g s e = some (gr, res) →
      ∀ p : Pos, (getNode gr p).type = (getNode g p).type) ∧
    (∀ (g : Grid) (s e : Pos) (gr : Grid) (res : PathfindingResult),
      uniformCostSearch g s e = some (gr, res) →
      ∀ p : Pos, (getNode gr p).type = (getNode g p).type) ∧
    (∀ (g : Grid) (s e : Pos) (gr : Grid) (res : PathfindingResult),
      iterativeDeepening g s e = some (gr, res) →
      ∀ p : Pos, (getNode gr p).type = (getNode g p).type) := by
  refine ⟨?_, ?_, ?_, ?_, ?_, ?_⟩ <;>
    intro g s e gr res h p
  · exact ((preserves_bfs h).2.2.2 p).1
  · exact ((preserves_dfs h).2.2.2 p).1
  · exact ((preserves_astar h).2.2.2 p).1
  · exact ((preserves_greedy h).2.2.2 p).1
  · exact ((preserves_ucs h).2.2.2 p).1
  · exact ((preserves_id h).2.2.2 p).1

/-- A 1-by-2 grid used by several witnesses. -/
def gW12 : Grid := mkGrid [[CellType.start, CellType.endCell]]

/-- Default pair used to project an optional run result in witnesses. -/
def dfltRun : Grid × PathfindingResult := ([], ⟨[], [], false⟩)

/-- Witness for C10: all six components applied to a concrete 1-by-2 grid. -/
theorem C10_kind_unchanged_witness :
    (getNode ((bfs gW12 (0,0) (0,1)).getD dfltRun).1 (0,1)).type =
      (getNode gW12 (0,1)).type ∧
    (getNode ((dfs gW12 (0,0) (0,1)).getD dfltRun).1 (0,1)).type =
      (getNode gW12 (0,1)).type ∧
    (getNode ((astar gW12 (0,0) (0,1)).getD dfltRun).1 (0,1)).type =
      (getNode gW12 (0,1)).type ∧
    (getNode ((greedyBFS gW12 (0,0) (0,1)).getD dfltRun).1 (0,1)).type =
      (getNode gW12 (0,1)).type ∧
    (getNode ((uniformCostSearch gW12 (0,0) (0,1)).getD dfltRun).1 (0,1)).type =
      (getNode gW12 (0,1)).type ∧
    (getNode ((iterativeDeepening gW12 (0,0) (0,1)).getD dfltRun).1 (0,1)).type =
      (getNode gW12 (0,1)).type := by
  refine ⟨?_, ?_, ?_, ?_, ?_, ?_⟩
  · have h : bfs gW12 (0,0) (0,1) =
        some (((bfs gW12 (0,0) (0,1)).getD dfltRun).1,
              ((bfs gW12 (0,0) (0,1)).getD dfltRun).2) := by decide
    exact C10_kind_unchanged.1 gW12 (0,0) (0,1) _ _ h (0,1)
  · have h : dfs gW12 (0,0) (0,1) =
        some (((dfs gW12 (0,0) (0,1)).getD dfltRun).1,
              ((dfs gW12 (0,0) (0,1)).getD dfltRun).2) := by decide
    exact C10_kind_unchanged.2.1 gW12 (0,0) (0,1) _ _ h (0,1)
  · have h : astar gW12 (0,0) (0,1) =
        some (((astar gW12 (0,0) (0,1)).getD dfltRun).1,
              ((astar gW12 (0,0) (0,1)).getD dfltRun).2) := by decide
    exact C10_kind_unchanged.2.2.1 gW12 (0,0) (0,1) _ _ h (0,1)
  · have h : greedyBFS gW12 (0,0) (0,1) =
        some (((greedyBFS gW12 (0,0) (0,1)).getD dfltRun).1,
              ((greedyBFS gW12 (0,0) (0,1)).getD dfltRun).2) := by decide
    exact C10_kind_unchanged.2.2.2.1 gW12 (0,0) (0,1) _ _ h (0,1)
  · have h : uniformCostSearch gW12 (0,0) (0,1) =
        some (((uniformCostSearch gW12 (0,0) (0,1)).getD dfltRun).1,
              ((uniformCostSearch gW12 (0,0) (0,1)).getD dfltRun).2) := by decide
    exact C10_kind_unchanged.2.2.2.2.1 gW12 (0,0) (0,1) _ _ h (0,1)
  · have h : iterativeDeepening gW12 (0,0) (0,1) =
        some (((iterativeDeepening gW12 (0,0) (0,1)).getD dfltRun).1,
              ((iterativeDeepening gW12 (0,0) (0,1)).getD dfltRun).2) := by decide
    exact C10_kind_unchanged.2.2.2.2.2 gW12 (0,0) (0,1) _ _ h (0,1)

theorem numCols_eq_zero_of_numRows {g : Grid} (h : numRows g = 0) :
    numCols g = 0 := by
  unfold numRows at h
  rw [List.length_eq_zero] at h
  subst h
  rfl

/-- On a well-formed grid with at least one column, every produced neighbor
coordinate is in bounds, no matter which cell was expanded. -/
theorem getNeighbors_inBounds {g : Grid} (hw : WFGrid g) (hc : 0 < numCols g)
    (p : Pos) : ∀ q ∈ getNeighbors (getNode g p) g, inBounds g q := by
  intro q hq
  by_cases hp : inStore g p
  · have hpb : inBounds g p := by
      refine ⟨hp.1, ?_⟩
      have hr : g.getD p.1 [] ∈ g := by
        rw [List.getD_eq_getElem _ _ hp.1]
        exact List.getElem_mem _
      have := hw.1 _ hr
      rw [← this]
      exact hp.2
    exact (mem_getNeighbors hw hpb hq).1
  · rw [getNode_of_not_inStore hp] at hq
    have hrow : 0 < numRows g := by
      rcases Nat.eq_zero_or_pos (numRows g) with h0 | h0
      · rw [numCols_eq_zero_of_numRows h0] at hc
        exact absurd hc (by simp)
      · exact h0
    unfold getNeighbors at hq
    simp only [List.mem_append] at hq
    rcases hq with ((hq | hq) | hq) | hq
    · simp only [defaultNode] at hq
      rw [if_neg (by simp)] at hq
      simp at hq
    · simp only [defaultNode] at hq
      by_cases h1 : (0 : Nat) < numCols g - 1
      · rw [if_pos h1] at hq
        simp only [List.mem_singleton] at hq
        subst hq
        exact ⟨hrow, by omega⟩
      · rw [if_neg h1] at hq; simp at hq
    · simp only [defaultNode] at hq
      by_cases h1 : (0 : Nat) < numRows g - 1
      · rw [if_pos h1] at hq
        simp only [List.mem_singleton] at hq
        subst hq
        exact ⟨by omega, hc⟩
      · rw [if_neg h1] at hq; simp at hq
    · simp only [defaultNode] at hq
      rw [if_neg (by simp)] at hq
      simp at hq

theorem astarExpand_visited_eq (p e : Pos) :
    ∀ (ns : List Pos) (g : Grid) (os : List Pos) (x : Pos),
      (getNode (astarExpand g p e os ns).1 x).isVisited =
        (getNode g x).isVisited := by
  intro ns
  induction ns with
  | nil => intro g os x; rfl
  | cons q rest ih =>
    intro g os x
    simp only [astarExpand]
    split_ifs with h1 h2 h3
    · exact ih g os x
    · rw [ih, getNode_gridModify]
      split_ifs with h4
      · obtain ⟨hx, _⟩ := h4
        subst hx
        rfl
      · rfl
    · rw [ih, getNode_gridModify]
      split_ifs with h4
      · obtain ⟨hx, _⟩ := h4
        subst hx
        rfl
      · rfl
    · exact ih g os x

theorem ucsExpand_visited_eq (p : Pos) :
    ∀ (ns : List Pos) (g : Grid) (os : List Pos) (x : Pos),
      (getNode (ucsExpand g p os ns).1 x).isVisited =
        (getNode g x).isVisited := by
  intro ns
  induction ns with
  | nil => intro g os x; rfl
  | cons q rest ih =>
    intro g os x
    simp only [ucsExpand]
    split_ifs with h1 h2 h3
    · exact ih g os x
    · rw [ih, getNode_gridModify]
      split_ifs with h4
      · obtain ⟨hx, _⟩ := h4
        subst hx
        rfl
      · rfl
    · rw [ih, getNode_gridModify]
      split_ifs with h4
      · obtain ⟨hx, _⟩ := h4
        subst hx
        rfl
      · rfl
    · exact ih g os x

theorem greedyExpand_visited_eq (p e : Pos) :
    ∀ (ns : List Pos) (g : Grid) (os : List Pos) (x : Pos),
      (getNode (greedyExpand g p e os ns).1 x).isVisited =
        (getNode g x).isVisited := by
  intro ns
  induction ns with
  | nil => intro g os x; rfl
  | cons q rest ih =>
    intro g os x
    simp only [greedyExpand]
    split_ifs with h1 h2
    · exact ih g os x
    · rw [ih, getNode_gridModify]
      split_ifs with h4
      · obtain ⟨hx, _⟩ := h4
        subst hx
        rfl
      · rfl
    · exact ih g os x

theorem astarExpand_subset (p e : Pos) :
    ∀ (ns : List Pos) (g : Grid) (os : List Pos) (q : Pos),
      q ∈ (astarExpand g p e os ns).2 → q ∈ os ∨ q ∈ ns := by
  intro ns
  induction ns with
  | nil => intro g os q h; exact Or.inl h
  | cons r rest ih =>
    intro g os q h
    simp only [astarExpand] at h
    split_ifs at h with h1 h2 h3
    · rcases ih _ _ _ h with h4 | h4
      · exact Or.inl h4
      · exact Or.inr (List.mem_cons_of_mem r h4)
    · rcases ih _ _ _ h with h4 | h4
      · exact Or.inl h4
      · exact Or.inr (List.mem_cons_of_mem r h4)
    · rcases ih _ _ _ h with h4 | h4
      · rcases List.mem_append.mp h4 with h5 | h5
        · exact Or.inl h5
        · simp only [List.mem_singleton] at h5
          subst h5
          exact Or.inr (List.mem_cons_self _ _)
      · exact Or.inr (List.mem_cons_of_mem r h4)
    · rcases ih _ _ _ h with h4 | h4
      · exact Or.inl h4
      · exact Or.inr (List.mem_cons_of_mem r h4)

theorem ucsExpand_subset (p : Pos) :
    ∀ (ns : List Pos) (g : Grid) (os : List Pos) (q : Pos),
      q ∈ (ucsExpand g p os ns).2 → q ∈ os ∨ q ∈ ns := by
  intro ns
  induction ns with
  | nil => intro g os q h; exact Or.inl h
  | cons r rest ih =>
    intro g os q h
    simp only [ucsExpand] at h
    split_ifs at h with h1 h2 h3
    · rcases ih _ _ _ h with h4 | h4
      · exact Or.inl h4
      · exact Or.inr (List.mem_cons_of_mem r h4)
    · rcases ih _ _ _ h with h4 | h4
      · exact Or.inl h4
      · exact Or.inr (List.mem_cons_of_mem r h4)
    · rcases ih _ _ _ h with h4 | h4
      · rcases List.mem_append.mp h4 with h5 | h5
        · exact Or.inl h5
        · simp only [List.mem_singleton] at h5
          subst h5
          exact Or.inr (List.mem_cons_self _ _)
      · exact Or.inr (List.mem_cons_of_mem r h4)
    · rcases ih _ _ _ h with h4 | h4
      · exact Or.inl h4
      · exact Or.inr (List.mem_cons_of_mem r h4)

theorem greedyExpand_subset (p e : Pos) :
    ∀ (ns : List Pos) (g : Grid) (os : List Pos) (q : Pos),
      q ∈ (greedyExpand g p e os ns).2 → q ∈ os ∨ q ∈ ns := by
  intro ns
  induction ns with
  | nil => intro g os q h; exact Or.inl h
  | cons r rest ih =>
    intro g os q h
    simp only [greedyExpand] at h
    split_ifs at h with h1 h2
    · rcases ih _ _ _ h with h4 | h4
      · exact Or.inl h4
      · exact Or.inr (List.mem_cons_of_mem r h4)
    · rcases ih _ _ _ h with h4 | h4
      · rcases List.mem_append.mp h4 with h5 | h5
        · exact Or.inl h5
        · simp only [List.mem_singleton] at h5
          subst h5
          exact Or.inr (List.mem_cons_self _ _)
      · exact Or.inr (List.mem_cons_of_mem r h4)
    · rcases ih _ _ _ h with h4 | h4
      · exact Or.inl h4
      · exact Or.inr (List.mem_cons_of_mem r h4)

theorem astarLoop_nodup (e : Pos) :
    ∀ (fuel : Nat) (g : Grid) (os vis : List Pos) (gr : Grid)
      (res : PathfindingResult),
      WFGrid g → 0 < numCols g →
      vis.Nodup → (∀ x ∈ vis, (getNode g x).isVisited = true) →
      (∀ x ∈ os, inBounds g x) →
      astarLoop e fuel g os vis = some (gr, res) →
      res.visitedNodesInOrder.Nodup := by
  intro fuel
  induction fuel with
  | zero => intro g os vis gr res _ _ _ _ _ h; exact absurd h (by simp [astarLoop])
  | succ f ih =>
    intro g os vis gr res hw hc hnd hmk hbd h
    simp only [astarLoop] at h
    cases hs : sortBy (astarLt g) os with
    | nil =>
      rw [hs] at h
      dsimp only at h
      obtain ⟨_, h2⟩ := Prod.mk.injEq .. ▸ (Option.some.injEq .. ▸ h)
      rw [← h2]
      exact hnd
    | cons p rest =>
      have hosrest : ∀ x ∈ rest, x ∈ os := by
        intro x hx
        exact (sortBy_perm (astarLt g) os).subset (by rw [hs]; exact List.mem_cons_of_mem p hx)
      have hpos : p ∈ os :=
        (sortBy_perm (astarLt g) os).subset (by rw [hs]; exact List.mem_cons_self _ _)
      rw [hs] at h
      dsimp only at h
      split_ifs at h with hwall hvisd hend
      · exact ih g rest vis gr res hw hc hnd hmk (fun x hx => hbd x (hosrest x hx)) h
      · exact ih g rest vis gr res hw hc hnd hmk (fun x hx => hbd x (hosrest x hx)) h
      · obtain ⟨_, h2⟩ := Prod.mk.injEq .. ▸ (Option.some.injEq .. ▸ h)
        rw [← h2]
        simp only
        rw [List.nodup_append]
        refine ⟨hnd, List.nodup_singleton p, ?_⟩
        intro x hx hx2
        simp only [List.mem_singleton] at hx2
        subst hx2
        rw [hmk x hx] at hvisd
        exact hvisd rfl
      · have hpb : inBounds g p := hbd p hpos
        have hprev : Preserves g (gridModify g p fun n => { n with isVisited := true }) :=
          Preserves.gridModify _ _ _ (fun n => ⟨rfl, rfl, rfl⟩)
        have hw2 : WFGrid (gridModify g p fun n => { n with isVisited := true }) :=
          wf_of_preserves hw hprev
        have hnd2 : (vis ++ [p]).Nodup := by
          rw [List.nodup_append]
          refine ⟨hnd, List.nodup_singleton p, ?_⟩
          intro x hx hx2
          simp only [List.mem_singleton] at hx2
          subst hx2
          rw [hmk x hx] at hvisd
          exact hvisd rfl
        refine ih _ _ _ gr res (wf_of_preserves hw2 (preserves_astarExpand p e _ _ _))
          (by rw [(preserves_astarExpand p e _ _ _).2.1, hprev.2.1]; exact hc)
          hnd2 ?_ ?_ h
        · intro x hx
          rw [astarExpand_visited_eq, getNode_gridModify]
          rcases List.mem_append.mp hx with hx2 | hx2
          · split_ifs with h4
            · rfl
            · exact hmk x hx2
          · simp only [List.mem_singleton] at hx2
            subst hx2
            rw [if_pos ⟨rfl, inStore_of_inBounds hw hpb⟩]
        · intro x hx
          rcases astarExpand_subset p e _ _ _ _ hx with hx2 | hx2
          · rw [inBounds_of_preserves ((hprev.trans (preserves_astarExpand p e _ _ _))) x]
            exact hbd x (hosrest x hx2)
          · rw [inBounds_of_preserves (preserves_astarExpand p e _ _ _) x]
            exact getNeighbors_inBounds hw2
              (by rw [hprev.2.1]; exact hc) p x hx2

theorem ucsLoop_nodup (e : Pos) :
    ∀ (fuel : Nat) (g : Grid) (os vis : List Pos) (gr : Grid)
      (res : PathfindingResult),
      WFGrid g → 0 < numCols g →
      vis.Nodup → (∀ x ∈ vis, (getNode g x).isVisited = true) →
      (∀ x ∈ os, inBounds g x) →
      ucsLoop e fuel g os vis = some (gr, res) →
      res.visitedNodesInOrder.Nodup := by
  intro fuel
  induction fuel with
  | zero => intro g os vis gr res _ _ _ _ _ h; exact absurd h (by simp [ucsLoop])
  | succ f ih =>
    intro g os vis gr res hw hc hnd hmk hbd h
    simp only [ucsLoop] at h
    cases hs : sortBy (ucsLt g) os with
    | nil =>
      rw [hs] at h
      dsimp only at h
      obtain ⟨_, h2⟩ := Prod.mk.injEq .. ▸ (Option.some.injEq .. ▸ h)
      rw [← h2]
      exact hnd
    | cons p rest =>
      have hosrest : ∀ x ∈ rest, x ∈ os := by
        intro x hx
        exact (sortBy_perm (ucsLt g) os).subset (by rw [hs]; exact List.mem_cons_of_mem p hx)
      have hpos : p ∈ os :=
        (sortBy_perm (ucsLt g) os).subset (by rw [hs]; exact List.mem_cons_self _ _)
      rw [hs] at h
      dsimp only at h
      split_ifs at h with hwall hvisd hend
      · exact ih g rest vis gr res hw hc hnd hmk (fun x hx => hbd x (hosrest x hx)) h
      · exact ih g rest vis gr res hw hc hnd hmk (fun x hx => hbd x (hosrest x hx)) h
      · obtain ⟨_, h2⟩ := Prod.mk.injEq .. ▸ (Option.some.injEq .. ▸ h)
        rw [← h2]
        simp only
        rw [List.nodup_append]
        refine ⟨hnd, List.nodup_singleton p, ?_⟩
        intro x hx hx2
        simp only [List.mem_singleton] at hx2
        subst hx2
        rw [hmk x hx] at hvisd
        exact hvisd rfl
      · have hpb : inBounds g p := hbd p hpos
        have hprev : Preserves g (gridModify g p fun n => { n with isVisited := true }) :=
          Preserves.gridModify _ _ _ (fun n => ⟨rfl, rfl, rfl⟩)
        have hw2 : WFGrid (gridModify g p fun n => { n with isVisited := true }) :=
          wf_of_preserves hw hprev
        have hnd2 : (vis ++ [p]).Nodup := by
          rw [List.nodup_append]
          refine ⟨hnd, List.nodup_singleton p, ?_⟩
          intro x hx hx2
          simp only [List.mem_singleton] at hx2
          subst hx2
          rw [hmk x hx] at hvisd
          exact hvisd rfl
        refine ih _ _ _ gr res (wf_of_preserves hw2 (preserves_ucsExpand p _ _ _))
          (by rw [(preserves_ucsExpand p _ _ _).2.1, hprev.2.1]; exact hc)
          hnd2 ?_ ?_ h
        · intro x hx
          rw [ucsExpand_visited_eq, getNode_gridModify]
          rcases List.mem_append.mp hx with hx2 | hx2
          · split_ifs with h4
            · rfl
            · exact hmk x hx2
          · simp only [List.mem_singleton] at hx2
            subst hx2
            rw [if_pos ⟨rfl, inStore_of_inBounds hw hpb⟩]
        · intro x hx
          rcases ucsExpand_subset p _ _ _ _ hx with hx2 | hx2
          · rw [inBounds_of_preserves ((hprev.trans (preserves_ucsExpand p _ _ _))) x]
            exact hbd x (hosrest x hx2)
          · rw [inBounds_of_preserves (preserves_ucsExpand p _ _ _) x]
            exact getNeighbors_inBounds hw2
              (by rw [hprev.2.1]; exact hc) p x hx2

theorem greedyLoop_nodup (e : Pos) :
    ∀ (fuel : Nat) (g : Grid) (os vis : List Pos) (gr : Grid)
      (res : PathfindingResult),
      WFGrid g → 0 < numCols g →
      vis.Nodup → (∀ x ∈ vis, (getNode g x).isVisited = true) →
      (∀ x ∈ os, inBounds g x) →
      greedyLoop e fuel g os vis = some (gr, res) →
      res.visitedNodesInOrder.Nodup := by
  intro fuel
  induction fuel with
  | zero => intro g os vis gr res _ _ _ _ _ h; exact absurd h (by simp [greedyLoop])
  | succ f ih =>
    intro g os vis gr res hw hc hnd hmk hbd h
    simp only [greedyLoop] at h
    cases hs : sortBy (greedyLt g) os with
    | nil =>
      rw [hs] at h
      dsimp only at h
      obtain ⟨_, h2⟩ := Prod.mk.injEq .. ▸ (Option.some.injEq .. ▸ h)
      rw [← h2]
      exact hnd
    | cons p rest =>
      have hosrest : ∀ x ∈ rest, x ∈ os := by
        intro x hx
        exact (sortBy_perm (greedyLt g) os).subset (by rw [hs]; exact List.mem_cons_of_mem p hx)
      have hpos : p ∈ os :=
        (sortBy_perm (greedyLt g) os).subset (by rw [hs]; exact List.mem_cons_self _ _)
      rw [hs] at h
      dsimp only at h
      split_ifs at h with hwall hvisd hend
      · exact ih g rest vis gr res hw hc hnd hmk (fun x hx => hbd x (hosrest x hx)) h
      · exact ih g rest vis gr res hw hc hnd hmk (fun x hx => hbd x (hosrest x hx)) h
      · obtain ⟨_, h2⟩ := Prod.mk.injEq .. ▸ (Option.some.injEq .. ▸ h)
        rw [← h2]
        simp only
        rw [List.nodup_append]
        refine ⟨hnd, List.nodup_singleton p, ?_⟩
        intro x hx hx2
        simp only [List.mem_singleton] at hx2
        subst hx2
        rw [hmk x hx] at hvisd
        exact hvisd rfl
      · have hpb : inBounds g p := hbd p hpos
        have hprev : Preserves g (gridModify g p fun n => { n with isVisited := true }) :=
          Preserves.gridModify _ _ _ (fun n => ⟨rfl, rfl, rfl⟩)
        have hw2 : WFGrid (gridModify g p fun n => { n with isVisited := true }) :=
          wf_of_preserves hw hprev
        have hnd2 : (vis ++ [p]).Nodup := by
          rw [List.nodup_append]
          refine ⟨hnd, List.nodup_singleton p, ?_⟩
          intro x hx hx2
          simp only [List.mem_singleton] at hx2
          subst hx2
          rw [hmk x hx] at hvisd
          exact hvisd rfl
        refine ih _ _ _ gr res (wf_of_preserves hw2 (preserves_greedyExpand p e _ _ _))
          (by rw [(preserves_greedyExpand p e _ _ _).2.1, hprev.2.1]; exact hc)
          hnd2 ?_ ?_ h
        · intro x hx
          rw [greedyExpand_visited_eq, getNode_gridModify]
          rcases List.mem_append.mp hx with hx2 | hx2
          · split_ifs with h4
            · rfl
            · exact hmk x hx2
          · simp only [List.mem_singleton] at hx2
            subst hx2
            rw [if_pos ⟨rfl, inStore_of_inBounds hw hpb⟩]
        · intro x hx
          rcases greedyExpand_subset p e _ _ _ _ hx with hx2 | hx2
          · rw [inBounds_of_preserves ((hprev.trans (preserves_greedyExpand p e _ _ _))) x]
            exact hbd x (hosrest x hx2)
          · rw [inBounds_of_preserves (preserves_greedyExpand p e _ _ _) x]
            exact getNeighbors_inBounds hw2
              (by rw [hprev.2.1]; exact hc) p x hx2

theorem bfsExpand_inv (p : Pos) :
    ∀ (ns : List Pos) (g : Grid) (queue extra : List Pos),
      WFGrid g →
      (∀ q ∈ ns, inBounds g q) →
      (queue ++ extra).Nodup →
      (∀ x ∈ queue ++ extra, (getNode g x).isVisited = true) →
      (∀ x ∈ queue ++ extra, inBounds g x) →
      ((bfsExpand g p queue ns).2 ++ extra).Nodup ∧
      (∀ x ∈ (bfsExpand g p queue ns).2 ++ extra,
          (getNode (bfsExpand g p queue ns).1 x).isVisited = true) ∧
      (∀ x ∈ (bfsExpand g p queue ns).2 ++ extra,
          inBounds (bfsExpand g p queue ns).1 x) := by
  intro ns
  induction ns with
  | nil =>
    intro g queue extra hw hns hnd hmk hbd
    exact ⟨hnd, hmk, fun x hx => hbd x hx⟩
  | cons q rest ih =>
    intro g queue extra hw hns hnd hmk hbd
    simp only [bfsExpand]
    split_ifs with hcond
    · have hqb : inBounds g q := hns q (List.mem_cons_self _ _)
      have hqs : inStore g q := inStore_of_inBounds hw hqb
      have hprev : Preserves g (gridModify g q fun n =>
          { n with isVisited := true, previousNode := some p,
                   distance := dadd (getNode g p).distance (some 1) }) :=
        Preserves.gridModify _ _ _ (fun n => ⟨rfl, rfl, rfl⟩)
      have hqnotmem : q ∉ queue ++ extra := by
        intro hmem
        rw [hmk q hmem] at hcond
        exact absurd hcond.1 (by simp)
      refine ih _ _ _ (wf_of_preserves hw hprev) ?_ ?_ ?_ ?_
      · intro r hr
        rw [inBounds_of_preserves hprev]
        exact hns r (List.mem_cons_of_mem q hr)
      · rw [List.append_assoc, List.singleton_append, List.nodup_middle]
        exact List.Nodup.cons hqnotmem hnd
      · intro x hx
        rw [getNode_gridModify]
        rcases List.mem_append.mp hx with hx2 | hx2
        · rcases List.mem_append.mp hx2 with hx3 | hx3
          · split_ifs with h4
            · rfl
            · exact hmk x (List.mem_append.mpr (Or.inl hx3))
          · simp only [List.mem_singleton] at hx3
            subst hx3
            rw [if_pos ⟨rfl, hqs⟩]
        · split_ifs with h4
          · rfl
          · exact hmk x (List.mem_append.mpr (Or.inr hx2))
      · intro x hx
        rw [inBounds_of_preserves hprev]
        rcases List.mem_append.mp hx with hx2 | hx2
        · rcases List.mem_append.mp hx2 with hx3 | hx3
          · exact hbd x (List.mem_append.mpr (Or.inl hx3))
          · simp only [List.mem_singleton] at hx3
            subst hx3
            exact hqb
        · exact hbd x (List.mem_append.mpr (Or.inr hx2))
    · exact ih _ _ _ hw (fun r hr => hns r (List.mem_cons_of_mem q hr)) hnd hmk hbd

theorem bfsLoop_nodup (e : Pos) :
    ∀ (fuel : Nat) (g : Grid) (queue vis : List Pos) (gr : Grid)
      (res : PathfindingResult),
      WFGrid g → 0 < numCols g →
      (queue ++ vis).Nodup →
      (∀ x ∈ queue ++ vis, (getNode g x).isVisited = true) →
      (∀ x ∈ queue ++ vis, inBounds g x) →
      bfsLoop e fuel g queue vis = some (gr, res) →
      res.visitedNodesInOrder.Nodup := by
  intro fuel
  induction fuel with
  | zero => intro g queue vis gr res _ _ _ _ _ h; exact absurd h (by simp [bfsLoop])
  | succ f ih =>
    intro g queue vis gr res hw hc hnd hmk hbd h
    cases queue with
    | nil =>
      simp only [bfsLoop] at h
      obtain ⟨_, h2⟩ := Prod.mk.injEq .. ▸ (Option.some.injEq .. ▸ h)
      rw [← h2]
      simpa using hnd
    | cons p rest =>
      simp only [bfsLoop] at h
      have hnd2 : (p :: (rest ++ vis)).Nodup := by simpa using hnd
      split_ifs at h with hwall hend
      · refine ih g rest vis gr res hw hc hnd2.of_cons
          (fun x hx => hmk x (List.mem_cons_of_mem p hx))
          (fun x hx => hbd x (List.mem_cons_of_mem p hx)) h
      · obtain ⟨_, h2⟩ := Prod.mk.injEq .. ▸ (Option.some.injEq .. ▸ h)
        rw [← h2]
        simp only
        rw [List.nodup_append]
        refine ⟨(List.nodup_append.mp hnd2.of_cons).2.1, List.nodup_singleton p, ?_⟩
        intro x hx hx2
        simp only [List.mem_singleton] at hx2
        subst hx2
        rw [List.nodup_cons] at hnd2
        exact hnd2.1 (List.mem_append.mpr (Or.inr hx))
      · have hexp := bfsExpand_inv p (getNeighbors (getNode g p) g) g rest (vis ++ [p])
          hw (getNeighbors_inBounds hw hc p) ?_ ?_ ?_
        · exact ih _ _ _ gr res
            (wf_of_preserves hw (preserves_bfsExpand p _ g rest))
            (by rw [(preserves_bfsExpand p _ g rest).2.1]; exact hc)
            (by rw [← List.append_assoc]; exact (by rw [← List.append_assoc] at hexp; exact hexp.1))
            (fun x hx => hexp.2.1 x hx)
            (fun x hx => hexp.2.2 x hx) h
        · rw [← List.append_assoc, List.nodup_append]
          rw [List.nodup_cons] at hnd2
          refine ⟨hnd2.2, List.nodup_singleton p, ?_⟩
          intro x hx hx2
          simp only [List.mem_singleton] at hx2
          subst hx2
          exact hnd2.1 hx
        · intro x hx
          rw [← List.append_assoc] at hx
          rcases List.mem_append.mp hx with hx2 | hx2
          · exact hmk x (List.mem_cons_of_mem p hx2)
          · simp only [List.mem_singleton] at hx2
            subst hx2
            exact hmk x (List.mem_append.mpr (Or.inl (List.mem_cons_self _ _)))
        · intro x hx
          rw [← List.append_assoc] at hx
          rcases List.mem_append.mp hx with hx2 | hx2
          · exact hbd x (List.mem_cons_of_mem p hx2)
          · simp only [List.mem_singleton] at hx2
            subst hx2
            exact hbd x (List.mem_append.mpr (Or.inl (List.mem_cons_self _ _)))

theorem dfsExpand_inv (p : Pos) :
    ∀ (ns : List Pos) (g : Grid) (stack extra : List Pos),
      WFGrid g →
      (∀ q ∈ ns, inBounds g q) →
      (stack ++ extra).Nodup →
      (∀ x ∈ stack ++ extra, (getNode g x).isVisited = true) →
      (∀ x ∈ stack ++ extra, inBounds g x) →
      ((dfsExpand g p stack ns).2 ++ extra).Nodup ∧
      (∀ x ∈ (dfsExpand g p stack ns).2 ++ extra,
          (getNode (dfsExpand g p stack ns).1 x).isVisited = true) ∧
      (∀ x ∈ (dfsExpand g p stack ns).2 ++ extra,
          inBounds (dfsExpand g p stack ns).1 x) := by
  intro ns
  induction ns with
  | nil =>
    intro g stack extra hw hns hnd hmk hbd
    exact ⟨hnd, hmk, fun x hx => hbd x hx⟩
  | cons q rest ih =>
    intro g stack extra hw hns hnd hmk hbd
    simp only [dfsExpand]
    split_ifs with hcond
    · have hqb : inBounds g q := hns q (List.mem_cons_self _ _)
      have hqs : inStore g q := inStore_of_inBounds hw hqb
      have hprev : Preserves g (gridModify g q fun n =>
          { n with isVisited := true, previousNode := some p }) :=
        Preserves.gridModify _ _ _ (fun n => ⟨rfl, rfl, rfl⟩)
      have hqnotmem : q ∉ stack ++ extra := by
        intro hmem
        rw [hmk q hmem] at hcond
        exact absurd hcond.1 (by simp)
      refine ih _ _ _ (wf_of_preserves hw hprev) ?_ ?_ ?_ ?_
      · intro r hr
        rw [inBounds_of_preserves hprev]
        exact hns r (List.mem_cons_of_mem q hr)
      · exact List.Nodup.cons hqnotmem hnd
      · intro x hx
        rw [getNode_gridModify]
        rcases List.mem_cons.mp hx with hx2 | hx2
        · subst hx2
          rw [if_pos ⟨rfl, hqs⟩]
        · split_ifs with h4
          · rfl
          · exact hmk x hx2
      · intro x hx
        rw [inBounds_of_preserves hprev]
        rcases List.mem_cons.mp hx with hx2 | hx2
        · subst hx2
          exact hqb
        · exact hbd x hx2
    · exact ih _ _ _ hw (fun r hr => hns r (List.mem_cons_of_mem q hr)) hnd hmk hbd

theorem dfsLoop_nodup (e : Pos) :
    ∀ (fuel : Nat) (g : Grid) (stack vis : List Pos) (gr : Grid)
      (res : PathfindingResult),
      WFGrid g → 0 < numCols g →
      (stack ++ vis).Nodup →
      (∀ x ∈ stack ++ vis, (getNode g x).isVisited = true) →
      (∀ x ∈ stack ++ vis, inBounds g x) →
      dfsLoop e fuel g stack vis = some (gr, res) →
      res.visitedNodesInOrder.Nodup := by
  intro fuel
  induction fuel with
  | zero => intro g stack vis gr res _ _ _ _ _ h; exact absurd h (by simp [dfsLoop])
  | succ f ih =>
    intro g stack vis gr res hw hc hnd hmk hbd h
    cases stack with
    | nil =>
      simp only [dfsLoop] at h
      obtain ⟨_, h2⟩ := Prod.mk.injEq .. ▸ (Option.some.injEq .. ▸ h)
      rw [← h2]
      simpa using hnd
    | cons p rest =>
      simp only [dfsLoop] at h
      have hnd2 : (p :: (rest ++ vis)).Nodup := by simpa using hnd
      split_ifs at h with hwall hend
      · exact ih g rest vis gr res hw hc hnd2.of_cons
          (fun x hx => hmk x (List.mem_cons_of_mem p hx))
          (fun x hx => hbd x (List.mem_cons_of_mem p hx)) h
      · obtain ⟨_, h2⟩ := Prod.mk.injEq .. ▸ (Option.some.injEq .. ▸ h)
        rw [← h2]
        simp only
        rw [List.nodup_append]
        refine ⟨(List.nodup_append.mp hnd2.of_cons).2.1, List.nodup_singleton p, ?_⟩
        intro x hx hx2
        simp only [List.mem_singleton] at hx2
        subst hx2
        rw [List.nodup_cons] at hnd2
        exact hnd2.1 (List.mem_append.mpr (Or.inr hx))
      · have hexp := dfsExpand_inv p (getNeighbors (getNode g p) g).reverse g rest
          (vis ++ [p]) hw
          (fun q hq => getNeighbors_inBounds hw hc p q (List.mem_reverse.mp hq)) ?_ ?_ ?_
        · exact ih _ _ _ gr res
            (wf_of_preserves hw (preserves_dfsExpand p _ g rest))
            (by rw [(preserves_dfsExpand p _ g rest).2.1]; exact hc)
            (by rw [← List.append_assoc]; exact (by rw [← List.append_assoc] at hexp; exact hexp.1))
            (fun x hx => hexp.2.1 x hx)
            (fun x hx => hexp.2.2 x hx) h
        · rw [← List.append_assoc, List.nodup_append]
          rw [List.nodup_cons] at hnd2
          refine ⟨hnd2.2, List.nodup_singleton p, ?_⟩
          intro x hx hx2
          simp only [List.mem_singleton] at hx2
          subst hx2
          exact hnd2.1 hx
        · intro x hx
          rw [← List.append_assoc] at hx
          rcases List.mem_append.mp hx with hx2 | hx2
          · exact hmk x (List.mem_cons_of_mem p hx2)
          · simp only [List.mem_singleton] at hx2
            subst hx2
            exact hmk x (List.mem_append.mpr (Or.inl (List.mem_cons_self _ _)))
        · intro x hx
          rw [← List.append_assoc] at hx
          rcases List.mem_append.mp hx with hx2 | hx2
          · exact hbd x (List.mem_cons_of_mem p hx2)
          · simp only [List.mem_singleton] at hx2
            subst hx2
            exact hbd x (List.mem_append.mpr (Or.inl (List.mem_cons_self _ _)))

/-- C7: on a well-formed grid with an in-bounds start, the visited order
returned by `bfs`, `dfs`, `uniformCostSearch`, `astar`, and `greedyBFS`
contains no cell more than once (`iterativeDeepening` is exempt). -/
theorem C7_visited_order_nodup :
    (∀ (g : Grid) (s e : Pos) (gr : Grid) (res : PathfindingResult),
      WFGrid g → 0 < numCols g → inBounds g s →
      bfs g s e = some (gr, res) → res.visitedNodesInOrder.Nodup) ∧
    (∀ (g : Grid) (s e : Pos) (gr : Grid) (res : PathfindingResult),
      WFGrid g → 0 < numCols g → inBounds g s →
      dfs g s e = some (gr, res) → res.visitedNodesInOrder.Nodup) ∧
    (∀ (g : Grid) (s e : Pos) (gr : Grid) (res : PathfindingResult),
      WFGrid g → 0 < numCols g → inBounds g s →
      uniformCostSearch g s e = some (gr, res) → res.visitedNodesInOrder.Nodup) ∧
    (∀ (g : Grid) (s e : Pos) (gr : Grid) (res : PathfindingResult),
      WFGrid g → 0 < numCols g → inBounds g s →
      astar g s e = some (gr, res) → res.visitedNodesInOrder.Nodup) ∧
    (∀ (g : Grid) (s e : Pos) (gr : Grid) (res : PathfindingResult),
      WFGrid g → 0 < numCols g → inBounds g s →
      greedyBFS g s e = some (gr, res) → res.visitedNodesInOrder.Nodup) := by
  refine ⟨?_, ?_, ?_, ?_, ?_⟩ <;> intro g s e gr res hw hc hs h
  · simp only [bfs] at h
    have hprev : Preserves g (gridModify g s fun n =>
        { n with isVisited := true, distance := some 0 }) :=
      Preserves.gridModify _ _ _ (fun n => ⟨rfl, rfl, rfl⟩)
    refine bfsLoop_nodup e _ _ _ _ gr res (wf_of_preserves hw hprev)
      (by rw [hprev.2.1]; exact hc) (by simp) ?_ ?_ h
    · intro x hx
      simp only [List.append_nil, List.mem_singleton] at hx
      subst hx
      rw [getNode_gridModify, if_pos ⟨rfl, inStore_of_inBounds hw hs⟩]
    · intro x hx
      simp only [List.append_nil, List.mem_singleton] at hx
      subst hx
      rw [inBounds_of_preserves hprev]
      exact hs
  · simp only [dfs] at h
    have hprev : Preserves g (gridModify g s fun n =>
        { n with isVisited := true }) :=
      Preserves.gridModify _ _ _ (fun n => ⟨rfl, rfl, rfl⟩)
    refine dfsLoop_nodup e _ _ _ _ gr res (wf_of_preserves hw hprev)
      (by rw [hprev.2.1]; exact hc) (by simp) ?_ ?_ h
    · intro x hx
      simp only [List.append_nil, List.mem_singleton] at hx
      subst hx
      rw [getNode_gridModify, if_pos ⟨rfl, inStore_of_inBounds hw hs⟩]
    · intro x hx
      simp only [List.append_nil, List.mem_singleton] at hx
      subst hx
      rw [inBounds_of_preserves hprev]
      exact hs
  · simp only [uniformCostSearch] at h
    have hprev : Preserves g (gridModify g s fun n =>
        { n with distance := some 0 }) :=
      Preserves.gridModify _ _ _ (fun n => ⟨rfl, rfl, rfl⟩)
    refine ucsLoop_nodup e _ _ _ _ gr res (wf_of_preserves hw hprev)
      (by rw [hprev.2.1]; exact hc) (by simp) (by simp) ?_ h
    intro x hx
    simp only [List.mem_singleton] at hx
    subst hx
    rw [inBounds_of_preserves hprev]
    exact hs
  · simp only [astar] at h
    have hprev : Preserves g (gridModify g s fun n =>
        { n with distance := some 0,
                 heuristic := some (manhattanDistance (getNode g s) (getNode g e)) }) :=
      Preserves.gridModify _ _ _ (fun n => ⟨rfl, rfl, rfl⟩)
    refine astarLoop_nodup e _ _ _ _ gr res (wf_of_preserves hw hprev)
      (by rw [hprev.2.1]; exact hc) (by simp) (by simp) ?_ h
    intro x hx
    simp only [List.mem_singleton] at hx
    subst hx
    rw [inBounds_of_preserves hprev]
    exact hs
  · simp only [greedyBFS] at h
    have hprev : Preserves g (gridModify g s fun n =>
        { n with heuristic := some (manhattanDistance (getNode g s) (getNode g e)) }) :=
      Preserves.gridModify _ _ _ (fun n => ⟨rfl, rfl, rfl⟩)
    refine greedyLoop_nodup e _ _ _ _ gr res (wf_of_preserves hw hprev)
      (by rw [hprev.2.1]; exact hc) (by simp) (by simp) ?_ h
    intro x hx
    simp only [List.mem_singleton] at hx
    subst hx
    rw [inBounds_of_preserves hprev]
    exact hs

/-- Witness for C7: the five components applied to a concrete 1-by-2 grid. -/
theorem C7_visited_order_nodup_witness :
    (((bfs gW12 (0,0) (0,1)).getD dfltRun).2.visitedNodesInOrder.Nodup) ∧
    (((dfs gW12 (0,0) (0,1)).getD dfltRun).2.visitedNodesInOrder.Nodup) ∧
    (((uniformCostSearch gW12 (0,0) (0,1)).getD dfltRun).2.visitedNodesInOrder.Nodup) ∧
    (((astar gW12 (0,0) (0,1)).getD dfltRun).2.visitedNodesInOrder.Nodup) ∧
    (((greedyBFS gW12 (0,0) (0,1)).getD dfltRun).2.visitedNodesInOrder.Nodup) := by
  refine ⟨?_, ?_, ?_, ?_, ?_⟩
  · have h : bfs gW12 (0,0) (0,1) =
        some (((bfs gW12 (0,0) (0,1)).getD dfltRun).1,
              ((bfs gW12 (0,0) (0,1)).getD dfltRun).2) := by decide
    exact C7_visited_order_nodup.1 gW12 (0,0) (0,1) _ _ (by decide) (by decide)
      (by decide) h
  · have h : dfs gW12 (0,0) (0,1) =
        some (((dfs gW12 (0,0) (0,1)).getD dfltRun).1,
              ((dfs gW12 (0,0) (0,1)).getD dfltRun).2) := by decide
    exact C7_visited_order_nodup.2.1 gW12 (0,0) (0,1) _ _ (by decide) (by decide)
      (by decide) h
  · have h : uniformCostSearch gW12 (0,0) (0,1) =
        some (((uniformCostSearch gW12 (0,0) (0,1)).getD dfltRun).1,
              ((uniformCostSearch gW12 (0,0) (0,1)).getD dfltRun).2) := by decide
    exact C7_visited_order_nodup.2.2.1 gW12 (0,0) (0,1) _ _ (by decide) (by decide)
      (by decide) h
  · have h : astar gW12 (0,0) (0,1) =
        some (((astar gW12 (0,0) (0,1)).getD dfltRun).1,
              ((astar gW12 (0,0) (0,1)).getD dfltRun).2) := by decide
    exact C7_visited_order_nodup.2.2.2.1 gW12 (0,0) (0,1) _ _ (by decide) (by decide)
      (by decide) h
  · have h : greedyBFS gW12 (0,0) (0,1) =
        some (((greedyBFS gW12 (0,0) (0,1)).getD dfltRun).1,
              ((greedyBFS gW12 (0,0) (0,1)).getD dfltRun).2) := by decide
    exact C7_visited_order_nodup.2.2.2.2 gW12 (0,0) (0,1) _ _ (by decide) (by decide)
      (by decide) h

/-- Number of cells in the store satisfying `pred`. -/
def countGrid (pred : Node → Bool) (g : Grid) : Nat :=
  (g.map fun row => row.countP pred).sum

/-- Cells not yet marked visited. -/
def unvisitedCount (g : Grid) : Nat := countGrid (fun n => !n.isVisited) g

/-- Cells whose heuristic still holds the `Infinity` sentinel. -/
def heurInfCount (g : Grid) : Nat := countGrid (fun n => n.heuristic.isNone) g

theorem countGrid_le {g : Grid} (hw : WFGrid g) (pred : Node → Bool) :
    countGrid pred g ≤ numRows g * numCols g := by
  unfold countGrid
  have h1 : ∀ x ∈ g.map (fun row => row.countP pred), x ≤ numCols g := by
    intro x hx
    obtain ⟨row, hrow, hx⟩ := List.mem_map.mp hx
    rw [← hx, ← hw.1 row hrow]
    exact List.countP_le_length _
  calc (g.map fun row => row.countP pred).sum
      ≤ (g.map fun row => row.countP pred).length * numCols g := by
        have := List.sum_le_card_nsmul (g.map fun row => row.countP pred)
          (numCols g) h1
        simpa [smul_eq_mul] using this
    _ = numRows g * numCols g := by rw [List.length_map]; rfl

theorem countP_modifyAt_decr {α : Type} (pred : α → Bool) (f : α → α) (d : α) :
    ∀ (i : Nat) (l : List α), i < l.length →
      pred (l.getD i d) = true → pred (f (l.getD i d)) = false →
      (modifyAt f i l).countP pred + 1 = l.countP pred := by
  intro i
  induction i with
  | zero =>
    intro l hl h1 h2
    cases l with
    | nil => simp at hl
    | cons a as =>
      simp only [List.getD_cons_zero] at h1 h2
      simp [modifyAt, List.countP_cons, h1, h2]
  | succ j ih =>
    intro l hl h1 h2
    cases l with
    | nil => simp at hl
    | cons a as =>
      simp only [List.getD_cons_succ] at h1 h2
      have := ih as (by simpa using hl) h1 h2
      simp only [modifyAt, List.countP_cons]
      omega

theorem countP_modifyAt_eq {α : Type} (pred : α → Bool) (f : α → α)
    (hf : ∀ a, pred (f a) = pred a) :
    ∀ (i : Nat) (l : List α), (modifyAt f i l).countP pred = l.countP pred := by
  intro i
  induction i with
  | zero =>
    intro l
    cases l with
    | nil => rfl
    | cons a as => simp [modifyAt, List.countP_cons, hf]
  | succ j ih =>
    intro l
    cases l with
    | nil => rfl
    | cons a as => simp [modifyAt, List.countP_cons, ih]

theorem countGrid_cons (pred : Node → Bool) (r : List Node) (rs : Grid) :
    countGrid pred (r :: rs) = r.countP pred + countGrid pred rs := by
  simp [countGrid]

theorem countGrid_modify_decr {f : Node → Node} (pred : Node → Bool) :
    ∀ (i j : Nat) (g : Grid), i < g.length → j < (g.getD i []).length →
      pred (getNode g (i, j)) = true → pred (f (getNode g (i, j))) = false →
      countGrid pred (gridModify g (i, j) f) + 1 = countGrid pred g := by
  intro i
  induction i with
  | zero =>
    intro j g hi hj h1 h2
    cases g with
    | nil => simp at hi
    | cons r rs =>
      show countGrid pred (modifyAt f j r :: rs) + 1 = countGrid pred (r :: rs)
      rw [countGrid_cons, countGrid_cons]
      have := countP_modifyAt_decr pred f defaultNode j r (by simpa using hj) h1 h2
      omega
  | succ i2 ih =>
    intro j g hi hj h1 h2
    cases g with
    | nil => simp at hi
    | cons r rs =>
      have hrec := ih j rs (by simpa using hi) (by simpa using hj) h1 h2
      show countGrid pred (r :: gridModify rs (i2, j) f) + 1 = countGrid pred (r :: rs)
      rw [countGrid_cons, countGrid_cons]
      omega

theorem countGrid_modify_eq {p : Pos} {f : Node → Node}
    (pred : Node → Bool) (hf : ∀ n, pred (f n) = pred n) :
    ∀ g : Grid, countGrid pred (gridModify g p f) = countGrid pred g := by
  obtain ⟨i, j⟩ := p
  induction i with
  | zero =>
    intro g
    cases g with
    | nil => unfold countGrid gridModify; rw [modifyAt_nil]
    | cons r rs =>
      show countGrid pred (modifyAt f j r :: rs) = countGrid pred (r :: rs)
      rw [countGrid_cons, countGrid_cons, countP_modifyAt_eq pred f hf]
  | succ i2 ih =>
    intro g
    cases g with
    | nil => unfold countGrid gridModify; rw [modifyAt_nil]
    | cons r rs =>
      have hrec := ih rs
      show countGrid pred (r :: gridModify rs (i2, j) f) = countGrid pred (r :: rs)
      rw [countGrid_cons, countGrid_cons]
      omega

theorem countGrid_pos (pred : Node → Bool) :
    ∀ (i j : Nat) (g : Grid), i < g.length → j < (g.getD i []).length →
      pred (getNode g (i, j)) = true → 0 < countGrid pred g := by
  intro i
  induction i with
  | zero =>
    intro j g hi hj h1
    cases g with
    | nil => simp at hi
    | cons r rs =>
      rw [countGrid_cons]
      have : 0 < r.countP pred := by
        rw [List.countP_pos]
        refine ⟨r.getD j defaultNode, ?_, h1⟩
        rw [List.getD_eq_getElem _ _ (by simpa using hj)]
        exact List.getElem_mem _
      omega
  | succ i2 ih =>
    intro j g hi hj h1
    cases g with
    | nil => simp at hi
    | cons r rs =>
      have hrec := ih j rs (by simpa using hi) (by simpa using hj) h1
      rw [countGrid_cons]
      omega

theorem unvisitedCount_mark {g : Grid} {q : Pos} {f : Node → Node}
    (hqs : inStore g q) (h1 : (getNode g q).isVisited = false)
    (h2 : (f (getNode g q)).isVisited = true) :
    unvisitedCount (gridModify g q f) + 1 = unvisitedCount g := by
  obtain ⟨i, j⟩ := q
  have hc2 : countGrid (fun n => !n.isVisited) (gridModify g (i, j) f) + 1 =
      countGrid (fun n => !n.isVisited) g :=
    countGrid_modify_decr _ i j g hqs.1 hqs.2 (by simp [h1]) (by simp [h2])
  exact hc2

theorem unvisitedCount_keep {g : Grid} {q : Pos} {f : Node → Node}
    (hf : ∀ n, (f n).isVisited = n.isVisited) :
    unvisitedCount (gridModify g q f) = unvisitedCount g :=
  countGrid_modify_eq _ (fun n => by rw [hf]) g

theorem unvisitedCount_pos {g : Grid} {q : Pos}
    (hqs : inStore g q) (h1 : (getNode g q).isVisited = false) :
    0 < unvisitedCount g := by
  obtain ⟨i, j⟩ := q
  exact countGrid_pos (fun n => !n.isVisited) i j g hqs.1 hqs.2 (by simp [h1])

theorem heurInfCount_set {g : Grid} {q : Pos} {f : Node → Node}
    (hqs : inStore g q) (h1 : (getNode g q).heuristic = none)
    (h2 : (f (getNode g q)).heuristic.isNone = false) :
    heurInfCount (gridModify g q f) + 1 = heurInfCount g := by
  obtain ⟨i, j⟩ := q
  have hc2 : countGrid (fun n => n.heuristic.isNone) (gridModify g (i, j) f) + 1 =
      countGrid (fun n => n.heuristic.isNone) g :=
    countGrid_modify_decr _ i j g hqs.1 hqs.2 (by simp [h1]) (by simp [h2])
  exact hc2

theorem heurInfCount_keep {g : Grid} {q : Pos} {f : Node → Node}
    (hf : ∀ n, (f n).heuristic = n.heuristic) :
    heurInfCount (gridModify g q f) = heurInfCount g :=
  countGrid_modify_eq _ (fun n => by rw [hf]) g

theorem bfsExpand_measure (p : Pos) :
    ∀ (ns : List Pos) (g : Grid) (queue : List Pos),
      WFGrid g → (∀ q ∈ ns, inBounds g q) →
      (bfsExpand g p queue ns).2.length +
          2 * unvisitedCount (bfsExpand g p queue ns).1 ≤
        queue.length + 2 * unvisitedCount g := by
  intro ns
  induction ns with
  | nil => intro g queue _ _; exact Nat.le_refl _
  | cons q rest ih =>
    intro g queue hw hns
    simp only [bfsExpand]
    split_ifs with hcond
    · have hqb : inBounds g q := hns q (List.mem_cons_self _ _)
      have hqs : inStore g q := inStore_of_inBounds hw hqb
      have hprev : Preserves g (gridModify g q fun n =>
          { n with isVisited := true, previousNode := some p,
                   distance := dadd (getNode g p).distance (some 1) }) :=
        Preserves.gridModify _ _ _ (fun n => ⟨rfl, rfl, rfl⟩)
      have hdecr : unvisitedCount (gridModify g q fun n =>
          { n with isVisited := true, previousNode := some p,
                   distance := dadd (getNode g p).distance (some 1) }) + 1 =
          unvisitedCount g :=
        unvisitedCount_mark hqs hcond.1 rfl
      have hrec := ih _ (queue ++ [q]) (wf_of_preserves hw hprev)
        (fun r hr => (inBounds_of_preserves hprev r).mpr
          (hns r (List.mem_cons_of_mem q hr)))
      simp only [List.length_append, List.length_singleton] at hrec
      omega
    · exact ih g queue hw (fun r hr => hns r (List.mem_cons_of_mem q hr))

theorem bfsLoop_some (e : Pos) :
    ∀ (fuel : Nat) (g : Grid) (queue vis : List Pos),
      WFGrid g → 0 < numCols g →
      queue.length + 2 * unvisitedCount g < fuel →
      (bfsLoop e fuel g queue vis).isSome := by
  intro fuel
  induction fuel with
  | zero => intro g queue vis _ _ hm; simp at hm
  | succ f ih =>
    intro g queue vis hw hc hm
    cases queue with
    | nil => simp [bfsLoop]
    | cons p rest =>
      simp only [bfsLoop]
      split_ifs with hwall hend
      · exact ih g rest vis hw hc (by simp only [List.length_cons] at hm; omega)
      · simp
      · have hex := bfsExpand_measure p (getNeighbors (getNode g p) g) g rest hw
          (getNeighbors_inBounds hw hc p)
        exact ih _ _ _
          (wf_of_preserves hw (preserves_bfsExpand p _ g rest))
          (by rw [(preserves_bfsExpand p _ g rest).2.1]; exact hc)
          (by simp only [List.length_cons] at hm; omega)

theorem dfsExpand_measure (p : Pos) :
    ∀ (ns : List Pos) (g : Grid) (stack : List Pos),
      WFGrid g → (∀ q ∈ ns, inBounds g q) →
      (dfsExpand g p stack ns).2.length +
          2 * unvisitedCount (dfsExpand g p stack ns).1 ≤
        stack.length + 2 * unvisitedCount g := by
  intro ns
  induction ns with
  | nil => intro g stack _ _; exact Nat.le_refl _
  | cons q rest ih =>
    intro g stack hw hns
    simp only [dfsExpand]
    split_ifs with hcond
    · have hqb : inBounds g q := hns q (List.mem_cons_self _ _)
      have hqs : inStore g q := inStore_of_inBounds hw hqb
      have hprev : Preserves g (gridModify g q fun n =>
          { n with isVisited := true, previousNode := some p }) :=
        Preserves.gridModify _ _ _ (fun n => ⟨rfl, rfl, rfl⟩)
      have hdecr : unvisitedCount (gridModify g q fun n =>
          { n with isVisited := true, previousNode := some p }) + 1 =
          unvisitedCount g :=
        unvisitedCount_mark hqs hcond.1 rfl
      have hrec := ih _ (q :: stack) (wf_of_preserves hw hprev)
        (fun r hr => (inBounds_of_preserves hprev r).mpr
          (hns r (List.mem_cons_of_mem q hr)))
      simp only [List.length_cons] at hrec
      omega
    · exact ih g stack hw (fun r hr => hns r (List.mem_cons_of_mem q hr))

theorem dfsLoop_some (e : Pos) :
    ∀ (fuel : Nat) (g : Grid) (stack vis : List Pos),
      WFGrid g → 0 < numCols g →
      stack.length + 2 * unvisitedCount g < fuel →
      (dfsLoop e fuel g stack vis).isSome := by
  intro fuel
  induction fuel with
  | zero => intro g stack vis _ _ hm; simp at hm
  | succ f ih =>
    intro g stack vis hw hc hm
    cases stack with
    | nil => simp [dfsLoop]
    | cons p rest =>
      simp only [dfsLoop]
      split_ifs with hwall hend
      · exact ih g rest vis hw hc (by simp only [List.length_cons] at hm; omega)
      · simp
      · have hex := dfsExpand_measure p (getNeighbors (getNode g p) g).reverse g rest hw
          (fun q hq => getNeighbors_inBounds hw hc p q (List.mem_reverse.mp hq))
        exact ih _ _ _
          (wf_of_preserves hw (preserves_dfsExpand p _ g rest))
          (by rw [(preserves_dfsExpand p _ g rest).2.1]; exact hc)
          (by simp only [List.length_cons] at hm; omega)

theorem astarExpand_len (p e : Pos) :
    ∀ (ns : List Pos) (g : Grid) (os : List Pos),
      (astarExpand g p e os ns).2.length ≤ os.length + ns.length := by
  intro ns
  induction ns with
  | nil => intro g os; simp [astarExpand]
  | cons q rest ih =>
    intro g os
    simp only [astarExpand]
    split_ifs with h1 h2 h3
    · refine le_trans (ih g os) ?_
      simp only [List.length_cons, List.length_nil]; omega
    · refine le_trans (ih _ os) ?_
      simp only [List.length_cons, List.length_nil]; omega
    · refine le_trans (ih _ (os ++ [q])) ?_
      simp only [List.length_append, List.length_singleton, List.length_cons, List.length_nil]
      omega
    · refine le_trans (ih g os) ?_
      simp only [List.length_cons, List.length_nil]; omega

theorem astarExpand_count (p e : Pos) :
    ∀ (ns : List Pos) (g : Grid) (os : List Pos),
      unvisitedCount (astarExpand g p e os ns).1 = unvisitedCount g := by
  intro ns
  induction ns with
  | nil => intro g os; rfl
  | cons q rest ih =>
    intro g os
    simp only [astarExpand]
    split_ifs with h1 h2 h3
    · exact ih g os
    · rw [ih]; exact unvisitedCount_keep (fun n => rfl)
    · rw [ih]; exact unvisitedCount_keep (fun n => rfl)
    · exact ih g os

theorem ucsExpand_len (p : Pos) :
    ∀ (ns : List Pos) (g : Grid) (os : List Pos),
      (ucsExpand g p os ns).2.length ≤ os.length + ns.length := by
  intro ns
  induction ns with
  | nil => intro g os; simp [ucsExpand]
  | cons q rest ih =>
    intro g os
    simp only [ucsExpand]
    split_ifs with h1 h2 h3
    · refine le_trans (ih g os) ?_
      simp only [List.length_cons, List.length_nil]; omega
    · refine le_trans (ih _ os) ?_
      simp only [List.length_cons, List.length_nil]; omega
    · refine le_trans (ih _ (os ++ [q])) ?_
      simp only [List.length_append, List.length_singleton, List.length_cons, List.length_nil]
      omega
    · refine le_trans (ih g os) ?_
      simp only [List.length_cons, List.length_nil]; omega

theorem ucsExpand_count (p : Pos) :
    ∀ (ns : List Pos) (g : Grid) (os : List Pos),
      unvisitedCount (ucsExpand g p os ns).1 = unvisitedCount g := by
  intro ns
  induction ns with
  | nil => intro g os; rfl
  | cons q rest ih =>
    intro g os
    simp only [ucsExpand]
    split_ifs with h1 h2 h3
    · exact ih g os
    · rw [ih]; exact unvisitedCount_keep (fun n => rfl)
    · rw [ih]; exact unvisitedCount_keep (fun n => rfl)
    · exact ih g os

theorem greedyExpand_measure (p e : Pos) :
    ∀ (ns : List Pos) (g : Grid) (os : List Pos),
      WFGrid g → (∀ q ∈ ns, inBounds g q) →
      (greedyExpand g p e os ns).2.length +
          2 * heurInfCount (greedyExpand g p e os ns).1 ≤
        os.length + 2 * heurInfCount g := by
  intro ns
  induction ns with
  | nil => intro g os _ _; exact Nat.le_refl _
  | cons q rest ih =>
    intro g os hw hns
    simp only [greedyExpand]
    split_ifs with h1 h2
    · exact ih g os hw (fun r hr => hns r (List.mem_cons_of_mem q hr))
    · have hqb : inBounds g q := hns q (List.mem_cons_self _ _)
      have hqs : inStore g q := inStore_of_inBounds hw hqb
      have hprev : Preserves g (gridModify g q fun n =>
          { n with heuristic := some (manhattanDistance (getNode g q) (getNode g e)),
                   previousNode := some p }) :=
        Preserves.gridModify _ _ _ (fun n => ⟨rfl, rfl, rfl⟩)
      have hdecr : heurInfCount (gridModify g q fun n =>
          { n with heuristic := some (manhattanDistance (getNode g q) (getNode g e)),
                   previousNode := some p }) + 1 = heurInfCount g :=
        heurInfCount_set hqs h2 rfl
      have hrec := ih _ (os ++ [q]) (wf_of_preserves hw hprev)
        (fun r hr => (inBounds_of_preserves hprev r).mpr
          (hns r (List.mem_cons_of_mem q hr)))
      simp only [List.length_append, List.length_singleton] at hrec
      omega
    · exact ih g os hw (fun r hr => hns r (List.mem_cons_of_mem q hr))

theorem astarLoop_some (e : Pos) :
    ∀ (fuel : Nat) (g : Grid) (os vis : List Pos),
      WFGrid g → 0 < numCols g → (∀ x ∈ os, inBounds g x) →
      os.length + 5 * unvisitedCount g < fuel →
      (astarLoop e fuel g os vis).isSome := by
  intro fuel
  induction fuel with
  | zero => intro g os vis _ _ _ hm; simp at hm
  | succ f ih =>
    intro g os vis hw hc hbd hm
    simp only [astarLoop]
    cases hs : sortBy (astarLt g) os with
    | nil => simp
    | cons p rest =>
      have hlen : os.length = rest.length + 1 := by
        have := (sortBy_perm (astarLt g) os).length_eq
        rw [hs] at this
        simpa using this.symm
      have hosrest : ∀ x ∈ rest, x ∈ os := by
        intro x hx
        exact (sortBy_perm (astarLt g) os).subset (by rw [hs]; exact List.mem_cons_of_mem p hx)
      have hpos : p ∈ os :=
        (sortBy_perm (astarLt g) os).subset (by rw [hs]; exact List.mem_cons_self _ _)
      dsimp only
      split_ifs with hwall hvisd hend
      · exact ih g rest vis hw hc (fun x hx => hbd x (hosrest x hx)) (by omega)
      · exact ih g rest vis hw hc (fun x hx => hbd x (hosrest x hx)) (by omega)
      · simp
      · have hpb : inBounds g p := hbd p hpos
        have hps : inStore g p := inStore_of_inBounds hw hpb
        have hprev : Preserves g (gridModify g p fun n => { n with isVisited := true }) :=
          Preserves.gridModify _ _ _ (fun n => ⟨rfl, rfl, rfl⟩)
        have hw2 : WFGrid (gridModify g p fun n => { n with isVisited := true }) :=
          wf_of_preserves hw hprev
        have hdecr : unvisitedCount (gridModify g p fun n =>
            { n with isVisited := true }) + 1 = unvisitedCount g :=
          unvisitedCount_mark hps (by simpa using hvisd) rfl
        have hexplen := astarExpand_len p e
          (getNeighbors (getNode (gridModify g p fun n => { n with isVisited := true }) p)
            (gridModify g p fun n => { n with isVisited := true }))
          (gridModify g p fun n => { n with isVisited := true }) rest
        have hexpcnt := astarExpand_count p e
          (getNeighbors (getNode (gridModify g p fun n => { n with isVisited := true }) p)
            (gridModify g p fun n => { n with isVisited := true }))
          (gridModify g p fun n => { n with isVisited := true }) rest
        have hnslen := getNeighbors_length_le
          (getNode (gridModify g p fun n => { n with isVisited := true }) p)
          (gridModify g p fun n => { n with isVisited := true })
        refine ih _ _ _
          (wf_of_preserves hw2 (preserves_astarExpand p e _ _ _)) ?_ ?_ ?_
        · rw [(preserves_astarExpand p e _ _ _).2.1, hprev.2.1]; exact hc
        · intro x hx
          rcases astarExpand_subset p e _ _ _ _ hx with hx2 | hx2
          · rw [inBounds_of_preserves ((hprev.trans (preserves_astarExpand p e _ _ _))) x]
            exact hbd x (hosrest x hx2)
          · rw [inBounds_of_preserves (preserves_astarExpand p e _ _ _) x]
            exact getNeighbors_inBounds hw2 (by rw [hprev.2.1]; exact hc) p x hx2
        · omega

theorem ucsLoop_some (e : Pos) :
    ∀ (fuel : Nat) (g : Grid) (os vis : List Pos),
      WFGrid g → 0 < numCols g → (∀ x ∈ os, inBounds g x) →
      os.length + 5 * unvisitedCount g < fuel →
      (ucsLoop e fuel g os vis).isSome := by
  intro fuel
  induction fuel with
  | zero => intro g os vis _ _ _ hm; simp at hm
  | succ f ih =>
    intro g os vis hw hc hbd hm
    simp only [ucsLoop]
    cases hs : sortBy (ucsLt g) os with
    | nil => simp
    | cons p rest =>
      have hlen : os.length = rest.length + 1 := by
        have := (sortBy_perm (ucsLt g) os).length_eq
        rw [hs] at this
        simpa using this.symm
      have hosrest : ∀ x ∈ rest, x ∈ os := by
        intro x hx
        exact (sortBy_perm (ucsLt g) os).subset (by rw [hs]; exact List.mem_cons_of_mem p hx)
      have hpos : p ∈ os :=
        (sortBy_perm (ucsLt g) os).subset (by rw [hs]; exact List.mem_cons_self _ _)
      dsimp only
      split_ifs with hwall hvisd hend
      · exact ih g rest vis hw hc (fun x hx => hbd x (hosrest x hx)) (by omega)
      · exact ih g rest vis hw hc (fun x hx => hbd x (hosrest x hx)) (by omega)
      · simp
      · have hpb : inBounds g p := hbd p hpos
        have hps : inStore g p := inStore_of_inBounds hw hpb
        have hprev : Preserves g (gridModify g p fun n => { n with isVisited := true }) :=
          Preserves.gridModify _ _ _ (fun n => ⟨rfl, rfl, rfl⟩)
        have hw2 : WFGrid (gridModify g p fun n => { n with isVisited := true }) :=
          wf_of_preserves hw hprev
        have hdecr : unvisitedCount (gridModify g p fun n =>
            { n with isVisited := true }) + 1 = unvisitedCount g :=
          unvisitedCount_mark hps (by simpa using hvisd) rfl
        have hexplen := ucsExpand_len p
          (getNeighbors (getNode (gridModify g p fun n => { n with isVisited := true }) p)
            (gridModify g p fun n => { n with isVisited := true }))
          (gridModify g p fun n => { n with isVisited := true }) rest
        have hexpcnt := ucsExpand_count p
          (getNeighbors (getNode (gridModify g p fun n => { n with isVisited := true }) p)
            (gridModify g p fun n => { n with isVisited := true }))
          (gridModify g p fun n => { n with isVisited := true }) rest
        have hnslen := getNeighbors_length_le
          (getNode (gridModify g p fun n => { n with isVisited := true }) p)
          (gridModify g p fun n => { n with isVisited := true })
        refine ih _ _ _
          (wf_of_preserves hw2 (preserves_ucsExpand p _ _ _)) ?_ ?_ ?_
        · rw [(preserves_ucsExpand p _ _ _).2.1, hprev.2.1]; exact hc
        · intro x hx
          rcases ucsExpand_subset p _ _ _ _ hx with hx2 | hx2
          · rw [inBounds_of_preserves ((hprev.trans (preserves_ucsExpand p _ _ _))) x]
            exact hbd x (hosrest x hx2)
          · rw [inBounds_of_preserves (preserves_ucsExpand p _ _ _) x]
            exact getNeighbors_inBounds hw2 (by rw [hprev.2.1]; exact hc) p x hx2
        · omega

theorem greedyLoop_some (e : Pos) :
    ∀ (fuel : Nat) (g : Grid) (os vis : List Pos),
      WFGrid g → 0 < numCols g → (∀ x ∈ os, inBounds g x) →
      os.length + 2 * heurInfCount g < fuel →
      (greedyLoop e fuel g os vis).isSome := by
  intro fuel
  induction fuel with
  | zero => intro g os vis _ _ _ hm; simp at hm
  | succ f ih =>
    intro g os vis hw hc hbd hm
    simp only [greedyLoop]
    cases hs : sortBy (greedyLt g) os with
    | nil => simp
    | cons p rest =>
      have hlen : os.length = rest.length + 1 := by
        have := (sortBy_perm (greedyLt g) os).length_eq
        rw [hs] at this
        simpa using this.symm
      have hosrest : ∀ x ∈ rest, x ∈ os := by
        intro x hx
        exact (sortBy_perm (greedyLt g) os).subset (by rw [hs]; exact List.mem_cons_of_mem p hx)
      have hpos : p ∈ os :=
        (sortBy_perm (greedyLt g) os).subset (by rw [hs]; exact List.mem_cons_self _ _)
      dsimp only
      split_ifs with hwall hvisd hend
      · exact ih g rest vis hw hc (fun x hx => hbd x (hosrest x hx)) (by omega)
      · exact ih g rest vis hw hc (fun x hx => hbd x (hosrest x hx)) (by omega)
      · simp
      · have hpb : inBounds g p := hbd p hpos
        have hps : inStore g p := inStore_of_inBounds hw hpb
        have hprev : Preserves g (gridModify g p fun n => { n with isVisited := true }) :=
          Preserves.gridModify _ _ _ (fun n => ⟨rfl, rfl, rfl⟩)
        have hw2 : WFGrid (gridModify g p fun n => { n with isVisited := true }) :=
          wf_of_preserves hw hprev
        have hinf : heurInfCount (gridModify g p fun n =>
            { n with isVisited := true }) = heurInfCount g :=
          heurInfCount_keep (fun n => rfl)
        have hexp := greedyExpand_measure p e
          (getNeighbors (getNode (gridModify g p fun n => { n with isVisited := true }) p)
            (gridModify g p fun n => { n with isVisited := true }))
          (gridModify g p fun n => { n with isVisited := true }) rest hw2
          (getNeighbors_inBounds hw2 (by rw [hprev.2.1]; exact hc) p)
        refine ih _ _ _
          (wf_of_preserves hw2 (preserves_greedyExpand p e _ _ _)) ?_ ?_ ?_
        · rw [(preserves_greedyExpand p e _ _ _).2.1, hprev.2.1]; exact hc
        · intro x hx
          rcases greedyExpand_subset p e _ _ _ _ hx with hx2 | hx2
          · rw [inBounds_of_preserves ((hprev.trans (preserves_greedyExpand p e _ _ _))) x]
            exact hbd x (hosrest x hx2)
          · rw [inBounds_of_preserves (preserves_greedyExpand p e _ _ _) x]
            exact getNeighbors_inBounds hw2 (by rw [hprev.2.1]; exact hc) p x hx2
        · omega

theorem dlsGo_enter_some (e : Pos) (maxDepth : Nat) :
    ∀ (u : Nat) (g : Grid) (p : Pos) (depth : Nat) (vis : List Pos) (fuel : Nat),
      WFGrid g → 0 < numCols g →
      unvisitedCount g ≤ u →
      ((getNode g p).type = CellType.wall ∨
        ((getNode g p).isVisited = false ∧ inStore g p)) →
      5 * u + 1 ≤ fuel →
      ∃ out : Grid × List Pos × Bool,
        dlsGo e maxDepth fuel g (DlsWork.enter p) depth vis = some out ∧
        Preserves g out.1 ∧ unvisitedCount out.1 ≤ unvisitedCount g := by
  intro u
  induction u using Nat.strong_induction_on with
  | _ u ihu =>
  intro g p depth vis fuel hw hc hcnt hcond hfuel
  cases fuel with
  | zero => omega
  | succ f =>
  simp only [dlsGo]
  by_cases hwall : (getNode g p).type = CellType.wall
  · rw [if_pos hwall]
    exact ⟨(g, vis, false), rfl, Preserves.self g, Nat.le_refl _⟩
  · rw [if_neg hwall]
    have hun : (getNode g p).isVisited = false ∧ inStore g p := by
      rcases hcond with h | h
      · exact absurd h hwall
      · exact h
    have hprev : Preserves g (gridModify g p fun n => { n with isVisited := true }) :=
      Preserves.gridModify _ _ _ (fun n => ⟨rfl, rfl, rfl⟩)
    have hw2 : WFGrid (gridModify g p fun n => { n with isVisited := true }) :=
      wf_of_preserves hw hprev
    have hc2 : 0 < numCols (gridModify g p fun n => { n with isVisited := true }) := by
      rw [hprev.2.1]; exact hc
    have hdecr : unvisitedCount (gridModify g p fun n =>
        { n with isVisited := true }) + 1 = unvisitedCount g :=
      unvisitedCount_mark hun.2 hun.1 rfl
    have hposu : 0 < unvisitedCount g := unvisitedCount_pos hun.2 hun.1
    have hu1 : 1 ≤ u := le_trans hposu hcnt
    split_ifs with hend hdep
    · exact ⟨_, rfl, hprev, by dsimp only; omega⟩
    · exact ⟨_, rfl, hprev, by dsimp only; omega⟩
    · -- descend into the children iteration
      have children_some : ∀ (ns : List Pos), ∀ (g2 : Grid) (parent : Pos)
          (depth2 : Nat) (vis2 : List Pos) (fuel2 : Nat),
          WFGrid g2 → 0 < numCols g2 →
          unvisitedCount g2 ≤ u - 1 →
          (∀ q ∈ ns, inBounds g2 q) →
          5 * (u - 1) + ns.length + 1 ≤ fuel2 →
          ∃ out : Grid × List Pos × Bool,
            dlsGo e maxDepth fuel2 g2 (DlsWork.children parent ns) depth2 vis2 =
              some out ∧
            Preserves g2 out.1 ∧ unvisitedCount out.1 ≤ unvisitedCount g2 := by
        intro ns
        induction ns with
        | nil =>
          intro g2 parent depth2 vis2 fuel2 hw2i hc2i hcnt2 hbd2 hfuel2
          cases fuel2 with
          | zero => omega
          | succ f2 =>
            exact ⟨(g2, vis2, false), rfl, Preserves.self g2, Nat.le_refl _⟩
        | cons q rest ihns =>
          intro g2 parent depth2 vis2 fuel2 hw2i hc2i hcnt2 hbd2 hfuel2
          cases fuel2 with
          | zero => omega
          | succ f2 =>
          simp only [dlsGo]
          split_ifs with hcnd
          · have hqb : inBounds g2 q := hbd2 q (List.mem_cons_self _ _)
            have hqs : inStore g2 q := inStore_of_inBounds hw2i hqb
            have hpl : Preserves g2 (gridModify g2 q fun n =>
                { n with previousNode := some parent }) :=
              Preserves.gridModify _ _ _ (fun n => ⟨rfl, rfl, rfl⟩)
            have hwq : WFGrid (gridModify g2 q fun n =>
                { n with previousNode := some parent }) :=
              wf_of_preserves hw2i hpl
            have hkeep : unvisitedCount (gridModify g2 q fun n =>
                { n with previousNode := some parent }) = unvisitedCount g2 :=
              unvisitedCount_keep (fun n => rfl)
            have hqcond : (getNode (gridModify g2 q fun n =>
                { n with previousNode := some parent }) q).type = CellType.wall ∨
                ((getNode (gridModify g2 q fun n =>
                  { n with previousNode := some parent }) q).isVisited = false ∧
                 inStore (gridModify g2 q fun n =>
                  { n with previousNode := some parent }) q) := by
              right
              constructor
              · rw [getNode_gridModify, if_pos ⟨rfl, hqs⟩]
                exact hcnd.1
              · rw [inStore_of_preserves hpl]
                exact hqs
            obtain ⟨outq, hq1, hq2, hq3⟩ := ihu (u - 1) (by omega) _ q (depth2 + 1)
              vis2 f2 hwq (by rw [hpl.2.1]; exact hc2i) (by omega) hqcond
              (by simp only [List.length_cons] at hfuel2; omega)
            rw [hq1]
            obtain ⟨gq, visq, bq⟩ := outq
            dsimp only at hq2 hq3
            cases bq with
            | true =>
              exact ⟨(gq, visq, true), rfl, (hpl.trans hq2), by dsimp only; omega⟩
            | false =>
              obtain ⟨outr, hr1, hr2, hr3⟩ := ihns gq parent depth2 visq f2
                (wf_of_preserves hwq hq2)
                (by rw [hq2.2.1, hpl.2.1]; exact hc2i)
                (by omega)
                (fun r hr => by
                  rw [inBounds_of_preserves (hpl.trans hq2) r]
                  exact hbd2 r (List.mem_cons_of_mem q hr))
                (by simp only [List.length_cons] at hfuel2; omega)
              refine ⟨outr, hr1, (hpl.trans hq2).trans hr2, by omega⟩
          · exact ihns g2 parent depth2 vis2 f2 hw2i hc2i hcnt2
              (fun r hr => hbd2 r (List.mem_cons_of_mem q hr))
              (by simp only [List.length_cons] at hfuel2; omega)
      have hns4 := getNeighbors_length_le
        (getNode (gridModify g p fun n => { n with isVisited := true }) p)
        (gridModify g p fun n => { n with isVisited := true })
      obtain ⟨out, h1, h2, h3⟩ := children_some _ _ p depth (vis ++ [p]) f
        hw2 hc2 (by omega)
        (getNeighbors_inBounds hw2 hc2 p)
        (by omega)
      exact ⟨out, h1, hprev.trans h2, by omega⟩

theorem idLoop_some (s e : Pos) :
    ∀ (ds : List Nat) (g : Grid) (acc : List Pos),
      WFGrid g → 0 < numCols g → inBounds g s →
      (idLoop s e ds g acc).isSome := by
  intro ds
  induction ds with
  | nil => intro g acc _ _ _; simp [idLoop]
  | cons d rest ih =>
    intro g acc hw hc hs
    simp only [idLoop]
    have hpr : Preserves g (resetForIteration g) := preserves_resetForIteration g
    have hw1 : WFGrid (resetForIteration g) := wf_of_preserves hw hpr
    have hc1 : 0 < numCols (resetForIteration g) := by rw [hpr.2.1]; exact hc
    have hs1 : inBounds (resetForIteration g) s := by
      rw [inBounds_of_preserves hpr]; exact hs
    have hss : inStore (resetForIteration g) s := inStore_of_inBounds hw1 hs1
    have hunv : (getNode (resetForIteration g) s).isVisited = false := by
      rw [show resetForIteration g = g.map (List.map
        (fun n => { n with isVisited := false, previousNode := none })) from rfl,
        getNode_gridMap]
      split_ifs with h
      · rfl
      · rfl
    obtain ⟨out, h1, h2, h3⟩ := dlsGo_enter_some e d
      (numRows (resetForIteration g) * numCols (resetForIteration g))
      (resetForIteration g) s 0 acc (dlsFuel (resetForIteration g))
      hw1 hc1 (countGrid_le hw1 _) (Or.inr ⟨hunv, hss⟩)
      (by unfold dlsFuel; omega)
    unfold depthLimitedSearch
    rw [h1]
    obtain ⟨g2, acc2, b2⟩ := out
    cases b2 with
    | true => simp
    | false =>
      dsimp only at h2
      exact ih g2 acc2 (wf_of_preserves hw1 h2)
        (by rw [h2.2.1]; exact hc1)
        (by rw [inBounds_of_preserves h2]; exact hs1)

/-- C8: on a well-formed grid with `R, C ≥ 2` and in-bounds start and end,
all six search functions terminate: the fueled loops never exhaust their
fuel (`iterativeDeepening` performs exactly `R*C` outer iterations by
construction of its depth-limit range). -/
theorem C8_termination (g : Grid) (s e : Pos)
    (hw : WFGrid g) (hr : 2 ≤ numRows g) (hc : 2 ≤ numCols g)
    (hs : inBounds g s) (he : inBounds g e) :
    (bfs g s e).isSome ∧ (dfs g s e).isSome ∧ (astar g s e).isSome ∧
    (greedyBFS g s e).isSome ∧ (uniformCostSearch g s e).isSome ∧
    (iterativeDeepening g s e).isSome := by
  have hc0 : 0 < numCols g := by omega
  have hRC : 1 ≤ numRows g * numCols g := by
    have := Nat.mul_le_mul hr hc
    omega
  refine ⟨?_, ?_, ?_, ?_, ?_, ?_⟩
  · simp only [bfs]
    have hpr : Preserves g (gridModify g s fun n =>
        { n with isVisited := true, distance := some 0 }) :=
      Preserves.gridModify _ _ _ (fun n => ⟨rfl, rfl, rfl⟩)
    have hle := countGrid_le (wf_of_preserves hw hpr) (fun n => !n.isVisited)
    rw [hpr.1, hpr.2.1] at hle
    refine bfsLoop_some e _ _ _ _ (wf_of_preserves hw hpr)
      (by rw [hpr.2.1]; exact hc0) ?_
    unfold bfsFuel
    simp only [List.length_cons, List.length_nil]
    unfold unvisitedCount
    omega
  · simp only [dfs]
    have hpr : Preserves g (gridModify g s fun n =>
        { n with isVisited := true }) :=
      Preserves.gridModify _ _ _ (fun n => ⟨rfl, rfl, rfl⟩)
    have hle := countGrid_le (wf_of_preserves hw hpr) (fun n => !n.isVisited)
    rw [hpr.1, hpr.2.1] at hle
    refine dfsLoop_some e _ _ _ _ (wf_of_preserves hw hpr)
      (by rw [hpr.2.1]; exact hc0) ?_
    unfold bfsFuel
    simp only [List.length_cons, List.length_nil]
    unfold unvisitedCount
    omega
  · simp only [astar]
    have hpr : Preserves g (gridModify g s fun n =>
        { n with distance := some 0,
                 heuristic := some (manhattanDistance (getNode g s) (getNode g e)) }) :=
      Preserves.gridModify _ _ _ (fun n => ⟨rfl, rfl, rfl⟩)
    have hle := countGrid_le (wf_of_preserves hw hpr) (fun n => !n.isVisited)
    rw [hpr.1, hpr.2.1] at hle
    refine astarLoop_some e _ _ _ _ (wf_of_preserves hw hpr)
      (by rw [hpr.2.1]; exact hc0) ?_ ?_
    · intro x hx
      simp only [List.mem_singleton] at hx
      subst hx
      rw [inBounds_of_preserves hpr]
      exact hs
    · unfold astarFuel
      simp only [List.length_cons, List.length_nil]
      unfold unvisitedCount
      have hsq : numRows g * numCols g ≤
          numRows g * numCols g * (numRows g * numCols g) :=
        Nat.le_mul_of_pos_left _ (by omega)
      nlinarith [countGrid_le (wf_of_preserves hw hpr) (fun n => !n.isVisited)]
  · simp only [greedyBFS]
    have hpr : Preserves g (gridModify g s fun n =>
        { n with heuristic := some (manhattanDistance (getNode g s) (getNode g e)) }) :=
      Preserves.gridModify _ _ _ (fun n => ⟨rfl, rfl, rfl⟩)
    have hle := countGrid_le (wf_of_preserves hw hpr) (fun n => n.heuristic.isNone)
    rw [hpr.1, hpr.2.1] at hle
    refine greedyLoop_some e _ _ _ _ (wf_of_preserves hw hpr)
      (by rw [hpr.2.1]; exact hc0) ?_ ?_
    · intro x hx
      simp only [List.mem_singleton] at hx
      subst hx
      rw [inBounds_of_preserves hpr]
      exact hs
    · unfold bfsFuel
      simp only [List.length_cons, List.length_nil]
      unfold heurInfCount
      omega
  · simp only [uniformCostSearch]
    have hpr : Preserves g (gridModify g s fun n =>
        { n with distance := some 0 }) :=
      Preserves.gridModify _ _ _ (fun n => ⟨rfl, rfl, rfl⟩)
    have hle := countGrid_le (wf_of_preserves hw hpr) (fun n => !n.isVisited)
    rw [hpr.1, hpr.2.1] at hle
    refine ucsLoop_some e _ _ _ _ (wf_of_preserves hw hpr)
      (by rw [hpr.2.1]; exact hc0) ?_ ?_
    · intro x hx
      simp only [List.mem_singleton] at hx
      subst hx
      rw [inBounds_of_preserves hpr]
      exact hs
    · unfold astarFuel
      simp only [List.length_cons, List.length_nil]
      unfold unvisitedCount
      have hsq : numRows g * numCols g ≤
          numRows g * numCols g * (numRows g * numCols g) :=
        Nat.le_mul_of_pos_left _ (by omega)
      nlinarith [countGrid_le (wf_of_preserves hw hpr) (fun n => !n.isVisited)]
  · unfold iterativeDeepening
    exact idLoop_some s e _ g [] hw hc0 hs

/-- Witness for C8 on a concrete 2-by-2 grid. -/
theorem C8_termination_witness :
    (bfs (mkGrid [[CellType.start, CellType.empty],
                  [CellType.empty, CellType.endCell]]) (0,0) (1,1)).isSome ∧
    (dfs (mkGrid [[CellType.start, CellType.empty],
                  [CellType.empty, CellType.endCell]]) (0,0) (1,1)).isSome ∧
    (astar (mkGrid [[CellType.start, CellType.empty],
                  [CellType.empty, CellType.endCell]]) (0,0) (1,1)).isSome ∧
    (greedyBFS (mkGrid [[CellType.start, CellType.empty],
                  [CellType.empty, CellType.endCell]]) (0,0) (1,1)).isSome ∧
    (uniformCostSearch (mkGrid [[CellType.start, CellType.empty],
                  [CellType.empty, CellType.endCell]]) (0,0) (1,1)).isSome ∧
    (iterativeDeepening (mkGrid [[CellType.start, CellType.empty],
                  [CellType.empty, CellType.endCell]]) (0,0) (1,1)).isSome :=
  C8_termination (mkGrid [[CellType.start, CellType.empty],
      [CellType.empty, CellType.endCell]]) (0,0) (1,1)
    (by decide) (by decide) (by decide) (by decide) (by decide)

theorem bfsLoop_fail_shape (e : Pos) :
    ∀ (fuel : Nat) (g : Grid) (queue vis : List Pos) (gr : Grid)
      (res : PathfindingResult),
      bfsLoop e fuel g queue vis = some (gr, res) →
      res.success = false → res.shortestPath = [] := by
  intro fuel
  induction fuel with
  | zero => intro g queue vis gr res h; exact absurd h (by simp [bfsLoop])
  | succ f ih =>
    intro g queue vis gr res h hf
    cases queue with
    | nil =>
      simp only [bfsLoop] at h
      obtain ⟨_, h2⟩ := Prod.mk.injEq .. ▸ (Option.some.injEq .. ▸ h)
      rw [← h2]
    | cons p rest =>
      simp only [bfsLoop] at h
      split_ifs at h with hwall hend
      · exact ih _ _ _ _ _ h hf
      · obtain ⟨_, h2⟩ := Prod.mk.injEq .. ▸ (Option.some.injEq .. ▸ h)
        rw [← h2] at hf
        simp at hf
      · exact ih _ _ _ _ _ h hf

theorem dfsLoop_fail_shape (e : Pos) :
    ∀ (fuel : Nat) (g : Grid) (stack vis : List Pos) (gr : Grid)
      (res : PathfindingResult),
      dfsLoop e fuel g stack vis = some (gr, res) →
      res.success = false → res.shortestPath = [] := by
  intro fuel
  induction fuel with
  | zero => intro g stack vis gr res h; exact absurd h (by simp [dfsLoop])
  | succ f ih =>
    intro g stack vis gr res h hf
    cases stack with
    | nil =>
      simp only [dfsLoop] at h
      obtain ⟨_, h2⟩ := Prod.mk.injEq .. ▸ (Option.some.injEq .. ▸ h)
      rw [← h2]
    | cons p rest =>
      simp only [dfsLoop] at h
      split_ifs at h with hwall hend
      · exact ih _ _ _ _ _ h hf
      · obtain ⟨_, h2⟩ := Prod.mk.injEq .. ▸ (Option.some.injEq .. ▸ h)
        rw [← h2] at hf
        simp at hf
      · exact ih _ _ _ _ _ h hf

theorem astarLoop_fail_shape (e : Pos) :
    ∀ (fuel : Nat) (g : Grid) (os vis : List Pos) (gr : Grid)
      (res : PathfindingResult),
      astarLoop e fuel g os vis = some (gr, res) →
      res.success = false → res.shortestPath = [] := by
  intro fuel
  induction fuel with
  | zero => intro g os vis gr res h; exact absurd h (by simp [astarLoop])
  | succ f ih =>
    intro g os vis gr res h hf
    simp only [astarLoop] at h
    cases hs : sortBy (astarLt g) os with
    | nil =>
      rw [hs] at h
      dsimp only at h
      obtain ⟨_, h2⟩ := Prod.mk.injEq .. ▸ (Option.some.injEq .. ▸ h)
      rw [← h2]
    | cons p rest =>
      rw [hs] at h
      dsimp only at h
      split_ifs at h with hwall hvisd hend
      · exact ih _ _ _ _ _ h hf
      · exact ih _ _ _ _ _ h hf
      · obtain ⟨_, h2⟩ := Prod.mk.injEq .. ▸ (Option.some.injEq .. ▸ h)
        rw [← h2] at hf
        simp at hf
      · exact ih _ _ _ _ _ h hf

theorem ucsLoop_fail_shape (e : Pos) :
    ∀ (fuel : Nat) (g : Grid) (os vis : List Pos) (gr : Grid)
      (res : PathfindingResult),
      ucsLoop e fuel g os vis = some (gr, res) →
      res.success = false → res.shortestPath = [] := by
  intro fuel
  induction fuel with
  | zero => intro g os vis gr res h; exact absurd h (by simp [ucsLoop])
  | succ f ih =>
    intro g os vis gr res h hf
    simp only [ucsLoop] at h
    cases hs : sortBy (ucsLt g) os with
    | nil =>
      rw [hs] at h
      dsimp only at h
      obtain ⟨_, h2⟩ := Prod.mk.injEq .. ▸ (Option.some.injEq .. ▸ h)
      rw [← h2]
    | cons p rest =>
      rw [hs] at h
      dsimp only at h
      split_ifs at h with hwall hvisd hend
      · exact ih _ _ _ _ _ h hf
      · exact ih _ _ _ _ _ h hf
      · obtain ⟨_, h2⟩ := Prod.mk.injEq .. ▸ (Option.some.injEq .. ▸ h)
        rw [← h2] at hf
        simp at hf
      · exact ih _ _ _ _ _ h hf

theorem greedyLoop_fail_shape (e : Pos) :
    ∀ (fuel : Nat) (g : Grid) (os vis : List Pos) (gr : Grid)
      (res : PathfindingResult),
      greedyLoop e fuel g os vis = some (gr, res) →
      res.success = false → res.shortestPath = [] := by
  intro fuel
  induction fuel with
  | zero => intro g os vis gr res h; exact absurd h (by simp [greedyLoop])
  | succ f ih =>
    intro g os vis gr res h hf
    simp only [greedyLoop] at h
    cases hs : sortBy (greedyLt g) os with
    | nil =>
      rw [hs] at h
      dsimp only at h
      obtain ⟨_, h2⟩ := Prod.mk.injEq .. ▸ (Option.some.injEq .. ▸ h)
      rw [← h2]
    | cons p rest =>
      rw [hs] at h
      dsimp only at h
      split_ifs at h with hwall hvisd hend
      · exact ih _ _ _ _ _ h hf
      · exact ih _ _ _ _ _ h hf
      · obtain ⟨_, h2⟩ := Prod.mk.injEq .. ▸ (Option.some.injEq .. ▸ h)
        rw [← h2] at hf
        simp at hf
      · exact ih _ _ _ _ _ h hf

theorem idLoop_fail_shape (s e : Pos) :
    ∀ (ds : List Nat) (g : Grid) (acc : List Pos) (gr : Grid)
      (res : PathfindingResult),
      idLoop s e ds g acc = some (gr, res) →
      res.success = false → res.shortestPath = [] := by
  intro ds
  induction ds with
  | nil =>
    intro g acc gr res h hf
    simp only [idLoop] at h
    obtain ⟨_, h2⟩ := Prod.mk.injEq .. ▸ (Option.some.injEq .. ▸ h)
    rw [← h2]
  | cons d rest ih =>
    intro g acc gr res h hf
    simp only [idLoop] at h
    cases hrec : depthLimitedSearch (resetForIteration g) s e d acc with
    | none => rw [hrec] at h; exact absurd h (by simp)
    | some out =>
      obtain ⟨g2, acc2, b2⟩ := out
      rw [hrec] at h
      cases b2 with
      | true =>
        simp only at h
        obtain ⟨_, h2⟩ := Prod.mk.injEq .. ▸ (Option.some.injEq .. ▸ h)
        rw [← h2] at hf
        simp at hf
      | false =>
        simp only at h
        exact ih _ _ _ _ h hf

theorem isPathFrom_single {g : Grid} {s : Pos} (h : okCell g s) :
    IsPathFrom g s s [s] := by
  refine ⟨rfl, rfl, rfl, ?_⟩
  intro p hp
  simp only [List.mem_singleton] at hp
  subst hp
  exact h

theorem chainAdjb_snoc {l : List Pos} {p q : Pos} (hl : chainAdjb l = true)
    (hlast : l.getLast? = some p) (hadj : adjacent p q) :
    chainAdjb (l ++ [q]) = true := by
  rw [chainAdjb_iff] at hl ⊢
  rw [List.chain'_append]
  refine ⟨hl, List.chain'_singleton q, ?_⟩
  intro x hx y hy
  rw [hlast] at hx
  simp only [Option.mem_def, Option.some.injEq] at hx
  simp only [List.head?_cons, Option.mem_def, Option.some.injEq] at hy
  subst hx
  subst hy
  exact hadj

theorem isPathFrom_snoc {g : Grid} {s p q : Pos} {l : List Pos}
    (h : IsPathFrom g s p l) (hadj : adjacent p q) (hok : okCell g q) :
    IsPathFrom g s q (l ++ [q]) := by
  obtain ⟨h1, h2, h3, h4⟩ := h
  refine ⟨?_, ?_, chainAdjb_snoc h3 h2 hadj, ?_⟩
  · cases l with
    | nil => simp at h1
    | cons a as => simpa using h1
  · simp [List.getLast?_append]
  · intro x hx
    rcases List.mem_append.mp hx with hx | hx
    · exact h4 x hx
    · simp only [List.mem_singleton] at hx
      subst hx
      exact hok

theorem isPathFrom_second {g : Grid} {s e : Pos} {l : List Pos}
    (h : IsPathFrom g s e l) (hne : s ≠ e) :
    ∃ x, adjacent s x ∧ okCell g x := by
  obtain ⟨h1, h2, h3, h4⟩ := h
  cases l with
  | nil => simp at h1
  | cons a as =>
    simp only [List.head?_cons, Option.some.injEq] at h1
    subst h1
    cases as with
    | nil =>
      simp only [List.getLast?_singleton, Option.some.injEq] at h2
      exact absurd h2 hne
    | cons b bs =>
      refine ⟨b, ?_, h4 b (by simp)⟩
      simp only [chainAdjb, Bool.and_eq_true, decide_eq_true_eq] at h3
      exact h3.1

theorem bfsExpand_mem (p : Pos) :
    ∀ (ns : List Pos) (g : Grid) (queue : List Pos) (x : Pos),
      x ∈ (bfsExpand g p queue ns).2 →
      x ∈ queue ∨ (x ∈ ns ∧ (getNode g x).type ≠ CellType.wall) := by
  intro ns
  induction ns with
  | nil => intro g queue x h; exact Or.inl h
  | cons q rest ih =>
    intro g queue x h
    simp only [bfsExpand] at h
    split_ifs at h with hcond
    · have hprev : Preserves g (gridModify g q fun n =>
          { n with isVisited := true, previousNode := some p,
                   distance := dadd (getNode g p).distance (some 1) }) :=
        Preserves.gridModify _ _ _ (fun n => ⟨rfl, rfl, rfl⟩)
      rcases ih _ _ x h with h2 | h2
      · rcases List.mem_append.mp h2 with h3 | h3
        · exact Or.inl h3
        · simp only [List.mem_singleton] at h3
          subst h3
          exact Or.inr ⟨List.mem_cons_self _ _, hcond.2⟩
      · refine Or.inr ⟨List.mem_cons_of_mem q h2.1, ?_⟩
        rw [← (hprev.2.2.2 x).1]
        exact h2.2
    · rcases ih _ _ x h with h2 | h2
      · exact Or.inl h2
      · exact Or.inr ⟨List.mem_cons_of_mem q h2.1, h2.2⟩

theorem dfsExpand_mem (p : Pos) :
    ∀ (ns : List Pos) (g : Grid) (stack : List Pos) (x : Pos),
      x ∈ (dfsExpand g p stack ns).2 →
      x ∈ stack ∨ (x ∈ ns ∧ (getNode g x).type ≠ CellType.wall) := by
  intro ns
  induction ns with
  | nil => intro g stack x h; exact Or.inl h
  | cons q rest ih =>
    intro g stack x h
    simp only [dfsExpand] at h
    split_ifs at h with hcond
    · have hprev : Preserves g (gridModify g q fun n =>
          { n with isVisited := true, previousNode := some p }) :=
        Preserves.gridModify _ _ _ (fun n => ⟨rfl, rfl, rfl⟩)
      rcases ih _ _ x h with h2 | h2
      · rcases List.mem_cons.mp h2 with h3 | h3
        · subst h3
          exact Or.inr ⟨List.mem_cons_self _ _, hcond.2⟩
        · exact Or.inl h3
      · refine Or.inr ⟨List.mem_cons_of_mem q h2.1, ?_⟩
        rw [← (hprev.2.2.2 x).1]
        exact h2.2
    · rcases ih _ _ x h with h2 | h2
      · exact Or.inl h2
      · exact Or.inr ⟨List.mem_cons_of_mem q h2.1, h2.2⟩

theorem astarExpand_mem (p e : Pos) :
    ∀ (ns : List Pos) (g : Grid) (os : List Pos) (x : Pos),
      x ∈ (astarExpand g p e os ns).2 →
      x ∈ os ∨ (x ∈ ns ∧ (getNode g x).type ≠ CellType.wall) := by
  intro ns
  induction ns with
  | nil => intro g os x h; exact Or.inl h
  | cons q rest ih =>
    intro g os x h
    simp only [astarExpand] at h
    split_ifs at h with h1 h2 h3
    · rcases ih _ _ x h with h4 | h4
      · exact Or.inl h4
      · exact Or.inr ⟨List.mem_cons_of_mem q h4.1, h4.2⟩
    · have hprev : Preserves g (gridModify g q fun n =>
          { n with distance := dadd (getNode g p).distance (some 1),
                   heuristic := some (manhattanDistance (getNode g q) (getNode g e)),
                   previousNode := some p }) :=
        Preserves.gridModify _ _ _ (fun n => ⟨rfl, rfl, rfl⟩)
      rcases ih _ _ x h with h4 | h4
      · exact Or.inl h4
      · refine Or.inr ⟨List.mem_cons_of_mem q h4.1, ?_⟩
        rw [← (hprev.2.2.2 x).1]
        exact h4.2
    · have hprev : Preserves g (gridModify g q fun n =>
          { n with distance := dadd (getNode g p).distance (some 1),
                   heuristic := some (manhattanDistance (getNode g q) (getNode g e)),
                   previousNode := some p }) :=
        Preserves.gridModify _ _ _ (fun n => ⟨rfl, rfl, rfl⟩)
      rcases ih _ _ x h with h4 | h4
      · rcases List.mem_append.mp h4 with h5 | h5
        · exact Or.inl h5
        · simp only [List.mem_singleton] at h5
          subst h5
          push_neg at h1
          exact Or.inr ⟨List.mem_cons_self _ _, fun hw => h1.2 hw⟩
      · refine Or.inr ⟨List.mem_cons_of_mem q h4.1, ?_⟩
        rw [← (hprev.2.2.2 x).1]
        exact h4.2
    · rcases ih _ _ x h with h4 | h4
      · exact Or.inl h4
      · exact Or.inr ⟨List.mem_cons_of_mem q h4.1, h4.2⟩

theorem ucsExpand_mem (p : Pos) :
    ∀ (ns : List Pos) (g : Grid) (os : List Pos) (x : Pos),
      x ∈ (ucsExpand g p os ns).2 →
      x ∈ os ∨ (x ∈ ns ∧ (getNode g x).type ≠ CellType.wall) := by
  intro ns
  induction ns with
  | nil => intro g os x h; exact Or.inl h
  | cons q rest ih =>
    intro g os x h
    simp only [ucsExpand] at h
    split_ifs at h with h1 h2 h3
    · rcases ih _ _ x h with h4 | h4
      · exact Or.inl h4
      · exact Or.inr ⟨List.mem_cons_of_mem q h4.1, h4.2⟩
    · have hprev : Preserves g (gridModify g q fun n =>
          { n with distance := dadd (getNode g p).distance (some 1),
                   previousNode := some p }) :=
        Preserves.gridModify _ _ _ (fun n => ⟨rfl, rfl, rfl⟩)
      rcases ih _ _ x h with h4 | h4
      · exact Or.inl h4
      · refine Or.inr ⟨List.mem_cons_of_mem q h4.1, ?_⟩
        rw [← (hprev.2.2.2 x).1]
        exact h4.2
    · have hprev : Preserves g (gridModify g q fun n =>
          { n with distance := dadd (getNode g p).distance (some 1),
                   previousNode := some p }) :=
        Preserves.gridModify _ _ _ (fun n => ⟨rfl, rfl, rfl⟩)
      rcases ih _ _ x h with h4 | h4
      · rcases List.mem_append.mp h4 with h5 | h5
        · exact Or.inl h5
        · simp only [List.mem_singleton] at h5
          subst h5
          push_neg at h1
          exact Or.inr ⟨List.mem_cons_self _ _, fun hw => h1.2 hw⟩
      · refine Or.inr ⟨List.mem_cons_of_mem q h4.1, ?_⟩
        rw [← (hprev.2.2.2 x).1]
        exact h4.2
    · rcases ih _ _ x h with h4 | h4
      · exact Or.inl h4
      · exact Or.inr ⟨List.mem_cons_of_mem q h4.1, h4.2⟩

theorem greedyExpand_mem (p e : Pos) :
    ∀ (ns : List Pos) (g : Grid) (os : List Pos) (x : Pos),
      x ∈ (greedyExpand g p e os ns).2 →
      x ∈ os ∨ (x ∈ ns ∧ (getNode g x).type ≠ CellType.wall) := by
  intro ns
  induction ns with
  | nil => intro g os x h; exact Or.inl h
  | cons q rest ih =>
    intro g os x h
    simp only [greedyExpand] at h
    split_ifs at h with h1 h2
    · rcases ih _ _ x h with h4 | h4
      · exact Or.inl h4
      · exact Or.inr ⟨List.mem_cons_of_mem q h4.1, h4.2⟩
    · have hprev : Preserves g (gridModify g q fun n =>
          { n with heuristic := some (manhattanDistance (getNode g q) (getNode g e)),
                   previousNode := some p }) :=
        Preserves.gridModify _ _ _ (fun n => ⟨rfl, rfl, rfl⟩)
      rcases ih _ _ x h with h4 | h4
      · rcases List.mem_append.mp h4 with h5 | h5
        · exact Or.inl h5
        · simp only [List.mem_singleton] at h5
          subst h5
          push_neg at h1
          exact Or.inr ⟨List.mem_cons_self _ _, fun hw => h1.2 hw⟩
      · refine Or.inr ⟨List.mem_cons_of_mem q h4.1, ?_⟩
        rw [← (hprev.2.2.2 x).1]
        exact h4.2
    · rcases ih _ _ x h with h4 | h4
      · exact Or.inl h4
      · exact Or.inr ⟨List.mem_cons_of_mem q h4.1, h4.2⟩

theorem bfsLoop_reach (s e : Pos) (g0 : Grid) (hw0 : WFGrid g0) :
    ∀ (fuel : Nat) (g : Grid) (queue vis : List Pos) (gr : Grid)
      (res : PathfindingResult),
      Preserves g0 g →
      (∀ x ∈ queue, inBounds g0 x ∧
        ((getNode g0 x).type ≠ CellType.wall → ∃ l, IsPathFrom g0 s x l)) →
      bfsLoop e fuel g queue vis = some (gr, res) →
      res.success = true → ∃ l, IsPathFrom g0 s e l := by
  intro fuel
  induction fuel with
  | zero => intro g queue vis gr res _ _ h _; exact absurd h (by simp [bfsLoop])
  | succ f ih =>
    intro g queue vis gr res hpres hinv h hsucc
    cases queue with
    | nil =>
      simp only [bfsLoop] at h
      obtain ⟨_, h2⟩ := Prod.mk.injEq .. ▸ (Option.some.injEq .. ▸ h)
      rw [← h2] at hsucc
      simp at hsucc
    | cons p rest =>
      simp only [bfsLoop] at h
      split_ifs at h with hwall hend
      · exact ih g rest vis gr res hpres
          (fun x hx => hinv x (List.mem_cons_of_mem p hx)) h hsucc
      · obtain ⟨hpb, hre⟩ := hinv p (List.mem_cons_self _ _)
        have hnw : (getNode g0 p).type ≠ CellType.wall := by
          rw [← (hpres.2.2.2 p).1]
          exact hwall
        subst hend
        exact hre hnw
      · have hnw0 : (getNode g0 p).type ≠ CellType.wall := by
          rw [← (hpres.2.2.2 p).1]
          exact hwall
        obtain ⟨hpb0, hre⟩ := hinv p (List.mem_cons_self _ _)
        obtain ⟨lp, hlp⟩ := hre hnw0
        have hwg : WFGrid g := wf_of_preserves hw0 hpres
        have hpbg : inBounds g p := (inBounds_of_preserves hpres p).mpr hpb0
        refine ih _ _ _ _ _
          (hpres.trans (preserves_bfsExpand p _ g rest)) ?_ h hsucc
        intro x hx
        rcases bfsExpand_mem p _ g rest x hx with hx2 | hx2
        · exact hinv x (List.mem_cons_of_mem p hx2)
        · obtain ⟨hxg, hadj⟩ := mem_getNeighbors hwg hpbg hx2.1
          have hxb0 : inBounds g0 x := (inBounds_of_preserves hpres x).mp hxg
          have hxnw0 : (getNode g0 x).type ≠ CellType.wall := by
            rw [← (hpres.2.2.2 x).1]
            exact hx2.2
          exact ⟨hxb0, fun _ =>
            ⟨lp ++ [x], isPathFrom_snoc hlp hadj ⟨hxb0, hxnw0⟩⟩⟩

theorem dfsLoop_reach (s e : Pos) (g0 : Grid) (hw0 : WFGrid g0) :
    ∀ (fuel : Nat) (g : Grid) (stack vis : List Pos) (gr : Grid)
      (res : PathfindingResult),
      Preserves g0 g →
      (∀ x ∈ stack, inBounds g0 x ∧
        ((getNode g0 x).type ≠ CellType.wall → ∃ l, IsPathFrom g0 s x l)) →
      dfsLoop e fuel g stack vis = some (gr, res) →
      res.success = true → ∃ l, IsPathFrom g0 s e l := by
  intro fuel
  induction fuel with
  | zero => intro g stack vis gr res _ _ h _; exact absurd h (by simp [dfsLoop])
  | succ f ih =>
    intro g stack vis gr res hpres hinv h hsucc
    cases stack with
    | nil =>
      simp only [dfsLoop] at h
      obtain ⟨_, h2⟩ := Prod.mk.injEq .. ▸ (Option.some.injEq .. ▸ h)
      rw [← h2] at hsucc
      simp at hsucc
    | cons p rest =>
      simp only [dfsLoop] at h
      split_ifs at h with hwall hend
      · exact ih g rest vis gr res hpres
          (fun x hx => hinv x (List.mem_cons_of_mem p hx)) h hsucc
      · obtain ⟨hpb, hre⟩ := hinv p (List.mem_cons_self _ _)
        have hnw : (getNode g0 p).type ≠ CellType.wall := by
          rw [← (hpres.2.2.2 p).1]
          exact hwall
        subst hend
        exact hre hnw
      · have hnw0 : (getNode g0 p).type ≠ CellType.wall := by
          rw [← (hpres.2.2.2 p).1]
          exact hwall
        obtain ⟨hpb0, hre⟩ := hinv p (List.mem_cons_self _ _)
        obtain ⟨lp, hlp⟩ := hre hnw0
        have hwg : WFGrid g := wf_of_preserves hw0 hpres
        have hpbg : inBounds g p := (inBounds_of_preserves hpres p).mpr hpb0
        refine ih _ _ _ _ _
          (hpres.trans (preserves_dfsExpand p _ g rest)) ?_ h hsucc
        intro x hx
        rcases dfsExpand_mem p _ g rest x hx with hx2 | hx2
        · exact hinv x (List.mem_cons_of_mem p hx2)
        · obtain ⟨hxg, hadj⟩ :=
            mem_getNeighbors hwg hpbg (List.mem_reverse.mp hx2.1)
          have hxb0 : inBounds g0 x := (inBounds_of_preserves hpres x).mp hxg
          have hxnw0 : (getNode g0 x).type ≠ CellType.wall := by
            rw [← (hpres.2.2.2 x).1]
            exact hx2.2
          exact ⟨hxb0, fun _ =>
            ⟨lp ++ [x], isPathFrom_snoc hlp hadj ⟨hxb0, hxnw0⟩⟩⟩

theorem astarLoop_reach (s e : Pos) (g0 : Grid) (hw0 : WFGrid g0) :
    ∀ (fuel : Nat) (g : Grid) (openSet vis : List Pos) (gr : Grid)
      (res : PathfindingResult),
      Preserves g0 g →
      (∀ x ∈ openSet, inBounds g0 x ∧
        ((getNode g0 x).type ≠ CellType.wall → ∃ l, IsPathFrom g0 s x l)) →
      astarLoop e fuel g openSet vis = some (gr, res) →
      res.success = true → ∃ l, IsPathFrom g0 s e l := by
  intro fuel
  induction fuel with
  | zero => intro g os vis gr res _ _ h _; exact absurd h (by simp [astarLoop])
  | succ f ih =>
    intro g os vis gr res hpres hinv h hsucc
    simp only [astarLoop] at h
    cases hs : sortBy (astarLt g) os with
    | nil =>
      rw [hs] at h
      dsimp only at h
      obtain ⟨_, h2⟩ := Prod.mk.injEq .. ▸ (Option.some.injEq .. ▸ h)
      rw [← h2] at hsucc
      simp at hsucc
    | cons p rest =>
      rw [hs] at h
      dsimp only at h
      have hmem : ∀ x ∈ p :: rest, x ∈ os := fun x hx =>
        ((sortBy_perm (astarLt g) os).mem_iff).mp (hs ▸ hx)
      split_ifs at h with hwall hvis hend
      · exact ih g rest vis gr res hpres
          (fun x hx => hinv x (hmem x (List.mem_cons_of_mem p hx))) h hsucc
      · exact ih g rest vis gr res hpres
          (fun x hx => hinv x (hmem x (List.mem_cons_of_mem p hx))) h hsucc
      · obtain ⟨hpb, hre⟩ := hinv p (hmem p (List.mem_cons_self _ _))
        have hnw : (getNode g0 p).type ≠ CellType.wall := by
          rw [← (hpres.2.2.2 p).1]
          exact hwall
        subst hend
        exact hre hnw
      · have hnw0 : (getNode g0 p).type ≠ CellType.wall := by
          rw [← (hpres.2.2.2 p).1]
          exact hwall
        obtain ⟨hpb0, hre⟩ := hinv p (hmem p (List.mem_cons_self _ _))
        obtain ⟨lp, hlp⟩ := hre hnw0
        have hpres2 : Preserves g0 (gridModify g p fun n =>
            { n with isVisited := true }) :=
          hpres.trans (Preserves.gridModify _ _ _ (fun n => ⟨rfl, rfl, rfl⟩))
        have hwg2 : WFGrid (gridModify g p fun n => { n with isVisited := true }) :=
          wf_of_preserves hw0 hpres2
        have hpbg2 : inBounds (gridModify g p fun n => { n with isVisited := true }) p :=
          (inBounds_of_preserves hpres2 p).mpr hpb0
        refine ih _ _ _ _ _
          (hpres2.trans (preserves_astarExpand p e _ _ rest)) ?_ h hsucc
        intro x hx
        rcases astarExpand_mem p e _ _ rest x hx with hx2 | hx2
        · exact hinv x (hmem x (List.mem_cons_of_mem p hx2))
        · obtain ⟨hxg, hadj⟩ := mem_getNeighbors hwg2 hpbg2 hx2.1
          have hxb0 : inBounds g0 x := (inBounds_of_preserves hpres2 x).mp hxg
          have hxnw0 : (getNode g0 x).type ≠ CellType.wall := by
            rw [← (hpres2.2.2.2 x).1]
            exact hx2.2
          exact ⟨hxb0, fun _ =>
            ⟨lp ++ [x], isPathFrom_snoc hlp hadj ⟨hxb0, hxnw0⟩⟩⟩

theorem ucsLoop_reach (s e : Pos) (g0 : Grid) (hw0 : WFGrid g0) :
    ∀ (fuel : Nat) (g : Grid) (openSet vis : List Pos) (gr : Grid)
      (res : PathfindingResult),
      Preserves g0 g →
      (∀ x ∈ openSet, inBounds g0 x ∧
        ((getNode g0 x).type ≠ CellType.wall → ∃ l, IsPathFrom g0 s x l)) →
      ucsLoop e fuel g openSet vis = some (gr, res) →
      res.success = true → ∃ l, IsPathFrom g0 s e l := by
  intro fuel
  induction fuel with
  | zero => intro g os vis gr res _ _ h _; exact absurd h (by simp [ucsLoop])
  | succ f ih =>
    intro g os vis gr res hpres hinv h hsucc
    simp only [ucsLoop] at h
    cases hs : sortBy (ucsLt g) os with
    | nil =>
      rw [hs] at h
      dsimp only at h
      obtain ⟨_, h2⟩ := Prod.mk.injEq .. ▸ (Option.some.injEq .. ▸ h)
      rw [← h2] at hsucc
      simp at hsucc
    | cons p rest =>
      rw [hs] at h
      dsimp only at h
      have hmem : ∀ x ∈ p :: rest, x ∈ os := fun x hx =>
        ((sortBy_perm (ucsLt g) os).mem_iff).mp (hs ▸ hx)
      split_ifs at h with hwall hvis hend
      · exact ih g rest vis gr res hpres
          (fun x hx => hinv x (hmem x (List.mem_cons_of_mem p hx))) h hsucc
      · exact ih g rest vis gr res hpres
          (fun x hx => hinv x (hmem x (List.mem_cons_of_mem p hx))) h hsucc
      · obtain ⟨hpb, hre⟩ := hinv p (hmem p (List.mem_cons_self _ _))
        have hnw : (getNode g0 p).type ≠ CellType.wall := by
          rw [← (hpres.2.2.2 p).1]
          exact hwall
        subst hend
        exact hre hnw
      · have hnw0 : (getNode g0 p).type ≠ CellType.wall := by
          rw [← (hpres.2.2.2 p).1]
          exact hwall
        obtain ⟨hpb0, hre⟩ := hinv p (hmem p (List.mem_cons_self _ _))
        obtain ⟨lp, hlp⟩ := hre hnw0
        have hpres2 : Preserves g0 (gridModify g p fun n =>
            { n with isVisited := true }) :=
          hpres.trans (Preserves.gridModify _ _ _ (fun n => ⟨rfl, rfl, rfl⟩))
        have hwg2 : WFGrid (gridModify g p fun n => { n with isVisited := true }) :=
          wf_of_preserves hw0 hpres2
        have hpbg2 : inBounds (gridModify g p fun n => { n with isVisited := true }) p :=
          (inBounds_of_preserves hpres2 p).mpr hpb0
        refine ih _ _ _ _ _
          (hpres2.trans (preserves_ucsExpand p _ _ rest)) ?_ h hsucc
        intro x hx
        rcases ucsExpand_mem p _ _ rest x hx with hx2 | hx2
        · exact hinv x (hmem x (List.mem_cons_of_mem p hx2))
        · obtain ⟨hxg, hadj⟩ := mem_getNeighbors hwg2 hpbg2 hx2.1
          have hxb0 : inBounds g0 x := (inBounds_of_preserves hpres2 x).mp hxg
          have hxnw0 : (getNode g0 x).type ≠ CellType.wall := by
            rw [← (hpres2.2.2.2 x).1]
            exact hx2.2
          exact ⟨hxb0, fun _ =>
            ⟨lp ++ [x], isPathFrom_snoc hlp hadj ⟨hxb0, hxnw0⟩⟩⟩

theorem greedyLoop_reach (s e : Pos) (g0 : Grid) (hw0 : WFGrid g0) :
    ∀ (fuel : Nat) (g : Grid) (openSet vis : List Pos) (gr : Grid)
      (res : PathfindingResult),
      Preserves g0 g →
      (∀ x ∈ openSet, inBounds g0 x ∧
        ((getNode g0 x).type ≠ CellType.wall → ∃ l, IsPathFrom g0 s x l)) →
      greedyLoop e fuel g openSet vis = some (gr, res) →
      res.success = true → ∃ l, IsPathFrom g0 s e l := by
  intro fuel
  induction fuel with
  | zero => intro g os vis gr res _ _ h _; exact absurd h (by simp [greedyLoop])
  | succ f ih =>
    intro g os vis gr res hpres hinv h hsucc
    simp only [greedyLoop] at h
    cases hs : sortBy (greedyLt g) os with
    | nil =>
      rw [hs] at h
      dsimp only at h
      obtain ⟨_, h2⟩ := Prod.mk.injEq .. ▸ (Option.some.injEq .. ▸ h)
      rw [← h2] at hsucc
      simp at hsucc
    | cons p rest =>
      rw [hs] at h
      dsimp only at h
      have hmem : ∀ x ∈ p :: rest, x ∈ os := fun x hx =>
        ((sortBy_perm (greedyLt g) os).mem_iff).mp (hs ▸ hx)
      split_ifs at h with hwall hvis hend
      · exact ih g rest vis gr res hpres
          (fun x hx => hinv x (hmem x (List.mem_cons_of_mem p hx))) h hsucc
      · exact ih g rest vis gr res hpres
          (fun x hx => hinv x (hmem x (List.mem_cons_of_mem p hx))) h hsucc
      · obtain ⟨hpb, hre⟩ := hinv p (hmem p (List.mem_cons_self _ _))
        have hnw : (getNode g0 p).type ≠ CellType.wall := by
          rw [← (hpres.2.2.2 p).1]
          exact hwall
        subst hend
        exact hre hnw
      · have hnw0 : (getNode g0 p).type ≠ CellType.wall := by
          rw [← (hpres.2.2.2 p).1]
          exact hwall
        obtain ⟨hpb0, hre⟩ := hinv p (hmem p (List.mem_cons_self _ _))
        obtain ⟨lp, hlp⟩ := hre hnw0
        have hpres2 : Preserves g0 (gridModify g p fun n =>
            { n with isVisited := true }) :=
          hpres.trans (Preserves.gridModify _ _ _ (fun n => ⟨rfl, rfl, rfl⟩))
        have hwg2 : WFGrid (gridModify g p fun n => { n with isVisited := true }) :=
          wf_of_preserves hw0 hpres2
        have hpbg2 : inBounds (gridModify g p fun n => { n with isVisited := true }) p :=
          (inBounds_of_preserves hpres2 p).mpr hpb0
        refine ih _ _ _ _ _
          (hpres2.trans (preserves_greedyExpand p e _ _ rest)) ?_ h hsucc
        intro x hx
        rcases greedyExpand_mem p e _ _ rest x hx with hx2 | hx2
        · exact hinv x (hmem x (List.mem_cons_of_mem p hx2))
        · obtain ⟨hxg, hadj⟩ := mem_getNeighbors hwg2 hpbg2 hx2.1
          have hxb0 : inBounds g0 x := (inBounds_of_preserves hpres2 x).mp hxg
          have hxnw0 : (getNode g0 x).type ≠ CellType.wall := by
            rw [← (hpres2.2.2.2 x).1]
            exact hx2.2
          exact ⟨hxb0, fun _ =>
            ⟨lp ++ [x], isPathFrom_snoc hlp hadj ⟨hxb0, hxnw0⟩⟩⟩

theorem dlsGo_reach (s e : Pos) (g0 : Grid) (hw0 : WFGrid g0) (maxDepth : Nat) :
    ∀ (fuel : Nat) (g : Grid) (w : DlsWork) (depth : Nat) (vis : List Pos)
      (gr : Grid) (vis2 : List Pos),
      Preserves g0 g →
      (∀ p, w = DlsWork.enter p → inBounds g0 p ∧
        ((getNode g0 p).type ≠ CellType.wall → ∃ l, IsPathFrom g0 s p l)) →
      (∀ parent ns, w = DlsWork.children parent ns →
        (∃ l, IsPathFrom g0 s parent l) ∧
        ∀ q ∈ ns, inBounds g0 q ∧ adjacent parent q) →
      dlsGo e maxDepth fuel g w depth vis = some (gr, vis2, true) →
      ∃ l, IsPathFrom g0 s e l := by
  intro fuel
  induction fuel with
  | zero =>
    intro g w depth vis gr vis2 _ _ _ h
    exact absurd h (by simp [dlsGo])
  | succ f ih =>
    intro g w depth vis gr vis2 hpres henter hkids h
    cases w with
    | enter p =>
      obtain ⟨hpb0, hre⟩ := henter p (Eq.refl _)
      simp only [dlsGo] at h
      split_ifs at h with hwall hend hdep
      · obtain ⟨_, _, h3⟩ := Prod.mk.injEq .. ▸ (Prod.mk.injEq .. ▸
          (Option.some.injEq .. ▸ h))
        exact absurd h3.symm (by simp)
      · have hnw0 : (getNode g0 p).type ≠ CellType.wall := by
          rw [← (hpres.2.2.2 p).1]
          exact hwall
        subst hend
        exact hre hnw0
      · obtain ⟨_, _, h3⟩ := Prod.mk.injEq .. ▸ (Prod.mk.injEq .. ▸
          (Option.some.injEq .. ▸ h))
        exact absurd h3.symm (by simp)
      · have hnw0 : (getNode g0 p).type ≠ CellType.wall := by
          rw [← (hpres.2.2.2 p).1]
          exact hwall
        obtain ⟨lp, hlp⟩ := hre hnw0
        have hpres2 : Preserves g0 (gridModify g p fun n =>
            { n with isVisited := true }) :=
          hpres.trans (Preserves.gridModify _ _ _ (fun n => ⟨rfl, rfl, rfl⟩))
        have hwg2 : WFGrid (gridModify g p fun n => { n with isVisited := true }) :=
          wf_of_preserves hw0 hpres2
        have hpbg2 : inBounds (gridModify g p fun n => { n with isVisited := true }) p :=
          (inBounds_of_preserves hpres2 p).mpr hpb0
        refine ih _ _ _ _ _ _ hpres2
          (fun p' hp' => DlsWork.noConfusion hp') ?_ h
        intro parent ns hw2
        obtain ⟨hw21, hw22⟩ := DlsWork.children.injEq .. ▸ hw2
        subst hw21
        subst hw22
        refine ⟨⟨lp, hlp⟩, ?_⟩
        intro q hq
        obtain ⟨hqg, hadj⟩ := mem_getNeighbors hwg2 hpbg2 hq
        exact ⟨(inBounds_of_preserves hpres2 q).mp hqg, hadj⟩
    | children parent ns =>
      obtain ⟨hreach, hns⟩ := hkids parent ns (Eq.refl _)
      cases ns with
      | nil =>
        simp only [dlsGo] at h
        obtain ⟨_, _, h3⟩ := Prod.mk.injEq .. ▸ (Prod.mk.injEq .. ▸
          (Option.some.injEq .. ▸ h))
        exact absurd h3.symm (by simp)
      | cons q rest =>
        simp only [dlsGo] at h
        split_ifs at h with hcond
        · have hpres2 : Preserves g0 (gridModify g q fun n =>
              { n with previousNode := some parent }) :=
            hpres.trans (Preserves.gridModify _ _ _ (fun n => ⟨rfl, rfl, rfl⟩))
          obtain ⟨hqb0, hqadj⟩ := hns q (List.mem_cons_self _ _)
          have henter2 : ∀ p', DlsWork.enter q = DlsWork.enter p' →
              inBounds g0 p' ∧ ((getNode g0 p').type ≠ CellType.wall →
                ∃ l, IsPathFrom g0 s p' l) := by
            intro p' hp'
            obtain hq' := DlsWork.enter.injEq .. ▸ hp'
            subst hq'
            refine ⟨hqb0, fun hnw => ?_⟩
            obtain ⟨lp, hlp⟩ := hreach
            exact ⟨lp ++ [q], isPathFrom_snoc hlp hqadj ⟨hqb0, hnw⟩⟩
          cases hrec : dlsGo e maxDepth f
              (gridModify g q fun n => { n with previousNode := some parent })
              (DlsWork.enter q) (depth + 1) vis with
          | none => rw [hrec] at h; exact absurd h (by simp)
          | some out =>
            obtain ⟨g3, vis3, b3⟩ := out
            rw [hrec] at h
            cases b3 with
            | true =>
              exact ih _ _ _ _ _ _ hpres2 henter2
                (fun pa ns2 hw2 => DlsWork.noConfusion hw2) hrec
            | false =>
              simp only at h
              have hpres3 : Preserves g0 g3 :=
                hpres2.trans (preserves_dlsGo e maxDepth _ _ _ _ _ _ _ _ hrec)
              refine ih _ _ _ _ _ _ hpres3
                (fun p' hp' => DlsWork.noConfusion hp') ?_ h
              intro pa ns2 hw2
              obtain ⟨hw21, hw22⟩ := DlsWork.children.injEq .. ▸ hw2
              subst hw21
              subst hw22
              exact ⟨hreach, fun x hx => hns x (List.mem_cons_of_mem q hx)⟩
        · refine ih _ _ _ _ _ _ hpres
            (fun p' hp' => DlsWork.noConfusion hp') ?_ h
          intro pa ns2 hw2
          obtain ⟨hw21, hw22⟩ := DlsWork.children.injEq .. ▸ hw2
          subst hw21
          subst hw22
          exact ⟨hreach, fun x hx => hns x (List.mem_cons_of_mem q hx)⟩

theorem idLoop_reach (s e : Pos) (g0 : Grid) (hw0 : WFGrid g0)
    (hs0 : inBounds g0 s) :
    ∀ (ds : List Nat) (g : Grid) (acc : List Pos) (gr : Grid)
      (res : PathfindingResult),
      Preserves g0 g →
      idLoop s e ds g acc = some (gr, res) →
      res.success = true → ∃ l, IsPathFrom g0 s e l := by
  intro ds
  induction ds with
  | nil =>
    intro g acc gr res _ h hsucc
    simp only [idLoop] at h
    obtain ⟨_, h2⟩ := Prod.mk.injEq .. ▸ (Option.some.injEq .. ▸ h)
    rw [← h2] at hsucc
    simp at hsucc
  | cons d rest ih =>
    intro g acc gr res hpres h hsucc
    simp only [idLoop] at h
    cases hrec : depthLimitedSearch (resetForIteration g) s e d acc with
    | none => rw [hrec] at h; exact absurd h (by simp)
    | some out =>
      obtain ⟨g2, acc2, b2⟩ := out
      rw [hrec] at h
      cases b2 with
      | true =>
        unfold depthLimitedSearch at hrec
        refine dlsGo_reach s e g0 hw0 d _ _ _ _ _ _ _
          (hpres.trans (preserves_resetForIteration g)) ?_
          (fun pa ns hw2 => DlsWork.noConfusion hw2) hrec
        intro p' hp'
        obtain hq' := DlsWork.enter.injEq .. ▸ hp'
        subst hq'
        exact ⟨hs0, fun hnw => ⟨[s], isPathFrom_single ⟨hs0, hnw⟩⟩⟩
      | false =>
        simp only at h
        exact ih _ _ _ _ (hpres.trans ((preserves_resetForIteration g).trans
          (preserves_dlsGo e d _ _ _ _ _ _ _ _ hrec))) h hsucc

/-- A 3-by-3 grid whose start cell `(0,0)` is sealed off by walls at `(0,1)`
and `(1,0)`: no 4-connected non-wall path reaches the end cell `(2,2)`. -/
def gW33 : Grid := mkGrid
  [[CellType.start, CellType.wall, CellType.empty],
   [CellType.wall, CellType.empty, CellType.empty],
   [CellType.empty, CellType.empty, CellType.endCell]]

theorem gW33_no_path : ∀ l, ¬ IsPathFrom gW33 (0, 0) (2, 2) l := by
  intro l hl
  obtain ⟨x, hadj, hok⟩ := isPathFrom_second hl (by decide)
  rcases adjacent_cases hadj with ⟨h1, _⟩ | h1 | h1 | ⟨h1, _⟩
  · exact absurd h1 (by decide)
  · subst h1
    exact absurd hok (by decide)
  · subst h1
    exact absurd hok (by decide)
  · exact absurd h1 (by decide)

/-- C3: on every well-formed grid with in-bounds start in which no
4-connected path of non-wall cells joins start to end, each of the six
algorithms that returns at all returns `success = false` and an empty
`shortestPath`. -/
theorem C3_no_path_failure (g : Grid) (s e : Pos) (hw : WFGrid g)
    (hs : inBounds g s) (hnp : ∀ l, ¬ IsPathFrom g s e l) :
    (∀ gr res, bfs g s e = some (gr, res) →
      res.success = false ∧ res.shortestPath = []) ∧
    (∀ gr res, dfs g s e = some (gr, res) →
      res.success = false ∧ res.shortestPath = []) ∧
    (∀ gr res, astar g s e = some (gr, res) →
      res.success = false ∧ res.shortestPath = []) ∧
    (∀ gr res, uniformCostSearch g s e = some (gr, res) →
      res.success = false ∧ res.shortestPath = []) ∧
    (∀ gr res, greedyBFS g s e = some (gr, res) →
      res.success = false ∧ res.shortestPath = []) ∧
    (∀ gr res, iterativeDeepening g s e = some (gr, res) →
      res.success = false ∧ res.shortestPath = []) := by
  have hinv : ∀ x ∈ [s], inBounds g x ∧
      ((getNode g x).type ≠ CellType.wall → ∃ l, IsPathFrom g s x l) := by
    intro x hx
    simp only [List.mem_singleton] at hx
    subst hx
    exact ⟨hs, fun hnw => ⟨[x], isPathFrom_single ⟨hs, hnw⟩⟩⟩
  refine ⟨?_, ?_, ?_, ?_, ?_, ?_⟩
  · intro gr res h
    simp only [bfs] at h
    have hpres : Preserves g (gridModify g s fun n =>
        { n with isVisited := true, distance := some 0 }) :=
      Preserves.gridModify _ _ _ (fun n => ⟨rfl, rfl, rfl⟩)
    have hf : res.success = false := by
      cases hsucc : res.success
      · rfl
      · obtain ⟨l, hl⟩ := bfsLoop_reach s e g hw _ _ _ _ _ _ hpres hinv h hsucc
        exact absurd hl (hnp l)
    exact ⟨hf, bfsLoop_fail_shape e _ _ _ _ _ _ h hf⟩
  · intro gr res h
    simp only [dfs] at h
    have hpres : Preserves g (gridModify g s fun n =>
        { n with isVisited := true }) :=
      Preserves.gridModify _ _ _ (fun n => ⟨rfl, rfl, rfl⟩)
    have hf : res.success = false := by
      cases hsucc : res.success
      · rfl
      · obtain ⟨l, hl⟩ := dfsLoop_reach s e g hw _ _ _ _ _ _ hpres hinv h hsucc
        exact absurd hl (hnp l)
    exact ⟨hf, dfsLoop_fail_shape e _ _ _ _ _ _ h hf⟩
  · intro gr res h
    simp only [astar] at h
    have hpres : Preserves g (gridModify g s fun n =>
        { n with distance := some 0,
                 heuristic := some (manhattanDistance (getNode g s) (getNode g e)) }) :=
      Preserves.gridModify _ _ _ (fun n => ⟨rfl, rfl, rfl⟩)
    have hf : res.success = false := by
      cases hsucc : res.success
      · rfl
      · obtain ⟨l, hl⟩ := astarLoop_reach s e g hw _ _ _ _ _ _ hpres hinv h hsucc
        exact absurd hl (hnp l)
    exact ⟨hf, astarLoop_fail_shape e _ _ _ _ _ _ h hf⟩
  · intro gr res h
    simp only [uniformCostSearch] at h
    have hpres : Preserves g (gridModify g s fun n =>
        { n with distance := some 0 }) :=
      Preserves.gridModify _ _ _ (fun n => ⟨rfl, rfl, rfl⟩)
    have hf : res.success = false := by
      cases hsucc : res.success
      · rfl
      · obtain ⟨l, hl⟩ := ucsLoop_reach s e g hw _ _ _ _ _ _ hpres hinv h hsucc
        exact absurd hl (hnp l)
    exact ⟨hf, ucsLoop_fail_shape e _ _ _ _ _ _ h hf⟩
  · intro gr res h
    simp only [greedyBFS] at h
    have hpres : Preserves g (gridModify g s fun n =>
        { n with heuristic := some (manhattanDistance (getNode g s) (getNode g e)) }) :=
      Preserves.gridModify _ _ _ (fun n => ⟨rfl, rfl, rfl⟩)
    have hf : res.success = false := by
      cases hsucc : res.success
      · rfl
      · obtain ⟨l, hl⟩ := greedyLoop_reach s e g hw _ _ _ _ _ _ hpres hinv h hsucc
        exact absurd hl (hnp l)
    exact ⟨hf, greedyLoop_fail_shape e _ _ _ _ _ _ h hf⟩
  · intro gr res h
    unfold iterativeDeepening at h
    have hf : res.success = false := by
      cases hsucc : res.success
      · rfl
      · obtain ⟨l, hl⟩ := idLoop_reach s e g hw hs _ _ _ _ _
          (Preserves.self g) h hsucc
        exact absurd hl (hnp l)
    exact ⟨hf, idLoop_fail_shape s e _ _ _ _ _ h hf⟩

/-- Witness for C3 on the sealed 3-by-3 grid: the hypotheses hold and the
claim yields failure for the concrete `bfs` run. -/
theorem C3_no_path_failure_witness :
    WFGrid gW33 ∧ inBounds gW33 (0, 0) ∧
    ((bfs gW33 (0, 0) (2, 2)).getD dfltRun).2.success = false ∧
    ((bfs gW33 (0, 0) (2, 2)).getD dfltRun).2.shortestPath = [] := by
  refine ⟨by decide, by decide, ?_⟩
  have h : bfs gW33 (0, 0) (2, 2) =
      some (((bfs gW33 (0, 0) (2, 2)).getD dfltRun).1,
            ((bfs gW33 (0, 0) (2, 2)).getD dfltRun).2) := by decide
  have h2 := (C3_no_path_failure gW33 (0, 0) (2, 2) (by decide) (by decide)
    gW33_no_path).1 _ _ h
  exact ⟨h2.1, h2.2⟩

/-- A valid simple predecessor chain for `x` in the working grid `g`: the
chain list is a 4-connected simple path over the traversable cells of the
original grid `g0`, starting at `s`, ending at `x`, and every strict
ancestor on it is already marked visited. -/
def ChainTo (g0 g : Grid) (s x : Pos) : Prop :=
  ∃ l, PrevListOK g x l ∧ l.head? = some s ∧ chainAdjb l = true ∧
    (∀ y ∈ l, okCell g0 y) ∧ l.Nodup ∧
    (∀ y ∈ l, y ≠ x → (getNode g y).isVisited = true)

theorem chainTo_self {g0 g : Grid} {s : Pos}
    (hprev : (getNode g s).previousNode = none) (hok : okCell g0 s) :
    ChainTo g0 g s s := by
  refine ⟨[s], PrevListOK.single s hprev, rfl, rfl, ?_, List.nodup_singleton s, ?_⟩
  · intro y hy
    simp only [List.mem_singleton] at hy
    subst hy
    exact hok
  · intro y hy hys
    simp only [List.mem_singleton] at hy
    exact absurd hy hys

theorem ChainTo.mark_visited {g0 g : Grid} {s x : Pos} (q : Pos)
    (h : ChainTo g0 g s x) :
    ChainTo g0 (gridModify g q fun n => { n with isVisited := true }) s x := by
  obtain ⟨l, h1, h2, h3, h4, h5, h6⟩ := h
  refine ⟨l, h1.transport ?_, h2, h3, h4, h5, ?_⟩
  · intro y hy
    rw [getNode_gridModify]
    split_ifs with hc
    · obtain ⟨hyq, _⟩ := hc
      subst hyq
      rfl
    · rfl
  · intro y hy hyx
    rw [getNode_gridModify]
    split_ifs with hc
    · rfl
    · exact h6 y hy hyx

theorem ChainTo.update_unvisited {g0 g : Grid} {s x q : Pos} {f : Node → Node}
    (h : ChainTo g0 g s x) (hq : (getNode g q).isVisited = false)
    (hqx : q ≠ x) : ChainTo g0 (gridModify g q f) s x := by
  obtain ⟨l, h1, h2, h3, h4, h5, h6⟩ := h
  have hnq : ∀ y ∈ l, y ≠ q := by
    intro y hy hyq
    have hv := h6 y hy (by rw [hyq]; exact hqx)
    rw [hyq, hq] at hv
    exact Bool.noConfusion hv
  refine ⟨l, h1.transport ?_, h2, h3, h4, h5, ?_⟩
  · intro y hy
    rw [getNode_gridModify, if_neg (fun hc => hnq y hy hc.1)]
  · intro y hy hyx
    rw [getNode_gridModify, if_neg (fun hc => hnq y hy hc.1)]
    exact h6 y hy hyx

theorem ChainTo.snoc {g0 g : Grid} {s p q : Pos} {f : Node → Node}
    (h : ChainTo g0 g s p) (hpv : (getNode g p).isVisited = true)
    (hq : (getNode g q).isVisited = false) (hadj : adjacent p q)
    (hok : okCell g0 q) (hst : inStore g q)
    (hf : ∀ n, (f n).previousNode = some p) :
    ChainTo g0 (gridModify g q f) s q := by
  obtain ⟨l, h1, h2, h3, h4, h5, h6⟩ := h
  have hall : ∀ y ∈ l, (getNode g y).isVisited = true := by
    intro y hy
    by_cases hyx : y = p
    · rw [hyx]; exact hpv
    · exact h6 y hy hyx
  have hnq : ∀ y ∈ l, y ≠ q := by
    intro y hy hyq
    have hv := hall y hy
    rw [hyq, hq] at hv
    exact Bool.noConfusion hv
  have hprev2 : (getNode (gridModify g q f) q).previousNode = some p := by
    rw [getNode_gridModify, if_pos ⟨rfl, hst⟩]
    exact hf _
  have h1' : PrevListOK (gridModify g q f) p l := by
    refine h1.transport ?_
    intro y hy
    rw [getNode_gridModify, if_neg (fun hc => hnq y hy hc.1)]
  refine ⟨l ++ [q], PrevListOK.step q p l hprev2 h1', ?_,
    chainAdjb_snoc h3 h1.getLast_eq hadj, ?_, ?_, ?_⟩
  · cases l with
    | nil => exact absurd h2 (by simp)
    | cons a as => simpa using h2
  · intro y hy
    rcases List.mem_append.mp hy with hy | hy
    · exact h4 y hy
    · simp only [List.mem_singleton] at hy
      subst hy
      exact hok
  · rw [List.nodup_append]
    refine ⟨h5, List.nodup_singleton q, ?_⟩
    intro y hy hy2
    simp only [List.mem_singleton] at hy2
    exact hnq y hy hy2
  · intro y hy hyq
    rcases List.mem_append.mp hy with hy | hy
    · rw [getNode_gridModify, if_neg (fun hc => hnq y hy hc.1)]
      exact hall y hy
    · simp only [List.mem_singleton] at hy
      exact absurd hy hyq

theorem reconstructPath_of_chainTo {g0 g : Grid} {s e : Pos}
    (hpres : Preserves g0 g) (h : ChainTo g0 g s e) :
    IsPathFrom g0 s e (reconstructPath g e) := by
  obtain ⟨l, h1, h2, h3, h4, h5, _⟩ := h
  have hlen : l.length ≤ numRows g0 * numCols g0 :=
    length_le_area_of_nodup h5 (fun p hp => (h4 p hp).1)
  have hfuel : l.length ≤ numRows g * numCols g + 1 := by
    rw [hpres.1, hpres.2.1]
    omega
  have heq : reconstructPath g e = l := by
    unfold reconstructPath
    rw [h1.reconstructAux _ [] hfuel]
    simp
  rw [heq]
  exact ⟨h2, h1.getLast_eq, h3, h4⟩

theorem dlt_dadd_one_zero (x : JDist) : dlt (dadd x (some 1)) (some 0) = false := by
  cases x <;> simp [dadd, dlt]

theorem resetForIteration_prev (g : Grid) (p : Pos) :
    (getNode (resetForIteration g) p).previousNode = none := by
  unfold resetForIteration
  rw [getNode_gridMap]
  split_ifs <;> rfl

theorem bfsExpand_chain (s p : Pos) (g0 : Grid) (hw0 : WFGrid g0) :
    ∀ (ns : List Pos) (g : Grid) (queue : List Pos),
      Preserves g0 g →
      (∀ q ∈ ns, inBounds g0 q ∧ adjacent p q) →
      (getNode g p).isVisited = true →
      (p = s ∨ ChainTo g0 g s p) →
      okCell g0 p →
      (getNode g s).previousNode = none →
      (getNode g s).isVisited = true →
      (∀ x ∈ queue, inBounds g0 x ∧ (getNode g x).isVisited = true ∧
        (x = s ∨ ChainTo g0 g s x)) →
      (getNode (bfsExpand g p queue ns).1 s).previousNode = none ∧
      (getNode (bfsExpand g p queue ns).1 s).isVisited = true ∧
      (∀ x ∈ (bfsExpand g p queue ns).2,
        inBounds g0 x ∧ (getNode (bfsExpand g p queue ns).1 x).isVisited = true ∧
        (x = s ∨ ChainTo g0 (bfsExpand g p queue ns).1 s x)) := by
  intro ns
  induction ns with
  | nil =>
    intro g queue hpres hns hpv hpc hokp hsprev hsvis hqueue
    exact ⟨hsprev, hsvis, hqueue⟩
  | cons q rest ih =>
    intro g queue hpres hns hpv hpc hokp hsprev hsvis hqueue
    simp only [bfsExpand]
    split_ifs with hcond
    · obtain ⟨hq_unvis, hq_nw⟩ := hcond
      have hqs : q ≠ s := by
        intro hqs
        rw [hqs, hsvis] at hq_unvis
        exact Bool.noConfusion hq_unvis
      have hqp : q ≠ p := by
        intro hqp
        rw [hqp, hpv] at hq_unvis
        exact Bool.noConfusion hq_unvis
      have hqb0 : inBounds g0 q := (hns q (List.mem_cons_self _ _)).1
      have hqbg : inBounds g q := (inBounds_of_preserves hpres q).mpr hqb0
      have hstq : inStore g q := inStore_of_inBounds (wf_of_preserves hw0 hpres) hqbg
      have hokq : okCell g0 q := by
        refine ⟨hqb0, ?_⟩
        rw [← (hpres.2.2.2 q).1]
        exact hq_nw
      have hchain_p : ChainTo g0 g s p := by
        rcases hpc with hps | hpc
        · subst hps
          exact chainTo_self hsprev hokp
        · exact hpc
      refine ih _ _ (hpres.trans (Preserves.gridModify _ _ _
          (fun n => ⟨rfl, rfl, rfl⟩)))
        (fun x hx => hns x (List.mem_cons_of_mem q hx)) ?_ ?_ hokp ?_ ?_ ?_
      · rw [getNode_gridModify, if_neg (fun hc => hqp hc.1.symm)]
        exact hpv
      · rcases hpc with hps | hpc
        · exact Or.inl hps
        · exact Or.inr (hpc.update_unvisited hq_unvis hqp)
      · rw [getNode_gridModify, if_neg (fun hc => hqs hc.1.symm)]
        exact hsprev
      · rw [getNode_gridModify, if_neg (fun hc => hqs hc.1.symm)]
        exact hsvis
      · intro x hx
        rcases List.mem_append.mp hx with hx | hx
        · obtain ⟨hxb, hxv, hxc⟩ := hqueue x hx
          have hqx : q ≠ x := by
            intro hh
            rw [hh, hxv] at hq_unvis
            exact Bool.noConfusion hq_unvis
          refine ⟨hxb, ?_, ?_⟩
          · rw [getNode_gridModify, if_neg (fun hc => hqx hc.1.symm)]
            exact hxv
          · rcases hxc with hxs | hxc
            · exact Or.inl hxs
            · exact Or.inr (hxc.update_unvisited hq_unvis hqx)
        · simp only [List.mem_singleton] at hx
          subst hx
          refine ⟨hqb0, ?_, Or.inr ?_⟩
          · rw [getNode_gridModify, if_pos ⟨rfl, hstq⟩]
          · exact hchain_p.snoc hpv hq_unvis (hns x (List.mem_cons_self _ _)).2
              hokq hstq (fun n => rfl)
    · exact ih _ _ hpres (fun x hx => hns x (List.mem_cons_of_mem q hx)) hpv hpc
        hokp hsprev hsvis hqueue

theorem bfsLoop_path (s e : Pos) (g0 : Grid) (hw0 : WFGrid g0) :
    ∀ (fuel : Nat) (g : Grid) (queue vis : List Pos) (gr : Grid)
      (res : PathfindingResult),
      Preserves g0 g →
      (getNode g s).previousNode = none →
      (getNode g s).isVisited = true →
      (∀ x ∈ queue, inBounds g0 x ∧ (getNode g x).isVisited = true ∧
        (x = s ∨ ChainTo g0 g s x)) →
      bfsLoop e fuel g queue vis = some (gr, res) →
      res.success = true → IsPathFrom g0 s e res.shortestPath := by
  intro fuel
  induction fuel with
  | zero => intro g queue vis gr res _ _ _ _ h _; exact absurd h (by simp [bfsLoop])
  | succ f ih =>
    intro g queue vis gr res hpres hsprev hsvis hqueue h hsucc
    cases queue with
    | nil =>
      simp only [bfsLoop] at h
      obtain ⟨_, h2⟩ := Prod.mk.injEq .. ▸ (Option.some.injEq .. ▸ h)
      rw [← h2] at hsucc
      simp at hsucc
    | cons p rest =>
      simp only [bfsLoop] at h
      split_ifs at h with hwall hend
      · exact ih g rest vis gr res hpres hsprev hsvis
          (fun x hx => hqueue x (List.mem_cons_of_mem p hx)) h hsucc
      · obtain ⟨h1, h2⟩ := Prod.mk.injEq .. ▸ (Option.some.injEq .. ▸ h)
        have h3 : res.shortestPath = reconstructPath g e := by rw [← h2]
        rw [h3]
        obtain ⟨hpb, hpv, hpc⟩ := hqueue p (List.mem_cons_self _ _)
        have hokp : okCell g0 p := by
          refine ⟨hpb, ?_⟩
          rw [← (hpres.2.2.2 p).1]
          exact hwall
        subst hend
        rcases hpc with hps | hpc
        · subst hps
          exact reconstructPath_of_chainTo hpres (chainTo_self hsprev hokp)
        · exact reconstructPath_of_chainTo hpres hpc
      · obtain ⟨hpb, hpv, hpc⟩ := hqueue p (List.mem_cons_self _ _)
        have hokp : okCell g0 p := by
          refine ⟨hpb, ?_⟩
          rw [← (hpres.2.2.2 p).1]
          exact hwall
        have hwg : WFGrid g := wf_of_preserves hw0 hpres
        have hpbg : inBounds g p := (inBounds_of_preserves hpres p).mpr hpb
        have hns : ∀ q ∈ getNeighbors (getNode g p) g,
            inBounds g0 q ∧ adjacent p q := by
          intro q hq
          obtain ⟨h4, h5⟩ := mem_getNeighbors hwg hpbg hq
          exact ⟨(inBounds_of_preserves hpres q).mp h4, h5⟩
        obtain ⟨hs1, hs2, hq2⟩ := bfsExpand_chain s p g0 hw0 _ g rest hpres hns
          hpv hpc hokp hsprev hsvis
          (fun x hx => hqueue x (List.mem_cons_of_mem p hx))
        exact ih _ _ _ _ _ (hpres.trans (preserves_bfsExpand p _ g rest))
          hs1 hs2 hq2 h hsucc

theorem dfsExpand_chain (s p : Pos) (g0 : Grid) (hw0 : WFGrid g0) :
    ∀ (ns : List Pos) (g : Grid) (stack : List Pos),
      Preserves g0 g →
      (∀ q ∈ ns, inBounds g0 q ∧ adjacent p q) →
      (getNode g p).isVisited = true →
      (p = s ∨ ChainTo g0 g s p) →
      okCell g0 p →
      (getNode g s).previousNode = none →
      (getNode g s).isVisited = true →
      (∀ x ∈ stack, inBounds g0 x ∧ (getNode g x).isVisited = true ∧
        (x = s ∨ ChainTo g0 g s x)) →
      (getNode (dfsExpand g p stack ns).1 s).previousNode = none ∧
      (getNode (dfsExpand g p stack ns).1 s).isVisited = true ∧
      (∀ x ∈ (dfsExpand g p stack ns).2,
        inBounds g0 x ∧ (getNode (dfsExpand g p stack ns).1 x).isVisited = true ∧
        (x = s ∨ ChainTo g0 (dfsExpand g p stack ns).1 s x)) := by
  intro ns
  induction ns with
  | nil =>
    intro g stack hpres hns hpv hpc hokp hsprev hsvis hstack
    exact ⟨hsprev, hsvis, hstack⟩
  | cons q rest ih =>
    intro g stack hpres hns hpv hpc hokp hsprev hsvis hstack
    simp only [dfsExpand]
    split_ifs with hcond
    · obtain ⟨hq_unvis, hq_nw⟩ := hcond
      have hqs : q ≠ s := by
        intro hqs
        rw [hqs, hsvis] at hq_unvis
        exact Bool.noConfusion hq_unvis
      have hqp : q ≠ p := by
        intro hqp
        rw [hqp, hpv] at hq_unvis
        exact Bool.noConfusion hq_unvis
      have hqb0 : inBounds g0 q := (hns q (List.mem_cons_self _ _)).1
      have hqbg : inBounds g q := (inBounds_of_preserves hpres q).mpr hqb0
      have hstq : inStore g q := inStore_of_inBounds (wf_of_preserves hw0 hpres) hqbg
      have hokq : okCell g0 q := by
        refine ⟨hqb0, ?_⟩
        rw [← (hpres.2.2.2 q).1]
        exact hq_nw
      have hchain_p : ChainTo g0 g s p := by
        rcases hpc with hps | hpc
        · subst hps
          exact chainTo_self hsprev hokp
        · exact hpc
      refine ih _ _ (hpres.trans (Preserves.gridModify _ _ _
          (fun n => ⟨rfl, rfl, rfl⟩)))
        (fun x hx => hns x (List.mem_cons_of_mem q hx)) ?_ ?_ hokp ?_ ?_ ?_
      · rw [getNode_gridModify, if_neg (fun hc => hqp hc.1.symm)]
        exact hpv
      · rcases hpc with hps | hpc
        · exact Or.inl hps
        · exact Or.inr (hpc.update_unvisited hq_unvis hqp)
      · rw [getNode_gridModify, if_neg (fun hc => hqs hc.1.symm)]
        exact hsprev
      · rw [getNode_gridModify, if_neg (fun hc => hqs hc.1.symm)]
        exact hsvis
      · intro x hx
        rcases List.mem_cons.mp hx with hx | hx
        · subst hx
          refine ⟨hqb0, ?_, Or.inr ?_⟩
          · rw [getNode_gridModify, if_pos ⟨rfl, hstq⟩]
          · exact hchain_p.snoc hpv hq_unvis (hns x (List.mem_cons_self _ _)).2
              hokq hstq (fun n => rfl)
        · obtain ⟨hxb, hxv, hxc⟩ := hstack x hx
          have hqx : q ≠ x := by
            intro hh
            rw [hh, hxv] at hq_unvis
            exact Bool.noConfusion hq_unvis
          refine ⟨hxb, ?_, ?_⟩
          · rw [getNode_gridModify, if_neg (fun hc => hqx hc.1.symm)]
            exact hxv
          · rcases hxc with hxs | hxc
            · exact Or.inl hxs
            · exact Or.inr (hxc.update_unvisited hq_unvis hqx)
    · exact ih _ _ hpres (fun x hx => hns x (List.mem_cons_of_mem q hx)) hpv hpc
        hokp hsprev hsvis hstack

theorem dfsLoop_path (s e : Pos) (g0 : Grid) (hw0 : WFGrid g0) :
    ∀ (fuel : Nat) (g : Grid) (stack vis : List Pos) (gr : Grid)
      (res : PathfindingResult),
      Preserves g0 g →
      (getNode g s).previousNode = none →
      (getNode g s).isVisited = true →
      (∀ x ∈ stack, inBounds g0 x ∧ (getNode g x).isVisited = true ∧
        (x = s ∨ ChainTo g0 g s x)) →
      dfsLoop e fuel g stack vis = some (gr, res) →
      res.success = true → IsPathFrom g0 s e res.shortestPath := by
  intro fuel
  induction fuel with
  | zero => intro g stack vis gr res _ _ _ _ h _; exact absurd h (by simp [dfsLoop])
  | succ f ih =>
    intro g stack vis gr res hpres hsprev hsvis hstack h hsucc
    cases stack with
    | nil =>
      simp only [dfsLoop] at h
      obtain ⟨_, h2⟩ := Prod.mk.injEq .. ▸ (Option.some.injEq .. ▸ h)
      rw [← h2] at hsucc
      simp at hsucc
    | cons p rest =>
      simp only [dfsLoop] at h
      split_ifs at h with hwall hend
      · exact ih g rest vis gr res hpres hsprev hsvis
          (fun x hx => hstack x (List.mem_cons_of_mem p hx)) h hsucc
      · obtain ⟨h1, h2⟩ := Prod.mk.injEq .. ▸ (Option.some.injEq .. ▸ h)
        have h3 : res.shortestPath = reconstructPath g e := by rw [← h2]
        rw [h3]
        obtain ⟨hpb, hpv, hpc⟩ := hstack p (List.mem_cons_self _ _)
        have hokp : okCell g0 p := by
          refine ⟨hpb, ?_⟩
          rw [← (hpres.2.2.2 p).1]
          exact hwall
        subst hend
        rcases hpc with hps | hpc
        · subst hps
          exact reconstructPath_of_chainTo hpres (chainTo_self hsprev hokp)
        · exact reconstructPath_of_chainTo hpres hpc
      · obtain ⟨hpb, hpv, hpc⟩ := hstack p (List.mem_cons_self _ _)
        have hokp : okCell g0 p := by
          refine ⟨hpb, ?_⟩
          rw [← (hpres.2.2.2 p).1]
          exact hwall
        have hwg : WFGrid g := wf_of_preserves hw0 hpres
        have hpbg : inBounds g p := (inBounds_of_preserves hpres p).mpr hpb
        have hns : ∀ q ∈ (getNeighbors (getNode g p) g).reverse,
            inBounds g0 q ∧ adjacent p q := by
          intro q hq
          obtain ⟨h4, h5⟩ := mem_getNeighbors hwg hpbg (List.mem_reverse.mp hq)
          exact ⟨(inBounds_of_preserves hpres q).mp h4, h5⟩
        obtain ⟨hs1, hs2, hq2⟩ := dfsExpand_chain s p g0 hw0 _ g rest hpres hns
          hpv hpc hokp hsprev hsvis
          (fun x hx => hstack x (List.mem_cons_of_mem p hx))
        exact ih _ _ _ _ _ (hpres.trans (preserves_dfsExpand p _ g rest))
          hs1 hs2 hq2 h hsucc

theorem getNode_mark_visited (g : Grid) (q x : Pos) :
    ((getNode (gridModify g q fun n => { n with isVisited := true }) x).previousNode =
      (getNode g x).previousNode) ∧
    ((getNode (gridModify g q fun n => { n with isVisited := true }) x).distance =
      (getNode g x).distance) ∧
    ((getNode (gridModify g q fun n => { n with isVisited := true }) x).heuristic =
      (getNode g x).heuristic) := by
  rw [getNode_gridModify]
  split_ifs with hc
  · obtain ⟨h1, _⟩ := hc
    subst h1
    exact ⟨rfl, rfl, rfl⟩
  · exact ⟨rfl, rfl, rfl⟩

theorem astarExpand_chain (s p e : Pos) (g0 : Grid) (hw0 : WFGrid g0) :
    ∀ (ns : List Pos) (g : Grid) (os : List Pos),
      Preserves g0 g →
      (∀ q ∈ ns, inBounds g0 q ∧ adjacent p q) →
      (getNode g p).isVisited = true →
      (p = s ∨ ChainTo g0 g s p) →
      okCell g0 p →
      (getNode g s).previousNode = none →
      (getNode g s).distance = some 0 →
      (∀ x ∈ os, inBounds g0 x ∧ (x = s ∨ ChainTo g0 g s x)) →
      (getNode (astarExpand g p e os ns).1 s).previousNode = none ∧
      (getNode (astarExpand g p e os ns).1 s).distance = some 0 ∧
      (∀ x ∈ (astarExpand g p e os ns).2,
        inBounds g0 x ∧ (x = s ∨ ChainTo g0 (astarExpand g p e os ns).1 s x)) := by
  intro ns
  induction ns with
  | nil =>
    intro g os hpres hns hpv hpc hokp hsprev hs0 hos
    exact ⟨hsprev, hs0, hos⟩
  | cons q rest ih =>
    intro g os hpres hns hpv hpc hokp hsprev hs0 hos
    simp only [astarExpand]
    split_ifs with h1 h2 h3
    · exact ih _ _ hpres (fun x hx => hns x (List.mem_cons_of_mem q hx)) hpv hpc
        hokp hsprev hs0 hos
    all_goals try
      (have hq_unvis : (getNode g q).isVisited = false := by
        cases hvq : (getNode g q).isVisited with
        | false => rfl
        | true => exact absurd (Or.inl hvq) h1)
    · -- relax, q already in the open set
      have hq_nw : (getNode g q).type ≠ CellType.wall := fun hh => h1 (Or.inr hh)
      have hqs : q ≠ s := by
        intro hh
        rw [hh, hs0, dlt_dadd_one_zero] at h2
        exact Bool.noConfusion h2
      have hqp : q ≠ p := by
        intro hh
        rw [hh, hpv] at hq_unvis
        exact Bool.noConfusion hq_unvis
      have hqb0 : inBounds g0 q := (hns q (List.mem_cons_self _ _)).1
      have hqbg : inBounds g q := (inBounds_of_preserves hpres q).mpr hqb0
      have hstq : inStore g q := inStore_of_inBounds (wf_of_preserves hw0 hpres) hqbg
      have hokq : okCell g0 q := by
        refine ⟨hqb0, ?_⟩
        rw [← (hpres.2.2.2 q).1]
        exact hq_nw
      have hchain_p : ChainTo g0 g s p := by
        rcases hpc with hps | hpc
        · subst hps
          exact chainTo_self hsprev hokp
        · exact hpc
      have hchain_q := hchain_p.snoc hpv hq_unvis
        (hns q (List.mem_cons_self _ _)).2 hokq hstq
        (f := fun n =>
          { n with distance := dadd (getNode g p).distance (some 1),
                   heuristic := some (manhattanDistance (getNode g q) (getNode g e)),
                   previousNode := some p })
        (fun n => rfl)
      refine ih _ _ (hpres.trans (Preserves.gridModify _ _ _
          (fun n => ⟨rfl, rfl, rfl⟩)))
        (fun x hx => hns x (List.mem_cons_of_mem q hx)) ?_ ?_ hokp ?_ ?_ ?_
      · rw [getNode_gridModify, if_neg (fun hc => hqp hc.1.symm)]
        exact hpv
      · rcases hpc with hps | hpc
        · exact Or.inl hps
        · exact Or.inr (hpc.update_unvisited hq_unvis hqp)
      · rw [getNode_gridModify, if_neg (fun hc => hqs hc.1.symm)]
        exact hsprev
      · rw [getNode_gridModify, if_neg (fun hc => hqs hc.1.symm)]
        exact hs0
      · intro x hx
        by_cases hxq : x = q
        · subst hxq
          exact ⟨hqb0, Or.inr hchain_q⟩
        · obtain ⟨hxb, hxc⟩ := hos x hx
          refine ⟨hxb, ?_⟩
          rcases hxc with hxs | hxc
          · exact Or.inl hxs
          · exact Or.inr (hxc.update_unvisited hq_unvis
              (fun hh => hxq hh.symm))
    · -- relax, q admitted into the open set
      have hq_nw : (getNode g q).type ≠ CellType.wall := fun hh => h1 (Or.inr hh)
      have hqs : q ≠ s := by
        intro hh
        rw [hh, hs0, dlt_dadd_one_zero] at h2
        exact Bool.noConfusion h2
      have hqp : q ≠ p := by
        intro hh
        rw [hh, hpv] at hq_unvis
        exact Bool.noConfusion hq_unvis
      have hqb0 : inBounds g0 q := (hns q (List.mem_cons_self _ _)).1
      have hqbg : inBounds g q := (inBounds_of_preserves hpres q).mpr hqb0
      have hstq : inStore g q := inStore_of_inBounds (wf_of_preserves hw0 hpres) hqbg
      have hokq : okCell g0 q := by
        refine ⟨hqb0, ?_⟩
        rw [← (hpres.2.2.2 q).1]
        exact hq_nw
      have hchain_p : ChainTo g0 g s p := by
        rcases hpc with hps | hpc
        · subst hps
          exact chainTo_self hsprev hokp
        · exact hpc
      have hchain_q := hchain_p.snoc hpv hq_unvis
        (hns q (List.mem_cons_self _ _)).2 hokq hstq
        (f := fun n =>
          { n with distance := dadd (getNode g p).distance (some 1),
                   heuristic := some (manhattanDistance (getNode g q) (getNode g e)),
                   previousNode := some p })
        (fun n => rfl)
      refine ih _ _ (hpres.trans (Preserves.gridModify _ _ _
          (fun n => ⟨rfl, rfl, rfl⟩)))
        (fun x hx => hns x (List.mem_cons_of_mem q hx)) ?_ ?_ hokp ?_ ?_ ?_
      · rw [getNode_gridModify, if_neg (fun hc => hqp hc.1.symm)]
        exact hpv
      · rcases hpc with hps | hpc
        · exact Or.inl hps
        · exact Or.inr (hpc.update_unvisited hq_unvis hqp)
      · rw [getNode_gridModify, if_neg (fun hc => hqs hc.1.symm)]
        exact hsprev
      · rw [getNode_gridModify, if_neg (fun hc => hqs hc.1.symm)]
        exact hs0
      · intro x hx
        rcases List.mem_append.mp hx with hx | hx
        · obtain ⟨hxb, hxc⟩ := hos x hx
          have hxq : x ≠ q := fun hh => h3 (hh ▸ hx)
          refine ⟨hxb, ?_⟩
          rcases hxc with hxs | hxc
          · exact Or.inl hxs
          · exact Or.inr (hxc.update_unvisited hq_unvis
              (fun hh => hxq hh.symm))
        · simp only [List.mem_singleton] at hx
          subst hx
          exact ⟨hqb0, Or.inr hchain_q⟩
    · exact ih _ _ hpres (fun x hx => hns x (List.mem_cons_of_mem q hx)) hpv hpc
        hokp hsprev hs0 hos

theorem astarLoop_path (s e : Pos) (g0 : Grid) (hw0 : WFGrid g0) :
    ∀ (fuel : Nat) (g : Grid) (os vis : List Pos) (gr : Grid)
      (res : PathfindingResult),
      Preserves g0 g →
      (getNode g s).previousNode = none →
      (getNode g s).distance = some 0 →
      (∀ x ∈ os, inBounds g0 x ∧ (x = s ∨ ChainTo g0 g s x)) →
      astarLoop e fuel g os vis = some (gr, res) →
      res.success = true → IsPathFrom g0 s e res.shortestPath := by
  intro fuel
  induction fuel with
  | zero =>
    intro g os vis gr res _ _ _ _ h _
    exact absurd h (by simp [astarLoop])
  | succ f ih =>
    intro g os vis gr res hpres hsprev hs0 hos h hsucc
    simp only [astarLoop] at h
    cases hs : sortBy (astarLt g) os with
    | nil =>
      rw [hs] at h
      dsimp only at h
      obtain ⟨_, h2⟩ := Prod.mk.injEq .. ▸ (Option.some.injEq .. ▸ h)
      rw [← h2] at hsucc
      simp at hsucc
    | cons p rest =>
      rw [hs] at h
      dsimp only at h
      have hmem : ∀ x ∈ p :: rest, x ∈ os := fun x hx =>
        ((sortBy_perm (astarLt g) os).mem_iff).mp (hs ▸ hx)
      split_ifs at h with hwall hvis hend
      · exact ih g rest vis gr res hpres hsprev hs0
          (fun x hx => hos x (hmem x (List.mem_cons_of_mem p hx))) h hsucc
      · exact ih g rest vis gr res hpres hsprev hs0
          (fun x hx => hos x (hmem x (List.mem_cons_of_mem p hx))) h hsucc
      · obtain ⟨h1, h2⟩ := Prod.mk.injEq .. ▸ (Option.some.injEq .. ▸ h)
        have h3 : res.shortestPath =
            reconstructPath (gridModify g p fun n => { n with isVisited := true }) e := by
          rw [← h2]
        rw [h3]
        obtain ⟨hpb, hpc⟩ := hos p (hmem p (List.mem_cons_self _ _))
        have hokp : okCell g0 p := by
          refine ⟨hpb, ?_⟩
          rw [← (hpres.2.2.2 p).1]
          exact hwall
        have hpres2 : Preserves g0 (gridModify g p fun n =>
            { n with isVisited := true }) :=
          hpres.trans (Preserves.gridModify _ _ _ (fun n => ⟨rfl, rfl, rfl⟩))
        subst hend
        rcases hpc with hps | hpc
        · subst hps
          refine reconstructPath_of_chainTo hpres2 (chainTo_self ?_ hokp)
          rw [(getNode_mark_visited g p p).1]
          exact hsprev
        · exact reconstructPath_of_chainTo hpres2 (hpc.mark_visited p)
      · obtain ⟨hpb, hpc⟩ := hos p (hmem p (List.mem_cons_self _ _))
        have hokp : okCell g0 p := by
          refine ⟨hpb, ?_⟩
          rw [← (hpres.2.2.2 p).1]
          exact hwall
        have hpres2 : Preserves g0 (gridModify g p fun n =>
            { n with isVisited := true }) :=
          hpres.trans (Preserves.gridModify _ _ _ (fun n => ⟨rfl, rfl, rfl⟩))
        have hwg2 : WFGrid (gridModify g p fun n => { n with isVisited := true }) :=
          wf_of_preserves hw0 hpres2
        have hpbg2 : inBounds (gridModify g p fun n => { n with isVisited := true }) p :=
          (inBounds_of_preserves hpres2 p).mpr hpb
        have hstp : inStore g p :=
          inStore_of_inBounds (wf_of_preserves hw0 hpres)
            ((inBounds_of_preserves hpres p).mpr hpb)
        have hpv2 : (getNode (gridModify g p fun n => { n with isVisited := true })
            p).isVisited = true := by
          rw [getNode_gridModify, if_pos ⟨rfl, hstp⟩]
        have hns : ∀ q ∈ getNeighbors
            (getNode (gridModify g p fun n => { n with isVisited := true }) p)
            (gridModify g p fun n => { n with isVisited := true }),
            inBounds g0 q ∧ adjacent p q := by
          intro q hq
          obtain ⟨h4, h5⟩ := mem_getNeighbors hwg2 hpbg2 hq
          exact ⟨(inBounds_of_preserves hpres2 q).mp h4, h5⟩
        have hpc2 : p = s ∨ ChainTo g0
            (gridModify g p fun n => { n with isVisited := true }) s p := by
          rcases hpc with hps | hpc
          · exact Or.inl hps
          · exact Or.inr (hpc.mark_visited p)
        obtain ⟨hs1, hs2, ho2⟩ := astarExpand_chain s p e g0 hw0 _ _ rest hpres2
          hns hpv2 hpc2 hokp
          (by rw [(getNode_mark_visited g p s).1]; exact hsprev)
          (by rw [(getNode_mark_visited g p s).2.1]; exact hs0)
          (fun x hx => ⟨(hos x (hmem x (List.mem_cons_of_mem p hx))).1, by
            rcases (hos x (hmem x (List.mem_cons_of_mem p hx))).2 with hxs | hxc
            · exact Or.inl hxs
            · exact Or.inr (hxc.mark_visited p)⟩)
        exact ih _ _ _ _ _ (hpres2.trans (preserves_astarExpand p e _ _ rest))
          hs1 hs2 ho2 h hsucc

theorem ucsExpand_chain (s p : Pos) (g0 : Grid) (hw0 : WFGrid g0) :
    ∀ (ns : List Pos) (g : Grid) (os : List Pos),
      Preserves g0 g →
      (∀ q ∈ ns, inBounds g0 q ∧ adjacent p q) →
      (getNode g p).isVisited = true →
      (p = s ∨ ChainTo g0 g s p) →
      okCell g0 p →
      (getNode g s).previousNode = none →
      (getNode g s).distance = some 0 →
      (∀ x ∈ os, inBounds g0 x ∧ (x = s ∨ ChainTo g0 g s x)) →
      (getNode (ucsExpand g p os ns).1 s).previousNode = none ∧
      (getNode (ucsExpand g p os ns).1 s).distance = some 0 ∧
      (∀ x ∈ (ucsExpand g p os ns).2,
        inBounds g0 x ∧ (x = s ∨ ChainTo g0 (ucsExpand g p os ns).1 s x)) := by
  intro ns
  induction ns with
  | nil =>
    intro g os hpres hns hpv hpc hokp hsprev hs0 hos
    exact ⟨hsprev, hs0, hos⟩
  | cons q rest ih =>
    intro g os hpres hns hpv hpc hokp hsprev hs0 hos
    simp only [ucsExpand]
    split_ifs with h1 h2 h3
    · exact ih _ _ hpres (fun x hx => hns x (List.mem_cons_of_mem q hx)) hpv hpc
        hokp hsprev hs0 hos
    all_goals try
      (have hq_unvis : (getNode g q).isVisited = false := by
        cases hvq : (getNode g q).isVisited with
        | false => rfl
        | true => exact absurd (Or.inl hvq) h1)
    · have hq_nw : (getNode g q).type ≠ CellType.wall := fun hh => h1 (Or.inr hh)
      have hqs : q ≠ s := by
        intro hh
        rw [hh, hs0, dlt_dadd_one_zero] at h2
        exact Bool.noConfusion h2
      have hqp : q ≠ p := by
        intro hh
        rw [hh, hpv] at hq_unvis
        exact Bool.noConfusion hq_unvis
      have hqb0 : inBounds g0 q := (hns q (List.mem_cons_self _ _)).1
      have hqbg : inBounds g q := (inBounds_of_preserves hpres q).mpr hqb0
      have hstq : inStore g q := inStore_of_inBounds (wf_of_preserves hw0 hpres) hqbg
      have hokq : okCell g0 q := by
        refine ⟨hqb0, ?_⟩
        rw [← (hpres.2.2.2 q).1]
        exact hq_nw
      have hchain_p : ChainTo g0 g s p := by
        rcases hpc with hps | hpc
        · subst hps
          exact chainTo_self hsprev hokp
        · exact hpc
      have hchain_q := hchain_p.snoc hpv hq_unvis
        (hns q (List.mem_cons_self _ _)).2 hokq hstq
        (f := fun n =>
          { n with distance := dadd (getNode g p).distance (some 1),
                   previousNode := some p })
        (fun n => rfl)
      refine ih _ _ (hpres.trans (Preserves.gridModify _ _ _
          (fun n => ⟨rfl, rfl, rfl⟩)))
        (fun x hx => hns x (List.mem_cons_of_mem q hx)) ?_ ?_ hokp ?_ ?_ ?_
      · rw [getNode_gridModify, if_neg (fun hc => hqp hc.1.symm)]
        exact hpv
      · rcases hpc with hps | hpc
        · exact Or.inl hps
        · exact Or.inr (hpc.update_unvisited hq_unvis hqp)
      · rw [getNode_gridModify, if_neg (fun hc => hqs hc.1.symm)]
        exact hsprev
      · rw [getNode_gridModify, if_neg (fun hc => hqs hc.1.symm)]
        exact hs0
      · intro x hx
        by_cases hxq : x = q
        · subst hxq
          exact ⟨hqb0, Or.inr hchain_q⟩
        · obtain ⟨hxb, hxc⟩ := hos x hx
          refine ⟨hxb, ?_⟩
          rcases hxc with hxs | hxc
          · exact Or.inl hxs
          · exact Or.inr (hxc.update_unvisited hq_unvis
              (fun hh => hxq hh.symm))
    · have hq_nw : (getNode g q).type ≠ CellType.wall := fun hh => h1 (Or.inr hh)
      have hqs : q ≠ s := by
        intro hh
        rw [hh, hs0, dlt_dadd_one_zero] at h2
        exact Bool.noConfusion h2
      have hqp : q ≠ p := by
        intro hh
        rw [hh, hpv] at hq_unvis
        exact Bool.noConfusion hq_unvis
      have hqb0 : inBounds g0 q := (hns q (List.mem_cons_self _ _)).1
      have hqbg : inBounds g q := (inBounds_of_preserves hpres q).mpr hqb0
      have hstq : inStore g q := inStore_of_inBounds (wf_of_preserves hw0 hpres) hqbg
      have hokq : okCell g0 q := by
        refine ⟨hqb0, ?_⟩
        rw [← (hpres.2.2.2 q).1]
        exact hq_nw
      have hchain_p : ChainTo g0 g s p := by
        rcases hpc with hps | hpc
        · subst hps
          exact chainTo_self hsprev hokp
        · exact hpc
      have hchain_q := hchain_p.snoc hpv hq_unvis
        (hns q (List.mem_cons_self _ _)).2 hokq hstq
        (f := fun n =>
          { n with distance := dadd (getNode g p).distance (some 1),
                   previousNode := some p })
        (fun n => rfl)
      refine ih _ _ (hpres.trans (Preserves.gridModify _ _ _
          (fun n => ⟨rfl, rfl, rfl⟩)))
        (fun x hx => hns x (List.mem_cons_of_mem q hx)) ?_ ?_ hokp ?_ ?_ ?_
      · rw [getNode_gridModify, if_neg (fun hc => hqp hc.1.symm)]
        exact hpv
      · rcases hpc with hps | hpc
        · exact Or.inl hps
        · exact Or.inr (hpc.update_unvisited hq_unvis hqp)
      · rw [getNode_gridModify, if_neg (fun hc => hqs hc.1.symm)]
        exact hsprev
      · rw [getNode_gridModify, if_neg (fun hc => hqs hc.1.symm)]
        exact hs0
      · intro x hx
        rcases List.mem_append.mp hx with hx | hx
        · obtain ⟨hxb, hxc⟩ := hos x hx
          have hxq : x ≠ q := fun hh => h3 (hh ▸ hx)
          refine ⟨hxb, ?_⟩
          rcases hxc with hxs | hxc
          · exact Or.inl hxs
          · exact Or.inr (hxc.update_unvisited hq_unvis
              (fun hh => hxq hh.symm))
        · simp only [List.mem_singleton] at hx
          subst hx
          exact ⟨hqb0, Or.inr hchain_q⟩
    · exact ih _ _ hpres (fun x hx => hns x (List.mem_cons_of_mem q hx)) hpv hpc
        hokp hsprev hs0 hos

theorem ucsLoop_path (s e : Pos) (g0 : Grid) (hw0 : WFGrid g0) :
    ∀ (fuel : Nat) (g : Grid) (os vis : List Pos) (gr : Grid)
      (res : PathfindingResult),
      Preserves g0 g →
      (getNode g s).previousNode = none →
      (getNode g s).distance = some 0 →
      (∀ x ∈ os, inBounds g0 x ∧ (x = s ∨ ChainTo g0 g s x)) →
      ucsLoop e fuel g os vis = some (gr, res) →
      res.success = true → IsPathFrom g0 s e res.shortestPath := by
  intro fuel
  induction fuel with
  | zero =>
    intro g os vis gr res _ _ _ _ h _
    exact absurd h (by simp [ucsLoop])
  | succ f ih =>
    intro g os vis gr res hpres hsprev hs0 hos h hsucc
    simp only [ucsLoop] at h
    cases hs : sortBy (ucsLt g) os with
    | nil =>
      rw [hs] at h
      dsimp only at h
      obtain ⟨_, h2⟩ := Prod.mk.injEq .. ▸ (Option.some.injEq .. ▸ h)
      rw [← h2] at hsucc
      simp at hsucc
    | cons p rest =>
      rw [hs] at h
      dsimp only at h
      have hmem : ∀ x ∈ p :: rest, x ∈ os := fun x hx =>
        ((sortBy_perm (ucsLt g) os).mem_iff).mp (hs ▸ hx)
      split_ifs at h with hwall hvis hend
      · exact ih g rest vis gr res hpres hsprev hs0
          (fun x hx => hos x (hmem x (List.mem_cons_of_mem p hx))) h hsucc
      · exact ih g rest vis gr res hpres hsprev hs0
          (fun x hx => hos x (hmem x (List.mem_cons_of_mem p hx))) h hsucc
      · obtain ⟨h1, h2⟩ := Prod.mk.injEq .. ▸ (Option.some.injEq .. ▸ h)
        have h3 : res.shortestPath =
            reconstructPath (gridModify g p fun n => { n with isVisited := true }) e := by
          rw [← h2]
        rw [h3]
        obtain ⟨hpb, hpc⟩ := hos p (hmem p (List.mem_cons_self _ _))
        have hokp : okCell g0 p := by
          refine ⟨hpb, ?_⟩
          rw [← (hpres.2.2.2 p).1]
          exact hwall
        have hpres2 : Preserves g0 (gridModify g p fun n =>
            { n with isVisited := true }) :=
          hpres.trans (Preserves.gridModify _ _ _ (fun n => ⟨rfl, rfl, rfl⟩))
        subst hend
        rcases hpc with hps | hpc
        · subst hps
          refine reconstructPath_of_chainTo hpres2 (chainTo_self ?_ hokp)
          rw [(getNode_mark_visited g p p).1]
          exact hsprev
        · exact reconstructPath_of_chainTo hpres2 (hpc.mark_visited p)
      · obtain ⟨hpb, hpc⟩ := hos p (hmem p (List.mem_cons_self _ _))
        have hokp : okCell g0 p := by
          refine ⟨hpb, ?_⟩
          rw [← (hpres.2.2.2 p).1]
          exact hwall
        have hpres2 : Preserves g0 (gridModify g p fun n =>
            { n with isVisited := true }) :=
          hpres.trans (Preserves.gridModify _ _ _ (fun n => ⟨rfl, rfl, rfl⟩))
        have hwg2 : WFGrid (gridModify g p fun n => { n with isVisited := true }) :=
          wf_of_preserves hw0 hpres2
        have hpbg2 : inBounds (gridModify g p fun n => { n with isVisited := true }) p :=
          (inBounds_of_preserves hpres2 p).mpr hpb
        have hstp : inStore g p :=
          inStore_of_inBounds (wf_of_preserves hw0 hpres)
            ((inBounds_of_preserves hpres p).mpr hpb)
        have hpv2 : (getNode (gridModify g p fun n => { n with isVisited := true })
            p).isVisited = true := by
          rw [getNode_gridModify, if_pos ⟨rfl, hstp⟩]
        have hns : ∀ q ∈ getNeighbors
            (getNode (gridModify g p fun n => { n with isVisited := true }) p)
            (gridModify g p fun n => { n with isVisited := true }),
            inBounds g0 q ∧ adjacent p q := by
          intro q hq
          obtain ⟨h4, h5⟩ := mem_getNeighbors hwg2 hpbg2 hq
          exact ⟨(inBounds_of_preserves hpres2 q).mp h4, h5⟩
        have hpc2 : p = s ∨ ChainTo g0
            (gridModify g p fun n => { n with isVisited := true }) s p := by
          rcases hpc with hps | hpc
          · exact Or.inl hps
          · exact Or.inr (hpc.mark_visited p)
        obtain ⟨hs1, hs2, ho2⟩ := ucsExpand_chain s p g0 hw0 _ _ rest hpres2
          hns hpv2 hpc2 hokp
          (by rw [(getNode_mark_visited g p s).1]; exact hsprev)
          (by rw [(getNode_mark_visited g p s).2.1]; exact hs0)
          (fun x hx => ⟨(hos x (hmem x (List.mem_cons_of_mem p hx))).1, by
            rcases (hos x (hmem x (List.mem_cons_of_mem p hx))).2 with hxs | hxc
            · exact Or.inl hxs
            · exact Or.inr (hxc.mark_visited p)⟩)
        exact ih _ _ _ _ _ (hpres2.trans (preserves_ucsExpand p _ _ rest))
          hs1 hs2 ho2 h hsucc

theorem greedyExpand_chain (s p e : Pos) (g0 : Grid) (hw0 : WFGrid g0) :
    ∀ (ns : List Pos) (g : Grid) (os : List Pos),
      Preserves g0 g →
      (∀ q ∈ ns, inBounds g0 q ∧ adjacent p q) →
      (getNode g p).isVisited = true →
      (p = s ∨ ChainTo g0 g s p) →
      okCell g0 p →
      (getNode g s).previousNode = none →
      (getNode g s).heuristic ≠ none →
      (∀ x ∈ os, inBounds g0 x ∧ (x = s ∨ ChainTo g0 g s x)) →
      (getNode (greedyExpand g p e os ns).1 s).previousNode = none ∧
      (getNode (greedyExpand g p e os ns).1 s).heuristic ≠ none ∧
      (∀ x ∈ (greedyExpand g p e os ns).2,
        inBounds g0 x ∧ (x = s ∨ ChainTo g0 (greedyExpand g p e os ns).1 s x)) := by
  intro ns
  induction ns with
  | nil =>
    intro g os hpres hns hpv hpc hokp hsprev hsh hos
    exact ⟨hsprev, hsh, hos⟩
  | cons q rest ih =>
    intro g os hpres hns hpv hpc hokp hsprev hsh hos
    simp only [greedyExpand]
    split_ifs with h1 h2
    · exact ih _ _ hpres (fun x hx => hns x (List.mem_cons_of_mem q hx)) hpv hpc
        hokp hsprev hsh hos
    · have hq_unvis : (getNode g q).isVisited = false := by
        cases hvq : (getNode g q).isVisited with
        | false => rfl
        | true => exact absurd (Or.inl hvq) h1
      have hq_nw : (getNode g q).type ≠ CellType.wall := fun hh => h1 (Or.inr hh)
      have hqs : q ≠ s := by
        intro hh
        rw [hh] at h2
        exact hsh h2
      have hqp : q ≠ p := by
        intro hh
        rw [hh, hpv] at hq_unvis
        exact Bool.noConfusion hq_unvis
      have hqb0 : inBounds g0 q := (hns q (List.mem_cons_self _ _)).1
      have hqbg : inBounds g q := (inBounds_of_preserves hpres q).mpr hqb0
      have hstq : inStore g q := inStore_of_inBounds (wf_of_preserves hw0 hpres) hqbg
      have hokq : okCell g0 q := by
        refine ⟨hqb0, ?_⟩
        rw [← (hpres.2.2.2 q).1]
        exact hq_nw
      have hchain_p : ChainTo g0 g s p := by
        rcases hpc with hps | hpc
        · subst hps
          exact chainTo_self hsprev hokp
        · exact hpc
      have hchain_q := hchain_p.snoc hpv hq_unvis
        (hns q (List.mem_cons_self _ _)).2 hokq hstq
        (f := fun n =>
          { n with
            heuristic := some (manhattanDistance (getNode g q) (getNode g e)),
            previousNode := some p })
        (fun n => rfl)
      refine ih _ _ (hpres.trans (Preserves.gridModify _ _ _
          (fun n => ⟨rfl, rfl, rfl⟩)))
        (fun x hx => hns x (List.mem_cons_of_mem q hx)) ?_ ?_ hokp ?_ ?_ ?_
      · rw [getNode_gridModify, if_neg (fun hc => hqp hc.1.symm)]
        exact hpv
      · rcases hpc with hps | hpc
        · exact Or.inl hps
        · exact Or.inr (hpc.update_unvisited hq_unvis hqp)
      · rw [getNode_gridModify, if_neg (fun hc => hqs hc.1.symm)]
        exact hsprev
      · rw [getNode_gridModify, if_neg (fun hc => hqs hc.1.symm)]
        exact hsh
      · intro x hx
        rcases List.mem_append.mp hx with hx | hx
        · obtain ⟨hxb, hxc⟩ := hos x hx
          by_cases hxq : x = q
          · subst hxq
            exact ⟨hxb, Or.inr hchain_q⟩
          · refine ⟨hxb, ?_⟩
            rcases hxc with hxs | hxc
            · exact Or.inl hxs
            · exact Or.inr (hxc.update_unvisited hq_unvis
                (fun hh => hxq hh.symm))
        · simp only [List.mem_singleton] at hx
          subst hx
          exact ⟨hqb0, Or.inr hchain_q⟩
    · exact ih _ _ hpres (fun x hx => hns x (List.mem_cons_of_mem q hx)) hpv hpc
        hokp hsprev hsh hos

theorem greedyLoop_path (s e : Pos) (g0 : Grid) (hw0 : WFGrid g0) :
    ∀ (fuel : Nat) (g : Grid) (os vis : List Pos) (gr : Grid)
      (res : PathfindingResult),
      Preserves g0 g →
      (getNode g s).previousNode = none →
      (getNode g s).heuristic ≠ none →
      (∀ x ∈ os, inBounds g0 x ∧ (x = s ∨ ChainTo g0 g s x)) →
      greedyLoop e fuel g os vis = some (gr, res) →
      res.success = true → IsPathFrom g0 s e res.shortestPath := by
  intro fuel
  induction fuel with
  | zero =>
    intro g os vis gr res _ _ _ _ h _
    exact absurd h (by simp [greedyLoop])
  | succ f ih =>
    intro g os vis gr res hpres hsprev hsh hos h hsucc
    simp only [greedyLoop] at h
    cases hs : sortBy (greedyLt g) os with
    | nil =>
      rw [hs] at h
      dsimp only at h
      obtain ⟨_, h2⟩ := Prod.mk.injEq .. ▸ (Option.some.injEq .. ▸ h)
      rw [← h2] at hsucc
      simp at hsucc
    | cons p rest =>
      rw [hs] at h
      dsimp only at h
      have hmem : ∀ x ∈ p :: rest, x ∈ os := fun x hx =>
        ((sortBy_perm (greedyLt g) os).mem_iff).mp (hs ▸ hx)
      split_ifs at h with hwall hvis hend
      · exact ih g rest vis gr res hpres hsprev hsh
          (fun x hx => hos x (hmem x (List.mem_cons_of_mem p hx))) h hsucc
      · exact ih g rest vis gr res hpres hsprev hsh
          (fun x hx => hos x (hmem x (List.mem_cons_of_mem p hx))) h hsucc
      · obtain ⟨h1, h2⟩ := Prod.mk.injEq .. ▸ (Option.some.injEq .. ▸ h)
        have h3 : res.shortestPath =
            reconstructPath (gridModify g p fun n => { n with isVisited := true }) e := by
          rw [← h2]
        rw [h3]
        obtain ⟨hpb, hpc⟩ := hos p (hmem p (List.mem_cons_self _ _))
        have hokp : okCell g0 p := by
          refine ⟨hpb, ?_⟩
          rw [← (hpres.2.2.2 p).1]
          exact hwall
        have hpres2 : Preserves g0 (gridModify g p fun n =>
            { n with isVisited := true }) :=
          hpres.trans (Preserves.gridModify _ _ _ (fun n => ⟨rfl, rfl, rfl⟩))
        subst hend
        rcases hpc with hps | hpc
        · subst hps
          refine reconstructPath_of_chainTo hpres2 (chainTo_self ?_ hokp)
          rw [(getNode_mark_visited g p p).1]
          exact hsprev
        · exact reconstructPath_of_chainTo hpres2 (hpc.mark_visited p)
      · obtain ⟨hpb, hpc⟩ := hos p (hmem p (List.mem_cons_self _ _))
        have hokp : okCell g0 p := by
          refine ⟨hpb, ?_⟩
          rw [← (hpres.2.2.2 p).1]
          exact hwall
        have hpres2 : Preserves g0 (gridModify g p fun n =>
            { n with isVisited := true }) :=
          hpres.trans (Preserves.gridModify _ _ _ (fun n => ⟨rfl, rfl, rfl⟩))
        have hwg2 : WFGrid (gridModify g p fun n => { n with isVisited := true }) :=
          wf_of_preserves hw0 hpres2
        have hpbg2 : inBounds (gridModify g p fun n => { n with isVisited := true }) p :=
          (inBounds_of_preserves hpres2 p).mpr hpb
        have hstp : inStore g p :=
          inStore_of_inBounds (wf_of_preserves hw0 hpres)
            ((inBounds_of_preserves hpres p).mpr hpb)
        have hpv2 : (getNode (gridModify g p fun n => { n with isVisited := true })
            p).isVisited = true := by
          rw [getNode_gridModify, if_pos ⟨rfl, hstp⟩]
        have hns : ∀ q ∈ getNeighbors
            (getNode (gridModify g p fun n => { n with isVisited := true }) p)
            (gridModify g p fun n => { n with isVisited := true }),
            inBounds g0 q ∧ adjacent p q := by
          intro q hq
          obtain ⟨h4, h5⟩ := mem_getNeighbors hwg2 hpbg2 hq
          exact ⟨(inBounds_of_preserves hpres2 q).mp h4, h5⟩
        have hpc2 : p = s ∨ ChainTo g0
            (gridModify g p fun n => { n with isVisited := true }) s p := by
          rcases hpc with hps | hpc
          · exact Or.inl hps
          · exact Or.inr (hpc.mark_visited p)
        obtain ⟨hs1, hs2, ho2⟩ := greedyExpand_chain s p e g0 hw0 _ _ rest hpres2
          hns hpv2 hpc2 hokp
          (by rw [(getNode_mark_visited g p s).1]; exact hsprev)
          (by rw [(getNode_mark_visited g p s).2.2]; exact hsh)
          (fun x hx => ⟨(hos x (hmem x (List.mem_cons_of_mem p hx))).1, by
            rcases (hos x (hmem x (List.mem_cons_of_mem p hx))).2 with hxs | hxc
            · exact Or.inl hxs
            · exact Or.inr (hxc.mark_visited p)⟩)
        exact ih _ _ _ _ _ (hpres2.trans (preserves_greedyExpand p e _ _ rest))
          hs1 hs2 ho2 h hsucc

theorem visited_mark {g : Grid} {x : Pos} (q : Pos)
    (hx : (getNode g x).isVisited = true) :
    (getNode (gridModify g q fun n => { n with isVisited := true })
      x).isVisited = true := by
  rw [getNode_gridModify]
  split_ifs with hc
  · rfl
  · exact hx

theorem ChainTo.of_mono {g0 g gr : Grid} {s x : Pos} (h : ChainTo g0 g s x)
    (hx : (getNode g x).isVisited = true)
    (hmono : ∀ y, (getNode g y).isVisited = true →
      (getNode gr y).isVisited = true ∧
      (getNode gr y).previousNode = (getNode g y).previousNode) :
    ChainTo g0 gr s x := by
  obtain ⟨l, h1, h2, h3, h4, h5, h6⟩ := h
  have hall : ∀ y ∈ l, (getNode g y).isVisited = true := by
    intro y hy
    by_cases hyx : y = x
    · rw [hyx]; exact hx
    · exact h6 y hy hyx
  refine ⟨l, h1.transport (fun y hy => (hmono y (hall y hy)).2), h2, h3, h4, h5, ?_⟩
  intro y hy hyx
  exact (hmono y (hall y hy)).1

theorem dlsGo_mono (e : Pos) (maxDepth : Nat) :
    ∀ (fuel : Nat) (g : Grid) (w : DlsWork) (depth : Nat) (vis : List Pos)
      (gr : Grid) (vis2 : List Pos) (b : Bool),
      dlsGo e maxDepth fuel g w depth vis = some (gr, vis2, b) →
      ∀ x, (getNode g x).isVisited = true →
        (getNode gr x).isVisited = true ∧
        (getNode gr x).previousNode = (getNode g x).previousNode := by
  intro fuel
  induction fuel with
  | zero =>
    intro g w depth vis gr vis2 b h
    exact absurd h (by simp [dlsGo])
  | succ f ih =>
    intro g w depth vis gr vis2 b h x hx
    cases w with
    | enter p =>
      simp only [dlsGo] at h
      split_ifs at h with hwall hend hdep
      · obtain ⟨h1, _⟩ := Prod.mk.injEq .. ▸ (Option.some.injEq .. ▸ h)
        rw [← h1]
        exact ⟨hx, rfl⟩
      · obtain ⟨h1, _⟩ := Prod.mk.injEq .. ▸ (Option.some.injEq .. ▸ h)
        rw [← h1]
        exact ⟨visited_mark p hx, (getNode_mark_visited g p x).1⟩
      · obtain ⟨h1, _⟩ := Prod.mk.injEq .. ▸ (Option.some.injEq .. ▸ h)
        rw [← h1]
        exact ⟨visited_mark p hx, (getNode_mark_visited g p x).1⟩
      · obtain ⟨h5, h6⟩ := ih _ _ _ _ _ _ _ h x (visited_mark p hx)
        exact ⟨h5, h6.trans (getNode_mark_visited g p x).1⟩
    | children parent ns =>
      cases ns with
      | nil =>
        simp only [dlsGo] at h
        obtain ⟨h1, _⟩ := Prod.mk.injEq .. ▸ (Option.some.injEq .. ▸ h)
        rw [← h1]
        exact ⟨hx, rfl⟩
      | cons q rest =>
        simp only [dlsGo] at h
        split_ifs at h with hcond
        · have hxq : x ≠ q := by
            intro hh
            rw [← hh] at hcond
            rw [hx] at hcond
            exact Bool.noConfusion hcond.1
          have hgx : getNode (gridModify g q fun n =>
              { n with previousNode := some parent }) x = getNode g x := by
            rw [getNode_gridModify, if_neg (fun hc => hxq hc.1)]
          cases hrec : dlsGo e maxDepth f
              (gridModify g q fun n => { n with previousNode := some parent })
              (DlsWork.enter q) (depth + 1) vis with
          | none => rw [hrec] at h; exact absurd h (by simp)
          | some out =>
            obtain ⟨g3, vis3, b3⟩ := out
            rw [hrec] at h
            cases b3 with
            | true =>
              simp only at h
              obtain ⟨h1, _⟩ := Prod.mk.injEq .. ▸ (Option.some.injEq .. ▸ h)
              obtain ⟨h5, h6⟩ := ih _ _ _ _ _ _ _ hrec x (by rw [hgx]; exact hx)
              rw [← h1]
              exact ⟨h5, h6.trans (by rw [hgx])⟩
            | false =>
              simp only at h
              obtain ⟨h5, h6⟩ := ih _ _ _ _ _ _ _ hrec x (by rw [hgx]; exact hx)
              obtain ⟨h7, h8⟩ := ih _ _ _ _ _ _ _ h x h5
              exact ⟨h7, h8.trans (h6.trans (by rw [hgx]))⟩
        · exact ih _ _ _ _ _ _ _ h x hx

theorem dlsGo_path (s e : Pos) (g0 : Grid) (hw0 : WFGrid g0) (maxDepth : Nat) :
    ∀ (fuel : Nat) (g : Grid) (w : DlsWork) (depth : Nat) (vis : List Pos)
      (gr : Grid) (vis2 : List Pos),
      Preserves g0 g →
      (∀ p, w = DlsWork.enter p → inBounds g0 p ∧
        ((p = s ∧ (getNode g s).previousNode = none) ∨ ChainTo g0 g s p)) →
      (∀ parent ns, w = DlsWork.children parent ns →
        (getNode g parent).isVisited = true ∧ ChainTo g0 g s parent ∧
        ∀ q ∈ ns, inBounds g0 q ∧ adjacent parent q) →
      dlsGo e maxDepth fuel g w depth vis = some (gr, vis2, true) →
      ChainTo g0 gr s e := by
  intro fuel
  induction fuel with
  | zero =>
    intro g w depth vis gr vis2 _ _ _ h
    exact absurd h (by simp [dlsGo])
  | succ f ih =>
    intro g w depth vis gr vis2 hpres henter hkids h
    cases w with
    | enter p =>
      obtain ⟨hpb0, hpc⟩ := henter p (Eq.refl _)
      simp only [dlsGo] at h
      split_ifs at h with hwall hend hdep
      · obtain ⟨_, _, h3⟩ := Prod.mk.injEq .. ▸ (Prod.mk.injEq .. ▸
          (Option.some.injEq .. ▸ h))
        exact absurd h3.symm (by simp)
      · obtain ⟨h1, _, _⟩ := Prod.mk.injEq .. ▸ (Prod.mk.injEq .. ▸
          (Option.some.injEq .. ▸ h))
        rw [← h1]
        have hokp : okCell g0 p := by
          refine ⟨hpb0, ?_⟩
          rw [← (hpres.2.2.2 p).1]
          exact hwall
        subst hend
        rcases hpc with ⟨hps, hsprev⟩ | hpc
        · subst hps
          refine chainTo_self ?_ hokp
          rw [(getNode_mark_visited g p p).1]
          exact hsprev
        · exact hpc.mark_visited p
      · obtain ⟨_, _, h3⟩ := Prod.mk.injEq .. ▸ (Prod.mk.injEq .. ▸
          (Option.some.injEq .. ▸ h))
        exact absurd h3.symm (by simp)
      · have hpres2 : Preserves g0 (gridModify g p fun n =>
            { n with isVisited := true }) :=
          hpres.trans (Preserves.gridModify _ _ _ (fun n => ⟨rfl, rfl, rfl⟩))
        have hstp : inStore g p :=
          inStore_of_inBounds (wf_of_preserves hw0 hpres)
            ((inBounds_of_preserves hpres p).mpr hpb0)
        have hokp : okCell g0 p := by
          refine ⟨hpb0, ?_⟩
          rw [← (hpres.2.2.2 p).1]
          exact hwall
        refine ih _ _ _ _ _ _ hpres2
          (fun p' hp' => DlsWork.noConfusion hp') ?_ h
        intro pa ns2 hw2
        obtain ⟨hw21, hw22⟩ := DlsWork.children.injEq .. ▸ hw2
        subst hw21
        subst hw22
        refine ⟨?_, ?_, ?_⟩
        · rw [getNode_gridModify, if_pos ⟨rfl, hstp⟩]
        · rcases hpc with ⟨hps, hsprev⟩ | hpc
          · subst hps
            refine chainTo_self ?_ hokp
            rw [(getNode_mark_visited g p p).1]
            exact hsprev
          · exact hpc.mark_visited p
        · intro q hq
          obtain ⟨hq1, hq2⟩ := mem_getNeighbors (wf_of_preserves hw0 hpres2)
            ((inBounds_of_preserves hpres2 p).mpr hpb0) hq
          exact ⟨(inBounds_of_preserves hpres2 q).mp hq1, hq2⟩
    | children parent ns =>
      obtain ⟨hpav, hpac, hns⟩ := hkids parent ns (Eq.refl _)
      cases ns with
      | nil =>
        simp only [dlsGo] at h
        obtain ⟨_, _, h3⟩ := Prod.mk.injEq .. ▸ (Prod.mk.injEq .. ▸
          (Option.some.injEq .. ▸ h))
        exact absurd h3.symm (by simp)
      | cons q rest =>
        simp only [dlsGo] at h
        split_ifs at h with hcond
        · obtain ⟨hq_unvis, hq_nw⟩ := hcond
          have hqb0 : inBounds g0 q := (hns q (List.mem_cons_self _ _)).1
          have hstq : inStore g q :=
            inStore_of_inBounds (wf_of_preserves hw0 hpres)
              ((inBounds_of_preserves hpres q).mpr hqb0)
          have hokq : okCell g0 q := by
            refine ⟨hqb0, ?_⟩
            rw [← (hpres.2.2.2 q).1]
            exact hq_nw
          have hq_par : q ≠ parent := by
            intro hh
            rw [hh, hpav] at hq_unvis
            exact Bool.noConfusion hq_unvis
          have hpres2 : Preserves g0 (gridModify g q fun n =>
              { n with previousNode := some parent }) :=
            hpres.trans (Preserves.gridModify _ _ _ (fun n => ⟨rfl, rfl, rfl⟩))
          have hchain_q : ChainTo g0 (gridModify g q fun n =>
              { n with previousNode := some parent }) s q :=
            hpac.snoc hpav hq_unvis (hns q (List.mem_cons_self _ _)).2 hokq hstq
              (fun n => rfl)
          cases hrec : dlsGo e maxDepth f
              (gridModify g q fun n => { n with previousNode := some parent })
              (DlsWork.enter q) (depth + 1) vis with
          | none => rw [hrec] at h; exact absurd h (by simp)
          | some out =>
            obtain ⟨g3, vis3, b3⟩ := out
            rw [hrec] at h
            cases b3 with
            | true =>
              simp only at h
              obtain ⟨h1, _, _⟩ := Prod.mk.injEq .. ▸ (Prod.mk.injEq .. ▸
                (Option.some.injEq .. ▸ h))
              rw [← h1]
              refine ih _ _ _ _ _ _ hpres2 ?_
                (fun pa ns2 hw2 => DlsWork.noConfusion hw2) hrec
              intro p' hp'
              obtain hq' := DlsWork.enter.injEq .. ▸ hp'
              subst hq'
              exact ⟨hqb0, Or.inr hchain_q⟩
            | false =>
              simp only at h
              have hmono := dlsGo_mono e maxDepth _ _ _ _ _ _ _ _ hrec
              have hpav2 : (getNode (gridModify g q fun n =>
                  { n with previousNode := some parent }) parent).isVisited = true := by
                rw [getNode_gridModify, if_neg (fun hc => hq_par hc.1.symm)]
                exact hpav
              have hpres3 : Preserves g0 g3 :=
                hpres2.trans (preserves_dlsGo e maxDepth _ _ _ _ _ _ _ _ hrec)
              refine ih _ _ _ _ _ _ hpres3
                (fun p' hp' => DlsWork.noConfusion hp') ?_ h
              intro pa ns2 hw2
              obtain ⟨hw21, hw22⟩ := DlsWork.children.injEq .. ▸ hw2
              subst hw21
              subst hw22
              refine ⟨(hmono parent hpav2).1, ?_, ?_⟩
              · exact (hpac.update_unvisited hq_unvis hq_par).of_mono hpav2 hmono
              · intro x hx
                exact hns x (List.mem_cons_of_mem q hx)
        · refine ih _ _ _ _ _ _ hpres
            (fun p' hp' => DlsWork.noConfusion hp') ?_ h
          intro pa ns2 hw2
          obtain ⟨hw21, hw22⟩ := DlsWork.children.injEq .. ▸ hw2
          subst hw21
          subst hw22
          exact ⟨hpav, hpac, fun x hx => hns x (List.mem_cons_of_mem q hx)⟩

theorem idLoop_path (s e : Pos) (g0 : Grid) (hw0 : WFGrid g0)
    (hs0 : inBounds g0 s) :
    ∀ (ds : List Nat) (g : Grid) (acc : List Pos) (gr : Grid)
      (res : PathfindingResult),
      Preserves g0 g →
      idLoop s e ds g acc = some (gr, res) →
      res.success = true → IsPathFrom g0 s e res.shortestPath := by
  intro ds
  induction ds with
  | nil =>
    intro g acc gr res _ h hsucc
    simp only [idLoop] at h
    obtain ⟨_, h2⟩ := Prod.mk.injEq .. ▸ (Option.some.injEq .. ▸ h)
    rw [← h2] at hsucc
    simp at hsucc
  | cons d rest ih =>
    intro g acc gr res hpres h hsucc
    simp only [idLoop] at h
    cases hrec : depthLimitedSearch (resetForIteration g) s e d acc with
    | none => rw [hrec] at h; exact absurd h (by simp)
    | some out =>
      obtain ⟨g2, acc2, b2⟩ := out
      rw [hrec] at h
      cases b2 with
      | true =>
        simp only at h
        obtain ⟨h1, h2⟩ := Prod.mk.injEq .. ▸ (Option.some.injEq .. ▸ h)
        have h3 : res.shortestPath = reconstructPath g2 e := by rw [← h2]
        rw [h3]
        unfold depthLimitedSearch at hrec
        have hpres1 : Preserves g0 (resetForIteration g) :=
          hpres.trans (preserves_resetForIteration g)
        have hchain : ChainTo g0 g2 s e := by
          refine dlsGo_path s e g0 hw0 d _ _ _ _ _ _ _ hpres1 ?_
            (fun pa ns hw2 => DlsWork.noConfusion hw2) hrec
          intro p' hp'
          obtain hq' := DlsWork.enter.injEq .. ▸ hp'
          subst hq'
          exact ⟨hs0, Or.inl ⟨rfl, resetForIteration_prev g s⟩⟩
        have hpres2 : Preserves g0 g2 :=
          hpres1.trans (preserves_dlsGo e d _ _ _ _ _ _ _ _ hrec)
        exact reconstructPath_of_chainTo hpres2 hchain
      | false =>
        simp only at h
        exact ih _ _ _ _ (hpres.trans ((preserves_resetForIteration g).trans
          (preserves_dlsGo e d _ _ _ _ _ _ _ _ hrec))) h hsucc

/-- C2: on every well-formed grid in clean pre-run state with in-bounds
start, each of the six algorithms that reports `success = true` returns a
`shortestPath` that starts at the start cell, ends at the end cell, steps
only between 4-adjacent cells, and never touches a wall or leaves the
grid. -/
theorem C2_success_path_valid (g : Grid) (s e : Pos) (hw : WFGrid g)
    (hs : inBounds g s) (hclean : CleanGrid g) :
    (∀ gr res, bfs g s e = some (gr, res) → res.success = true →
      IsPathFrom g s e res.shortestPath) ∧
    (∀ gr res, dfs g s e = some (gr, res) → res.success = true →
      IsPathFrom g s e res.shortestPath) ∧
    (∀ gr res, astar g s e = some (gr, res) → res.success = true →
      IsPathFrom g s e res.shortestPath) ∧
    (∀ gr res, uniformCostSearch g s e = some (gr, res) → res.success = true →
      IsPathFrom g s e res.shortestPath) ∧
    (∀ gr res, greedyBFS g s e = some (gr, res) → res.success = true →
      IsPathFrom g s e res.shortestPath) ∧
    (∀ gr res, iterativeDeepening g s e = some (gr, res) → res.success = true →
      IsPathFrom g s e res.shortestPath) := by
  have hsst : inStore g s := inStore_of_inBounds hw hs
  refine ⟨?_, ?_, ?_, ?_, ?_, ?_⟩
  · intro gr res h hsucc
    simp only [bfs] at h
    have hpres : Preserves g (gridModify g s fun n =>
        { n with isVisited := true, distance := some 0 }) :=
      Preserves.gridModify _ _ _ (fun n => ⟨rfl, rfl, rfl⟩)
    refine bfsLoop_path s e g hw _ _ _ _ _ _ hpres ?_ ?_ ?_ h hsucc
    · rw [getNode_gridModify, if_pos ⟨rfl, hsst⟩]
      exact (cleanGrid_getNode hclean).2.2.2
    · rw [getNode_gridModify, if_pos ⟨rfl, hsst⟩]
    · intro x hx
      simp only [List.mem_singleton] at hx
      subst hx
      refine ⟨hs, ?_, Or.inl rfl⟩
      rw [getNode_gridModify, if_pos ⟨rfl, hsst⟩]
  · intro gr res h hsucc
    simp only [dfs] at h
    have hpres : Preserves g (gridModify g s fun n =>
        { n with isVisited := true }) :=
      Preserves.gridModify _ _ _ (fun n => ⟨rfl, rfl, rfl⟩)
    refine dfsLoop_path s e g hw _ _ _ _ _ _ hpres ?_ ?_ ?_ h hsucc
    · rw [getNode_gridModify, if_pos ⟨rfl, hsst⟩]
      exact (cleanGrid_getNode hclean).2.2.2
    · rw [getNode_gridModify, if_pos ⟨rfl, hsst⟩]
    · intro x hx
      simp only [List.mem_singleton] at hx
      subst hx
      refine ⟨hs, ?_, Or.inl rfl⟩
      rw [getNode_gridModify, if_pos ⟨rfl, hsst⟩]
  · intro gr res h hsucc
    simp only [astar] at h
    have hpres : Preserves g (gridModify g s fun n =>
        { n with distance := some 0,
                 heuristic := some (manhattanDistance (getNode g s) (getNode g e)) }) :=
      Preserves.gridModify _ _ _ (fun n => ⟨rfl, rfl, rfl⟩)
    refine astarLoop_path s e g hw _ _ _ _ _ _ hpres ?_ ?_ ?_ h hsucc
    · rw [getNode_gridModify, if_pos ⟨rfl, hsst⟩]
      exact (cleanGrid_getNode hclean).2.2.2
    · rw [getNode_gridModify, if_pos ⟨rfl, hsst⟩]
    · intro x hx
      simp only [List.mem_singleton] at hx
      subst hx
      exact ⟨hs, Or.inl rfl⟩
  · intro gr res h hsucc
    simp only [uniformCostSearch] at h
    have hpres : Preserves g (gridModify g s fun n =>
        { n with distance := some 0 }) :=
      Preserves.gridModify _ _ _ (fun n => ⟨rfl, rfl, rfl⟩)
    refine ucsLoop_path s e g hw _ _ _ _ _ _ hpres ?_ ?_ ?_ h hsucc
    · rw [getNode_gridModify, if_pos ⟨rfl, hsst⟩]
      exact (cleanGrid_getNode hclean).2.2.2
    · rw [getNode_gridModify, if_pos ⟨rfl, hsst⟩]
    · intro x hx
      simp only [List.mem_singleton] at hx
      subst hx
      exact ⟨hs, Or.inl rfl⟩
  · intro gr res h hsucc
    simp only [greedyBFS] at h
    have hpres : Preserves g (gridModify g s fun n =>
        { n with heuristic := some (manhattanDistance (getNode g s) (getNode g e)) }) :=
      Preserves.gridModify _ _ _ (fun n => ⟨rfl, rfl, rfl⟩)
    refine greedyLoop_path s e g hw _ _ _ _ _ _ hpres ?_ ?_ ?_ h hsucc
    · rw [getNode_gridModify, if_pos ⟨rfl, hsst⟩]
      exact (cleanGrid_getNode hclean).2.2.2
    · rw [getNode_gridModify, if_pos ⟨rfl, hsst⟩]
      simp
    · intro x hx
      simp only [List.mem_singleton] at hx
      subst hx
      exact ⟨hs, Or.inl rfl⟩
  · intro gr res h hsucc
    unfold iterativeDeepening at h
    exact idLoop_path s e g hw hs _ _ _ _ _ (Preserves.self g) h hsucc

/-- Witness for C2 on a concrete 1-by-2 grid: the hypotheses hold and the
claim yields a valid start-to-end path for the concrete `bfs` run. -/
theorem C2_success_path_valid_witness :
    WFGrid gW12 ∧ inBounds gW12 (0, 0) ∧ CleanGrid gW12 ∧
    IsPathFrom gW12 (0, 0) (0, 1)
      ((bfs gW12 (0, 0) (0, 1)).getD dfltRun).2.shortestPath := by
  refine ⟨by decide, by decide, by decide, ?_⟩
  have h : bfs gW12 (0, 0) (0, 1) =
      some (((bfs gW12 (0, 0) (0, 1)).getD dfltRun).1,
            ((bfs gW12 (0, 0) (0, 1)).getD dfltRun).2) := by decide
  exact (C2_success_path_valid gW12 (0, 0) (0, 1) (by decide) (by decide)
    (by decide)).1 _ _ h (by decide)

theorem PrevListOK.unique {g : Grid} {p : Pos} {l1 : List Pos}
    (h1 : PrevListOK g p l1) :
    ∀ {l2 : List Pos}, PrevListOK g p l2 → l1 = l2 := by
  induction h1 with
  | single p hprev =>
    intro l2 h2
    cases h2 with
    | single _ _ => rfl
    | step _ q2 l2' hprev2 hq2 =>
      rw [hprev] at hprev2
      exact Option.noConfusion hprev2
  | step p q l hprev hq ih =>
    intro l2 h2
    cases h2 with
    | single _ hprev2 =>
      rw [hprev] at hprev2
      exact Option.noConfusion hprev2
    | step _ q2 l2' hprev2 hq2 =>
      rw [hprev] at hprev2
      have hqq : q = q2 := Option.some.injEq .. ▸ hprev2
      subst hqq
      rw [ih hq2]

theorem reconstructPath_eq {g : Grid} {e : Pos} {l : List Pos}
    (h : PrevListOK g e l) (hlen : l.length ≤ numRows g * numCols g + 1) :
    reconstructPath g e = l := by
  unfold reconstructPath
  rw [h.reconstructAux _ [] hlen]
  simp

theorem getLast?_cons_isSome (x : Pos) :
    ∀ (l : List Pos), ∃ v, (x :: l).getLast? = some v := by
  intro l
  induction l generalizing x with
  | nil => exact ⟨x, rfl⟩
  | cons b bs ih =>
    obtain ⟨v, hv⟩ := ih b
    exact ⟨v, by rw [List.getLast?_cons_cons]; exact hv⟩

theorem isPathFrom_suffix {g : Grid} {s e x : Pos} {l1 l2 : List Pos}
    (h : IsPathFrom g s e (l1 ++ x :: l2)) : IsPathFrom g x e (x :: l2) := by
  obtain ⟨h1, h2, h3, h4⟩ := h
  refine ⟨rfl, ?_, ?_, ?_⟩
  · obtain ⟨v, hv⟩ := getLast?_cons_isSome x l2
    rw [List.getLast?_append, hv] at h2
    rw [hv]
    simpa using h2
  · rw [chainAdjb_iff] at h3 ⊢
    exact (List.chain'_append.mp h3).2.1
  · intro y hy
    exact h4 y (by simp [hy])

theorem isPathFrom_front {g : Grid} {s e z w : Pos} {l1 l2 : List Pos}
    (h : IsPathFrom g s e (l1 ++ z :: w :: l2)) :
    IsPathFrom g s z (l1 ++ [z]) ∧ adjacent z w := by
  obtain ⟨h1, h2, h3, h4⟩ := h
  have hsplit : l1 ++ z :: w :: l2 = (l1 ++ [z]) ++ w :: l2 := by simp
  rw [hsplit] at h3
  rw [chainAdjb_iff] at h3
  obtain ⟨hc1, hc2, hcross⟩ := List.chain'_append.mp h3
  refine ⟨⟨?_, ?_, ?_, ?_⟩, ?_⟩
  · cases l1 with
    | nil => simpa using h1
    | cons a as => simpa using h1
  · simp [List.getLast?_append]
  · rw [chainAdjb_iff]
    exact hc1
  · intro y hy
    refine h4 y ?_
    rcases List.mem_append.mp hy with hy | hy
    · simp [hy]
    · simp only [List.mem_singleton] at hy
      simp [hy]
  · refine hcross z ?_ w ?_
    · simp [List.getLast?_append]
    · simp

theorem mdist_le_path {g : Grid} {y : Pos} :
    ∀ (l : List Pos) (x : Pos), IsPathFrom g x y l → mdist x y ≤ l.length - 1 := by
  intro l
  induction l with
  | nil =>
    intro x h
    exact absurd h.1 (by simp)
  | cons a as ih =>
    intro x h
    have hax : a = x := by simpa using h.1
    subst hax
    cases as with
    | nil =>
      have hay : a = y := by simpa using h.2.1
      subst hay
      simp [mdist_self]
    | cons b rest =>
      have htail : IsPathFrom g b y (b :: rest) :=
        @isPathFrom_suffix g a y b [a] rest (by simpa using h)
      have hadj : adjacent a b := by
        have h3 := h.2.2.1
        simp only [chainAdjb, Bool.and_eq_true, decide_eq_true_eq] at h3
        exact h3.1
      have h1 := ih b htail
      have h2 := mdist_triangle a b y
      rw [adjacent_mdist hadj] at h2
      simp only [List.length_cons] at h1 ⊢
      omega

theorem exists_first_split {P : Pos → Prop} [DecidablePred P] :
    ∀ {l : List Pos}, (∃ a ∈ l, P a) →
      ∃ l1 a l2, l = l1 ++ a :: l2 ∧ P a ∧ ∀ b ∈ l1, ¬ P b := by
  intro l
  induction l with
  | nil =>
    intro h
    obtain ⟨a, ha, _⟩ := h
    exact absurd ha (by simp)
  | cons b bs ih =>
    intro h
    by_cases hb : P b
    · exact ⟨[], b, bs, rfl, hb, by simp⟩
    · have h2 : ∃ a ∈ bs, P a := by
        obtain ⟨a, ha, hpa⟩ := h
        rcases List.mem_cons.mp ha with h3 | h3
        · exact absurd (h3 ▸ hpa) hb
        · exact ⟨a, h3, hpa⟩
      obtain ⟨l1, a, l2, he, hpa, hall⟩ := ih h2
      refine ⟨b :: l1, a, l2, by rw [he]; rfl, hpa, ?_⟩
      intro c hc
      rcases List.mem_cons.mp hc with h3 | h3
      · rw [h3]; exact hb
      · exact hall c h3

theorem exists_last_split {a : Pos} :
    ∀ {l : List Pos}, a ∈ l → ∃ l1 l2, l = l1 ++ a :: l2 ∧ a ∉ l2 := by
  intro l
  induction l with
  | nil => intro h; exact absurd h (by simp)
  | cons b bs ih =>
    intro h
    by_cases hb : a ∈ bs
    · obtain ⟨l1, l2, he, hn⟩ := ih hb
      exact ⟨b :: l1, l2, by rw [he]; rfl, hn⟩
    · have hab : a = b := by
        rcases List.mem_cons.mp h with h3 | h3
        · exact h3
        · exact absurd h3 hb
      exact ⟨[], bs, by rw [hab, List.nil_append], hb⟩

/-- A `ChainTo` chain whose endpoint's `distance` label records exactly its
length minus one: the link invariant of the distance-labelling algorithms. -/
def ChainToL (g0 g : Grid) (s x : Pos) : Prop :=
  ∃ l, PrevListOK g x l ∧ l.head? = some s ∧ chainAdjb l = true ∧
    (∀ y ∈ l, okCell g0 y) ∧ l.Nodup ∧
    (∀ y ∈ l, y ≠ x → (getNode g y).isVisited = true) ∧
    (getNode g x).distance = some (l.length - 1)

theorem ChainToL.toChainTo {g0 g : Grid} {s x : Pos} (h : ChainToL g0 g s x) :
    ChainTo g0 g s x := by
  obtain ⟨l, h1, h2, h3, h4, h5, h6, _⟩ := h
  exact ⟨l, h1, h2, h3, h4, h5, h6⟩

theorem chainToL_self {g0 g : Grid} {s : Pos}
    (hprev : (getNode g s).previousNode = none) (hok : okCell g0 s)
    (hd : (getNode g s).distance = some 0) : ChainToL g0 g s s := by
  refine ⟨[s], PrevListOK.single s hprev, rfl, rfl, ?_, List.nodup_singleton s,
    ?_, by simpa using hd⟩
  · intro y hy
    simp only [List.mem_singleton] at hy
    subst hy
    exact hok
  · intro y hy hys
    simp only [List.mem_singleton] at hy
    exact absurd hy hys

theorem ChainToL.mark_visitedL {g0 g : Grid} {s x : Pos} (q : Pos)
    (h : ChainToL g0 g s x) :
    ChainToL g0 (gridModify g q fun n => { n with isVisited := true }) s x := by
  obtain ⟨l, h1, h2, h3, h4, h5, h6, h7⟩ := h
  refine ⟨l, h1.transport ?_, h2, h3, h4, h5, ?_, ?_⟩
  · intro y hy
    exact (getNode_mark_visited g q y).1
  · intro y hy hyx
    rw [getNode_gridModify]
    split_ifs with hc
    · rfl
    · exact h6 y hy hyx
  · rw [(getNode_mark_visited g q x).2.1]
    exact h7

theorem ChainToL.update_unvisitedL {g0 g : Grid} {s x q : Pos} {f : Node → Node}
    (h : ChainToL g0 g s x) (hq : (getNode g q).isVisited = false)
    (hqx : q ≠ x) : ChainToL g0 (gridModify g q f) s x := by
  obtain ⟨l, h1, h2, h3, h4, h5, h6, h7⟩ := h
  have hnq : ∀ y ∈ l, y ≠ q := by
    intro y hy hyq
    have hv := h6 y hy (by rw [hyq]; exact hqx)
    rw [hyq, hq] at hv
    exact Bool.noConfusion hv
  refine ⟨l, h1.transport ?_, h2, h3, h4, h5, ?_, ?_⟩
  · intro y hy
    rw [getNode_gridModify, if_neg (fun hc => hnq y hy hc.1)]
  · intro y hy hyx
    rw [getNode_gridModify, if_neg (fun hc => hnq y hy hc.1)]
    exact h6 y hy hyx
  · rw [getNode_gridModify, if_neg (fun hc => hqx hc.1.symm)]
    exact h7

theorem ChainToL.snocL {g0 g : Grid} {s p q : Pos} {f : Node → Node}
    (h : ChainToL g0 g s p) (hpv : (getNode g p).isVisited = true)
    (hq : (getNode g q).isVisited = false) (hadj : adjacent p q)
    (hok : okCell g0 q) (hst : inStore g q)
    (hf : ∀ n, (f n).previousNode = some p ∧
      (f n).distance = dadd (getNode g p).distance (some 1)) :
    ChainToL g0 (gridModify g q f) s q := by
  obtain ⟨l, h1, h2, h3, h4, h5, h6, h7⟩ := h
  have hall : ∀ y ∈ l, (getNode g y).isVisited = true := by
    intro y hy
    by_cases hyx : y = p
    · rw [hyx]; exact hpv
    · exact h6 y hy hyx
  have hnq : ∀ y ∈ l, y ≠ q := by
    intro y hy hyq
    have hv := hall y hy
    rw [hyq, hq] at hv
    exact Bool.noConfusion hv
  have hprev2 : (getNode (gridModify g q f) q).previousNode = some p := by
    rw [getNode_gridModify, if_pos ⟨rfl, hst⟩]
    exact (hf _).1
  have hlen : (getNode (gridModify g q f) q).distance = some (l.length + 1 - 1) := by
    rw [getNode_gridModify, if_pos ⟨rfl, hst⟩, (hf _).2, h7, dadd_some]
    have hpos : 0 < l.length := h1.length_pos
    congr 1
    omega
  have h1' : PrevListOK (gridModify g q f) p l := by
    refine h1.transport ?_
    intro y hy
    rw [getNode_gridModify, if_neg (fun hc => hnq y hy hc.1)]
  refine ⟨l ++ [q], PrevListOK.step q p l hprev2 h1', ?_,
    chainAdjb_snoc h3 h1.getLast_eq hadj, ?_, ?_, ?_, ?_⟩
  · cases l with
    | nil => exact absurd h2 (by simp)
    | cons a as => simpa using h2
  · intro y hy
    rcases List.mem_append.mp hy with hy | hy
    · exact h4 y hy
    · simp only [List.mem_singleton] at hy
      subst hy
      exact hok
  · rw [List.nodup_append]
    refine ⟨h5, List.nodup_singleton q, ?_⟩
    intro y hy hy2
    simp only [List.mem_singleton] at hy2
    exact hnq y hy hy2
  · intro y hy hyq
    rcases List.mem_append.mp hy with hy | hy
    · rw [getNode_gridModify, if_neg (fun hc => hnq y hy hc.1)]
      exact hall y hy
    · simp only [List.mem_singleton] at hy
      exact absurd hy hyq
  · rw [List.length_append]
    simpa using hlen

theorem mem_of_getLast? {u : Pos} :
    ∀ {l : List Pos}, l.getLast? = some u → u ∈ l := by
  intro l
  induction l with
  | nil => intro h; exact Option.noConfusion h
  | cons b bs ih =>
    intro h
    cases bs with
    | nil =>
      have hb : b = u := by simpa using h
      simp [hb]
    | cons c cs =>
      rw [List.getLast?_cons_cons] at h
      exact List.mem_cons_of_mem b (ih h)

theorem path_walk {g0 g : Grid} {s u : Pos} {l : List Pos}
    (hpath : IsPathFrom g0 s u l)
    (hs0 : (getNode g s).distance = some 0)
    (hD : ∀ y, (getNode g y).isVisited = true → ∀ l', IsPathFrom g0 s y l' →
      ∃ d, (getNode g y).distance = some d ∧ d + 1 ≤ l'.length)
    (hVN : ∀ y, (getNode g y).isVisited = true → ∀ w, adjacent y w →
      okCell g0 w → (getNode g w).isVisited = false →
      dle (getNode g w).distance (dadd (getNode g y).distance (some 1)) = true)
    (hu : (getNode g u).isVisited = false) :
    ∃ w l2 dw i, (getNode g w).isVisited = false ∧
      (getNode g w).distance = some dw ∧ dw ≤ i ∧
      i + 1 + l2.length = l.length ∧ IsPathFrom g0 w u (w :: l2) := by
  have hu_mem : u ∈ l := mem_of_getLast? hpath.2.1
  have hex : ∃ a ∈ l, (getNode g a).isVisited = false := ⟨u, hu_mem, hu⟩
  obtain ⟨l1, w, l2, hsplit, hw_unvis, hl1⟩ := exists_first_split hex
  have hl1v : ∀ b ∈ l1, (getNode g b).isVisited = true := by
    intro b hb
    cases hv : (getNode g b).isVisited with
    | false => exact absurd hv (hl1 b hb)
    | true => rfl
  rw [hsplit] at hpath
  rcases List.eq_nil_or_concat l1 with h0 | ⟨l1', z, hz⟩
  · subst h0
    rw [List.nil_append] at hpath
    have hws : w = s := by simpa using hpath.1
    subst hws
    refine ⟨w, l2, 0, 0, hw_unvis, hs0, le_refl 0, ?_, hpath⟩
    rw [hsplit]
    simp only [List.nil_append, List.length_cons]
    omega
  · subst hz
    simp only [List.concat_eq_append] at hpath hsplit hl1v
    have hre : (l1' ++ [z]) ++ w :: l2 = l1' ++ z :: w :: l2 := by simp
    have hpath2 := hpath
    rw [hre] at hpath2
    obtain ⟨hpz, hadj⟩ := isPathFrom_front hpath2
    have hzv : (getNode g z).isVisited = true := hl1v z (by simp)
    obtain ⟨dz, hdz, hdz2⟩ := hD z hzv _ hpz
    have hokw : okCell g0 w := hpath2.2.2.2 w (by simp)
    have hvn := hVN z hzv w hadj hokw hw_unvis
    rw [hdz, dadd_some] at hvn
    obtain ⟨dw, hdw, hdwle⟩ := dle_some_of_dle_dadd hvn
    refine ⟨w, l2, dw, l1'.length + 1, hw_unvis, hdw, ?_, ?_, isPathFrom_suffix hpath⟩
    · have hlen : (l1' ++ [z]).length = l1'.length + 1 := by simp
      rw [hlen] at hdz2
      omega
    · rw [hsplit]
      simp
      omega

theorem ucsExpand_untouched (p : Pos) :
    ∀ (ns : List Pos) (g : Grid) (os : List Pos) (x : Pos),
      (getNode g x).isVisited = true →
      getNode (ucsExpand g p os ns).1 x = getNode g x := by
  intro ns
  induction ns with
  | nil => intro g os x _; rfl
  | cons q rest ih =>
    intro g os x hx
    simp only [ucsExpand]
    split_ifs with h1 h2 h3
    · exact ih _ _ x hx
    · have hxq : x ≠ q := by
        intro hh
        rw [← hh] at h1
        exact absurd (Or.inl hx) h1
      have hg2 : getNode (gridModify g q fun n =>
          { n with distance := dadd (getNode g p).distance (some 1),
                   previousNode := some p }) x = getNode g x := by
        rw [getNode_gridModify, if_neg (fun hc => hxq hc.1)]
      rw [ih _ _ x (by rw [hg2]; exact hx), hg2]
    · have hxq : x ≠ q := by
        intro hh
        rw [← hh] at h1
        exact absurd (Or.inl hx) h1
      have hg2 : getNode (gridModify g q fun n =>
          { n with distance := dadd (getNode g p).distance (some 1),
                   previousNode := some p }) x = getNode g x := by
        rw [getNode_gridModify, if_neg (fun hc => hxq hc.1)]
      rw [ih _ _ x (by rw [hg2]; exact hx), hg2]
    · exact ih _ _ x hx

theorem ucsExpand_dist_dec (p : Pos) :
    ∀ (ns : List Pos) (g : Grid) (os : List Pos) (x : Pos),
      dle (getNode (ucsExpand g p os ns).1 x).distance
        (getNode g x).distance = true := by
  intro ns
  induction ns with
  | nil => intro g os x; exact dle_refl _
  | cons q rest ih =>
    intro g os x
    simp only [ucsExpand]
    split_ifs with h1 h2 h3
    · exact ih _ _ x
    · refine dle_trans (ih _ _ x) ?_
      rw [getNode_gridModify]
      split_ifs with hc
      · obtain ⟨hxq, _⟩ := hc
        subst hxq
        exact dle_of_dlt h2
      · exact dle_refl _
    · refine dle_trans (ih _ _ x) ?_
      rw [getNode_gridModify]
      split_ifs with hc
      · obtain ⟨hxq, _⟩ := hc
        subst hxq
        exact dle_of_dlt h2
      · exact dle_refl _
    · exact ih _ _ x

theorem inStore_gridModify (g : Grid) (p : Pos) (f : Node → Node) (q : Pos) :
    inStore (gridModify g p f) q ↔ inStore g q := by
  unfold inStore
  have h1 : (gridModify g p f).length = g.length := numRows_gridModify g p f
  have h2 := rowLen_gridModify g p f q.1
  unfold rowLen at h2
  rw [h1, h2]

theorem ucsExpand_relax (p : Pos) :
    ∀ (ns : List Pos) (g : Grid) (os : List Pos),
      (getNode g p).isVisited = true →
      (∀ q ∈ ns, inStore g q) →
      ∀ q ∈ ns, (getNode g q).isVisited = false →
        (getNode g q).type ≠ CellType.wall →
        dle (getNode (ucsExpand g p os ns).1 q).distance
          (dadd (getNode g p).distance (some 1)) = true := by
  intro ns
  induction ns with
  | nil => intro g os _ _ q hq; exact absurd hq (by simp)
  | cons r rest ih =>
    intro g os hpv hins q hq hq1 hq2
    simp only [ucsExpand]
    split_ifs with h1 h2 h3
    · rcases List.mem_cons.mp hq with hqr | hqr
      · subst hqr
        rcases h1 with h1 | h1
        · rw [hq1] at h1
          exact absurd h1 (by simp)
        · exact absurd h1 hq2
      · exact ih _ _ hpv (fun x hx => hins x (List.mem_cons_of_mem r hx)) q hqr hq1 hq2
    · have hrp : r ≠ p := by
        intro hh
        rw [hh, hpv] at h1
        exact absurd (Or.inl rfl) h1
      have hg2p : getNode (gridModify g r fun n =>
          { n with distance := dadd (getNode g p).distance (some 1),
                   previousNode := some p }) p = getNode g p := by
        rw [getNode_gridModify, if_neg (fun hc => hrp hc.1.symm)]
      by_cases hqr : q = r
      · subst hqr
        refine dle_trans (ucsExpand_dist_dec p rest _ _ q) ?_
        rw [getNode_gridModify, if_pos ⟨rfl, hins q (List.mem_cons_self _ _)⟩]
        exact dle_refl _
      · rcases List.mem_cons.mp hq with hqr2 | hqr2
        · exact absurd hqr2 hqr
        · have hg2q : getNode (gridModify g r fun n =>
              { n with distance := dadd (getNode g p).distance (some 1),
                       previousNode := some p }) q = getNode g q := by
            rw [getNode_gridModify, if_neg (fun hc => hqr hc.1)]
          have hres := ih (gridModify g r fun n =>
              { n with distance := dadd (getNode g p).distance (some 1),
                       previousNode := some p }) os (by rw [hg2p]; exact hpv)
            (fun x hx => (inStore_gridModify g r _ x).mpr
              (hins x (List.mem_cons_of_mem r hx)))
            q hqr2 (by rw [hg2q]; exact hq1) (by rw [hg2q]; exact hq2)
          rw [hg2p] at hres
          exact hres
    · have hrp : r ≠ p := by
        intro hh
        rw [hh, hpv] at h1
        exact absurd (Or.inl rfl) h1
      have hg2p : getNode (gridModify g r fun n =>
          { n with distance := dadd (getNode g p).distance (some 1),
                   previousNode := some p }) p = getNode g p := by
        rw [getNode_gridModify, if_neg (fun hc => hrp hc.1.symm)]
      by_cases hqr : q = r
      · subst hqr
        refine dle_trans (ucsExpand_dist_dec p rest _ _ q) ?_
        rw [getNode_gridModify, if_pos ⟨rfl, hins q (List.mem_cons_self _ _)⟩]
        exact dle_refl _
      · rcases List.mem_cons.mp hq with hqr2 | hqr2
        · exact absurd hqr2 hqr
        · have hg2q : getNode (gridModify g r fun n =>
              { n with distance := dadd (getNode g p).distance (some 1),
                       previousNode := some p }) q = getNode g q := by
            rw [getNode_gridModify, if_neg (fun hc => hqr hc.1)]
          have hres := ih (gridModify g r fun n =>
              { n with distance := dadd (getNode g p).distance (some 1),
                       previousNode := some p }) (os ++ [r]) (by rw [hg2p]; exact hpv)
            (fun x hx => (inStore_gridModify g r _ x).mpr
              (hins x (List.mem_cons_of_mem r hx)))
            q hqr2 (by rw [hg2q]; exact hq1) (by rw [hg2q]; exact hq2)
          rw [hg2p] at hres
          exact hres
    · rcases List.mem_cons.mp hq with hqr | hqr
      · subst hqr
        refine dle_trans (ucsExpand_dist_dec p rest _ _ q) ?_
        exact dle_of_not_dlt (by simpa using h2)
      · exact ih _ _ hpv (fun x hx => hins x (List.mem_cons_of_mem r hx)) q hqr hq1 hq2

theorem ucsExpand_mono (p : Pos) :
    ∀ (ns : List Pos) (g : Grid) (os : List Pos) (x : Pos),
      x ∈ os → x ∈ (ucsExpand g p os ns).2 := by
  intro ns
  induction ns with
  | nil => intro g os x hx; exact hx
  | cons r rest ih =>
    intro g os x hx
    simp only [ucsExpand]
    split_ifs with h1 h2 h3
    · exact ih _ _ x hx
    · exact ih _ _ x hx
    · exact ih _ _ x (List.mem_append.mpr (Or.inl hx))
    · exact ih _ _ x hx

theorem ucsExpand_openD (p : Pos) :
    ∀ (ns : List Pos) (g : Grid) (os : List Pos) (x : Pos),
      (getNode g x).isVisited = false →
      (getNode (ucsExpand g p os ns).1 x).distance ≠ none →
      (getNode g x).distance ≠ none ∨ x ∈ (ucsExpand g p os ns).2 := by
  intro ns
  induction ns with
  | nil => intro g os x _ h; exact Or.inl h
  | cons r rest ih =>
    intro g os x hxv h
    simp only [ucsExpand] at h ⊢
    split_ifs at h ⊢ with h1 h2 h3
    · exact ih _ _ x hxv h
    · by_cases hxr : x = r
      · subst hxr
        have hxv2 : (getNode (gridModify g x fun n =>
            { n with distance := dadd (getNode g p).distance (some 1),
                     previousNode := some p }) x).isVisited = false := by
          rw [getNode_gridModify]
          split_ifs with hc
          · exact hxv
          · exact hxv
        rcases ih _ _ x hxv2 h with h4 | h4
        · exact Or.inr (ucsExpand_mono p rest _ _ x h3)
        · exact Or.inr h4
      · have hg2x : getNode (gridModify g r fun n =>
            { n with distance := dadd (getNode g p).distance (some 1),
                     previousNode := some p }) x = getNode g x := by
          rw [getNode_gridModify, if_neg (fun hc => hxr hc.1)]
        rcases ih _ _ x (by rw [hg2x]; exact hxv) h with h4 | h4
        · rw [hg2x] at h4
          exact Or.inl h4
        · exact Or.inr h4
    · by_cases hxr : x = r
      · subst hxr
        have hxv2 : (getNode (gridModify g x fun n =>
            { n with distance := dadd (getNode g p).distance (some 1),
                     previousNode := some p }) x).isVisited = false := by
          rw [getNode_gridModify]
          split_ifs with hc
          · exact hxv
          · exact hxv
        rcases ih _ _ x hxv2 h with h4 | h4
        · exact Or.inr (ucsExpand_mono p rest _ _ x
            (List.mem_append.mpr (Or.inr (List.mem_singleton.mpr rfl))))
        · exact Or.inr h4
      · have hg2x : getNode (gridModify g r fun n =>
            { n with distance := dadd (getNode g p).distance (some 1),
                     previousNode := some p }) x = getNode g x := by
          rw [getNode_gridModify, if_neg (fun hc => hxr hc.1)]
        rcases ih _ _ x (by rw [hg2x]; exact hxv) h with h4 | h4
        · rw [hg2x] at h4
          exact Or.inl h4
        · exact Or.inr h4
    · exact ih _ _ x hxv h

theorem ucsExpand_chainL (s p : Pos) (g0 : Grid) (hw0 : WFGrid g0) :
    ∀ (ns : List Pos) (g : Grid) (os : List Pos),
      Preserves g0 g →
      (∀ q ∈ ns, inBounds g0 q ∧ adjacent p q) →
      (getNode g p).isVisited = true →
      (p = s ∨ ChainToL g0 g s p) →
      okCell g0 p →
      (getNode g s).previousNode = none →
      (getNode g s).distance = some 0 →
      (∀ x ∈ os, inBounds g0 x ∧ (x = s ∨ ChainToL g0 g s x)) →
      (getNode (ucsExpand g p os ns).1 s).previousNode = none ∧
      (getNode (ucsExpand g p os ns).1 s).distance = some 0 ∧
      (∀ x ∈ (ucsExpand g p os ns).2,
        inBounds g0 x ∧ (x = s ∨ ChainToL g0 (ucsExpand g p os ns).1 s x)) := by
  intro ns
  induction ns with
  | nil =>
    intro g os hpres hns hpv hpc hokp hsprev hs0 hos
    exact ⟨hsprev, hs0, hos⟩
  | cons q rest ih =>
    intro g os hpres hns hpv hpc hokp hsprev hs0 hos
    simp only [ucsExpand]
    split_ifs with h1 h2 h3
    · exact ih _ _ hpres (fun x hx => hns x (List.mem_cons_of_mem q hx)) hpv hpc
        hokp hsprev hs0 hos
    all_goals try
      (have hq_unvis : (getNode g q).isVisited = false := by
        cases hvq : (getNode g q).isVisited with
        | false => rfl
        | true => exact absurd (Or.inl hvq) h1)
    · have hq_nw : (getNode g q).type ≠ CellType.wall := fun hh => h1 (Or.inr hh)
      have hqs : q ≠ s := by
        intro hh
        rw [hh, hs0, dlt_dadd_one_zero] at h2
        exact Bool.noConfusion h2
      have hqp : q ≠ p := by
        intro hh
        rw [hh, hpv] at hq_unvis
        exact Bool.noConfusion hq_unvis
      have hqb0 : inBounds g0 q := (hns q (List.mem_cons_self _ _)).1
      have hqbg : inBounds g q := (inBounds_of_preserves hpres q).mpr hqb0
      have hstq : inStore g q := inStore_of_inBounds (wf_of_preserves hw0 hpres) hqbg
      have hokq : okCell g0 q := by
        refine ⟨hqb0, ?_⟩
        rw [← (hpres.2.2.2 q).1]
        exact hq_nw
      have hchain_p : ChainToL g0 g s p := by
        rcases hpc with hps | hpc
        · subst hps
          exact chainToL_self hsprev hokp hs0
        · exact hpc
      have hchain_q := hchain_p.snocL hpv hq_unvis
        (hns q (List.mem_cons_self _ _)).2 hokq hstq
        (f := fun n =>
          { n with distance := dadd (getNode g p).distance (some 1),
                   previousNode := some p })
        (fun n => ⟨rfl, rfl⟩)
      refine ih _ _ (hpres.trans (Preserves.gridModify _ _ _
          (fun n => ⟨rfl, rfl, rfl⟩)))
        (fun x hx => hns x (List.mem_cons_of_mem q hx)) ?_ ?_ hokp ?_ ?_ ?_
      · rw [getNode_gridModify, if_neg (fun hc => hqp hc.1.symm)]
        exact hpv
      · rcases hpc with hps | hpc
        · exact Or.inl hps
        · exact Or.inr (hpc.update_unvisitedL hq_unvis hqp)
      · rw [getNode_gridModify, if_neg (fun hc => hqs hc.1.symm)]
        exact hsprev
      · rw [getNode_gridModify, if_neg (fun hc => hqs hc.1.symm)]
        exact hs0
      · intro x hx
        by_cases hxq : x = q
        · subst hxq
          exact ⟨hqb0, Or.inr hchain_q⟩
        · obtain ⟨hxb, hxc⟩ := hos x hx
          refine ⟨hxb, ?_⟩
          rcases hxc with hxs | hxc
          · exact Or.inl hxs
          · exact Or.inr (hxc.update_unvisitedL hq_unvis
              (fun hh => hxq hh.symm))
    · have hq_nw : (getNode g q).type ≠ CellType.wall := fun hh => h1 (Or.inr hh)
      have hqs : q ≠ s := by
        intro hh
        rw [hh, hs0, dlt_dadd_one_zero] at h2
        exact Bool.noConfusion h2
      have hqp : q ≠ p := by
        intro hh
        rw [hh, hpv] at hq_unvis
        exact Bool.noConfusion hq_unvis
      have hqb0 : inBounds g0 q := (hns q (List.mem_cons_self _ _)).1
      have hqbg : inBounds g q := (inBounds_of_preserves hpres q).mpr hqb0
      have hstq : inStore g q := inStore_of_inBounds (wf_of_preserves hw0 hpres) hqbg
      have hokq : okCell g0 q := by
        refine ⟨hqb0, ?_⟩
        rw [← (hpres.2.2.2 q).1]
        exact hq_nw
      have hchain_p : ChainToL g0 g s p := by
        rcases hpc with hps | hpc
        · subst hps
          exact chainToL_self hsprev hokp hs0
        · exact hpc
      have hchain_q := hchain_p.snocL hpv hq_unvis
        (hns q (List.mem_cons_self _ _)).2 hokq hstq
        (f := fun n =>
          { n with distance := dadd (getNode g p).distance (some 1),
                   previousNode := some p })
        (fun n => ⟨rfl, rfl⟩)
      refine ih _ _ (hpres.trans (Preserves.gridModify _ _ _
          (fun n => ⟨rfl, rfl, rfl⟩)))
        (fun x hx => hns x (List.mem_cons_of_mem q hx)) ?_ ?_ hokp ?_ ?_ ?_
      · rw [getNode_gridModify, if_neg (fun hc => hqp hc.1.symm)]
        exact hpv
      · rcases hpc with hps | hpc
        · exact Or.inl hps
        · exact Or.inr (hpc.update_unvisitedL hq_unvis hqp)
      · rw [getNode_gridModify, if_neg (fun hc => hqs hc.1.symm)]
        exact hsprev
      · rw [getNode_gridModify, if_neg (fun hc => hqs hc.1.symm)]
        exact hs0
      · intro x hx
        rcases List.mem_append.mp hx with hx | hx
        · obtain ⟨hxb, hxc⟩ := hos x hx
          have hxq : x ≠ q := fun hh => h3 (hh ▸ hx)
          refine ⟨hxb, ?_⟩
          rcases hxc with hxs | hxc
          · exact Or.inl hxs
          · exact Or.inr (hxc.update_unvisitedL hq_unvis
              (fun hh => hxq hh.symm))
        · simp only [List.mem_singleton] at hx
          subst hx
          exact ⟨hqb0, Or.inr hchain_q⟩
    · exact ih _ _ hpres (fun x hx => hns x (List.mem_cons_of_mem q hx)) hpv hpc
        hokp hsprev hs0 hos

theorem ucs_pop_bound {s p : Pos} {g0 g : Grid} {os rest : List Pos}
    (hs : sortBy (ucsLt g) os = p :: rest)
    (hs0 : (getNode g s).distance = some 0)
    (hD : ∀ y, (getNode g y).isVisited = true → ∀ l', IsPathFrom g0 s y l' →
      ∃ d, (getNode g y).distance = some d ∧ d + 1 ≤ l'.length)
    (hVN : ∀ y, (getNode g y).isVisited = true → ∀ w, adjacent y w →
      okCell g0 w → (getNode g w).isVisited = false →
      dle (getNode g w).distance (dadd (getNode g y).distance (some 1)) = true)
    (hOpenD : ∀ x, inBounds g0 x → (getNode g0 x).type ≠ CellType.wall →
      (getNode g x).isVisited = false → (getNode g x).distance ≠ none → x ∈ os)
    (hp_unvis : (getNode g p).isVisited = false) :
    ∀ l, IsPathFrom g0 s p l →
      ∃ d, (getNode g p).distance = some d ∧ d + 1 ≤ l.length := by
  intro l hl
  obtain ⟨w, l2, dw, i, hwu, hwd, hdwi, hlen, hwsuf⟩ :=
    path_walk hl hs0 hD hVN hp_unvis
  have hok_w : okCell g0 w := hwsuf.2.2.2 w (List.mem_cons_self _ _)
  have hw_in : w ∈ os := hOpenD w hok_w.1 hok_w.2 hwu (by rw [hwd]; simp)
  have hmin := sortBy_head_min (fun x => (getNode g x).distance) hs w hw_in
  dsimp only at hmin
  rw [hwd] at hmin
  obtain ⟨dp, hdp, hdple⟩ := dle_some_of_dle_dadd hmin
  exact ⟨dp, hdp, by omega⟩

set_option maxHeartbeats 1600000 in
theorem ucsLoop_opt (s e : Pos) (g0 : Grid) (hw0 : WFGrid g0)
    (hpe : ∃ l0, IsPathFrom g0 s e l0) :
    ∀ (fuel : Nat) (g : Grid) (os vis : List Pos) (gr : Grid)
      (res : PathfindingResult),
      Preserves g0 g →
      (getNode g s).previousNode = none →
      (getNode g s).distance = some 0 →
      (getNode g e).isVisited = false →
      (∀ x ∈ os, inBounds g0 x ∧ (x = s ∨ ChainToL g0 g s x)) →
      (∀ y, (getNode g y).isVisited = true → ∀ l', IsPathFrom g0 s y l' →
        ∃ d, (getNode g y).distance = some d ∧ d + 1 ≤ l'.length) →
      (∀ y, (getNode g y).isVisited = true → ∀ w, adjacent y w →
        okCell g0 w → (getNode g w).isVisited = false →
        dle (getNode g w).distance (dadd (getNode g y).distance (some 1)) = true) →
      (∀ x, inBounds g0 x → (getNode g0 x).type ≠ CellType.wall →
        (getNode g x).isVisited = false → (getNode g x).distance ≠ none → x ∈ os) →
      ucsLoop e fuel g os vis = some (gr, res) →
      res.success = true ∧ IsPathFrom g0 s e res.shortestPath ∧
        ∀ l, IsPathFrom g0 s e l → res.shortestPath.length ≤ l.length := by
  intro fuel
  induction fuel with
  | zero =>
    intro g os vis gr res _ _ _ _ _ _ _ _ h
    exact absurd h (by simp [ucsLoop])
  | succ f ih =>
    intro g os vis gr res hpres hsprev hs0 hEv hos hD hVN hOpenD h
    simp only [ucsLoop] at h
    cases hs : sortBy (ucsLt g) os with
    | nil =>
      exfalso
      obtain ⟨l0, hl0⟩ := hpe
      obtain ⟨w, l2, dw, i, hwu, hwd, hdwi, hlen, hwsuf⟩ :=
        path_walk hl0 hs0 hD hVN hEv
      have hok_w : okCell g0 w := hwsuf.2.2.2 w (List.mem_cons_self _ _)
      have hw_in : w ∈ os := hOpenD w hok_w.1 hok_w.2 hwu (by rw [hwd]; simp)
      rw [sortBy_eq_nil hs] at hw_in
      exact absurd hw_in (by simp)
    | cons p rest =>
      rw [hs] at h
      dsimp only at h
      have hmem : ∀ x ∈ p :: rest, x ∈ os := fun x hx =>
        ((sortBy_perm (ucsLt g) os).mem_iff).mp (hs ▸ hx)
      have hmem2 : ∀ x ∈ os, x ∈ p :: rest := by
        intro x hx
        rw [← hs]
        exact ((sortBy_perm (ucsLt g) os).mem_iff).mpr hx
      split_ifs at h with hwall hvis hend
      · -- wall pop
        refine ih g rest vis gr res hpres hsprev hs0 hEv
          (fun x hx => hos x (hmem x (List.mem_cons_of_mem p hx))) hD hVN ?_ h
        intro x hxb hxnw hxu hxd
        have hx_in := hOpenD x hxb hxnw hxu hxd
        rcases List.mem_cons.mp (hmem2 x hx_in) with hxp | hxp
        · exfalso
          rw [hxp] at hxnw
          rw [← (hpres.2.2.2 p).1] at hxnw
          exact hxnw hwall
        · exact hxp
      · -- visited pop
        have hp_vis : (getNode g p).isVisited = true := by
          cases hv : (getNode g p).isVisited with
          | true => rfl
          | false => exact absurd hv (by simpa using hvis)
        refine ih g rest vis gr res hpres hsprev hs0 hEv
          (fun x hx => hos x (hmem x (List.mem_cons_of_mem p hx))) hD hVN ?_ h
        intro x hxb hxnw hxu hxd
        have hx_in := hOpenD x hxb hxnw hxu hxd
        rcases List.mem_cons.mp (hmem2 x hx_in) with hxp | hxp
        · exfalso
          rw [hxp, hp_vis] at hxu
          exact Bool.noConfusion hxu
        · exact hxp
      all_goals
        (have hp_unvis : (getNode g p).isVisited = false := by
          cases hv : (getNode g p).isVisited with
          | false => rfl
          | true => exact absurd hv (by simpa using hvis)
         have hpb0 : inBounds g0 p := (hos p (hmem p (List.mem_cons_self _ _))).1
         have hokp : okCell g0 p := by
           refine ⟨hpb0, ?_⟩
           rw [← (hpres.2.2.2 p).1]
           exact hwall
         have hDp := ucs_pop_bound hs hs0 hD hVN hOpenD hp_unvis
         have hstp : inStore g p :=
           inStore_of_inBounds (wf_of_preserves hw0 hpres)
             ((inBounds_of_preserves hpres p).mpr hpb0)
         have hpres2 : Preserves g0 (gridModify g p fun n =>
             { n with isVisited := true }) :=
           hpres.trans (Preserves.gridModify _ _ _ (fun n => ⟨rfl, rfl, rfl⟩)))
      · -- success : p = e
        obtain ⟨h1, h2⟩ := Prod.mk.injEq .. ▸ (Option.some.injEq .. ▸ h)
        have hsucc : res.success = true := by rw [← h2]
        have hsp : res.shortestPath =
            reconstructPath (gridModify g p fun n => { n with isVisited := true }) e := by
          rw [← h2]
        subst hend
        have hchainL : ChainToL g0
            (gridModify g p fun n => { n with isVisited := true }) s p := by
          rcases (hos p (hmem p (List.mem_cons_self _ _))).2 with hps | hpc
          · subst hps
            refine chainToL_self ?_ hokp ?_
            · rw [(getNode_mark_visited g p p).1]
              exact hsprev
            · rw [(getNode_mark_visited g p p).2.1]
              exact hs0
          · exact hpc.mark_visitedL p
        obtain ⟨lc, hc1, hc2, hc3, hc4, hc5, hc6, hc7⟩ := hchainL
        have hrec_eq : reconstructPath
            (gridModify g p fun n => { n with isVisited := true }) p = lc := by
          refine reconstructPath_eq hc1 ?_
          have hbound : lc.length ≤ numRows g0 * numCols g0 :=
            length_le_area_of_nodup hc5 (fun x hx => (hc4 x hx).1)
          rw [hpres2.1, hpres2.2.1]
          omega
        refine ⟨hsucc, ?_, ?_⟩
        · rw [hsp]
          exact reconstructPath_of_chainTo hpres2
            ⟨lc, hc1, hc2, hc3, hc4, hc5, hc6⟩
        · intro l hl
          obtain ⟨d, hd, hdle2⟩ := hDp l hl
          rw [hsp, hrec_eq]
          rw [(getNode_mark_visited g p p).2.1, hd] at hc7
          have hlpos : 0 < lc.length := hc1.length_pos
          have : lc.length - 1 = d := by
            have := Option.some.injEq .. ▸ hc7
            omega
          omega
      · -- descend
        have hpv2 : (getNode (gridModify g p fun n => { n with isVisited := true })
            p).isVisited = true := by
          rw [getNode_gridModify, if_pos ⟨rfl, hstp⟩]
        have hwg2 : WFGrid (gridModify g p fun n => { n with isVisited := true }) :=
          wf_of_preserves hw0 hpres2
        have hpbg2 : inBounds (gridModify g p fun n => { n with isVisited := true }) p :=
          (inBounds_of_preserves hpres2 p).mpr hpb0
        have hns : ∀ q ∈ getNeighbors
            (getNode (gridModify g p fun n => { n with isVisited := true }) p)
            (gridModify g p fun n => { n with isVisited := true }),
            inBounds g0 q ∧ adjacent p q := by
          intro q hq
          obtain ⟨h4, h5⟩ := mem_getNeighbors hwg2 hpbg2 hq
          exact ⟨(inBounds_of_preserves hpres2 q).mp h4, h5⟩
        have hins : ∀ q ∈ getNeighbors
            (getNode (gridModify g p fun n => { n with isVisited := true }) p)
            (gridModify g p fun n => { n with isVisited := true }),
            inStore (gridModify g p fun n => { n with isVisited := true }) q := by
          intro q hq
          exact inStore_of_inBounds hwg2
            ((inBounds_of_preserves hpres2 q).mpr (hns q hq).1)
        have hpc2 : p = s ∨ ChainToL g0
            (gridModify g p fun n => { n with isVisited := true }) s p := by
          rcases (hos p (hmem p (List.mem_cons_self _ _))).2 with hps | hpc
          · exact Or.inl hps
          · exact Or.inr (hpc.mark_visitedL p)
        obtain ⟨hs1, hs2, ho2⟩ := ucsExpand_chainL s p g0 hw0 _ _ rest hpres2
          hns hpv2 hpc2 hokp
          (by rw [(getNode_mark_visited g p s).1]; exact hsprev)
          (by rw [(getNode_mark_visited g p s).2.1]; exact hs0)
          (fun x hx => ⟨(hos x (hmem x (List.mem_cons_of_mem p hx))).1, by
            rcases (hos x (hmem x (List.mem_cons_of_mem p hx))).2 with hxs | hxc
            · exact Or.inl hxs
            · exact Or.inr (hxc.mark_visitedL p)⟩)
        have hup : ∀ x, (getNode (gridModify g p fun n =>
            { n with isVisited := true }) x).isVisited = true →
            getNode (ucsExpand (gridModify g p fun n => { n with isVisited := true })
              p rest (getNeighbors
                (getNode (gridModify g p fun n => { n with isVisited := true }) p)
                (gridModify g p fun n => { n with isVisited := true }))).1 x =
            getNode (gridModify g p fun n => { n with isVisited := true }) x :=
          fun x hx => ucsExpand_untouched p _ _ _ x hx
        have hveq : ∀ x, (getNode (ucsExpand (gridModify g p fun n =>
            { n with isVisited := true }) p rest (getNeighbors
              (getNode (gridModify g p fun n => { n with isVisited := true }) p)
              (gridModify g p fun n => { n with isVisited := true }))).1 x).isVisited =
            (getNode (gridModify g p fun n => { n with isVisited := true }) x).isVisited :=
          fun x => ucsExpand_visited_eq p _ _ _ x
        have hv2 : ∀ x, x ≠ p → (getNode (gridModify g p fun n =>
            { n with isVisited := true }) x).isVisited = (getNode g x).isVisited := by
          intro x hxp
          rw [getNode_gridModify, if_neg (fun hc => hxp hc.1)]
        refine ih _ _ _ _ _ (hpres2.trans (preserves_ucsExpand p _ _ rest))
          hs1 hs2 ?_ ho2 ?_ ?_ ?_ h
        · -- e still unvisited
          rw [hveq e, hv2 e (fun hh => hend hh.symm)]
          exact hEv
        · -- (D)
          intro y hy3 l' hl'
          rw [hveq y] at hy3
          by_cases hyp : y = p
          · subst hyp
            rw [hup y hy3, (getNode_mark_visited g y y).2.1]
            exact hDp l' hl'
          · rw [hup y hy3]
            rw [hv2 y hyp] at hy3
            rw [(getNode_mark_visited g p y).2.1]
            exact hD y hy3 l' hl'
        · -- (VN)
          intro y hy3 w hadj hokw hwu3
          rw [hveq y] at hy3
          have hwu2 : (getNode (gridModify g p fun n =>
              { n with isVisited := true }) w).isVisited = false := by
            rw [← hveq w]
            exact hwu3
          have hwp : w ≠ p := by
            intro hh
            rw [hh, hpv2] at hwu2
            exact Bool.noConfusion hwu2
          by_cases hyp : y = p
          · subst hyp
            rw [hup y hy3]
            have hw_ns : w ∈ getNeighbors
                (getNode (gridModify g y fun n => { n with isVisited := true }) y)
                (gridModify g y fun n => { n with isVisited := true }) := by
              refine getNeighbors_complete hwg2 hpbg2 ?_ hadj
              exact (inBounds_of_preserves hpres2 w).mpr hokw.1
            have hrelax := ucsExpand_relax y _
              (gridModify g y fun n => { n with isVisited := true }) rest
              hpv2 hins w hw_ns hwu2 (by
                rw [(hpres2.2.2.2 w).1]
                exact hokw.2)
            exact hrelax
          · rw [hup y hy3]
            rw [hv2 y hyp] at hy3
            have hwu1 : (getNode g w).isVisited = false := by
              rw [← hv2 w hwp]
              exact hwu2
            have hold := hVN y hy3 w hadj hokw hwu1
            rw [(getNode_mark_visited g p y).2.1]
            refine dle_trans ?_ hold
            refine dle_trans (ucsExpand_dist_dec p _ _ _ w) ?_
            rw [(getNode_mark_visited g p w).2.1]
            exact dle_refl _
        · -- (OpenD)
          intro x hxb hxnw hxu3 hxd3
          have hxu2 : (getNode (gridModify g p fun n =>
              { n with isVisited := true }) x).isVisited = false := by
            rw [← hveq x]
            exact hxu3
          have hxp : x ≠ p := by
            intro hh
            rw [hh, hpv2] at hxu2
            exact Bool.noConfusion hxu2
          rcases ucsExpand_openD p _ _ _ x hxu2 hxd3 with h4 | h4
          · rw [(getNode_mark_visited g p x).2.1] at h4
            have hx_in := hOpenD x hxb hxnw (by rw [← hv2 x hxp]; exact hxu2) h4
            rcases List.mem_cons.mp (hmem2 x hx_in) with hxp2 | hxp2
            · exact absurd hxp2 hxp
            · exact ucsExpand_mono p _ _ _ x hxp2
          · exact h4

theorem manhattan_eq_mdist {g : Grid} (hw : WFGrid g) {q e : Pos}
    (hq : inBounds g q) (he : inBounds g e) :
    manhattanDistance (getNode g q) (getNode g e) = mdist q e := by
  obtain ⟨hr1, hc1⟩ := wf_coords hw hq
  obtain ⟨hr2, hc2⟩ := wf_coords hw he
  unfold manhattanDistance mdist
  rw [hr1, hc1, hr2, hc2]

theorem astarExpand_untouched (p e : Pos) :
    ∀ (ns : List Pos) (g : Grid) (os : List Pos) (x : Pos),
      (getNode g x).isVisited = true →
      getNode (astarExpand g p e os ns).1 x = getNode g x := by
  intro ns
  induction ns with
  | nil => intro g os x _; rfl
  | cons q rest ih =>
    intro g os x hx
    simp only [astarExpand]
    split_ifs with h1 h2 h3
    · exact ih _ _ x hx
    all_goals try
      (have hxq : x ≠ q := by
        intro hh
        rw [← hh] at h1
        exact absurd (Or.inl hx) h1)
    · have hg2 : getNode (gridModify g q fun n =>
          { n with distance := dadd (getNode g p).distance (some 1),
                   heuristic := some (manhattanDistance (getNode g q) (getNode g e)),
                   previousNode := some p }) x = getNode g x := by
        rw [getNode_gridModify, if_neg (fun hc => hxq hc.1)]
      rw [ih _ _ x (by rw [hg2]; exact hx), hg2]
    · have hg2 : getNode (gridModify g q fun n =>
          { n with distance := dadd (getNode g p).distance (some 1),
                   heuristic := some (manhattanDistance (getNode g q) (getNode g e)),
                   previousNode := some p }) x = getNode g x := by
        rw [getNode_gridModify, if_neg (fun hc => hxq hc.1)]
      rw [ih _ _ x (by rw [hg2]; exact hx), hg2]
    · exact ih _ _ x hx

theorem astarExpand_dist_dec (p e : Pos) :
    ∀ (ns : List Pos) (g : Grid) (os : List Pos) (x : Pos),
      dle (getNode (astarExpand g p e os ns).1 x).distance
        (getNode g x).distance = true := by
  intro ns
  induction ns with
  | nil => intro g os x; exact dle_refl _
  | cons q rest ih =>
    intro g os x
    simp only [astarExpand]
    split_ifs with h1 h2 h3
    · exact ih _ _ x
    · refine dle_trans (ih _ _ x) ?_
      rw [getNode_gridModify]
      split_ifs with hc
      · obtain ⟨hxq, _⟩ := hc
        subst hxq
        exact dle_of_dlt h2
      · exact dle_refl _
    · refine dle_trans (ih _ _ x) ?_
      rw [getNode_gridModify]
      split_ifs with hc
      · obtain ⟨hxq, _⟩ := hc
        subst hxq
        exact dle_of_dlt h2
      · exact dle_refl _
    · exact ih _ _ x

theorem astarExpand_mono (p e : Pos) :
    ∀ (ns : List Pos) (g : Grid) (os : List Pos) (x : Pos),
      x ∈ os → x ∈ (astarExpand g p e os ns).2 := by
  intro ns
  induction ns with
  | nil => intro g os x hx; exact hx
  | cons r rest ih =>
    intro g os x hx
    simp only [astarExpand]
    split_ifs with h1 h2 h3
    · exact ih _ _ x hx
    · exact ih _ _ x hx
    · exact ih _ _ x (List.mem_append.mpr (Or.inl hx))
    · exact ih _ _ x hx

theorem astarExpand_relax (p e : Pos) :
    ∀ (ns : List Pos) (g : Grid) (os : List Pos),
      (getNode g p).isVisited = true →
      (∀ q ∈ ns, inStore g q) →
      ∀ q ∈ ns, (getNode g q).isVisited = false →
        (getNode g q).type ≠ CellType.wall →
        dle (getNode (astarExpand g p e os ns).1 q).distance
          (dadd (getNode g p).distance (some 1)) = true := by
  intro ns
  induction ns with
  | nil => intro g os _ _ q hq; exact absurd hq (by simp)
  | cons r rest ih =>
    intro g os hpv hins q hq hq1 hq2
    simp only [astarExpand]
    split_ifs with h1 h2 h3
    · rcases List.mem_cons.mp hq with hqr | hqr
      · subst hqr
        rcases h1 with h1 | h1
        · rw [hq1] at h1
          exact absurd h1 (by simp)
        · exact absurd h1 hq2
      · exact ih _ _ hpv (fun x hx => hins x (List.mem_cons_of_mem r hx)) q hqr hq1 hq2
    · have hrp : r ≠ p := by
        intro hh
        rw [hh, hpv] at h1
        exact absurd (Or.inl rfl) h1
      have hg2p : getNode (gridModify g r fun n =>
          { n with distance := dadd (getNode g p).distance (some 1),
                   heuristic := some (manhattanDistance (getNode g r) (getNode g e)),
                   previousNode := some p }) p = getNode g p := by
        rw [getNode_gridModify, if_neg (fun hc => hrp hc.1.symm)]
      by_cases hqr : q = r
      · subst hqr
        refine dle_trans (astarExpand_dist_dec p e rest _ _ q) ?_
        rw [getNode_gridModify, if_pos ⟨rfl, hins q (List.mem_cons_self _ _)⟩]
        exact dle_refl _
      · rcases List.mem_cons.mp hq with hqr2 | hqr2
        · exact absurd hqr2 hqr
        · have hg2q : getNode (gridModify g r fun n =>
              { n with distance := dadd (getNode g p).distance (some 1),
                       heuristic := some (manhattanDistance (getNode g r) (getNode g e)),
                       previousNode := some p }) q = getNode g q := by
            rw [getNode_gridModify, if_neg (fun hc => hqr hc.1)]
          have hres := ih (gridModify g r fun n =>
              { n with distance := dadd (getNode g p).distance (some 1),
                       heuristic := some (manhattanDistance (getNode g r) (getNode g e)),
                       previousNode := some p }) os (by rw [hg2p]; exact hpv)
            (fun x hx => (inStore_gridModify g r _ x).mpr
              (hins x (List.mem_cons_of_mem r hx)))
            q hqr2 (by rw [hg2q]; exact hq1) (by rw [hg2q]; exact hq2)
          rw [hg2p] at hres
          exact hres
    · have hrp : r ≠ p := by
        intro hh
        rw [hh, hpv] at h1
        exact absurd (Or.inl rfl) h1
      have hg2p : getNode (gridModify g r fun n =>
          { n with distance := dadd (getNode g p).distance (some 1),
                   heuristic := some (manhattanDistance (getNode g r) (getNode g e)),
                   previousNode := some p }) p = getNode g p := by
        rw [getNode_gridModify, if_neg (fun hc => hrp hc.1.symm)]
      by_cases hqr : q = r
      · subst hqr
        refine dle_trans (astarExpand_dist_dec p e rest _ _ q) ?_
        rw [getNode_gridModify, if_pos ⟨rfl, hins q (List.mem_cons_self _ _)⟩]
        exact dle_refl _
      · rcases List.mem_cons.mp hq with hqr2 | hqr2
        · exact absurd hqr2 hqr
        · have hg2q : getNode (gridModify g r fun n =>
              { n with distance := dadd (getNode g p).distance (some 1),
                       heuristic := some (manhattanDistance (getNode g r) (getNode g e)),
                       previousNode := some p }) q = getNode g q := by
            rw [getNode_gridModify, if_neg (fun hc => hqr hc.1)]
          have hres := ih (gridModify g r fun n =>
              { n with distance := dadd (getNode g p).distance (some 1),
                       heuristic := some (manhattanDistance (getNode g r) (getNode g e)),
                       previousNode := some p }) (os ++ [r]) (by rw [hg2p]; exact hpv)
            (fun x hx => (inStore_gridModify g r _ x).mpr
              (hins x (List.mem_cons_of_mem r hx)))
            q hqr2 (by rw [hg2q]; exact hq1) (by rw [hg2q]; exact hq2)
          rw [hg2p] at hres
          exact hres
    · rcases List.mem_cons.mp hq with hqr | hqr
      · subst hqr
        refine dle_trans (astarExpand_dist_dec p e rest _ _ q) ?_
        exact dle_of_not_dlt (by simpa using h2)
      · exact ih _ _ hpv (fun x hx => hins x (List.mem_cons_of_mem r hx)) q hqr hq1 hq2

theorem astarExpand_openD (p e : Pos) :
    ∀ (ns : List Pos) (g : Grid) (os : List Pos) (x : Pos),
      (getNode g x).isVisited = false →
      (getNode (astarExpand g p e os ns).1 x).distance ≠ none →
      (getNode g x).distance ≠ none ∨ x ∈ (astarExpand g p e os ns).2 := by
  intro ns
  induction ns with
  | nil => intro g os x _ h; exact Or.inl h
  | cons r rest ih =>
    intro g os x hxv h
    simp only [astarExpand] at h ⊢
    split_ifs at h ⊢ with h1 h2 h3
    · exact ih _ _ x hxv h
    · by_cases hxr : x = r
      · subst hxr
        have hxv2 : (getNode (gridModify g x fun n =>
            { n with distance := dadd (getNode g p).distance (some 1),
                     heuristic := some (manhattanDistance (getNode g x) (getNode g e)),
                     previousNode := some p }) x).isVisited = false := by
          rw [getNode_gridModify]
          split_ifs with hc
          · exact hxv
          · exact hxv
        rcases ih _ _ x hxv2 h with h4 | h4
        · exact Or.inr (astarExpand_mono p e rest _ _ x h3)
        · exact Or.inr h4
      · have hg2x : getNode (gridModify g r fun n =>
            { n with distance := dadd (getNode g p).distance (some 1),
                     heuristic := some (manhattanDistance (getNode g r) (getNode g e)),
                     previousNode := some p }) x = getNode g x := by
          rw [getNode_gridModify, if_neg (fun hc => hxr hc.1)]
        rcases ih _ _ x (by rw [hg2x]; exact hxv) h with h4 | h4
        · rw [hg2x] at h4
          exact Or.inl h4
        · exact Or.inr h4
    · by_cases hxr : x = r
      · subst hxr
        have hxv2 : (getNode (gridModify g x fun n =>
            { n with distance := dadd (getNode g p).distance (some 1),
                     heuristic := some (manhattanDistance (getNode g x) (getNode g e)),
                     previousNode := some p }) x).isVisited = false := by
          rw [getNode_gridModify]
          split_ifs with hc
          · exact hxv
          · exact hxv
        rcases ih _ _ x hxv2 h with h4 | h4
        · exact Or.inr (astarExpand_mono p e rest _ _ x
            (List.mem_append.mpr (Or.inr (List.mem_singleton.mpr rfl))))
        · exact Or.inr h4
      · have hg2x : getNode (gridModify g r fun n =>
            { n with distance := dadd (getNode g p).distance (some 1),
                     heuristic := some (manhattanDistance (getNode g r) (getNode g e)),
                     previousNode := some p }) x = getNode g x := by
          rw [getNode_gridModify, if_neg (fun hc => hxr hc.1)]
        rcases ih _ _ x (by rw [hg2x]; exact hxv) h with h4 | h4
        · rw [hg2x] at h4
          exact Or.inl h4
        · exact Or.inr h4
    · exact ih _ _ x hxv h

theorem astarExpand_heur (p e : Pos) (g0 : Grid) (hw0 : WFGrid g0)
    (he0 : inBounds g0 e) :
    ∀ (ns : List Pos) (g : Grid) (os : List Pos),
      Preserves g0 g →
      (∀ q ∈ ns, inBounds g0 q) →
      (∀ x ∈ os, (getNode g x).heuristic = some (mdist x e)) →
      ∀ x ∈ (astarExpand g p e os ns).2,
        (getNode (astarExpand g p e os ns).1 x).heuristic = some (mdist x e) := by
  intro ns
  induction ns with
  | nil =>
    intro g os _ _ hos x hx
    exact hos x hx
  | cons q rest ih =>
    intro g os hpres hns hos
    simp only [astarExpand]
    split_ifs with h1 h2 h3
    · exact ih _ _ hpres (fun x hx => hns x (List.mem_cons_of_mem q hx)) hos
    all_goals
      (have hwg : WFGrid g := wf_of_preserves hw0 hpres
       have hqbg : inBounds g q := (inBounds_of_preserves hpres q).mpr
         (hns q (List.mem_cons_self _ _))
       have hebg : inBounds g e := (inBounds_of_preserves hpres e).mpr he0
       have hstq : inStore g q := inStore_of_inBounds hwg hqbg
       have hq_heur : (getNode (gridModify g q fun n =>
           { n with distance := dadd (getNode g p).distance (some 1),
                    heuristic := some (manhattanDistance (getNode g q) (getNode g e)),
                    previousNode := some p }) q).heuristic = some (mdist q e) := by
         rw [getNode_gridModify, if_pos ⟨rfl, hstq⟩]
         have := manhattan_eq_mdist hwg hqbg hebg
         simpa using this
       have hpres2 : Preserves g0 (gridModify g q fun n =>
           { n with distance := dadd (getNode g p).distance (some 1),
                    heuristic := some (manhattanDistance (getNode g q) (getNode g e)),
                    previousNode := some p }) :=
         hpres.trans (Preserves.gridModify _ _ _ (fun n => ⟨rfl, rfl, rfl⟩)))
    · refine ih _ _ hpres2 (fun x hx => hns x (List.mem_cons_of_mem q hx)) ?_
      intro x hx
      by_cases hxq : x = q
      · subst hxq
        exact hq_heur
      · rw [getNode_gridModify, if_neg (fun hc => hxq hc.1)]
        exact hos x hx
    · refine ih _ _ hpres2 (fun x hx => hns x (List.mem_cons_of_mem q hx)) ?_
      intro x hx
      by_cases hxq : x = q
      · subst hxq
        exact hq_heur
      · rcases List.mem_append.mp hx with hx | hx
        · rw [getNode_gridModify, if_neg (fun hc => hxq hc.1)]
          exact hos x hx
        · simp only [List.mem_singleton] at hx
          exact absurd hx hxq
    · exact ih _ _ hpres (fun x hx => hns x (List.mem_cons_of_mem q hx)) hos

theorem astarExpand_chainL (s p e : Pos) (g0 : Grid) (hw0 : WFGrid g0) :
    ∀ (ns : List Pos) (g : Grid) (os : List Pos),
      Preserves g0 g →
      (∀ q ∈ ns, inBounds g0 q ∧ adjacent p q) →
      (getNode g p).isVisited = true →
      (p = s ∨ ChainToL g0 g s p) →
      okCell g0 p →
      (getNode g s).previousNode = none →
      (getNode g s).distance = some 0 →
      (∀ x ∈ os, inBounds g0 x ∧ (x = s ∨ ChainToL g0 g s x)) →
      (getNode (astarExpand g p e os ns).1 s).previousNode = none ∧
      (getNode (astarExpand g p e os ns).1 s).distance = some 0 ∧
      (∀ x ∈ (astarExpand g p e os ns).2,
        inBounds g0 x ∧ (x = s ∨ ChainToL g0 (astarExpand g p e os ns).1 s x)) := by
  intro ns
  induction ns with
  | nil =>
    intro g os hpres hns hpv hpc hokp hsprev hs0 hos
    exact ⟨hsprev, hs0, hos⟩
  | cons q rest ih =>
    intro g os hpres hns hpv hpc hokp hsprev hs0 hos
    simp only [astarExpand]
    split_ifs with h1 h2 h3
    · exact ih _ _ hpres (fun x hx => hns x (List.mem_cons_of_mem q hx)) hpv hpc
        hokp hsprev hs0 hos
    all_goals try
      (have hq_unvis : (getNode g q).isVisited = false := by
        cases hvq : (getNode g q).isVisited with
        | false => rfl
        | true => exact absurd (Or.inl hvq) h1)
    all_goals try
      (have hq_nw : (getNode g q).type ≠ CellType.wall := fun hh => h1 (Or.inr hh)
       have hqs : q ≠ s := by
         intro hh
         rw [hh, hs0, dlt_dadd_one_zero] at h2
         exact Bool.noConfusion h2
       have hqp : q ≠ p := by
         intro hh
         rw [hh, hpv] at hq_unvis
         exact Bool.noConfusion hq_unvis
       have hqb0 : inBounds g0 q := (hns q (List.mem_cons_self _ _)).1
       have hqbg : inBounds g q := (inBounds_of_preserves hpres q).mpr hqb0
       have hstq : inStore g q := inStore_of_inBounds (wf_of_preserves hw0 hpres) hqbg
       have hokq : okCell g0 q := by
         refine ⟨hqb0, ?_⟩
         rw [← (hpres.2.2.2 q).1]
         exact hq_nw
       have hchain_p : ChainToL g0 g s p := by
         rcases hpc with hps | hpc
         · subst hps
           exact chainToL_self hsprev hokp hs0
         · exact hpc
       have hchain_q := hchain_p.snocL hpv hq_unvis
         (hns q (List.mem_cons_self _ _)).2 hokq hstq
         (f := fun n =>
           { n with distance := dadd (getNode g p).distance (some 1),
                    heuristic := some (manhattanDistance (getNode g q) (getNode g e)),
                    previousNode := some p })
         (fun n => ⟨rfl, rfl⟩))
    · refine ih _ _ (hpres.trans (Preserves.gridModify _ _ _
          (fun n => ⟨rfl, rfl, rfl⟩)))
        (fun x hx => hns x (List.mem_cons_of_mem q hx)) ?_ ?_ hokp ?_ ?_ ?_
      · rw [getNode_gridModify, if_neg (fun hc => hqp hc.1.symm)]
        exact hpv
      · rcases hpc with hps | hpc
        · exact Or.inl hps
        · exact Or.inr (hpc.update_unvisitedL hq_unvis hqp)
      · rw [getNode_gridModify, if_neg (fun hc => hqs hc.1.symm)]
        exact hsprev
      · rw [getNode_gridModify, if_neg (fun hc => hqs hc.1.symm)]
        exact hs0
      · intro x hx
        by_cases hxq : x = q
        · subst hxq
          exact ⟨hqb0, Or.inr hchain_q⟩
        · obtain ⟨hxb, hxc⟩ := hos x hx
          refine ⟨hxb, ?_⟩
          rcases hxc with hxs | hxc
          · exact Or.inl hxs
          · exact Or.inr (hxc.update_unvisitedL hq_unvis
              (fun hh => hxq hh.symm))
    · refine ih _ _ (hpres.trans (Preserves.gridModify _ _ _
          (fun n => ⟨rfl, rfl, rfl⟩)))
        (fun x hx => hns x (List.mem_cons_of_mem q hx)) ?_ ?_ hokp ?_ ?_ ?_
      · rw [getNode_gridModify, if_neg (fun hc => hqp hc.1.symm)]
        exact hpv
      · rcases hpc with hps | hpc
        · exact Or.inl hps
        · exact Or.inr (hpc.update_unvisitedL hq_unvis hqp)
      · rw [getNode_gridModify, if_neg (fun hc => hqs hc.1.symm)]
        exact hsprev
      · rw [getNode_gridModify, if_neg (fun hc => hqs hc.1.symm)]
        exact hs0
      · intro x hx
        rcases List.mem_append.mp hx with hx | hx
        · obtain ⟨hxb, hxc⟩ := hos x hx
          have hxq : x ≠ q := fun hh => h3 (hh ▸ hx)
          refine ⟨hxb, ?_⟩
          rcases hxc with hxs | hxc
          · exact Or.inl hxs
          · exact Or.inr (hxc.update_unvisitedL hq_unvis
              (fun hh => hxq hh.symm))
        · simp only [List.mem_singleton] at hx
          subst hx
          exact ⟨hqb0, Or.inr hchain_q⟩
    · exact ih _ _ hpres (fun x hx => hns x (List.mem_cons_of_mem q hx)) hpv hpc
        hokp hsprev hs0 hos

theorem dadd_some_right {x : JDist} {k m : Nat} (h : dadd x (some k) = some m) :
    ∃ a, x = some a ∧ m = a + k := by
  cases x with
  | none => exact Option.noConfusion h
  | some a =>
    rw [dadd_some] at h
    exact ⟨a, rfl, (Option.some.injEq .. ▸ h).symm⟩

theorem astar_pop_bound {s p e : Pos} {g0 g : Grid} {os rest : List Pos}
    (hs : sortBy (astarLt g) os = p :: rest)
    (hp_in : p ∈ os)
    (hs0 : (getNode g s).distance = some 0)
    (hH : ∀ x ∈ os, (getNode g x).heuristic = some (mdist x e))
    (hD : ∀ y, (getNode g y).isVisited = true → ∀ l', IsPathFrom g0 s y l' →
      ∃ d, (getNode g y).distance = some d ∧ d + 1 ≤ l'.length)
    (hVN : ∀ y, (getNode g y).isVisited = true → ∀ w, adjacent y w →
      okCell g0 w → (getNode g w).isVisited = false →
      dle (getNode g w).distance (dadd (getNode g y).distance (some 1)) = true)
    (hOpenD : ∀ x, inBounds g0 x → (getNode g0 x).type ≠ CellType.wall →
      (getNode g x).isVisited = false → (getNode g x).distance ≠ none → x ∈ os)
    (hp_unvis : (getNode g p).isVisited = false) :
    ∀ l, IsPathFrom g0 s p l →
      ∃ d, (getNode g p).distance = some d ∧ d + 1 ≤ l.length := by
  intro l hl
  obtain ⟨w, l2, dw, i, hwu, hwd, hdwi, hlen, hwsuf⟩ :=
    path_walk hl hs0 hD hVN hp_unvis
  have hok_w : okCell g0 w := hwsuf.2.2.2 w (List.mem_cons_self _ _)
  have hw_in : w ∈ os := hOpenD w hok_w.1 hok_w.2 hwu (by rw [hwd]; simp)
  have hmin := sortBy_head_min
    (fun x => dadd (getNode g x).distance (getNode g x).heuristic) hs w hw_in
  dsimp only at hmin
  rw [hH w hw_in, hH p hp_in, hwd, dadd_some] at hmin
  obtain ⟨m, hm, hmle⟩ := dle_some_of_dle_dadd hmin
  obtain ⟨dp, hdp, hmeq⟩ := dadd_some_right hm
  have hmw : mdist w p ≤ l2.length := by
    have := mdist_le_path (w :: l2) w hwsuf
    simpa using this
  have htri : mdist w e ≤ mdist w p + mdist p e := mdist_triangle w p e
  exact ⟨dp, hdp, by omega⟩

set_option maxHeartbeats 1600000 in
theorem astarLoop_opt (s e : Pos) (g0 : Grid) (hw0 : WFGrid g0)
    (he0 : inBounds g0 e)
    (hpe : ∃ l0, IsPathFrom g0 s e l0) :
    ∀ (fuel : Nat) (g : Grid) (os vis : List Pos) (gr : Grid)
      (res : PathfindingResult),
      Preserves g0 g →
      (getNode g s).previousNode = none →
      (getNode g s).distance = some 0 →
      (getNode g e).isVisited = false →
      (∀ x ∈ os, inBounds g0 x ∧ (x = s ∨ ChainToL g0 g s x)) →
      (∀ x ∈ os, (getNode g x).heuristic = some (mdist x e)) →
      (∀ y, (getNode g y).isVisited = true → ∀ l', IsPathFrom g0 s y l' →
        ∃ d, (getNode g y).distance = some d ∧ d + 1 ≤ l'.length) →
      (∀ y, (getNode g y).isVisited = true → ∀ w, adjacent y w →
        okCell g0 w → (getNode g w).isVisited = false →
        dle (getNode g w).distance (dadd (getNode g y).distance (some 1)) = true) →
      (∀ x, inBounds g0 x → (getNode g0 x).type ≠ CellType.wall →
        (getNode g x).isVisited = false → (getNode g x).distance ≠ none → x ∈ os) →
      astarLoop e fuel g os vis = some (gr, res) →
      res.success = true ∧ IsPathFrom g0 s e res.shortestPath ∧
        ∀ l, IsPathFrom g0 s e l → res.shortestPath.length ≤ l.length := by
  intro fuel
  induction fuel with
  | zero =>
    intro g os vis gr res _ _ _ _ _ _ _ _ _ h
    exact absurd h (by simp [astarLoop])
  | succ f ih =>
    intro g os vis gr res hpres hsprev hs0 hEv hos hH hD hVN hOpenD h
    simp only [astarLoop] at h
    cases hs : sortBy (astarLt g) os with
    | nil =>
      exfalso
      obtain ⟨l0, hl0⟩ := hpe
      obtain ⟨w, l2, dw, i, hwu, hwd, hdwi, hlen, hwsuf⟩ :=
        path_walk hl0 hs0 hD hVN hEv
      have hok_w : okCell g0 w := hwsuf.2.2.2 w (List.mem_cons_self _ _)
      have hw_in : w ∈ os := hOpenD w hok_w.1 hok_w.2 hwu (by rw [hwd]; simp)
      rw [sortBy_eq_nil hs] at hw_in
      exact absurd hw_in (by simp)
    | cons p rest =>
      rw [hs] at h
      dsimp only at h
      have hmem : ∀ x ∈ p :: rest, x ∈ os := fun x hx =>
        ((sortBy_perm (astarLt g) os).mem_iff).mp (hs ▸ hx)
      have hmem2 : ∀ x ∈ os, x ∈ p :: rest := by
        intro x hx
        rw [← hs]
        exact ((sortBy_perm (astarLt g) os).mem_iff).mpr hx
      split_ifs at h with hwall hvis hend
      · refine ih g rest vis gr res hpres hsprev hs0 hEv
          (fun x hx => hos x (hmem x (List.mem_cons_of_mem p hx)))
          (fun x hx => hH x (hmem x (List.mem_cons_of_mem p hx))) hD hVN ?_ h
        intro x hxb hxnw hxu hxd
        have hx_in := hOpenD x hxb hxnw hxu hxd
        rcases List.mem_cons.mp (hmem2 x hx_in) with hxp | hxp
        · exfalso
          rw [hxp] at hxnw
          rw [← (hpres.2.2.2 p).1] at hxnw
          exact hxnw hwall
        · exact hxp
      · have hp_vis : (getNode g p).isVisited = true := by
          cases hv : (getNode g p).isVisited with
          | true => rfl
          | false => exact absurd hv (by simpa using hvis)
        refine ih g rest vis gr res hpres hsprev hs0 hEv
          (fun x hx => hos x (hmem x (List.mem_cons_of_mem p hx)))
          (fun x hx => hH x (hmem x (List.mem_cons_of_mem p hx))) hD hVN ?_ h
        intro x hxb hxnw hxu hxd
        have hx_in := hOpenD x hxb hxnw hxu hxd
        rcases List.mem_cons.mp (hmem2 x hx_in) with hxp | hxp
        · exfalso
          rw [hxp, hp_vis] at hxu
          exact Bool.noConfusion hxu
        · exact hxp
      all_goals
        (have hp_unvis : (getNode g p).isVisited = false := by
          cases hv : (getNode g p).isVisited with
          | false => rfl
          | true => exact absurd hv (by simpa using hvis)
         have hpb0 : inBounds g0 p := (hos p (hmem p (List.mem_cons_self _ _))).1
         have hokp : okCell g0 p := by
           refine ⟨hpb0, ?_⟩
           rw [← (hpres.2.2.2 p).1]
           exact hwall
         have hDp := astar_pop_bound hs (hmem p (List.mem_cons_self _ _)) hs0 hH
           hD hVN hOpenD hp_unvis
         have hstp : inStore g p :=
           inStore_of_inBounds (wf_of_preserves hw0 hpres)
             ((inBounds_of_preserves hpres p).mpr hpb0)
         have hpres2 : Preserves g0 (gridModify g p fun n =>
             { n with isVisited := true }) :=
           hpres.trans (Preserves.gridModify _ _ _ (fun n => ⟨rfl, rfl, rfl⟩)))
      · obtain ⟨h1, h2⟩ := Prod.mk.injEq .. ▸ (Option.some.injEq .. ▸ h)
        have hsucc : res.success = true := by rw [← h2]
        have hsp : res.shortestPath =
            reconstructPath (gridModify g p fun n => { n with isVisited := true }) e := by
          rw [← h2]
        subst hend
        have hchainL : ChainToL g0
            (gridModify g p fun n => { n with isVisited := true }) s p := by
          rcases (hos p (hmem p (List.mem_cons_self _ _))).2 with hps | hpc
          · subst hps
            refine chainToL_self ?_ hokp ?_
            · rw [(getNode_mark_visited g p p).1]
              exact hsprev
            · rw [(getNode_mark_visited g p p).2.1]
              exact hs0
          · exact hpc.mark_visitedL p
        obtain ⟨lc, hc1, hc2, hc3, hc4, hc5, hc6, hc7⟩ := hchainL
        have hrec_eq : reconstructPath
            (gridModify g p fun n => { n with isVisited := true }) p = lc := by
          refine reconstructPath_eq hc1 ?_
          have hbound : lc.length ≤ numRows g0 * numCols g0 :=
            length_le_area_of_nodup hc5 (fun x hx => (hc4 x hx).1)
          rw [hpres2.1, hpres2.2.1]
          omega
        refine ⟨hsucc, ?_, ?_⟩
        · rw [hsp]
          exact reconstructPath_of_chainTo hpres2
            ⟨lc, hc1, hc2, hc3, hc4, hc5, hc6⟩
        · intro l hl
          obtain ⟨d, hd, hdle2⟩ := hDp l hl
          rw [hsp, hrec_eq]
          rw [(getNode_mark_visited g p p).2.1, hd] at hc7
          have hlpos : 0 < lc.length := hc1.length_pos
          have : lc.length - 1 = d := by
            have := Option.some.injEq .. ▸ hc7
            omega
          omega
      · have hpv2 : (getNode (gridModify g p fun n => { n with isVisited := true })
            p).isVisited = true := by
          rw [getNode_gridModify, if_pos ⟨rfl, hstp⟩]
        have hwg2 : WFGrid (gridModify g p fun n => { n with isVisited := true }) :=
          wf_of_preserves hw0 hpres2
        have hpbg2 : inBounds (gridModify g p fun n => { n with isVisited := true }) p :=
          (inBounds_of_preserves hpres2 p).mpr hpb0
        have hns : ∀ q ∈ getNeighbors
            (getNode (gridModify g p fun n => { n with isVisited := true }) p)
            (gridModify g p fun n => { n with isVisited := true }),
            inBounds g0 q ∧ adjacent p q := by
          intro q hq
          obtain ⟨h4, h5⟩ := mem_getNeighbors hwg2 hpbg2 hq
          exact ⟨(inBounds_of_preserves hpres2 q).mp h4, h5⟩
        have hins : ∀ q ∈ getNeighbors
            (getNode (gridModify g p fun n => { n with isVisited := true }) p)
            (gridModify g p fun n => { n with isVisited := true }),
            inStore (gridModify g p fun n => { n with isVisited := true }) q := by
          intro q hq
          exact inStore_of_inBounds hwg2
            ((inBounds_of_preserves hpres2 q).mpr (hns q hq).1)
        have hpc2 : p = s ∨ ChainToL g0
            (gridModify g p fun n => { n with isVisited := true }) s p := by
          rcases (hos p (hmem p (List.mem_cons_self _ _))).2 with hps | hpc
          · exact Or.inl hps
          · exact Or.inr (hpc.mark_visitedL p)
        obtain ⟨hs1, hs2, ho2⟩ := astarExpand_chainL s p e g0 hw0 _ _ rest hpres2
          hns hpv2 hpc2 hokp
          (by rw [(getNode_mark_visited g p s).1]; exact hsprev)
          (by rw [(getNode_mark_visited g p s).2.1]; exact hs0)
          (fun x hx => ⟨(hos x (hmem x (List.mem_cons_of_mem p hx))).1, by
            rcases (hos x (hmem x (List.mem_cons_of_mem p hx))).2 with hxs | hxc
            · exact Or.inl hxs
            · exact Or.inr (hxc.mark_visitedL p)⟩)
        have hH3 := astarExpand_heur p e g0 hw0 he0 _
          (gridModify g p fun n => { n with isVisited := true }) rest hpres2
          (fun q hq => (hns q hq).1)
          (fun x hx => by
            rw [(getNode_mark_visited g p x).2.2]
            exact hH x (hmem x (List.mem_cons_of_mem p hx)))
        have hup : ∀ x, (getNode (gridModify g p fun n =>
            { n with isVisited := true }) x).isVisited = true →
            getNode (astarExpand (gridModify g p fun n => { n with isVisited := true })
              p e rest (getNeighbors
                (getNode (gridModify g p fun n => { n with isVisited := true }) p)
                (gridModify g p fun n => { n with isVisited := true }))).1 x =
            getNode (gridModify g p fun n => { n with isVisited := true }) x :=
          fun x hx => astarExpand_untouched p e _ _ _ x hx
        have hveq : ∀ x, (getNode (astarExpand (gridModify g p fun n =>
            { n with isVisited := true }) p e rest (getNeighbors
              (getNode (gridModify g p fun n => { n with isVisited := true }) p)
              (gridModify g p fun n => { n with isVisited := true }))).1 x).isVisited =
            (getNode (gridModify g p fun n => { n with isVisited := true }) x).isVisited :=
          fun x => astarExpand_visited_eq p e _ _ _ x
        have hv2 : ∀ x, x ≠ p → (getNode (gridModify g p fun n =>
            { n with isVisited := true }) x).isVisited = (getNode g x).isVisited := by
          intro x hxp
          rw [getNode_gridModify, if_neg (fun hc => hxp hc.1)]
        refine ih _ _ _ _ _ (hpres2.trans (preserves_astarExpand p e _ _ rest))
          hs1 hs2 ?_ ho2 hH3 ?_ ?_ ?_ h
        · rw [hveq e, hv2 e (fun hh => hend hh.symm)]
          exact hEv
        · intro y hy3 l' hl'
          rw [hveq y] at hy3
          by_cases hyp : y = p
          · subst hyp
            rw [hup y hy3, (getNode_mark_visited g y y).2.1]
            exact hDp l' hl'
          · rw [hup y hy3]
            rw [hv2 y hyp] at hy3
            rw [(getNode_mark_visited g p y).2.1]
            exact hD y hy3 l' hl'
        · intro y hy3 w hadj hokw hwu3
          rw [hveq y] at hy3
          have hwu2 : (getNode (gridModify g p fun n =>
              { n with isVisited := true }) w).isVisited = false := by
            rw [← hveq w]
            exact hwu3
          have hwp : w ≠ p := by
            intro hh
            rw [hh, hpv2] at hwu2
            exact Bool.noConfusion hwu2
          by_cases hyp : y = p
          · subst hyp
            rw [hup y hy3]
            have hw_ns : w ∈ getNeighbors
                (getNode (gridModify g y fun n => { n with isVisited := true }) y)
                (gridModify g y fun n => { n with isVisited := true }) := by
              refine getNeighbors_complete hwg2 hpbg2 ?_ hadj
              exact (inBounds_of_preserves hpres2 w).mpr hokw.1
            have hrelax := astarExpand_relax y e _
              (gridModify g y fun n => { n with isVisited := true }) rest
              hpv2 hins w hw_ns hwu2 (by
                rw [(hpres2.2.2.2 w).1]
                exact hokw.2)
            exact hrelax
          · rw [hup y hy3]
            rw [hv2 y hyp] at hy3
            have hwu1 : (getNode g w).isVisited = false := by
              rw [← hv2 w hwp]
              exact hwu2
            have hold := hVN y hy3 w hadj hokw hwu1
            rw [(getNode_mark_visited g p y).2.1]
            refine dle_trans ?_ hold
            refine dle_trans (astarExpand_dist_dec p e _ _ _ w) ?_
            rw [(getNode_mark_visited g p w).2.1]
            exact dle_refl _
        · intro x hxb hxnw hxu3 hxd3
          have hxu2 : (getNode (gridModify g p fun n =>
              { n with isVisited := true }) x).isVisited = false := by
            rw [← hveq x]
            exact hxu3
          have hxp : x ≠ p := by
            intro hh
            rw [hh, hpv2] at hxu2
            exact Bool.noConfusion hxu2
          rcases astarExpand_openD p e _ _ _ x hxu2 hxd3 with h4 | h4
          · rw [(getNode_mark_visited g p x).2.1] at h4
            have hx_in := hOpenD x hxb hxnw (by rw [← hv2 x hxp]; exact hxu2) h4
            rcases List.mem_cons.mp (hmem2 x hx_in) with hxp2 | hxp2
            · exact absurd hxp2 hxp
            · exact astarExpand_mono p e _ _ _ x hxp2
          · exact h4

theorem bfsExpand_mark_mono (p : Pos) :
    ∀ (ns : List Pos) (g : Grid) (queue : List Pos) (x : Pos),
      (getNode g x).isVisited = true →
      (getNode (bfsExpand g p queue ns).1 x).isVisited = true := by
  intro ns
  induction ns with
  | nil => intro g queue x hx; exact hx
  | cons q rest ih =>
    intro g queue x hx
    simp only [bfsExpand]
    split_ifs with h1
    · refine ih _ _ x ?_
      rw [getNode_gridModify]
      split_ifs with hc
      · rfl
      · exact hx
    · exact ih _ _ x hx

theorem bfsExpand_untouched (p : Pos) :
    ∀ (ns : List Pos) (g : Grid) (queue : List Pos) (x : Pos),
      (getNode g x).isVisited = true →
      getNode (bfsExpand g p queue ns).1 x = getNode g x := by
  intro ns
  induction ns with
  | nil => intro g queue x _; rfl
  | cons q rest ih =>
    intro g queue x hx
    simp only [bfsExpand]
    split_ifs with h1
    · have hxq : x ≠ q := by
        intro hh
        rw [← hh] at h1
        rw [hx] at h1
        exact Bool.noConfusion h1.1
      have hg2 : getNode (gridModify g q fun n =>
          { n with isVisited := true, previousNode := some p,
                   distance := dadd (getNode g p).distance (some 1) }) x =
          getNode g x := by
        rw [getNode_gridModify, if_neg (fun hc => hxq hc.1)]
      rw [ih _ _ x (by rw [hg2]; exact hx), hg2]
    · exact ih _ _ x hx

theorem bfsExpand_queue_mono (p : Pos) :
    ∀ (ns : List Pos) (g : Grid) (queue : List Pos) (x : Pos),
      x ∈ queue → x ∈ (bfsExpand g p queue ns).2 := by
  intro ns
  induction ns with
  | nil => intro g queue x hx; exact hx
  | cons q rest ih =>
    intro g queue x hx
    simp only [bfsExpand]
    split_ifs with h1
    · exact ih _ _ x (List.mem_append.mpr (Or.inl hx))
    · exact ih _ _ x hx

theorem bfsExpand_mark_mem (p : Pos) :
    ∀ (ns : List Pos) (g : Grid) (queue : List Pos) (x : Pos),
      (getNode (bfsExpand g p queue ns).1 x).isVisited = true →
      (getNode g x).isVisited = true ∨ x ∈ (bfsExpand g p queue ns).2 := by
  intro ns
  induction ns with
  | nil => intro g queue x hx; exact Or.inl hx
  | cons q rest ih =>
    intro g queue x hx
    simp only [bfsExpand] at hx ⊢
    split_ifs at hx ⊢ with h1
    · rcases ih _ _ x hx with h2 | h2
      · by_cases hxq : x = q
        · subst hxq
          exact Or.inr (bfsExpand_queue_mono p rest _ _ x
            (List.mem_append.mpr (Or.inr (List.mem_singleton.mpr rfl))))
        · rw [getNode_gridModify, if_neg (fun hc => hxq hc.1)] at h2
          exact Or.inl h2
      · exact Or.inr h2
    · exact ih _ _ x hx

theorem bfsExpand_complete (p : Pos) :
    ∀ (ns : List Pos) (g : Grid) (queue : List Pos) (x : Pos),
      x ∈ ns → (getNode g x).isVisited = false →
      (getNode g x).type ≠ CellType.wall →
      x ∈ (bfsExpand g p queue ns).2 := by
  intro ns
  induction ns with
  | nil => intro g queue x hx; exact absurd hx (by simp)
  | cons q rest ih =>
    intro g queue x hx hxu hxw
    simp only [bfsExpand]
    split_ifs with h1
    · by_cases hxq : x = q
      · subst hxq
        exact bfsExpand_queue_mono p rest _ _ x
          (List.mem_append.mpr (Or.inr (List.mem_singleton.mpr rfl)))
      · have hg2 : getNode (gridModify g q fun n =>
            { n with isVisited := true, previousNode := some p,
                     distance := dadd (getNode g p).distance (some 1) }) x =
            getNode g x := by
          rw [getNode_gridModify, if_neg (fun hc => hxq hc.1)]
        rcases List.mem_cons.mp hx with h2 | h2
        · exact absurd h2 hxq
        · exact ih _ _ x h2 (by rw [hg2]; exact hxu) (by rw [hg2]; exact hxw)
    · rcases List.mem_cons.mp hx with h2 | h2
      · subst h2
        exact absurd ⟨hxu, hxw⟩ h1
      · exact ih _ _ x h2 hxu hxw

theorem bfsExpand_new_label (p : Pos) :
    ∀ (ns : List Pos) (g : Grid) (queue : List Pos),
      (getNode g p).isVisited = true →
      (∀ q ∈ ns, inStore g q) →
      ∀ x, x ∈ (bfsExpand g p queue ns).2 → x ∉ queue →
        (getNode (bfsExpand g p queue ns).1 x).distance =
          dadd (getNode g p).distance (some 1) := by
  intro ns
  induction ns with
  | nil =>
    intro g queue _ _ x hx hxq
    exact absurd hx hxq
  | cons q rest ih =>
    intro g queue hpv hins x hx hxq
    simp only [bfsExpand] at hx ⊢
    split_ifs at hx ⊢ with h1
    · have hqp : q ≠ p := by
        intro hh
        rw [hh, hpv] at h1
        exact Bool.noConfusion h1.1
      have hg2p : getNode (gridModify g q fun n =>
          { n with isVisited := true, previousNode := some p,
                   distance := dadd (getNode g p).distance (some 1) }) p =
          getNode g p := by
        rw [getNode_gridModify, if_neg (fun hc => hqp hc.1.symm)]
      by_cases hxq2 : x = q
      · subst hxq2
        have hxvis : (getNode (gridModify g x fun n =>
            { n with isVisited := true, previousNode := some p,
                     distance := dadd (getNode g p).distance (some 1) })
              x).isVisited = true := by
          rw [getNode_gridModify, if_pos ⟨rfl, hins x (List.mem_cons_self _ _)⟩]
        rw [bfsExpand_untouched p rest _ _ x hxvis]
        rw [getNode_gridModify, if_pos ⟨rfl, hins x (List.mem_cons_self _ _)⟩]
      · have hres := ih (gridModify g q fun n =>
            { n with isVisited := true, previousNode := some p,
                     distance := dadd (getNode g p).distance (some 1) })
          (queue ++ [q]) (by rw [hg2p]; exact hpv)
          (fun y hy => (inStore_gridModify g q _ y).mpr
            (hins y (List.mem_cons_of_mem q hy)))
          x hx (by
            intro hmem
            rcases List.mem_append.mp hmem with h2 | h2
            · exact hxq h2
            · simp only [List.mem_singleton] at h2
              exact hxq2 h2)
        rw [hg2p] at hres
        exact hres
    · exact ih _ _ hpv (fun y hy => hins y (List.mem_cons_of_mem q hy)) x hx hxq

theorem bfsExpand_chainL (s p : Pos) (g0 : Grid) (hw0 : WFGrid g0) :
    ∀ (ns : List Pos) (g : Grid) (queue : List Pos),
      Preserves g0 g →
      (∀ q ∈ ns, inBounds g0 q ∧ adjacent p q) →
      (getNode g p).isVisited = true →
      (p = s ∨ ChainToL g0 g s p) →
      okCell g0 p →
      (getNode g s).previousNode = none →
      (getNode g s).isVisited = true →
      (getNode g s).distance = some 0 →
      (∀ x ∈ queue, inBounds g0 x ∧ (getNode g x).isVisited = true ∧
        (x = s ∨ ChainToL g0 g s x)) →
      (getNode (bfsExpand g p queue ns).1 s).previousNode = none ∧
      (getNode (bfsExpand g p queue ns).1 s).isVisited = true ∧
      (getNode (bfsExpand g p queue ns).1 s).distance = some 0 ∧
      (∀ x ∈ (bfsExpand g p queue ns).2,
        inBounds g0 x ∧ (getNode (bfsExpand g p queue ns).1 x).isVisited = true ∧
        (x = s ∨ ChainToL g0 (bfsExpand g p queue ns).1 s x)) := by
  intro ns
  induction ns with
  | nil =>
    intro g queue hpres hns hpv hpc hokp hsprev hsvis hs0 hqueue
    exact ⟨hsprev, hsvis, hs0, hqueue⟩
  | cons q rest ih =>
    intro g queue hpres hns hpv hpc hokp hsprev hsvis hs0 hqueue
    simp only [bfsExpand]
    split_ifs with hcond
    · obtain ⟨hq_unvis, hq_nw⟩ := hcond
      have hqs : q ≠ s := by
        intro hqs
        rw [hqs, hsvis] at hq_unvis
        exact Bool.noConfusion hq_unvis
      have hqp : q ≠ p := by
        intro hqp
        rw [hqp, hpv] at hq_unvis
        exact Bool.noConfusion hq_unvis
      have hqb0 : inBounds g0 q := (hns q (List.mem_cons_self _ _)).1
      have hqbg : inBounds g q := (inBounds_of_preserves hpres q).mpr hqb0
      have hstq : inStore g q := inStore_of_inBounds (wf_of_preserves hw0 hpres) hqbg
      have hokq : okCell g0 q := by
        refine ⟨hqb0, ?_⟩
        rw [← (hpres.2.2.2 q).1]
        exact hq_nw
      have hchain_p : ChainToL g0 g s p := by
        rcases hpc with hps | hpc
        · subst hps
          exact chainToL_self hsprev hokp hs0
        · exact hpc
      refine ih _ _ (hpres.trans (Preserves.gridModify _ _ _
          (fun n => ⟨rfl, rfl, rfl⟩)))
        (fun x hx => hns x (List.mem_cons_of_mem q hx)) ?_ ?_ hokp ?_ ?_ ?_ ?_
      · rw [getNode_gridModify, if_neg (fun hc => hqp hc.1.symm)]
        exact hpv
      · rcases hpc with hps | hpc
        · exact Or.inl hps
        · exact Or.inr (hpc.update_unvisitedL hq_unvis hqp)
      · rw [getNode_gridModify, if_neg (fun hc => hqs hc.1.symm)]
        exact hsprev
      · rw [getNode_gridModify, if_neg (fun hc => hqs hc.1.symm)]
        exact hsvis
      · rw [getNode_gridModify, if_neg (fun hc => hqs hc.1.symm)]
        exact hs0
      · intro x hx
        rcases List.mem_append.mp hx with hx | hx
        · obtain ⟨hxb, hxv, hxc⟩ := hqueue x hx
          have hqx : q ≠ x := by
            intro hh
            rw [hh, hxv] at hq_unvis
            exact Bool.noConfusion hq_unvis
          refine ⟨hxb, ?_, ?_⟩
          · rw [getNode_gridModify, if_neg (fun hc => hqx hc.1.symm)]
            exact hxv
          · rcases hxc with hxs | hxc
            · exact Or.inl hxs
            · exact Or.inr (hxc.update_unvisitedL hq_unvis hqx)
        · simp only [List.mem_singleton] at hx
          subst hx
          refine ⟨hqb0, ?_, Or.inr ?_⟩
          · rw [getNode_gridModify, if_pos ⟨rfl, hstq⟩]
          · exact hchain_p.snocL hpv hq_unvis (hns x (List.mem_cons_self _ _)).2
              hokq hstq (fun n => ⟨rfl, rfl⟩)
    · exact ih _ _ hpres (fun x hx => hns x (List.mem_cons_of_mem q hx)) hpv hpc
        hokp hsprev hsvis hs0 hqueue

theorem bfs_walk {g0 g : Grid} {s u : Pos} {l : List Pos} {queue : List Pos}
    (hpath : IsPathFrom g0 s u l)
    (hsv : (getNode g s).isVisited = true)
    (hDN : ∀ z, (getNode g z).isVisited = true →
      (getNode g0 z).type ≠ CellType.wall → z ∈ queue ∨
      (∀ w, adjacent z w → okCell g0 w → (getNode g w).isVisited = true))
    (hu : (getNode g u).isVisited = false) :
    ∃ w l1 l2, l = l1 ++ w :: l2 ∧ w ∈ queue ∧
      IsPathFrom g0 s w (l1 ++ [w]) := by
  have hu_mem : u ∈ l := mem_of_getLast? hpath.2.1
  have hex : ∃ a ∈ l, (getNode g a).isVisited = false ∨ a ∈ queue :=
    ⟨u, hu_mem, Or.inl hu⟩
  obtain ⟨l1, w, l2, hsplit, hw_p, hl1⟩ := exists_first_split hex
  have hl1d : ∀ b ∈ l1, (getNode g b).isVisited = true ∧ b ∉ queue := by
    intro b hb
    have h2 := hl1 b hb
    push_neg at h2
    refine ⟨?_, h2.2⟩
    cases hv : (getNode g b).isVisited with
    | false => exact absurd hv h2.1
    | true => rfl
  have hw_in : w ∈ queue := by
    rcases hw_p with hw_p | hw_p
    · exfalso
      rw [hsplit] at hpath
      rcases List.eq_nil_or_concat l1 with h0 | ⟨l1', z, hz⟩
      · subst h0
        rw [List.nil_append] at hpath
        have hws : w = s := by simpa using hpath.1
        rw [hws, hsv] at hw_p
        exact Bool.noConfusion hw_p
      · subst hz
        simp only [List.concat_eq_append] at hpath hl1d
        have hre : (l1' ++ [z]) ++ w :: l2 = l1' ++ z :: w :: l2 := by simp
        rw [hre] at hpath
        obtain ⟨hpz, hadj⟩ := isPathFrom_front hpath
        obtain ⟨hzv, hznq⟩ := hl1d z (by simp)
        have hokz : okCell g0 z := hpath.2.2.2 z (by simp)
        have hokw : okCell g0 w := hpath.2.2.2 w (by simp)
        rcases hDN z hzv hokz.2 with h3 | h3
        · exact hznq h3
        · have := h3 w hadj hokw
          rw [hw_p] at this
          exact Bool.noConfusion this
    · exact hw_p
  refine ⟨w, l1, l2, hsplit, hw_in, ?_⟩
  rw [hsplit] at hpath
  cases l2 with
  | nil =>
    have hwu : w = u := by
      have h2 := hpath.2.1
      rw [List.getLast?_append] at h2
      simp only [List.getLast?_singleton] at h2
      have h3 : some w = some u := h2
      exact Option.some.injEq .. ▸ h3
    rw [← hwu] at hpath
    exact hpath
  | cons c l2' =>
    exact (isPathFrom_front hpath).1

theorem bfsExpand_shape (p : Pos) :
    ∀ (ns : List Pos) (g : Grid) (queue : List Pos),
      ∃ new, (bfsExpand g p queue ns).2 = queue ++ new ∧
        ∀ x ∈ new, (getNode g x).isVisited = false := by
  intro ns
  induction ns with
  | nil =>
    intro g queue
    exact ⟨[], by simp [bfsExpand], by simp⟩
  | cons q rest ih =>
    intro g queue
    simp only [bfsExpand]
    split_ifs with h1
    · obtain ⟨new, hnew, hunv⟩ := ih (gridModify g q fun n =>
        { n with isVisited := true, previousNode := some p,
                 distance := dadd (getNode g p).distance (some 1) }) (queue ++ [q])
      refine ⟨q :: new, by rw [hnew]; simp, ?_⟩
      intro x hx
      rcases List.mem_cons.mp hx with hx | hx
      · subst hx
        exact h1.1
      · have h2 := hunv x hx
        rw [getNode_gridModify] at h2
        split_ifs at h2 with hc
        exact h2
    · exact ih _ _

theorem twoLevel_tail {g : Grid} {p : Pos} {rest : List Pos}
    (h : ∃ d A B, p :: rest = A ++ B ∧
      (∀ x ∈ A, (getNode g x).distance = some d) ∧
      (∀ x ∈ B, (getNode g x).distance = some (d + 1))) :
    ∃ d A B, rest = A ++ B ∧
      (∀ x ∈ A, (getNode g x).distance = some d) ∧
      (∀ x ∈ B, (getNode g x).distance = some (d + 1)) := by
  obtain ⟨d, A, B, heq, hA, hB⟩ := h
  cases A with
  | nil =>
    rw [List.nil_append] at heq
    cases B with
    | nil => exact absurd heq (by simp)
    | cons b B' =>
      obtain ⟨hb, hrest⟩ := List.cons.injEq .. ▸ heq
      refine ⟨d + 1, B', [], by rw [hrest]; simp, ?_, by simp⟩
      intro x hx
      refine hB x ?_
      rw [← hrest] at hx
      exact List.mem_cons_of_mem b (hrest ▸ hx)
  | cons a A' =>
    rw [List.cons_append] at heq
    obtain ⟨ha, hrest⟩ := List.cons.injEq .. ▸ heq
    exact ⟨d, A', B, hrest, fun x hx => hA x (List.mem_cons_of_mem a hx), hB⟩

theorem twoLevel_anchor {g : Grid} {p : Pos} {rest : List Pos}
    (h : ∃ d A B, p :: rest = A ++ B ∧
      (∀ x ∈ A, (getNode g x).distance = some d) ∧
      (∀ x ∈ B, (getNode g x).distance = some (d + 1))) :
    ∃ d, (getNode g p).distance = some d ∧
      ∀ x ∈ rest, (getNode g x).distance = some d ∨
        (getNode g x).distance = some (d + 1) := by
  obtain ⟨d, A, B, heq, hA, hB⟩ := h
  cases A with
  | nil =>
    rw [List.nil_append] at heq
    subst heq
    exact ⟨d + 1, hB p (List.mem_cons_self _ _),
      fun x hx => Or.inl (hB x (List.mem_cons_of_mem p hx))⟩
  | cons a A' =>
    rw [List.cons_append] at heq
    obtain ⟨ha, hrest⟩ := List.cons.injEq .. ▸ heq
    subst ha
    refine ⟨d, hA p (List.mem_cons_self _ _), ?_⟩
    intro x hx
    rw [hrest] at hx
    rcases List.mem_append.mp hx with hx | hx
    · exact Or.inl (hA x (List.mem_cons_of_mem p hx))
    · exact Or.inr (hB x hx)

set_option maxHeartbeats 1600000 in
theorem bfsLoop_opt (s e : Pos) (g0 : Grid) (hw0 : WFGrid g0)
    (hpe : ∃ l0, IsPathFrom g0 s e l0) :
    ∀ (fuel : Nat) (g : Grid) (queue vis : List Pos) (gr : Grid)
      (res : PathfindingResult),
      Preserves g0 g →
      (getNode g s).previousNode = none →
      (getNode g s).isVisited = true →
      (getNode g s).distance = some 0 →
      (∀ x ∈ queue, inBounds g0 x ∧ (getNode g x).isVisited = true ∧
        (x = s ∨ ChainToL g0 g s x)) →
      (∀ y, (getNode g y).isVisited = true → ∀ l', IsPathFrom g0 s y l' →
        ∃ d, (getNode g y).distance = some d ∧ d + 1 ≤ l'.length) →
      (∀ z, (getNode g z).isVisited = true →
        (getNode g0 z).type ≠ CellType.wall → z ∈ queue ∨
        (∀ w, adjacent z w → okCell g0 w → (getNode g w).isVisited = true)) →
      (∃ d A B, queue = A ++ B ∧
        (∀ x ∈ A, (getNode g x).distance = some d) ∧
        (∀ x ∈ B, (getNode g x).distance = some (d + 1))) →
      ((getNode g e).isVisited = true → e ∈ queue) →
      bfsLoop e fuel g queue vis = some (gr, res) →
      res.success = true ∧ IsPathFrom g0 s e res.shortestPath ∧
        ∀ l, IsPathFrom g0 s e l → res.shortestPath.length ≤ l.length := by
  obtain ⟨l0, hl0⟩ := hpe
  have hoke : okCell g0 e := hl0.2.2.2 e (mem_of_getLast? hl0.2.1)
  intro fuel
  induction fuel with
  | zero =>
    intro g queue vis gr res _ _ _ _ _ _ _ _ _ h
    exact absurd h (by simp [bfsLoop])
  | succ f ih =>
    intro g queue vis gr res hpres hsprev hsvis hs0 hqueue hD hDN hTwo hEQ h
    cases queue with
    | nil =>
      exfalso
      by_cases hev : (getNode g e).isVisited = true
      · exact absurd (hEQ hev) (by simp)
      · have hev2 : (getNode g e).isVisited = false := by
          cases hv : (getNode g e).isVisited with
          | false => rfl
          | true => exact absurd hv hev
        obtain ⟨w, l1, l2, _, hw_in, _⟩ := bfs_walk hl0 hsvis hDN hev2
        exact absurd hw_in (by simp)
    | cons p rest =>
      simp only [bfsLoop] at h
      split_ifs at h with hwall hend
      · -- wall pop
        refine ih g rest vis gr res hpres hsprev hsvis hs0
          (fun x hx => hqueue x (List.mem_cons_of_mem p hx)) hD ?_
          (twoLevel_tail hTwo) ?_ h
        · intro z hz hznw
          rcases hDN z hz hznw with h2 | h2
          · rcases List.mem_cons.mp h2 with h3 | h3
            · exfalso
              rw [h3, ← (hpres.2.2.2 p).1] at hznw
              exact hznw hwall
            · exact Or.inl h3
          · exact Or.inr h2
        · intro hev
          rcases List.mem_cons.mp (hEQ hev) with h3 | h3
          · exfalso
            rw [← h3] at hwall
            rw [(hpres.2.2.2 e).1] at hwall
            exact hoke.2 hwall
          · exact h3
      · -- success: p = e
        obtain ⟨h1, h2⟩ := Prod.mk.injEq .. ▸ (Option.some.injEq .. ▸ h)
        have hsucc : res.success = true := by rw [← h2]
        have hsp : res.shortestPath = reconstructPath g e := by rw [← h2]
        subst hend
        obtain ⟨hpb0, hpv, hpc⟩ := hqueue p (List.mem_cons_self _ _)
        have hokp : okCell g0 p := by
          refine ⟨hpb0, ?_⟩
          rw [← (hpres.2.2.2 p).1]
          exact hwall
        have hchainL : ChainToL g0 g s p := by
          rcases hpc with hps | hpc
          · subst hps
            exact chainToL_self hsprev hokp hs0
          · exact hpc
        obtain ⟨lc, hc1, hc2, hc3, hc4, hc5, hc6, hc7⟩ := hchainL
        have hrec_eq : reconstructPath g p = lc := by
          refine reconstructPath_eq hc1 ?_
          have hbound : lc.length ≤ numRows g0 * numCols g0 :=
            length_le_area_of_nodup hc5 (fun x hx => (hc4 x hx).1)
          rw [hpres.1, hpres.2.1]
          omega
        refine ⟨hsucc, ?_, ?_⟩
        · rw [hsp]
          exact reconstructPath_of_chainTo hpres ⟨lc, hc1, hc2, hc3, hc4, hc5, hc6⟩
        · intro l hl
          obtain ⟨d, hd, hdle2⟩ := hD p hpv l hl
          rw [hsp, hrec_eq]
          rw [hd] at hc7
          have hlpos : 0 < lc.length := hc1.length_pos
          have : lc.length - 1 = d := by
            have := Option.some.injEq .. ▸ hc7
            omega
          omega
      · -- expand
        obtain ⟨hpb0, hpv, hpc⟩ := hqueue p (List.mem_cons_self _ _)
        have hokp : okCell g0 p := by
          refine ⟨hpb0, ?_⟩
          rw [← (hpres.2.2.2 p).1]
          exact hwall
        have hwg : WFGrid g := wf_of_preserves hw0 hpres
        have hpbg : inBounds g p := (inBounds_of_preserves hpres p).mpr hpb0
        have hns : ∀ q ∈ getNeighbors (getNode g p) g,
            inBounds g0 q ∧ adjacent p q := by
          intro q hq
          obtain ⟨h4, h5⟩ := mem_getNeighbors hwg hpbg hq
          exact ⟨(inBounds_of_preserves hpres q).mp h4, h5⟩
        have hins : ∀ q ∈ getNeighbors (getNode g p) g, inStore g q := by
          intro q hq
          exact inStore_of_inBounds hwg
            ((inBounds_of_preserves hpres q).mpr (hns q hq).1)
        obtain ⟨hs1, hs2, hs3, hq2⟩ := bfsExpand_chainL s p g0 hw0 _ g rest hpres
          hns hpv hpc hokp hsprev hsvis hs0
          (fun x hx => hqueue x (List.mem_cons_of_mem p hx))
        obtain ⟨d, hdp, hanch⟩ := twoLevel_anchor hTwo
        obtain ⟨new, hshape, hnewu⟩ := bfsExpand_shape p (getNeighbors (getNode g p) g) g rest
        have hrest_vis : ∀ x ∈ rest, (getNode g x).isVisited = true :=
          fun x hx => (hqueue x (List.mem_cons_of_mem p hx)).2.1
        have hnew_notin : ∀ x ∈ new, x ∉ rest := by
          intro x hx hmem
          have := hrest_vis x hmem
          rw [hnewu x hx] at this
          exact Bool.noConfusion this
        have hnew_label : ∀ x ∈ new,
            (getNode (bfsExpand g p rest (getNeighbors (getNode g p) g)).1
              x).distance = some (d + 1) := by
          intro x hx
          have := bfsExpand_new_label p (getNeighbors (getNode g p) g) g rest hpv hins
            x (by rw [hshape]; exact List.mem_append.mpr (Or.inr hx))
            (hnew_notin x hx)
          rw [hdp, dadd_some] at this
          exact this
        have hDnew : ∀ y, (getNode (bfsExpand g p rest
            (getNeighbors (getNode g p) g)).1 y).isVisited = true →
            ∀ l', IsPathFrom g0 s y l' →
            ∃ dd, (getNode (bfsExpand g p rest
              (getNeighbors (getNode g p) g)).1 y).distance = some dd ∧
              dd + 1 ≤ l'.length := by
          intro y hy3 l' hl'
          by_cases hyv : (getNode g y).isVisited = true
          · rw [bfsExpand_untouched p _ _ _ y hyv]
            exact hD y hyv l' hl'
          · have hyu : (getNode g y).isVisited = false := by
              cases hv : (getNode g y).isVisited with
              | false => rfl
              | true => exact absurd hv hyv
            have hy_q : y ∈ (bfsExpand g p rest (getNeighbors (getNode g p) g)).2 := by
              rcases bfsExpand_mark_mem p _ g rest y hy3 with h4 | h4
              · exact absurd h4 hyv
              · exact h4
            have hy_new : y ∈ new := by
              rw [hshape] at hy_q
              rcases List.mem_append.mp hy_q with h4 | h4
              · exact absurd (hrest_vis y h4) hyv
              · exact h4
            refine ⟨d + 1, hnew_label y hy_new, ?_⟩
            obtain ⟨w, l1, l2, hsplit, hw_in, hwpath⟩ :=
              bfs_walk hl' hsvis hDN hyu
            have hw_vis : (getNode g w).isVisited = true :=
              (hqueue w hw_in).2.1
            obtain ⟨dw, hdw, hdwle⟩ := hD w hw_vis _ hwpath
            have hd_le : d ≤ dw := by
              rcases List.mem_cons.mp hw_in with h4 | h4
              · rw [← h4] at hdp
                rw [hdp] at hdw
                have := Option.some.injEq .. ▸ hdw
                omega
              · rcases hanch w h4 with h5 | h5 <;>
                  (rw [h5] at hdw; have := Option.some.injEq .. ▸ hdw; omega)
            have hl2ne : l2 ≠ [] := by
              intro h4
              subst h4
              have h5 := hl'.2.1
              rw [hsplit] at h5
              rw [List.getLast?_append] at h5
              simp only [List.getLast?_singleton] at h5
              have h6 : some w = some y := h5
              have h7 : w = y := Option.some.injEq .. ▸ h6
              rw [h7, hyu] at hw_vis
              exact Bool.noConfusion hw_vis
            have hlen1 : (l1 ++ [w]).length = l1.length + 1 := by simp
            rw [hlen1] at hdwle
            have hlen2 : l'.length = l1.length + 1 + l2.length := by
              rw [hsplit]
              simp only [List.length_append, List.length_cons]
              omega
            have hl2pos : 0 < l2.length := by
              cases l2 with
              | nil => exact absurd rfl hl2ne
              | cons c cs => simp
            omega
        refine ih _ _ _ _ _ (hpres.trans (preserves_bfsExpand p _ g rest))
          hs1 hs2 hs3 hq2 hDnew ?_ ?_ ?_ h
        · -- (DN)
          intro z hz3 hznw
          by_cases hzv : (getNode g z).isVisited = true
          · by_cases hzp : z = p
            · subst hzp
              refine Or.inr ?_
              intro w hadj hokw
              by_cases hwv : (getNode g w).isVisited = true
              · exact bfsExpand_mark_mono z _ g rest w hwv
              · have hwu : (getNode g w).isVisited = false := by
                  cases hv : (getNode g w).isVisited with
                  | false => rfl
                  | true => exact absurd hv hwv
                have hw_ns : w ∈ getNeighbors (getNode g z) g :=
                  getNeighbors_complete hwg hpbg
                    ((inBounds_of_preserves hpres w).mpr hokw.1) hadj
                have hw_q := bfsExpand_complete z _ g rest w hw_ns hwu
                  (by rw [(hpres.2.2.2 w).1]; exact hokw.2)
                exact (hq2 w hw_q).2.1
            · rcases hDN z hzv hznw with h4 | h4
              · rcases List.mem_cons.mp h4 with h5 | h5
                · exact absurd h5 hzp
                · exact Or.inl (bfsExpand_queue_mono p _ g rest z h5)
              · refine Or.inr ?_
                intro w hadj hokw
                exact bfsExpand_mark_mono p _ g rest w (h4 w hadj hokw)
          · rcases bfsExpand_mark_mem p _ g rest z hz3 with h4 | h4
            · exact absurd h4 hzv
            · exact Or.inl h4
        · -- two-level
          obtain ⟨d2, A, B, heq, hA, hB⟩ := hTwo
          have huntouched : ∀ x ∈ rest, getNode (bfsExpand g p rest
              (getNeighbors (getNode g p) g)).1 x = getNode g x :=
            fun x hx => bfsExpand_untouched p _ g rest x (hrest_vis x hx)
          cases A with
          | nil =>
            rw [List.nil_append] at heq
            subst heq
            have hd_eq : d = d2 + 1 := by
              have h5 := hB p (List.mem_cons_self _ _)
              rw [hdp] at h5
              exact Option.some.injEq .. ▸ h5
            refine ⟨d, rest, new, by rw [hshape], ?_, ?_⟩
            · intro x hx
              rw [huntouched x hx, hd_eq]
              exact hB x (List.mem_cons_of_mem p hx)
            · intro x hx
              exact hnew_label x hx
          | cons a A' =>
            rw [List.cons_append] at heq
            obtain ⟨ha, hrest⟩ := List.cons.injEq .. ▸ heq
            refine ⟨d2, A', B ++ new, by rw [hshape, hrest]; simp, ?_, ?_⟩
            · intro x hx
              have hxr : x ∈ rest := by rw [hrest]; exact List.mem_append.mpr (Or.inl hx)
              rw [huntouched x hxr]
              exact hA x (List.mem_cons_of_mem a hx)
            · intro x hx
              rcases List.mem_append.mp hx with hx | hx
              · have hxr : x ∈ rest := by rw [hrest]; exact List.mem_append.mpr (Or.inr hx)
                rw [huntouched x hxr]
                exact hB x hx
              · have hd2 : d2 = d := by
                  have h5 := hA a (List.mem_cons_self _ _)
                  rw [← ha, hdp] at h5
                  exact (Option.some.injEq .. ▸ h5).symm
                rw [hd2]
                exact hnew_label x hx
        · -- (EQ)
          intro hev3
          rcases bfsExpand_mark_mem p _ g rest e hev3 with h4 | h4
          · rcases List.mem_cons.mp (hEQ h4) with h5 | h5
            · exact absurd h5.symm hend
            · exact bfsExpand_queue_mono p _ g rest e h5
          · exact h4

/-- A clean 2-by-4 grid: the bottom row from start `(1,0)` to end `(1,3)` is
free of walls, so the true shortest path has 4 cells. -/
def g24 : Grid := mkGrid
  [[CellType.empty, CellType.empty, CellType.empty, CellType.empty],
   [CellType.start, CellType.empty, CellType.empty, CellType.endCell]]

/-- C1 counterexample: on `g24` a 4-cell path from start to end exists, yet
`iterativeDeepening` succeeds with a 6-cell path — its depth-limited probes
leave `isVisited` marks that prune the shallow route within an iteration, so
the first depth at which the end is reached is not the true distance. -/
theorem C1_id_not_shortest :
    IsPathFrom g24 (1, 0) (1, 3) [(1, 0), (1, 1), (1, 2), (1, 3)] ∧
    (iterativeDeepening g24 (1, 0) (1, 3)).map (fun r => r.2.success) =
      some true ∧
    (iterativeDeepening g24 (1, 0) (1, 3)).map
      (fun r => r.2.shortestPath.length) = some 6 :=
  ⟨by decide, by decide, by decide⟩

/-- C1: amended. On a well-formed grid in the clean pre-run scratch state
with in-bounds start and end, if some 4-connected non-wall path from start to
end exists, then `bfs`, `uniformCostSearch` and `astar` each succeed and
return a valid start-to-end path of minimal length (`iterativeDeepening` does
not: see the counterexample). -/
theorem C1_bfs_ucs_astar_shortest (g : Grid) (s e : Pos) (hw : WFGrid g)
    (hc : CleanGrid g) (hs : inBounds g s) (he : inBounds g e)
    (hpe : ∃ l, IsPathFrom g s e l) :
    (∃ gr res, bfs g s e = some (gr, res) ∧ res.success = true ∧
      IsPathFrom g s e res.shortestPath ∧
      ∀ l, IsPathFrom g s e l → res.shortestPath.length ≤ l.length) ∧
    (∃ gr res, uniformCostSearch g s e = some (gr, res) ∧ res.success = true ∧
      IsPathFrom g s e res.shortestPath ∧
      ∀ l, IsPathFrom g s e l → res.shortestPath.length ≤ l.length) ∧
    (∃ gr res, astar g s e = some (gr, res) ∧ res.success = true ∧
      IsPathFrom g s e res.shortestPath ∧
      ∀ l, IsPathFrom g s e l → res.shortestPath.length ≤ l.length) := by
  have hsst : inStore g s := inStore_of_inBounds hw hs
  have hrow : 0 < numRows g := Nat.lt_of_le_of_lt (Nat.zero_le _) hs.1
  have hcol : 0 < numCols g := Nat.lt_of_le_of_lt (Nat.zero_le _) hs.2
  refine ⟨?_, ?_, ?_⟩
  · -- bfs
    have hpr : Preserves g (gridModify g s fun n =>
        { n with isVisited := true, distance := some 0 }) :=
      Preserves.gridModify _ _ _ (fun n => ⟨rfl, rfl, rfl⟩)
    have hw1 := wf_of_preserves hw hpr
    have hle := countGrid_le hw1 (fun n => !n.isVisited)
    rw [hpr.1, hpr.2.1] at hle
    have hsome : (bfsLoop e (bfsFuel g) (gridModify g s fun n =>
        { n with isVisited := true, distance := some 0 }) [s] []).isSome := by
      refine bfsLoop_some e _ _ _ [] hw1 (by rw [hpr.2.1]; exact hcol) ?_
      unfold bfsFuel
      simp only [List.length_cons, List.length_nil]
      unfold unvisitedCount
      omega
    rw [Option.isSome_iff_exists] at hsome
    obtain ⟨⟨gr, res⟩, hrun⟩ := hsome
    have hvisS : (getNode (gridModify g s fun n =>
        { n with isVisited := true, distance := some 0 }) s).isVisited =
        true := by
      rw [getNode_gridModify, if_pos ⟨rfl, hsst⟩]
    have hdistS : (getNode (gridModify g s fun n =>
        { n with isVisited := true, distance := some 0 }) s).distance =
        some 0 := by
      rw [getNode_gridModify, if_pos ⟨rfl, hsst⟩]
    have hprevS : (getNode (gridModify g s fun n =>
        { n with isVisited := true, distance := some 0 }) s).previousNode =
        none := by
      rw [getNode_gridModify, if_pos ⟨rfl, hsst⟩]
      exact (cleanGrid_getNode hc).2.2.2
    have honlyS : ∀ y : Pos, (getNode (gridModify g s fun n =>
        { n with isVisited := true, distance := some 0 }) y).isVisited =
        true → y = s := by
      intro y hy
      by_contra hys
      rw [getNode_gridModify, if_neg (fun hcon => hys hcon.1),
        (cleanGrid_getNode hc).1] at hy
      simp at hy
    have hopt := bfsLoop_opt s e g hw hpe (bfsFuel g) _ [s] [] gr res hpr
      hprevS hvisS hdistS
      (fun x hx => by
        simp only [List.mem_singleton] at hx
        subst hx
        exact ⟨hs, hvisS, Or.inl rfl⟩)
      (fun y hy l' hl' => by
        have hys := honlyS y hy
        subst hys
        refine ⟨0, hdistS, ?_⟩
        cases l' with
        | nil => exact absurd hl'.1 (by simp)
        | cons a as => simp)
      (fun z hz _ => by
        have hzs := honlyS z hz
        subst hzs
        exact Or.inl (by simp))
      ⟨0, [s], [], by simp,
        fun x hx => by
          simp only [List.mem_singleton] at hx
          subst hx
          exact hdistS,
        fun x hx => absurd hx (List.not_mem_nil x)⟩
      (fun hev => by rw [honlyS e hev]; simp)
      hrun
    exact ⟨gr, res, by simp only [bfs]; exact hrun, hopt.1, hopt.2.1,
      hopt.2.2⟩
  · -- uniformCostSearch
    have hpr : Preserves g (gridModify g s fun n =>
        { n with distance := some 0 }) :=
      Preserves.gridModify _ _ _ (fun n => ⟨rfl, rfl, rfl⟩)
    have hw1 := wf_of_preserves hw hpr
    have hle := countGrid_le hw1 (fun n => !n.isVisited)
    rw [hpr.1, hpr.2.1] at hle
    have hsome : (ucsLoop e (astarFuel g) (gridModify g s fun n =>
        { n with distance := some 0 }) [s] []).isSome := by
      refine ucsLoop_some e _ _ _ [] hw1 (by rw [hpr.2.1]; exact hcol) ?_ ?_
      · intro x hx
        simp only [List.mem_singleton] at hx
        subst hx
        rw [inBounds_of_preserves hpr]
        exact hs
      · unfold astarFuel
        simp only [List.length_cons, List.length_nil]
        unfold unvisitedCount
        have hsq : numRows g * numCols g ≤
            numRows g * numCols g * (numRows g * numCols g) :=
          Nat.le_mul_of_pos_left _ (Nat.mul_pos hrow hcol)
        nlinarith [hle, hsq]
    rw [Option.isSome_iff_exists] at hsome
    obtain ⟨⟨gr, res⟩, hrun⟩ := hsome
    have hdistS : (getNode (gridModify g s fun n =>
        { n with distance := some 0 }) s).distance = some 0 := by
      rw [getNode_gridModify, if_pos ⟨rfl, hsst⟩]
    have hprevS : (getNode (gridModify g s fun n =>
        { n with distance := some 0 }) s).previousNode = none := by
      rw [getNode_gridModify, if_pos ⟨rfl, hsst⟩]
      exact (cleanGrid_getNode hc).2.2.2
    have hvisAll : ∀ y : Pos, (getNode (gridModify g s fun n =>
        { n with distance := some 0 }) y).isVisited = false := by
      intro y
      rw [getNode_gridModify]
      split_ifs with hcase
      · exact (cleanGrid_getNode hc).1
      · exact (cleanGrid_getNode hc).1
    have hopt := ucsLoop_opt s e g hw hpe (astarFuel g) _ [s] [] gr res hpr
      hprevS hdistS (hvisAll e)
      (fun x hx => by
        simp only [List.mem_singleton] at hx
        subst hx
        exact ⟨hs, Or.inl rfl⟩)
      (fun y hy => absurd hy (by rw [hvisAll y]; simp))
      (fun y hy => absurd hy (by rw [hvisAll y]; simp))
      (fun x _ _ _ hdx => by
        by_cases hxs : x = s
        · subst hxs
          simp
        · exfalso
          rw [getNode_gridModify, if_neg (fun hcon => hxs hcon.1),
            (cleanGrid_getNode hc).2.1] at hdx
          exact hdx rfl)
      hrun
    exact ⟨gr, res, by simp only [uniformCostSearch]; exact hrun, hopt.1,
      hopt.2.1, hopt.2.2⟩
  · -- astar
    have hpr : Preserves g (gridModify g s fun n =>
        { n with distance := some 0,
                 heuristic := some (manhattanDistance (getNode g s) (getNode g e)) }) :=
      Preserves.gridModify _ _ _ (fun n => ⟨rfl, rfl, rfl⟩)
    have hw1 := wf_of_preserves hw hpr
    have hle := countGrid_le hw1 (fun n => !n.isVisited)
    rw [hpr.1, hpr.2.1] at hle
    have hsome : (astarLoop e (astarFuel g) (gridModify g s fun n =>
        { n with distance := some 0,
                 heuristic := some (manhattanDistance (getNode g s) (getNode g e)) })
        [s] []).isSome := by
      refine astarLoop_some e _ _ _ [] hw1 (by rw [hpr.2.1]; exact hcol) ?_ ?_
      · intro x hx
        simp only [List.mem_singleton] at hx
        subst hx
        rw [inBounds_of_preserves hpr]
        exact hs
      · unfold astarFuel
        simp only [List.length_cons, List.length_nil]
        unfold unvisitedCount
        have hsq : numRows g * numCols g ≤
            numRows g * numCols g * (numRows g * numCols g) :=
          Nat.le_mul_of_pos_left _ (Nat.mul_pos hrow hcol)
        nlinarith [hle, hsq]
    rw [Option.isSome_iff_exists] at hsome
    obtain ⟨⟨gr, res⟩, hrun⟩ := hsome
    have hdistS : (getNode (gridModify g s fun n =>
        { n with distance := some 0,
                 heuristic := some (manhattanDistance (getNode g s) (getNode g e)) })
        s).distance = some 0 := by
      rw [getNode_gridModify, if_pos ⟨rfl, hsst⟩]
    have hprevS : (getNode (gridModify g s fun n =>
        { n with distance := some 0,
                 heuristic := some (manhattanDistance (getNode g s) (getNode g e)) })
        s).previousNode = none := by
      rw [getNode_gridModify, if_pos ⟨rfl, hsst⟩]
      exact (cleanGrid_getNode hc).2.2.2
    have hheurS : (getNode (gridModify g s fun n =>
        { n with distance := some 0,
                 heuristic := some (manhattanDistance (getNode g s) (getNode g e)) })
        s).heuristic = some (mdist s e) := by
      rw [getNode_gridModify, if_pos ⟨rfl, hsst⟩]
      dsimp only
      rw [manhattan_eq_mdist hw hs he]
    have hvisAll : ∀ y : Pos, (getNode (gridModify g s fun n =>
        { n with distance := some 0,
                 heuristic := some (manhattanDistance (getNode g s) (getNode g e)) })
        y).isVisited = false := by
      intro y
      rw [getNode_gridModify]
      split_ifs with hcase
      · exact (cleanGrid_getNode hc).1
      · exact (cleanGrid_getNode hc).1
    have hopt := astarLoop_opt s e g hw he hpe (astarFuel g) _ [s] [] gr res
      hpr hprevS hdistS (hvisAll e)
      (fun x hx => by
        simp only [List.mem_singleton] at hx
        subst hx
        exact ⟨hs, Or.inl rfl⟩)
      (fun x hx => by
        simp only [List.mem_singleton] at hx
        subst hx
        exact hheurS)
      (fun y hy => absurd hy (by rw [hvisAll y]; simp))
      (fun y hy => absurd hy (by rw [hvisAll y]; simp))
      (fun x _ _ _ hdx => by
        by_cases hxs : x = s
        · subst hxs
          simp
        · exfalso
          rw [getNode_gridModify, if_neg (fun hcon => hxs hcon.1),
            (cleanGrid_getNode hc).2.1] at hdx
          exact hdx rfl)
      hrun
    exact ⟨gr, res, by simp only [astar]; exact hrun, hopt.1, hopt.2.1,
      hopt.2.2⟩

/-- Witness for C1 on the concrete 1-by-2 grid `gW12`: the hypotheses hold
and each of the three optimal algorithms returns a shortest path. -/
theorem C1_bfs_ucs_astar_shortest_witness :
    ∃ gr res, bfs gW12 (0, 0) (0, 1) = some (gr, res) ∧ res.success = true ∧
      IsPathFrom gW12 (0, 0) (0, 1) res.shortestPath ∧
      ∀ l, IsPathFrom gW12 (0, 0) (0, 1) l →
        res.shortestPath.length ≤ l.length :=
  (C1_bfs_ucs_astar_shortest gW12 (0, 0) (0, 1) (by decide) (by decide)
    (by decide) (by decide) ⟨[(0, 0), (0, 1)], by decide⟩).1

/-! ### Scheduler model (`Grid.tsx`)

The component schedules its animation with `window.setTimeout`.  Within one
`animateAlgorithm` or `resumeVisualization` call the scheduled times are
nondecreasing in push order, so the pending-timeout array, kept in push
order, fires front to back; `fireNext` below executes the earliest pending
callback. -/

/-- The run data stored in `animationData.current`. -/
structure AnimData where
  visitedNodes : List Node
  shortestPath : List Node
deriving DecidableEq, Repr

/-- One scheduled callback.  `visitFrame`/`pathFrame`/`finalFrame` are
pushed by `animateAlgorithm`; the `resume` variants by
`resumeVisualization` (their bodies differ: the resume variants test the
current grid cell where the originals test the captured node, and the
resume completion callback also resets `currentAnimationIndex`). -/
inductive AnimEvent
  | visitFrame (visited : List Node) (i : Nat)
  | resumeVisitFrame (visited : List Node) (i : Nat)
  | clearFrontierFrame
  | pathFrame (node : Node)
  | resumePathFrame (node : Node)
  | finalFrame
  | resumeFinalFrame
deriving DecidableEq, Repr

/-- The component state of `Grid.tsx` touched by the scheduler. -/
structure VizState where
  grid : Grid
  isVisualizing : Bool
  isPaused : Bool
  canPause : Bool
  animationCompleted : Bool
  animationTimeouts : List AnimEvent
  currentAnimationIndex : Nat
  animationData : Option AnimData
deriving DecidableEq, Repr

/-- The `frontier → empty` sweep the animation callbacks run over the grid. -/
def clearFrontiers (g : Grid) : Grid :=
  g.map fun row => row.map fun n =>
    if n.type = CellType.frontier then { n with type := CellType.empty } else n

/-- `newGrid[r][c].type = t` (a no-op outside the store, like `gridModify`). -/
def setCellType (g : Grid) (p : Pos) (t : CellType) : Grid :=
  gridModify g p fun n => { n with type := t }

/-- Frontier marking of `animateAlgorithm`: each upcoming node whose
captured `type` is not start/end/visited is painted `frontier`. -/
def markFrontiers (g : Grid) (cands : List Node) : Grid :=
  cands.foldl
    (fun acc nd =>
      if nd.type ≠ CellType.start ∧ nd.type ≠ CellType.endCell ∧
          nd.type ≠ CellType.visited then
        setCellType acc (nd.row, nd.col) CellType.frontier
      else acc) g

/-- Frontier marking of `resumeVisualization`: the guard tests the current
grid cell instead of the captured node. -/
def markFrontiersResume (g : Grid) (cands : List Node) : Grid :=
  cands.foldl
    (fun acc nd =>
      if (getNode acc (nd.row, nd.col)).type ≠ CellType.start ∧
          (getNode acc (nd.row, nd.col)).type ≠ CellType.endCell ∧
          (getNode acc (nd.row, nd.col)).type ≠ CellType.visited then
        setCellType acc (nd.row, nd.col) CellType.frontier
      else acc) g

/-- Body of the visited-phase callback of `animateAlgorithm` at index `i`:
when the captured node is start/end the whole grid update is skipped, else
the node is painted visited, old frontier paint is swept, and the next at
most 8 upcoming nodes are painted frontier. -/
def applyVisitFrame (visited : List Node) (i : Nat) (g : Grid) : Grid :=
  match visited[i]? with
  | none => g
  | some node =>
    if node.type = CellType.start ∨ node.type = CellType.endCell then g
    else
      markFrontiers
        (clearFrontiers (setCellType g (node.row, node.col) CellType.visited))
        ((visited.drop (i + 1)).take 8)

/-- Body of the visited-phase callback of `resumeVisualization`. -/
def applyResumeVisitFrame (visited : List Node) (i : Nat) (g : Grid) : Grid :=
  match visited[i]? with
  | none => g
  | some node =>
    let g1 :=
      if (getNode g (node.row, node.col)).type ≠ CellType.start ∧
          (getNode g (node.row, node.col)).type ≠ CellType.endCell then
        setCellType g (node.row, node.col) CellType.visited
      else g
    markFrontiersResume (clearFrontiers g1) ((visited.drop (i + 1)).take 8)

/-- Body of a path callback of `animateAlgorithm` (captured-type guard). -/
def applyPathFrame (node : Node) (g : Grid) : Grid :=
  if node.type = CellType.start ∨ node.type = CellType.endCell then g
  else setCellType g (node.row, node.col) CellType.path

/-- Body of a path callback of `resumeVisualization` (current-grid guard). -/
def applyResumePathFrame (node : Node) (g : Grid) : Grid :=
  if (getNode g (node.row, node.col)).type = CellType.start ∨
      (getNode g (node.row, node.col)).type = CellType.endCell then g
  else setCellType g (node.row, node.col) CellType.path

/-- Execute one scheduled callback. -/
def fireEvent (st : VizState) : AnimEvent → VizState
  | AnimEvent.visitFrame visited i =>
    { st with currentAnimationIndex := i,
              grid := applyVisitFrame visited i st.grid }
  | AnimEvent.resumeVisitFrame visited i =>
    { st with currentAnimationIndex := i + 1,
              grid := applyResumeVisitFrame visited i st.grid }
  | AnimEvent.clearFrontierFrame => { st with grid := clearFrontiers st.grid }
  | AnimEvent.pathFrame node => { st with grid := applyPathFrame node st.grid }
  | AnimEvent.resumePathFrame node =>
    { st with grid := applyResumePathFrame node st.grid }
  | AnimEvent.finalFrame =>
    { st with isVisualizing := false, isPaused := false, canPause := false,
              animationData := none, animationCompleted := true }
  | AnimEvent.resumeFinalFrame =>
    { st with isVisualizing := false, isPaused := false, canPause := false,
              animationData := none, animationCompleted := true,
              currentAnimationIndex := 0 }

/-- Fire the earliest pending callback (no-op when none is pending). -/
def fireNext (st : VizState) : VizState :=
  match st.animationTimeouts with
  | [] => st
  | ev :: rest => fireEvent { st with animationTimeouts := rest } ev

/-- Fire the next `k` pending callbacks. -/
def fireN : Nat → VizState → VizState
  | 0, st => st
  | k + 1, st => fireN k (fireNext st)

/-- `clearAnimations` from `Grid.tsx`: cancel every pending timeout, empty
the bookkeeping array, reset the index and drop the stored run data. -/
def clearAnimations (st : VizState) : VizState :=
  { st with animationTimeouts := [], currentAnimationIndex := 0,
            animationData := none }

/-- `stopVisualization` from `Grid.tsx`. -/
def stopVisualization (st : VizState) : VizState :=
  let st1 := clearAnimations st
  { st1 with isVisualizing := false, isPaused := false, canPause := false,
             animationCompleted := true }

/-- `pauseVisualization` from `Grid.tsx`. -/
def pauseVisualization (st : VizState) : VizState :=
  if st.canPause = false ∨ st.isVisualizing = false then st
  else clearAnimations { st with isPaused := true }

/-- The visited-phase callbacks pushed for indices `j, j+1, …, j+m-1`
(`animateAlgorithm` uses `j = 0`, `m = length`). -/
def visitEventsFrom (visited : List Node) : Nat → Nat → List AnimEvent
  | 0, _ => []
  | m + 1, j => AnimEvent.visitFrame visited j :: visitEventsFrom visited m (j + 1)

/-- `animateAlgorithm` from `Grid.tsx`: store the run data, enable pausing
and push the visited-phase, frontier-sweep, path-phase and completion
callbacks in schedule order. -/
def animateAlgorithm (visited path : List Node) (st : VizState) : VizState :=
  { st with
    animationData := some ⟨visited, path⟩,
    canPause := true,
    animationTimeouts := st.animationTimeouts ++
      (visitEventsFrom visited visited.length 0 ++
        (AnimEvent.clearFrontierFrame ::
          (path.map AnimEvent.pathFrame ++ [AnimEvent.finalFrame]))) }

/-- The resume-variant visited-phase callbacks for indices `j … j+m-1`. -/
def resumeEventsFrom (visited : List Node) : Nat → Nat → List AnimEvent
  | 0, _ => []
  | m + 1, j =>
    AnimEvent.resumeVisitFrame visited j :: resumeEventsFrom visited m (j + 1)

/-- `resumeVisualization` from `Grid.tsx`: bail out unless paused with
stored run data, else unpause and push the remaining visited-phase
callbacks (from `currentAnimationIndex`), the frontier sweep, the path
phase and the completion callback. -/
def resumeVisualization (st : VizState) : VizState :=
  if st.isPaused = false then st
  else
    match st.animationData with
    | none => st
    | some data =>
      { st with
        isPaused := false, canPause := true,
        animationTimeouts := st.animationTimeouts ++
          (resumeEventsFrom data.visitedNodes
              (data.visitedNodes.length - st.currentAnimationIndex)
              st.currentAnimationIndex ++
            (AnimEvent.clearFrontierFrame ::
              (data.shortestPath.map AnimEvent.resumePathFrame ++
                [AnimEvent.resumeFinalFrame]))) }

/-- The pre-run reset of `visualizeAlgorithm`: clear the scratch fields and
turn `visited`/`path` paint back to `empty` (frontier paint is left as is). -/
def resetForVisualization (g : Grid) : Grid :=
  g.map fun row => row.map fun n =>
    { n with isVisited := false, distance := none, heuristic := none,
             previousNode := none,
             type := if n.type = CellType.visited ∨ n.type = CellType.path then
                 CellType.empty
               else n.type }

/-- `visualizeAlgorithm` from `Grid.tsx`, with the algorithm's result passed
in; the 50 ms kick-off timeout that runs the algorithm is collapsed into the
call, which no claim depends on.  It refuses to start while a run is active
or after a completed/stopped one, else cancels pending work, resets the grid
and starts animating. -/
def visualizeAlgorithm (visited path : List Node) (st : VizState) : VizState :=
  if st.isVisualizing = true ∨ st.animationCompleted = true then st
  else
    let st1 := clearAnimations st
    animateAlgorithm visited path
      { st1 with grid := resetForVisualization st1.grid, isVisualizing := true }

/-- A concrete 1-by-3 board for the scheduler runs. -/
def gViz : Grid := mkGrid [[CellType.start, CellType.empty, CellType.endCell]]

/-- The idle component state over `gViz`. -/
def stIdle : VizState :=
  { grid := gViz, isVisualizing := false, isPaused := false, canPause := false,
    animationCompleted := false, animationTimeouts := [],
    currentAnimationIndex := 0, animationData := none }

/-- A concrete algorithm result on `gViz` (the visit order of `bfs`). -/
def vizVisited : List Node :=
  [mkNode 0 0 CellType.start, mkNode 0 1 CellType.empty,
   mkNode 0 2 CellType.endCell]

/-- Its shortest path. -/
def vizPath : List Node := vizVisited

/-- Number of cells currently painted `visited`. -/
def cntVisited (g : Grid) : Nat :=
  countGrid (fun n => decide (n.type = CellType.visited)) g

/-- Captured nodes whose visited-phase frame actually paints the grid (the
callback skips start/end nodes). -/
def visMarkP (n : Node) : Bool :=
  !(decide (n.type = CellType.start) || decide (n.type = CellType.endCell))

theorem fireN_of_empty {st : VizState} (h : st.animationTimeouts = []) :
    ∀ n, fireN n st = st := by
  intro n
  induction n with
  | zero => rfl
  | succ k ih =>
    have h2 : fireNext st = st := by
      unfold fireNext
      rw [h]
    show fireN k (fireNext st) = st
    rw [h2]
    exact ih

theorem inStore_mapNodes (f : Node → Node) (g : Grid) (p : Pos) :
    inStore (g.map fun row => row.map f) p ↔ inStore g p := by
  unfold inStore
  have h1 : (g.map fun row => row.map f).length = g.length :=
    List.length_map _ _
  rcases Nat.lt_or_ge p.1 g.length with h | h
  · have h2 : ((g.map fun row => row.map f).getD p.1 []).length =
        (g.getD p.1 []).length := by
      rw [List.getD_eq_getElem _ _ (by rw [h1]; exact h),
        List.getD_eq_getElem _ _ h, List.getElem_map, List.length_map]
    rw [h1, h2]
  · have h2 : (g.map fun row => row.map f).getD p.1 [] = ([] : List Node) :=
      List.getD_eq_default _ _ (by rw [h1]; exact h)
    have h3 : g.getD p.1 [] = ([] : List Node) := List.getD_eq_default _ _ h
    rw [h1, h2, h3]

theorem getNode_mapNodes (f : Node → Node) (g : Grid) (p : Pos)
    (hp : inStore g p) :
    getNode (g.map fun row => row.map f) p = f (getNode g p) := by
  obtain ⟨hpa, hpb⟩ := hp
  unfold getNode
  have h0 : g.getD p.1 [] = g[p.1] := List.getD_eq_getElem _ _ hpa
  have h1 : p.1 < (g.map fun row => row.map f).length := by
    rw [List.length_map]
    exact hpa
  have h2 : (g.map fun row => row.map f).getD p.1 [] = (g[p.1]).map f := by
    rw [List.getD_eq_getElem _ _ h1, List.getElem_map]
  have hp2 : p.2 < (g[p.1]).length := by
    rw [← h0]
    exact hpb
  rw [h2, h0]
  rw [List.getD_eq_getElem _ _ (by rw [List.length_map]; exact hp2),
    List.getD_eq_getElem _ _ hp2, List.getElem_map]

theorem countGrid_mapNodes (pred : Node → Bool) (f : Node → Node) (g : Grid) :
    countGrid pred (g.map fun row => row.map f) =
      countGrid (fun n => pred (f n)) g := by
  unfold countGrid
  rw [List.map_map]
  have hrow : ((fun row => List.countP pred row) ∘ fun row => List.map f row) =
      (fun row => List.countP (fun n => pred (f n)) row) := by
    funext row
    simp [List.countP_map, Function.comp]
    rfl
  rw [hrow]

theorem countGrid_congr (pred1 pred2 : Node → Bool) (g : Grid)
    (h : ∀ n, pred1 n = pred2 n) :
    countGrid pred1 g = countGrid pred2 g :=
  congrArg (fun q => countGrid q g) (funext h)

theorem countGrid_false (g : Grid) :
    countGrid (fun _ => false) g = 0 := by
  unfold countGrid
  induction g with
  | nil => rfl
  | cons r rs ih =>
    simp only [List.map_cons, List.sum_cons]
    rw [ih]
    simp

theorem countP_modifyAt_of_false {α : Type} (pred : α → Bool) (f : α → α)
    (d : α) :
    ∀ (i : Nat) (l : List α), pred (l.getD i d) = false →
      pred (f (l.getD i d)) = false →
      (modifyAt f i l).countP pred = l.countP pred := by
  intro i
  induction i with
  | zero =>
    intro l h1 h2
    cases l with
    | nil => rfl
    | cons a as =>
      simp only [List.getD_cons_zero] at h1 h2
      simp [modifyAt, List.countP_cons, h1, h2]
  | succ j ih =>
    intro l h1 h2
    cases l with
    | nil => rfl
    | cons a as =>
      simp only [List.getD_cons_succ] at h1 h2
      have := ih as h1 h2
      simp only [modifyAt, List.countP_cons]
      omega

theorem countP_modifyAt_incr {α : Type} (pred : α → Bool) (f : α → α)
    (d : α) :
    ∀ (i : Nat) (l : List α), i < l.length →
      pred (l.getD i d) = false → pred (f (l.getD i d)) = true →
      (modifyAt f i l).countP pred = l.countP pred + 1 := by
  intro i
  induction i with
  | zero =>
    intro l hl h1 h2
    cases l with
    | nil => simp at hl
    | cons a as =>
      simp only [List.getD_cons_zero] at h1 h2
      simp [modifyAt, List.countP_cons, h1, h2]
  | succ j ih =>
    intro l hl h1 h2
    cases l with
    | nil => simp at hl
    | cons a as =>
      simp only [List.getD_cons_succ] at h1 h2
      have := ih as (by simpa using hl) h1 h2
      simp only [modifyAt, List.countP_cons]
      omega

theorem countGrid_modify_of_false {f : Node → Node} (pred : Node → Bool) :
    ∀ (i j : Nat) (g : Grid), pred (getNode g (i, j)) = false →
      pred (f (getNode g (i, j))) = false →
      countGrid pred (gridModify g (i, j) f) = countGrid pred g := by
  intro i
  induction i with
  | zero =>
    intro j g h1 h2
    cases g with
    | nil => unfold countGrid gridModify; rw [modifyAt_nil]
    | cons r rs =>
      show countGrid pred (modifyAt f j r :: rs) = countGrid pred (r :: rs)
      rw [countGrid_cons, countGrid_cons,
        countP_modifyAt_of_false pred f defaultNode j r h1 h2]
  | succ i2 ih =>
    intro j g h1 h2
    cases g with
    | nil => unfold countGrid gridModify; rw [modifyAt_nil]
    | cons r rs =>
      have hrec := ih j rs h1 h2
      show countGrid pred (r :: gridModify rs (i2, j) f) =
        countGrid pred (r :: rs)
      rw [countGrid_cons, countGrid_cons]
      omega

theorem countGrid_modify_incr {f : Node → Node} (pred : Node → Bool) :
    ∀ (i j : Nat) (g : Grid), i < g.length → j < (g.getD i []).length →
      pred (getNode g (i, j)) = false → pred (f (getNode g (i, j))) = true →
      countGrid pred (gridModify g (i, j) f) = countGrid pred g + 1 := by
  intro i
  induction i with
  | zero =>
    intro j g hi hj h1 h2
    cases g with
    | nil => simp at hi
    | cons r rs =>
      show countGrid pred (modifyAt f j r :: rs) = countGrid pred (r :: rs) + 1
      rw [countGrid_cons, countGrid_cons,
        countP_modifyAt_incr pred f defaultNode j r (by simpa using hj) h1 h2]
      omega
  | succ i2 ih =>
    intro j g hi hj h1 h2
    cases g with
    | nil => simp at hi
    | cons r rs =>
      have hrec := ih j rs (by simpa using hi) (by simpa using hj) h1 h2
      show countGrid pred (r :: gridModify rs (i2, j) f) =
        countGrid pred (r :: rs) + 1
      rw [countGrid_cons, countGrid_cons]
      omega

theorem type_setCellType {g : Grid} {q p : Pos} {t : CellType} :
    (getNode (setCellType g q t) p).type = t ∨
      (getNode (setCellType g q t) p).type = (getNode g p).type := by
  unfold setCellType
  rw [getNode_gridModify]
  split_ifs with hc
  · exact Or.inl rfl
  · exact Or.inr rfl

theorem type_clearFrontiers {g : Grid} {p : Pos} :
    (getNode (clearFrontiers g) p).type = CellType.empty ∨
      (getNode (clearFrontiers g) p).type = (getNode g p).type := by
  by_cases hp : inStore g p
  · unfold clearFrontiers
    rw [getNode_mapNodes _ _ _ hp]
    split_ifs with h
    · exact Or.inl rfl
    · exact Or.inr rfl
  · have hp2 : ¬ inStore (clearFrontiers g) p := by
      unfold clearFrontiers
      rw [inStore_mapNodes]
      exact hp
    rw [getNode_of_not_inStore hp2]
    exact Or.inl rfl

/-- One `foldl` step of `markFrontiers`. -/
theorem markFrontiers_cons (g : Grid) (c : Node) (cs : List Node) :
    markFrontiers g (c :: cs) =
      markFrontiers
        (if c.type ≠ CellType.start ∧ c.type ≠ CellType.endCell ∧
            c.type ≠ CellType.visited then
          setCellType g (c.row, c.col) CellType.frontier
        else g) cs := rfl

theorem type_markFrontiers (cands : List Node) :
    ∀ (g : Grid) (p : Pos),
      (getNode (markFrontiers g cands) p).type = CellType.frontier ∨
        (getNode (markFrontiers g cands) p).type = (getNode g p).type := by
  induction cands with
  | nil => intro g p; exact Or.inr rfl
  | cons c cs ih =>
    intro g p
    rw [markFrontiers_cons]
    split_ifs with hc
    · rcases ih (setCellType g (c.row, c.col) CellType.frontier) p with h | h
      · exact Or.inl h
      · rcases @type_setCellType g (c.row, c.col) p CellType.frontier with
          h2 | h2
        · exact Or.inl (h.trans h2)
        · exact Or.inr (h.trans h2)
    · exact ih g p

theorem inStore_setCellType {g : Grid} {q p : Pos} {t : CellType} :
    inStore (setCellType g q t) p ↔ inStore g p := by
  unfold setCellType
  exact inStore_gridModify g q _ p

theorem inStore_clearFrontiers {g : Grid} {p : Pos} :
    inStore (clearFrontiers g) p ↔ inStore g p := by
  unfold clearFrontiers
  exact inStore_mapNodes _ g p

theorem inStore_markFrontiers (cands : List Node) :
    ∀ (g : Grid) (p : Pos),
      inStore (markFrontiers g cands) p ↔ inStore g p := by
  induction cands with
  | nil => intro g p; exact Iff.rfl
  | cons c cs ih =>
    intro g p
    rw [markFrontiers_cons]
    split_ifs with hc
    · exact (ih _ p).trans inStore_setCellType
    · exact ih g p

theorem cntVisited_clearFrontiers (g : Grid) :
    cntVisited (clearFrontiers g) = cntVisited g := by
  unfold cntVisited clearFrontiers
  rw [countGrid_mapNodes]
  refine countGrid_congr _ _ g ?_
  intro n
  by_cases h : n.type = CellType.frontier
  · rw [if_pos h, h]
    rfl
  · rw [if_neg h]

theorem cntVisited_markFrontiers (cands : List Node) :
    ∀ (g : Grid),
      (∀ c ∈ cands, (getNode g (c.row, c.col)).type ≠ CellType.visited) →
      cntVisited (markFrontiers g cands) = cntVisited g := by
  induction cands with
  | nil => intro g _; rfl
  | cons c cs ih =>
    intro g hg
    rw [markFrontiers_cons]
    split_ifs with hc
    · have hstep : cntVisited (setCellType g (c.row, c.col)
          CellType.frontier) = cntVisited g := by
        unfold cntVisited setCellType
        exact countGrid_modify_of_false _ c.row c.col g
          (by
            simp only [decide_eq_false_iff_not]
            exact hg c (List.mem_cons_self _ _)) rfl
      have hrest : ∀ d ∈ cs, (getNode (setCellType g (c.row, c.col)
          CellType.frontier) (d.row, d.col)).type ≠ CellType.visited := by
        intro d hd
        rcases @type_setCellType g (c.row, c.col) (d.row, d.col)
            CellType.frontier with h | h
        · rw [h]
          simp
        · rw [h]
          exact hg d (List.mem_cons_of_mem _ hd)
      rw [ih _ hrest, hstep]
    · exact ih g (fun d hd => hg d (List.mem_cons_of_mem _ hd))

theorem inStore_resetForVisualization {g : Grid} {p : Pos} :
    inStore (resetForVisualization g) p ↔ inStore g p := by
  unfold resetForVisualization
  exact inStore_mapNodes _ g p

theorem resetForVisualization_not_visited (g : Grid) (p : Pos) :
    (getNode (resetForVisualization g) p).type ≠ CellType.visited := by
  by_cases hp : inStore g p
  · unfold resetForVisualization
    rw [getNode_mapNodes _ _ _ hp]
    split_ifs with h
    · intro hcon
      exact CellType.noConfusion hcon
    · intro hcon
      exact h (Or.inl hcon)
  · have hp2 : ¬ inStore (resetForVisualization g) p := by
      rw [inStore_resetForVisualization]
      exact hp
    rw [getNode_of_not_inStore hp2]
    intro hcon
    exact CellType.noConfusion hcon

theorem cntVisited_reset (g : Grid) : cntVisited (resetForVisualization g) = 0 := by
  unfold cntVisited resetForVisualization
  rw [countGrid_mapNodes]
  refine (countGrid_congr _ (fun _ => false) g ?_).trans (countGrid_false g)
  intro n
  by_cases h : n.type = CellType.visited ∨ n.type = CellType.path
  · rw [if_pos h]
    rfl
  · rw [if_neg h]
    simp only [decide_eq_false_iff_not]
    intro hcon
    exact h (Or.inl hcon)

/-- Grid evolution of the visited-phase frames `j, j+1, …, j+k-1`. -/
def visitRun (visited : List Node) : Nat → Nat → Grid → Grid
  | 0, _, g => g
  | k + 1, j, g => visitRun visited k (j + 1) (applyVisitFrame visited j g)

theorem fireN_visitEvents (visited : List Node) :
    ∀ (k m j : Nat) (st : VizState) (rest : List AnimEvent),
      k ≤ m →
      st.animationTimeouts = visitEventsFrom visited m j ++ rest →
      (fireN k st).grid = visitRun visited k j st.grid ∧
      (fireN k st).animationTimeouts =
        visitEventsFrom visited (m - k) (j + k) ++ rest := by
  intro k
  induction k with
  | zero =>
    intro m j st rest _ h
    refine ⟨rfl, ?_⟩
    show st.animationTimeouts = _
    simp only [Nat.sub_zero, Nat.add_zero]
    exact h
  | succ k2 ih =>
    intro m j st rest hk h
    cases m with
    | zero => exact absurd hk (by omega)
    | succ m2 =>
      have hnext : fireNext st = { st with
          animationTimeouts := visitEventsFrom visited m2 (j + 1) ++ rest,
          currentAnimationIndex := j,
          grid := applyVisitFrame visited j st.grid } := by
        unfold fireNext
        rw [h]
        rfl
      obtain ⟨ih1, ih2⟩ := ih m2 (j + 1)
        { st with animationTimeouts := visitEventsFrom visited m2 (j + 1) ++ rest,
                  currentAnimationIndex := j,
                  grid := applyVisitFrame visited j st.grid } rest
        (by omega) rfl
      constructor
      · show (fireN k2 (fireNext st)).grid = _
        rw [hnext]
        exact ih1.trans rfl
      · show (fireN k2 (fireNext st)).animationTimeouts = _
        rw [hnext, ih2]
        have a1 : m2 - k2 = m2 + 1 - (k2 + 1) := by omega
        have a2 : j + 1 + k2 = j + (k2 + 1) := by omega
        rw [a1, a2]

theorem cntVisited_visitRun (visited : List Node)
    (hnd : (visited.map fun n => ((n.row, n.col) : Pos)).Nodup) :
    ∀ (k j : Nat) (g : Grid), j + k ≤ visited.length →
      (∀ n ∈ visited, inStore g (n.row, n.col)) →
      (∀ n ∈ visited.drop j,
        (getNode g (n.row, n.col)).type ≠ CellType.visited) →
      cntVisited (visitRun visited k j g) =
        cntVisited g + ((visited.drop j).take k).countP visMarkP := by
  intro k
  induction k with
  | zero =>
    intro j g _ _ _
    simp [visitRun]
  | succ k2 ih =>
    intro j g hjk hin hnv
    have hj : j < visited.length := by omega
    have hdecomp : visited.drop j = visited[j] :: visited.drop (j + 1) :=
      (List.getElem_cons_drop visited j hj).symm
    have hmemj : visited[j] ∈ visited.drop j := by
      rw [hdecomp]
      exact List.mem_cons_self _ _
    have hmemv : visited[j] ∈ visited := List.getElem_mem _
    have hsome : visited[j]? = some visited[j] := List.getElem?_eq_getElem hj
    have hsub : ∀ c ∈ visited.drop (j + 1), c ∈ visited.drop j := by
      intro c hc
      rw [hdecomp]
      exact List.mem_cons_of_mem _ hc
    have hd2 : ((visited.drop j).map fun n => ((n.row, n.col) : Pos)).Nodup := by
      rw [List.map_drop]
      exact hnd.sublist (List.drop_sublist j _)
    rw [hdecomp, List.map_cons] at hd2
    have hposne : ∀ c ∈ visited.drop (j + 1),
        ((c.row, c.col) : Pos) ≠ (visited[j].row, visited[j].col) := by
      intro c hc hceq
      exact (List.nodup_cons.mp hd2).1 (hceq ▸ List.mem_map_of_mem _ hc)
    show cntVisited (visitRun visited k2 (j + 1)
      (applyVisitFrame visited j g)) = _
    by_cases hty : visited[j].type = CellType.start ∨
        visited[j].type = CellType.endCell
    · have happ : applyVisitFrame visited j g = g := by
        unfold applyVisitFrame
        rw [hsome]
        dsimp only
        rw [if_pos hty]
      rw [happ]
      have hres := ih (j + 1) g (by omega) hin (fun n hn => hnv n (hsub n hn))
      rw [hres, hdecomp]
      rw [show ((visited[j] :: visited.drop (j + 1)).take (k2 + 1)) =
        visited[j] :: (visited.drop (j + 1)).take k2 from rfl]
      have hpv : visMarkP visited[j] = false := by
        unfold visMarkP
        rcases hty with h | h
        · rw [h]
          rfl
        · rw [h]
          rfl
      simp [List.countP_cons, hpv]
    · have happ : applyVisitFrame visited j g =
          markFrontiers
            (clearFrontiers (setCellType g
              (visited[j].row, visited[j].col) CellType.visited))
            ((visited.drop (j + 1)).take 8) := by
        unfold applyVisitFrame
        rw [hsome]
        dsimp only
        rw [if_neg hty]
      have hstore : inStore g (visited[j].row, visited[j].col) := hin _ hmemv
      have hcnt1 : cntVisited (setCellType g
          (visited[j].row, visited[j].col) CellType.visited) =
          cntVisited g + 1 := by
        unfold cntVisited setCellType
        exact countGrid_modify_incr _ _ _ g hstore.1 hstore.2
          (by
            simp only [decide_eq_false_iff_not]
            exact hnv _ hmemj) rfl
      have hsetall : ∀ c ∈ visited.drop (j + 1),
          (getNode (setCellType g (visited[j].row, visited[j].col)
            CellType.visited) (c.row, c.col)).type ≠ CellType.visited := by
        intro c hc
        unfold setCellType
        rw [getNode_gridModify]
        split_ifs with hcc
        · exact absurd hcc.1 (hposne c hc)
        · exact hnv c (hsub c hc)
      have hfr : ∀ c ∈ (visited.drop (j + 1)).take 8,
          (getNode (clearFrontiers (setCellType g
            (visited[j].row, visited[j].col) CellType.visited))
            (c.row, c.col)).type ≠ CellType.visited := by
        intro c hc
        have hc2 : c ∈ visited.drop (j + 1) := List.mem_of_mem_take hc
        rcases @type_clearFrontiers (setCellType g
            (visited[j].row, visited[j].col) CellType.visited)
            (c.row, c.col) with h | h
        · rw [h]
          simp
        · rw [h]
          exact hsetall c hc2
      have hcnt3 : cntVisited (markFrontiers
          (clearFrontiers (setCellType g
            (visited[j].row, visited[j].col) CellType.visited))
          ((visited.drop (j + 1)).take 8)) =
          cntVisited (clearFrontiers (setCellType g
            (visited[j].row, visited[j].col) CellType.visited)) :=
        cntVisited_markFrontiers _ _ hfr
      have hin2 : ∀ n ∈ visited, inStore (applyVisitFrame visited j g)
          (n.row, n.col) := by
        intro n hn
        rw [happ, inStore_markFrontiers, inStore_clearFrontiers,
          inStore_setCellType]
        exact hin n hn
      have hnv2 : ∀ n ∈ visited.drop (j + 1),
          (getNode (applyVisitFrame visited j g) (n.row, n.col)).type ≠
            CellType.visited := by
        intro n hn
        rw [happ]
        rcases type_markFrontiers ((visited.drop (j + 1)).take 8)
            (clearFrontiers (setCellType g
              (visited[j].row, visited[j].col) CellType.visited))
            (n.row, n.col) with h | h
        · rw [h]
          simp
        · rw [h]
          rcases @type_clearFrontiers (setCellType g
              (visited[j].row, visited[j].col) CellType.visited)
              (n.row, n.col) with h2 | h2
          · rw [h2]
            simp
          · rw [h2]
            exact hsetall n hn
      have hres := ih (j + 1) (applyVisitFrame visited j g) (by omega)
        hin2 hnv2
      rw [hres, happ, hcnt3, cntVisited_clearFrontiers, hcnt1, hdecomp]
      rw [show ((visited[j] :: visited.drop (j + 1)).take (k2 + 1)) =
        visited[j] :: (visited.drop (j + 1)).take k2 from rfl]
      have hpv : visMarkP visited[j] = true := by
        unfold visMarkP
        push_neg at hty
        simp [hty.1, hty.2]
      rw [List.countP_cons, hpv]
      simp only [if_pos]
      omega

/-- C4: pausing then resuming does NOT continue the animation:
`pauseVisualization` calls `clearAnimations`, which nulls
`animationData.current`, so `resumeVisualization`'s guard
`!isPaused || !animationData.current` bails out.  After pause+resume the
pending-callback list is empty and firing any number of steps changes
nothing, so the run never produces the remaining frames or the final grid of
the uninterrupted run. -/
theorem C4_resume_after_pause_noop (st : VizState)
    (hcp : st.canPause = true) (hv : st.isVisualizing = true) :
    (pauseVisualization st).animationData = none ∧
    (pauseVisualization st).animationTimeouts = [] ∧
    resumeVisualization (pauseVisualization st) = pauseVisualization st ∧
    ∀ n, fireN n (resumeVisualization (pauseVisualization st)) =
      pauseVisualization st := by
  have hp : pauseVisualization st =
      clearAnimations { st with isPaused := true } := by
    unfold pauseVisualization
    rw [if_neg (by simp [hcp, hv])]
  have hdata : (pauseVisualization st).animationData = none := by
    rw [hp]
    rfl
  have htime : (pauseVisualization st).animationTimeouts = [] := by
    rw [hp]
    rfl
  have hpaused : (pauseVisualization st).isPaused = true := by
    rw [hp]
    rfl
  have hres : resumeVisualization (pauseVisualization st) =
      pauseVisualization st := by
    unfold resumeVisualization
    rw [hpaused, hdata]
    simp
  refine ⟨hdata, htime, hres, fun n => ?_⟩
  rw [hres]
  exact fireN_of_empty htime n

/-- Witness for C4 on a concrete paused run: one visited frame fired, then
pause, then resume; the resume call leaves the paused state unchanged. -/
theorem C4_resume_after_pause_noop_witness :
    (fireN 1 (visualizeAlgorithm vizVisited vizPath stIdle)).canPause = true ∧
    (fireN 1 (visualizeAlgorithm vizVisited vizPath stIdle)).isVisualizing =
      true ∧
    resumeVisualization (pauseVisualization
        (fireN 1 (visualizeAlgorithm vizVisited vizPath stIdle))) =
      pauseVisualization
        (fireN 1 (visualizeAlgorithm vizVisited vizPath stIdle)) :=
  ⟨by decide, by decide,
    (C4_resume_after_pause_noop _ (by decide) (by decide)).2.2.1⟩

/-- C5: amended.  When the start operation runs from the idle state and the
first `k ≤ |visited|` scheduled callbacks fire (all of them visited-phase
frames) before `stopVisualization`, the stop empties the pending-callback
list and the bookkeeping synchronously, firing any number of steps
afterwards changes nothing, and the number of cells painted `visited` equals
the number of non-start/end nodes among the first `k` captured visited nodes
(a start/end frame paints nothing, so the count is not `k` itself; see the
counterexample). -/
theorem C5_stop_after_k_frames (st : VizState) (visited path : List Node)
    (k : Nat) (hk : k ≤ visited.length)
    (hvz : st.isVisualizing = false) (hcmp : st.animationCompleted = false)
    (hnd : (visited.map fun n => ((n.row, n.col) : Pos)).Nodup)
    (hin : ∀ n ∈ visited, inStore st.grid (n.row, n.col)) :
    cntVisited (stopVisualization (fireN k
        (visualizeAlgorithm visited path st))).grid =
      (visited.take k).countP visMarkP ∧
    (stopVisualization (fireN k
        (visualizeAlgorithm visited path st))).animationTimeouts = [] ∧
    (stopVisualization (fireN k
        (visualizeAlgorithm visited path st))).animationData = none ∧
    (stopVisualization (fireN k
        (visualizeAlgorithm visited path st))).currentAnimationIndex = 0 ∧
    ∀ n, fireN n (stopVisualization (fireN k
        (visualizeAlgorithm visited path st))) =
      stopVisualization (fireN k (visualizeAlgorithm visited path st)) := by
  have hguard : ¬(st.isVisualizing = true ∨ st.animationCompleted = true) := by
    simp [hvz, hcmp]
  have ht1 : (visualizeAlgorithm visited path st).animationTimeouts =
      visitEventsFrom visited visited.length 0 ++
        (AnimEvent.clearFrontierFrame ::
          (path.map AnimEvent.pathFrame ++ [AnimEvent.finalFrame])) := by
    unfold visualizeAlgorithm
    rw [if_neg hguard]
    rfl
  have hg1 : (visualizeAlgorithm visited path st).grid =
      resetForVisualization st.grid := by
    unfold visualizeAlgorithm
    rw [if_neg hguard]
    rfl
  obtain ⟨hgk, -⟩ := fireN_visitEvents visited k visited.length 0
    (visualizeAlgorithm visited path st) _ hk ht1
  rw [hg1] at hgk
  have hcnt := cntVisited_visitRun visited hnd k 0
    (resetForVisualization st.grid) (by omega)
    (fun n hn => inStore_resetForVisualization.mpr (hin n hn))
    (fun n _ => resetForVisualization_not_visited st.grid (n.row, n.col))
  refine ⟨?_, rfl, rfl, rfl, fun n => fireN_of_empty rfl n⟩
  show cntVisited (fireN k (visualizeAlgorithm visited path st)).grid = _
  rw [hgk, hcnt, cntVisited_reset]
  simp

/-- Witness for C5 at `k = 2` on the concrete board: the hypotheses hold and
the painted count matches the non-start/end prefix count. -/
theorem C5_stop_after_k_frames_witness :
    cntVisited (stopVisualization (fireN 2
        (visualizeAlgorithm vizVisited vizPath stIdle))).grid =
      (vizVisited.take 2).countP visMarkP :=
  (C5_stop_after_k_frames stIdle vizVisited vizPath 2 (by decide) (by decide)
    (by decide) (by decide) (by decide)).1

/-- C5 counterexample: exactly one visited-phase frame fires before the
stop, but it animates the start node, which the callback skips, so 0 cells
are painted visited where the original claim demands exactly 1. -/
theorem C5_one_frame_marks_zero :
    cntVisited (stopVisualization (fireN 1
        (visualizeAlgorithm vizVisited vizPath stIdle))).grid = 0 ∧
    (0 : Nat) ≠ 1 :=
  ⟨by decide, by decide⟩

/-- C6: amended.  The start operation begins a run (entering the running
state) exactly from the idle state `isVisualizing = false ∧
animationCompleted = false`.  From a completed or stopped state —
`stopVisualization` and the completion callback both leave
`animationCompleted = true` — `visualizeAlgorithm` is a no-op, so the
terminal states are NOT re-entered into running by the start operation
(only the clear-walls/reset handlers clear `animationCompleted`). -/
theorem C6_visualize_only_from_idle (st : VizState)
    (visited path : List Node) :
    (st.isVisualizing = false → st.animationCompleted = false →
      (visualizeAlgorithm visited path st).isVisualizing = true) ∧
    (st.animationCompleted = true →
      visualizeAlgorithm visited path st = st) ∧
    (stopVisualization st).animationCompleted = true ∧
    (stopVisualization st).isVisualizing = false := by
  refine ⟨?_, ?_, rfl, rfl⟩
  · intro h1 h2
    unfold visualizeAlgorithm
    rw [if_neg (by simp [h1, h2])]
    rfl
  · intro h
    unfold visualizeAlgorithm
    rw [if_pos (Or.inr h)]

/-- Witness for C6 at the concrete idle state. -/
theorem C6_visualize_only_from_idle_witness :
    (visualizeAlgorithm vizVisited vizPath stIdle).isVisualizing = true :=
  (C6_visualize_only_from_idle stIdle vizVisited vizPath).1 (by decide)
    (by decide)

/-- C6 counterexample: run to completion (3 visited frames, the frontier
sweep, 3 path frames and the completion callback), then invoke the start
operation again: the state is unchanged, and likewise right after a stop —
no new run re-enters the running state from a terminal state. -/
theorem C6_no_restart_from_terminal :
    (fireN 8 (visualizeAlgorithm vizVisited vizPath stIdle)).animationCompleted
      = true ∧
    visualizeAlgorithm vizVisited vizPath
        (fireN 8 (visualizeAlgorithm vizVisited vizPath stIdle)) =
      fireN 8 (visualizeAlgorithm vizVisited vizPath stIdle) ∧
    visualizeAlgorithm vizVisited vizPath (stopVisualization stIdle) =
      stopVisualization stIdle ∧
    (visualizeAlgorithm vizVisited vizPath
        (stopVisualization stIdle)).isVisualizing = false :=
  ⟨by decide, by decide, by decide, by decide⟩
